import Mathlib

/-!
# UAV flight path optimizer: terrain cost model and search engine

A shallow embedding of `src/src/Terrain.cpp`, `src/src/Optimizer.cpp` and the
map loader of `src/src/MapParser.cpp` (with `src/include/*.h`), followed by
theorems about it.

Conventions of the embedding.

* The definitions are generic in the number type `K` that stands for `double`:
  each names the operations it uses (`+`, `*`, `<`, the literals, the
  conversion from `int`, `std::sqrt`).  Two kinds of number type are used.
  `Binary64` has the arithmetic of IEEE 754 binary64 (round to nearest, ties to
  even); the definitions are run on it at concrete inputs, and the theorems
  about it rest on the error bound and the monotonicity of its rounding.  An
  ordered field with an exact square root (`SqrtField`, for instance the real
  numbers) is the arithmetic without rounding; a theorem that assumes
  `SqrtField` is stated for the code only where rounding does not affect it,
  or says what it assumes.
* `int` is `Int`; a theorem about an expression that can overflow in `int`
  carries the bound under which it does not.
* `std::vector<std::vector<T>>` tables are lists of rows; `tbl[y][x]` is `cellAt`.
* `std::string` is a list of characters; a thrown `std::runtime_error` is the
  `error` result of `Except`.
* `std::priority_queue<PathNode*, ..., PathNodeComparator>` is an abstract
  interface (`PriorityQueue`): which of several equally ranked nodes `top()`
  yields is left to the implementation, exactly as in the C++ standard.
* A `while` loop whose number of iterations is not bounded syntactically takes
  a `fuel` argument; the result `none` means that the loop was still running
  when the fuel ran out.
-/

namespace UAV

/-! ## Numbers -/

/-- A number type with the function `std::sqrt`. -/
class HasSqrt (K : Type) where
  /-- The function `std::sqrt`. -/
  sqrt : K → K

/-- An ordered field with an exact square root on non-negative elements: the
arithmetic of `double` and `std::sqrt` without rounding. -/
class SqrtField (K : Type) extends LinearOrderedField K, HasSqrt K where
  sqrt_nonneg : ∀ x : K, 0 ≤ sqrt x
  mul_self_sqrt : ∀ x : K, 0 ≤ x → sqrt x * sqrt x = x

namespace SqrtField

export HasSqrt (sqrt)

end SqrtField

/-! ## `Drone.h`: points -/

/-- The struct `Point` of `Drone.h`. -/
structure Point where
  x : Int
  y : Int
  deriving DecidableEq, Repr

/-! ## `Terrain.h` / `Terrain.cpp` -/

/-- The enum `TerrainType`. -/
inductive TerrainType where
  | NORMAL
  | HILL
  | OBSTACLE
  | WIND_ZONE
  | START
  | END
  deriving DecidableEq, Repr

/-- The data members of class `Terrain`. -/
structure Terrain (K : Type) where
  grid : List (List TerrainType)
  elevationMap : List (List K)
  windResistance : List (List K)
  width : Int
  height : Int

/-- Checked table access `tbl[p.y][p.x]`: `none` when an index is out of range
(where the C++ `operator[]` would have undefined behaviour). -/
def cellAt {α : Type} (tbl : List (List α)) (p : Point) : Option α :=
  if 0 ≤ p.x ∧ 0 ≤ p.y then
    match tbl[p.y.toNat]? with
    | some row => row[p.x.toNat]?
    | none => none
  else none

/-- Replace entry `tbl[y][x]` by `v` (nothing happens when an index is out of range). -/
def setCell {α : Type} (tbl : List (List α)) (x y : Int) (v : α) : List (List α) :=
  if 0 ≤ x ∧ 0 ≤ y then tbl.modify (fun row => row.set x.toNat v) y.toNat else tbl

section TerrainOps

variable {K : Type}

/-- The constant `Terrain::NORMAL_COST`. -/
def NORMAL_COST [OfScientific K] : K := 1.0
/-- The constant `Terrain::HILL_COST`. -/
def HILL_COST [OfScientific K] : K := 3.0
/-- The constant `Terrain::WIND_COST`. -/
def WIND_COST [OfScientific K] : K := 2.0
/-- The constant `Terrain::OBSTACLE_COST`. -/
def OBSTACLE_COST [OfScientific K] : K := 1000.0

/-- The constructor `Terrain::Terrain(int w, int h)`. -/
def Terrain.new [OfScientific K] (w h : Int) : Terrain K :=
  { grid := List.replicate h.toNat (List.replicate w.toNat TerrainType.NORMAL)
    elevationMap := List.replicate h.toNat (List.replicate w.toNat 0.0)
    windResistance := List.replicate h.toNat (List.replicate w.toNat 0.0)
    width := w
    height := h }

/-- The function `Terrain::isValidPosition`. -/
def Terrain.isValidPosition (t : Terrain K) (pos : Point) : Bool :=
  decide (pos.x ≥ 0) && decide (pos.x < t.width) && decide (pos.y ≥ 0) && decide (pos.y < t.height)

/-- The read `grid[pos.y][pos.x]`. -/
def Terrain.typeAt (t : Terrain K) (pos : Point) : TerrainType :=
  (cellAt t.grid pos).getD TerrainType.NORMAL

/-- The read `elevationMap[pos.y][pos.x]`. -/
def Terrain.elevationAt [Zero K] (t : Terrain K) (pos : Point) : K :=
  (cellAt t.elevationMap pos).getD 0

/-- The read `windResistance[pos.y][pos.x]`. -/
def Terrain.windAt [Zero K] (t : Terrain K) (pos : Point) : K :=
  (cellAt t.windResistance pos).getD 0

/-- The function `Terrain::setTerrain`. -/
def Terrain.setTerrain (t : Terrain K) (x y : Int) (type : TerrainType) : Terrain K :=
  if t.isValidPosition ⟨x, y⟩ then { t with grid := setCell t.grid x y type } else t

/-- The function `Terrain::getTerrain`. -/
def Terrain.getTerrain (t : Terrain K) (x y : Int) : TerrainType :=
  if t.isValidPosition ⟨x, y⟩ then t.typeAt ⟨x, y⟩ else TerrainType.OBSTACLE

/-- The function `Terrain::setElevation`. -/
def Terrain.setElevation (t : Terrain K) (x y : Int) (elevation : K) : Terrain K :=
  if t.isValidPosition ⟨x, y⟩ then { t with elevationMap := setCell t.elevationMap x y elevation }
  else t

/-- The function `Terrain::getElevation`. -/
def Terrain.getElevation [Zero K] [OfScientific K] (t : Terrain K) (x y : Int) : K :=
  if t.isValidPosition ⟨x, y⟩ then t.elevationAt ⟨x, y⟩ else 0.0

/-- The function `Terrain::setWindResistance`. -/
def Terrain.setWindResistance (t : Terrain K) (x y : Int) (resistance : K) : Terrain K :=
  if t.isValidPosition ⟨x, y⟩ then
    { t with windResistance := setCell t.windResistance x y resistance }
  else t

/-- The function `Terrain::getWindResistance`. -/
def Terrain.getWindResistance [Zero K] [OfScientific K] (t : Terrain K) (x y : Int) : K :=
  if t.isValidPosition ⟨x, y⟩ then t.windAt ⟨x, y⟩ else 0.0

/-- The function `Terrain::isObstacle`. -/
def Terrain.isObstacle (t : Terrain K) (pos : Point) : Bool :=
  if !t.isValidPosition pos then true
  else decide (t.typeAt pos = TerrainType.OBSTACLE)

/-- The function `Terrain::isPassable`. -/
def Terrain.isPassable (t : Terrain K) (pos : Point) : Bool :=
  t.isValidPosition pos && !t.isObstacle pos

/-- The function `Terrain::getMovementCost`. -/
def Terrain.getMovementCost [Zero K] [Add K] [Mul K] [OfScientific K] (t : Terrain K) (pos : Point) : K :=
  if !t.isValidPosition pos then OBSTACLE_COST
  else
    let elevationCost := t.elevationAt pos * 0.5
    let windCost := t.windAt pos * 0.3
    match t.typeAt pos with
    | TerrainType.NORMAL => NORMAL_COST + elevationCost + windCost
    | TerrainType.HILL => HILL_COST + elevationCost + windCost
    | TerrainType.WIND_ZONE => WIND_COST + elevationCost + windCost
    | TerrainType.OBSTACLE => OBSTACLE_COST
    | _ => NORMAL_COST + elevationCost + windCost

/-- The function `Terrain::getMovementCost` with every table read checked, in the order in
which the C++ performs them: `none` stands for an out-of-range `operator[]`. -/
def Terrain.getMovementCostChecked [Add K] [Mul K] [OfScientific K] (t : Terrain K) (pos : Point) : Option K :=
  if !t.isValidPosition pos then some OBSTACLE_COST
  else
    match cellAt t.grid pos with
    | none => none
    | some TerrainType.OBSTACLE => some OBSTACLE_COST
    | some type =>
      match cellAt t.elevationMap pos, cellAt t.windResistance pos with
      | some e, some w =>
        match type with
        | TerrainType.HILL => some (HILL_COST + e * 0.5 + w * 0.3)
        | TerrainType.WIND_ZONE => some (WIND_COST + e * 0.5 + w * 0.3)
        | _ => some (NORMAL_COST + e * 0.5 + w * 0.3)
      | _, _ => none

/-- The function `Terrain::getHeuristicCost`. -/
def Terrain.getHeuristicCost [IntCast K] [Add K] [Mul K] [HasSqrt K] (_t : Terrain K) (src dst : Point) : K :=
  let dx : K := ((|dst.x - src.x| : Int) : K)
  let dy : K := ((|dst.y - src.y| : Int) : K)
  SqrtField.sqrt (dx * dx + dy * dy)

/-- The offset tables `dx[]`, `dy[]` of `Terrain::getNeighbors`, zipped. -/
def neighborOffsets : List (Int × Int) :=
  [(-1, -1), (-1, 0), (-1, 1), (0, -1), (0, 1), (1, -1), (1, 0), (1, 1)]

/-- The function `Terrain::getNeighbors`. -/
def Terrain.getNeighbors (t : Terrain K) (pos : Point) : List Point :=
  (neighborOffsets.map (fun d => (⟨pos.x + d.1, pos.y + d.2⟩ : Point))).filter
    (fun neighbor => t.isPassable neighbor)

/-- The function `Terrain::addObstacle`. -/
def Terrain.addObstacle (t : Terrain K) (pos : Point) : Terrain K :=
  t.setTerrain pos.x pos.y TerrainType.OBSTACLE

/-- The function `Terrain::addHill`. -/
def Terrain.addHill [OfScientific K] (t : Terrain K) (pos : Point) : Terrain K :=
  (t.setTerrain pos.x pos.y TerrainType.HILL).setElevation pos.x pos.y 3.0

/-- The function `Terrain::addWindZone`. -/
def Terrain.addWindZone [OfScientific K] (t : Terrain K) (pos : Point) : Terrain K :=
  (t.setTerrain pos.x pos.y TerrainType.WIND_ZONE).setWindResistance pos.x pos.y 2.0

/-- Every cell of the grid has non-negative elevation and wind resistance. -/
def Terrain.NonNeg [Zero K] [LinearOrder K] (t : Terrain K) : Prop :=
  ∀ p : Point, t.isValidPosition p = true → 0 ≤ t.elevationAt p ∧ 0 ≤ t.windAt p

/-- A table has exactly `h` rows of exactly `w` entries each. -/
def TableShape {α : Type} (tbl : List (List α)) (w h : Int) : Prop :=
  (tbl.length : Int) = h ∧ ∀ row ∈ tbl, (row.length : Int) = w

/-- The class invariant of `Terrain`, established by the constructor: the
dimensions are not negative and each of the three tables has `height` rows of
`width` entries. -/
def Terrain.WellFormed (t : Terrain K) : Prop :=
  0 ≤ t.width ∧ 0 ≤ t.height ∧ TableShape t.grid t.width t.height ∧
    TableShape t.elevationMap t.width t.height ∧ TableShape t.windResistance t.width t.height

end TerrainOps

/-! ## `Optimizer.h` / `Optimizer.cpp` -/

/-- The struct `PathNode`.  The nullable `parent` pointer is rendered by the two
constructors: `root` has `parent == nullptr`, `child` points to its parent.
Nodes are never modified after construction, so a pointer to a node is
rendered by the node itself. -/
inductive PathNode (K : Type) where
  | root (position : Point) (gCost hCost fCost : K)
  | child (position : Point) (gCost hCost fCost : K) (parent : PathNode K)

namespace PathNode

variable {K : Type}

/-- The member `position`. -/
def position : PathNode K → Point
  | root p _ _ _ => p
  | child p _ _ _ _ => p

/-- The member `gCost`. -/
def gCost : PathNode K → K
  | root _ g _ _ => g
  | child _ g _ _ _ => g

/-- The member `hCost`. -/
def hCost : PathNode K → K
  | root _ _ h _ => h
  | child _ _ h _ _ => h

/-- The member `fCost`. -/
def fCost : PathNode K → K
  | root _ _ _ f => f
  | child _ _ _ f _ => f

/-- The member `parent` (`none` is `nullptr`). -/
def parent : PathNode K → Option (PathNode K)
  | root _ _ _ _ => none
  | child _ _ _ _ p => some p

/-- The constructor `PathNode(pos, g, h, p)`, which sets `fCost` to `g + h`. -/
def new [Add K] (pos : Point) (g h : K) (p : Option (PathNode K)) : PathNode K :=
  match p with
  | none => root pos g h (g + h)
  | some q => child pos g h (g + h) q

end PathNode

section OptimizerOps

variable {K : Type}

/-- The call operator `PathNodeComparator::operator()`. -/
def PathNodeComparator [LinearOrder K] (a b : PathNode K) : Bool :=
  if a.fCost ≠ b.fCost then decide (a.fCost > b.fCost)
  else decide (a.hCost > b.hCost)

/-- The operations of `std::priority_queue<PathNode*, std::vector<PathNode*>,
PathNodeComparator>` that the optimizer uses, on a state type `Q`:
the empty queue, `push`, and `top` followed by `pop` (`none` when `empty()`).
`contents` is the multiset of nodes held, used to state the library contract. -/
structure PriorityQueue (K : Type) (Q : Type) where
  empty : Q
  push : Q → PathNode K → Q
  pop : Q → Option (PathNode K × Q)
  contents : Q → Multiset (PathNode K)

/-- The contract of `std::priority_queue`: `push` adds one element, `pop` removes
the element returned by `top`, and `top` is an element that the comparator
ranks below no other element of the queue. -/
structure PriorityQueue.Lawful [LinearOrder K] {Q : Type} (pq : PriorityQueue K Q) : Prop where
  contents_empty : pq.contents pq.empty = 0
  contents_push : ∀ q n, pq.contents (pq.push q n) = n ::ₘ pq.contents q
  pop_none : ∀ q, pq.pop q = none ↔ pq.contents q = 0
  pop_some : ∀ q n q', pq.pop q = some (n, q') →
    pq.contents q = n ::ₘ pq.contents q' ∧
      ∀ m ∈ pq.contents q, PathNodeComparator n m = false

/-- Selection of a top element from a list: the first element that the
comparator ranks below no other one, together with the remaining elements. -/
def listPopTop [LinearOrder K] : List (PathNode K) → Option (PathNode K × List (PathNode K))
  | [] => none
  | n :: rest =>
    match listPopTop rest with
    | none => some (n, [])
    | some (m, rest') =>
      if PathNodeComparator n m then some (m, n :: rest') else some (n, rest)

/-- A priority queue kept as a plain list, most recent push first. -/
def listQueue [LinearOrder K] : PriorityQueue K (List (PathNode K)) where
  empty := []
  push q n := n :: q
  pop := listPopTop
  contents q := (q : Multiset (PathNode K))

/-- The function `Optimizer::reconstructPath`: the positions along the parent chain, reversed. -/
def reconstructPath : PathNode K → List Point
  | PathNode.root p _ _ _ => [p]
  | PathNode.child p _ _ _ q => reconstructPath q ++ [p]

/-- The function `Optimizer::calculateDistance`. -/
def calculateDistance [IntCast K] [Add K] [Mul K] [HasSqrt K] (a b : Point) : K :=
  let dx : K := ((a.x - b.x : Int) : K)
  let dy : K := ((a.y - b.y : Int) : K)
  SqrtField.sqrt (dx * dx + dy * dy)

/-- Lookup in a `std::unordered_map<Point, double>` kept as an association list
whose most recent binding comes first. -/
def mapFind (m : List (Point × K)) (p : Point) : Option K :=
  match m with
  | [] => none
  | (q, v) :: rest => if q = p then some v else mapFind rest p

/-- The assignment `m[p] = v`. -/
def mapSet (m : List (Point × K)) (p : Point) (v : K) : List (Point × K) :=
  (p, v) :: m

/-- The local state of a search: `openSet`, the cost map (`gScore`, in Dijkstra
`distances`) and `createdNodes`.  The map `allNodes` is only ever written and
is left out. -/
structure SearchState (K : Type) (Q : Type) where
  openSet : Q
  gScore : List (Point × K)
  createdNodes : List (PathNode K)

/-- The body of the `for (const Point& neighbor : neighbors)` loop shared by
`findPathAStar`, `findPathDijkstra` and `findEnergyOptimalPath`.  `hfun` is the
heuristic stored in the new node (`getHeuristicCost(neighbor, goal)`, or `0` in
Dijkstra) and `scale movementCost distance` the cost added for the step
(`movementCost * distance`, or `(movementCost * energyWeight) * distance`). -/
def relaxNeighbor [LinearOrder K] [Zero K] [Add K] [Mul K] [OfScientific K] [IntCast K] [HasSqrt K] {Q : Type} (pq : PriorityQueue K Q) (t : Terrain K) (hfun : Point → K)
    (scale : K → K → K) (current : PathNode K) (st : SearchState K Q) (neighbor : Point) :
    SearchState K Q :=
  let movementCost := t.getMovementCost neighbor
  if movementCost ≥ 1000.0 then st
  else
    let distance : K := calculateDistance current.position neighbor
    let tentativeGScore := current.gCost + scale movementCost distance
    let neighborNode := PathNode.new neighbor tentativeGScore (hfun neighbor) (some current)
    let updated : SearchState K Q :=
      { openSet := pq.push st.openSet neighborNode
        gScore := mapSet st.gScore neighbor tentativeGScore
        createdNodes := st.createdNodes ++ [neighborNode] }
    match mapFind st.gScore neighbor with
    | none => updated
    | some known => if tentativeGScore < known then updated else st

/-- The `while (!openSet.empty())` loop shared by the three searches.  `none`:
out of fuel; `some []`: the open set ran empty; otherwise the path
reconstructed from the first popped node whose position is the goal. -/
def searchLoop [LinearOrder K] [Zero K] [Add K] [Mul K] [OfScientific K] [IntCast K] [HasSqrt K] {Q : Type} (pq : PriorityQueue K Q) (t : Terrain K) (hfun : Point → K)
    (scale : K → K → K) (goal : Point) : Nat → SearchState K Q → Option (List Point)
  | 0, _ => none
  | fuel + 1, st =>
    match pq.pop st.openSet with
    | none => some []
    | some (current, rest) =>
      if current.position = goal then some (reconstructPath current)
      else
        searchLoop pq t hfun scale goal fuel
          ((t.getNeighbors current.position).foldl (relaxNeighbor pq t hfun scale current)
            { st with openSet := rest })

/-- The state before the loop: the start node is pushed, recorded with cost `0`
and remembered in `createdNodes`. -/
def initialState [Zero K] [Add K] {Q : Type} (pq : PriorityQueue K Q) (hfun : Point → K) (start : Point) :
    SearchState K Q :=
  let startNode := PathNode.new start 0 (hfun start) none
  { openSet := pq.push pq.empty startNode
    gScore := mapSet [] start 0
    createdNodes := [startNode] }

/-- The function `Optimizer::findPathAStar`. -/
def findPathAStar [LinearOrder K] [Zero K] [Add K] [Mul K] [OfScientific K] [IntCast K] [HasSqrt K] {Q : Type} (pq : PriorityQueue K Q) (t : Terrain K) (fuel : Nat)
    (start goal : Point) : Option (List Point) :=
  searchLoop pq t (fun p => t.getHeuristicCost p goal) (fun movementCost distance =>
    movementCost * distance) goal fuel (initialState pq (fun p => t.getHeuristicCost p goal) start)

/-- The function `Optimizer::findPath`. -/
def findPath [LinearOrder K] [Zero K] [Add K] [Mul K] [OfScientific K] [IntCast K] [HasSqrt K] {Q : Type} (pq : PriorityQueue K Q) (t : Terrain K) (fuel : Nat)
    (start goal : Point) : Option (List Point) :=
  findPathAStar pq t fuel start goal

/-- The function `Optimizer::findPathDijkstra`. -/
def findPathDijkstra [LinearOrder K] [Zero K] [Add K] [Mul K] [OfScientific K] [IntCast K] [HasSqrt K] {Q : Type} (pq : PriorityQueue K Q) (t : Terrain K) (fuel : Nat)
    (start goal : Point) : Option (List Point) :=
  searchLoop pq t (fun _ => 0) (fun movementCost distance => movementCost * distance) goal fuel
    (initialState pq (fun _ => 0) start)

/-- The function `Optimizer::findEnergyOptimalPath`. -/
def findEnergyOptimalPath [LinearOrder K] [Zero K] [Add K] [Mul K] [OfScientific K] [IntCast K] [HasSqrt K] {Q : Type} (pq : PriorityQueue K Q) (t : Terrain K) (fuel : Nat)
    (start goal : Point) (energyWeight : K) : Option (List Point) :=
  searchLoop pq t (fun p => t.getHeuristicCost p goal) (fun movementCost distance =>
    movementCost * energyWeight * distance) goal fuel
    (initialState pq (fun p => t.getHeuristicCost p goal) start)

/-- The scan of `findPathGreedy` for the neighbour with the least heuristic cost
to the goal; the first of several equally good neighbours is kept. -/
def bestNeighbor [LinearOrder K] [IntCast K] [Add K] [Mul K] [HasSqrt K] (t : Terrain K) (goal : Point) (first : Point) (neighbors : List Point) : Point :=
  (neighbors.foldl (fun (best : Point × K) neighbor =>
      let cost := t.getHeuristicCost neighbor goal
      if cost < best.2 then (neighbor, cost) else best)
    (first, t.getHeuristicCost first goal)).1

/-- The conversion `static_cast<size_t>(n)` of an `int` (64-bit `size_t`). -/
def toSizeT (n : Int) : Int := n % 2 ^ 64

/-- The `while (current != goal)` loop of `findPathGreedy`. -/
def greedyLoop [LinearOrder K] [IntCast K] [Add K] [Mul K] [HasSqrt K] (t : Terrain K) (goal : Point) : Nat → Point → List Point → Option (List Point)
  | 0, _, _ => none
  | fuel + 1, current, path =>
    if current = goal then some path
    else
      match t.getNeighbors current with
      | [] => some path
      | first :: others =>
        let next := bestNeighbor t goal first (first :: others)
        let path' := path ++ [next]
        if (path'.length : Int) > toSizeT (t.width * t.height) then some path'
        else greedyLoop t goal fuel next path'

/-- The function `Optimizer::findPathGreedy`. -/
def findPathGreedy [LinearOrder K] [IntCast K] [Add K] [Mul K] [HasSqrt K] (t : Terrain K) (fuel : Nat) (start goal : Point) : Option (List Point) :=
  greedyLoop t goal fuel start [start]

/-- The function `Optimizer::calculatePathCost`. -/
def calculatePathCost [Zero K] [Add K] [Mul K] [OfScientific K] (t : Terrain K) (path : List Point) : K :=
  if path.isEmpty then 0.0
  else path.foldl (fun totalCost p => totalCost + t.getMovementCost p) 0.0

/-- The line-of-sight check in the body of `Optimizer::optimizePath`: the value of
`canSkip` for the waypoint between `prev` and `next`.  The interpolated cells
are `prev + (d * step) / steps` for `1 <= step < steps`, with the division of
`int` (truncation towards zero). -/
def canSkip (t : Terrain K) (prev next : Point) : Bool :=
  let dx := next.x - prev.x
  let dy := next.y - prev.y
  let steps := max |dx| |dy|
  if steps > 0 then
    !(List.range' 1 (steps.toNat - 1)).any (fun step =>
      t.isObstacle ⟨prev.x + (dx * (step : Int)).tdiv steps,
        prev.y + (dy * (step : Int)).tdiv steps⟩)
  else true

/-- The `for (size_t i = 1; i < path.size() - 1; i++)` loop of
`Optimizer::optimizePath`: the interior waypoints that are pushed to
`optimized`, each tested against its two neighbours in the original path. -/
def keptWaypoints (t : Terrain K) : List Point → List Point
  | prev :: current :: next :: rest =>
    if canSkip t prev next then keptWaypoints t (current :: next :: rest)
    else current :: keptWaypoints t (current :: next :: rest)
  | _ => []

/-- The function `Optimizer::optimizePath`. -/
def optimizePath (t : Terrain K) (path : List Point) : List Point :=
  if path.length ≤ 2 then path
  else
    match path.head?, path.getLast? with
    | some first, some last => (first :: keptWaypoints t path) ++ [last]
    | _, _ => path

/-- The function `Optimizer::isPathValid`. -/
def isPathValid (t : Terrain K) (path : List Point) : Bool :=
  path.all (fun point => t.isPassable point)

/-! ## Notions used to state the properties of the search -/

/-- The call `run` returns `r`: some amount of fuel lets the loop finish with `r`. -/
def Returns {α : Type} (run : Nat → Option α) (r : α) : Prop :=
  ∃ fuel, run fuel = some r

/-- One move of the search: `b` is listed by `getNeighbors a` and its movement
cost is below the obstacle penalty. -/
def CanEnter [LinearOrder K] [Zero K] [Add K] [Mul K] [OfScientific K] (t : Terrain K) (a b : Point) : Prop :=
  b ∈ t.getNeighbors a ∧ t.getMovementCost b < 1000.0

/-- A sequence of cells in which every cell after the first is entered by a
move of the search from the cell before it. -/
def IsRoute [LinearOrder K] [Zero K] [Add K] [Mul K] [OfScientific K] (t : Terrain K) (path : List Point) : Prop :=
  List.Chain' (CanEnter t) path

/-- Two distinct cells that differ by at most one in each coordinate. -/
def Adjacent8 (a b : Point) : Prop :=
  a ≠ b ∧ |b.x - a.x| ≤ 1 ∧ |b.y - a.y| ≤ 1

/-- A sequence of cells from `start` to `goal` in which every cell after the
first is 8-adjacent to the cell before it, is passable and has a movement cost
below the obstacle penalty. -/
def IsCellPath [LinearOrder K] [Zero K] [Add K] [Mul K] [OfScientific K] (t : Terrain K) (start goal : Point) (path : List Point) : Prop :=
  path.head? = some start ∧ path.getLast? = some goal ∧
    List.Chain' (fun a b => Adjacent8 a b ∧ t.isPassable b = true ∧
      t.getMovementCost b < 1000.0) path

/-- A route that leads from `start` to `goal`. -/
def IsRouteFromTo [LinearOrder K] [Zero K] [Add K] [Mul K] [OfScientific K] (t : Terrain K) (start goal : Point) (path : List Point) : Prop :=
  IsRoute t path ∧ path.head? = some start ∧ path.getLast? = some goal

/-- The accumulated travel cost of a sequence of cells: the sum over consecutive
cells of `scale (movementCost next) (distance current next)`. -/
def travelCostWith [Zero K] [Add K] [Mul K] [OfScientific K] [IntCast K] [HasSqrt K] (t : Terrain K) (scale : K → K → K) : List Point → K
  | [] => 0
  | [_] => 0
  | a :: b :: rest =>
    scale (t.getMovementCost b) (calculateDistance a b) + travelCostWith t scale (b :: rest)

/-- The accumulated travel cost with the scaling of A* and Dijkstra:
movement cost of the next cell times the length of the step. -/
def travelCost [Zero K] [Add K] [Mul K] [OfScientific K] [IntCast K] [HasSqrt K] (t : Terrain K) (path : List Point) : K :=
  travelCostWith t (fun movementCost distance => movementCost * distance) path

end OptimizerOps

/-! ## Example grids -/

/-- A 3 x 2 grid without obstacles on which two routes from `(0, 0)` to `(2, 0)`
tie: through `(1, 0)`, whose elevation makes it cost `2 * sqrt 2 - 1`, and
diagonally through `(1, 1)`.  The cells `(0, 1)` and `(2, 1)` are too high to
be entered. -/
def tieTerrain (K : Type) [SqrtField K] : Terrain K :=
  { grid := [[TerrainType.NORMAL, TerrainType.NORMAL, TerrainType.NORMAL],
             [TerrainType.NORMAL, TerrainType.NORMAL, TerrainType.NORMAL]]
    elevationMap := [[0, 4 * SqrtField.sqrt 2 - 4, 0], [2000, 0, 2000]]
    windResistance := [[0, 0, 0], [0, 0, 0]]
    width := 3
    height := 2 }

/-- A single cell that `addHill` raised before `addObstacle` blocked it. -/
def hillThenObstacle (K : Type) [SqrtField K] : Terrain K :=
  ((Terrain.new 1 1).addHill ⟨0, 0⟩).addObstacle ⟨0, 0⟩

/-- A corridor of three cells whose last cell is an obstacle: a greedy walk
from `(0, 0)` towards `(2, 0)` oscillates between the first two cells. -/
def trapTerrain (K : Type) [SqrtField K] : Terrain K :=
  { grid := [[TerrainType.NORMAL, TerrainType.NORMAL, TerrainType.OBSTACLE]]
    elevationMap := [[0, 0, 0]]
    windResistance := [[0, 0, 0]]
    width := 3
    height := 1 }

/-- A single hill cell of elevation `2.0`. -/
def hillTerrain (K : Type) [SqrtField K] : Terrain K :=
  ((Terrain.new 1 1).setTerrain 0 0 TerrainType.HILL).setElevation 0 0 2.0

/-! ## The real numbers as the number type -/

/-- The real numbers with `Real.sqrt`. -/
noncomputable instance instSqrtFieldReal : SqrtField ℝ where
  sqrt := Real.sqrt
  sqrt_nonneg := Real.sqrt_nonneg
  mul_self_sqrt := fun _ hx => Real.mul_self_sqrt hx


/-! ## Notions used to state the properties of the path post-processor -/

section SimplifyNotions

variable {K : Type}

/-- The value of `steps` in `Optimizer::optimizePath` for the segment from `prev`
to `next`: `max(|dx|, |dy|)`. -/
def lineSteps (prev next : Point) : Int :=
  max |next.x - prev.x| |next.y - prev.y|

/-- The cell `(prev.x + (dx * step) / steps, prev.y + (dy * step) / steps)` of the
integer-interpolated straight line from `prev` to `next`, with the division of
`int` (truncation towards zero). -/
def lineCell (prev next : Point) (step : Int) : Point :=
  ⟨prev.x + ((next.x - prev.x) * step).tdiv (lineSteps prev next),
    prev.y + ((next.y - prev.y) * step).tdiv (lineSteps prev next)⟩

/-- Some cell strictly between `prev` and `next` on the interpolated line
(`1 <= step < steps`) is an obstacle. -/
def ObstacleBetween (t : Terrain K) (prev next : Point) : Prop :=
  ∃ step : Int, 1 ≤ step ∧ step < lineSteps prev next ∧
    t.isObstacle (lineCell prev next step) = true

/-- No cell of the interpolated line from `a` to `b`, the two end cells included
(`0 <= step <= steps`), is an obstacle. -/
def LineClear (t : Terrain K) (a b : Point) : Prop :=
  ∀ step : Int, 0 ≤ step → step ≤ lineSteps a b → t.isObstacle (lineCell a b step) = false

end SimplifyNotions

/-! ## Notions used to state that the search pushes finitely many nodes -/

section Trajectory

variable {K : Type} [LinearOrder K] [Zero K] [Add K] [Mul K] [OfScientific K] [IntCast K]
  [HasSqrt K] {Q : Type}

/-- One iteration of the `while (!openSet.empty())` loop of the searches, as a
step on the state: `none` when the loop is left (the open set is empty, or the
popped node is at the goal), otherwise the state after the neighbours of the
popped node have been processed. -/
def loopStep (pq : PriorityQueue K Q) (t : Terrain K) (hfun : Point → K) (scale : K → K → K)
    (goal : Point) (st : SearchState K Q) : Option (SearchState K Q) :=
  match pq.pop st.openSet with
  | none => none
  | some (current, rest) =>
    if current.position = goal then none
    else
      some ((t.getNeighbors current.position).foldl (relaxNeighbor pq t hfun scale current)
        { st with openSet := rest })

/-- The state at the head of the loop after `n` iterations (`none` when the loop
is left earlier). -/
def stateAfter (pq : PriorityQueue K Q) (t : Terrain K) (hfun : Point → K) (scale : K → K → K)
    (goal : Point) : Nat → SearchState K Q → Option (SearchState K Q)
  | 0, st => some st
  | n + 1, st =>
    match loopStep pq t hfun scale goal st with
    | none => none
    | some st' => stateAfter pq t hfun scale goal n st'

end Trajectory

/-! ## `MapParser.h` / `MapParser.cpp`

A `std::string` is a list of characters. -/

/-- The two `std::runtime_error`s thrown by `MapParser::loadMapFromString`. -/
inductive MapError where
  /-- The error with the message "Empty map data". -/
  | emptyMapData
  /-- The error with the message "Invalid map dimensions - all rows must have same length". -/
  | invalidMapDimensions
  deriving DecidableEq, Repr

/-- The function `MapParser::charToTerrainType`. -/
def charToTerrainType (c : Char) : TerrainType :=
  if c = '.' then TerrainType.NORMAL
  else if c = '^' then TerrainType.HILL
  else if c = 'O' ∨ c = 'o' then TerrainType.OBSTACLE
  else if c = 'W' ∨ c = 'w' then TerrainType.WIND_ZONE
  else if c = 'S' ∨ c = 's' then TerrainType.START
  else if c = 'D' ∨ c = 'd' then TerrainType.END
  else TerrainType.NORMAL

/-- The function `MapParser::terrainTypeToChar`. -/
def terrainTypeToChar (type : TerrainType) : Char :=
  match type with
  | TerrainType.NORMAL => '.'
  | TerrainType.HILL => '^'
  | TerrainType.OBSTACLE => 'O'
  | TerrainType.WIND_ZONE => 'W'
  | TerrainType.START => 'S'
  | TerrainType.END => 'D'

/-- The call `std::getline(stream, line)` on the unread rest of a string stream:
`none` when nothing is left to read (the call fails and the loop ends),
otherwise the characters before the first `'\n'` and what is left of the
stream after that newline. -/
def getline (stream : List Char) : Option (List Char × List Char) :=
  if stream.isEmpty then none
  else
    some (stream.takeWhile (fun c => c != '\n'),
      (stream.dropWhile (fun c => c != '\n')).drop 1)

/-- The statement `if (!line.empty() && line.back() == '\r') line.pop_back();`
of `MapParser::parseMapLines`. -/
def stripCarriageReturn (line : List Char) : List Char :=
  if !line.isEmpty && line.getLast? == some '\r' then line.dropLast else line

/-- The function `MapParser::parseMapLines`: the `while (std::getline(stream, line))`
loop, which keeps the lines that are not empty once a carriage return at their
end has been removed. -/
def parseMapLines (content : List Char) : List (List Char) :=
  match h : getline content with
  | none => []
  | some (line, rest) =>
    have : rest.length < content.length := by
      unfold getline at h
      cases content with
      | nil => simp at h
      | cons c s =>
        simp only [List.isEmpty_cons, Bool.false_eq_true, if_false, Option.some.injEq,
          Prod.mk.injEq] at h
        rw [← h.2, List.length_drop]
        have := (List.dropWhile_sublist (fun c => c != '\n') (l := c :: s)).length_le
        simp only [List.length_cons] at this ⊢
        omega
    let line := stripCarriageReturn line
    if !line.isEmpty then line :: parseMapLines rest else parseMapLines rest
termination_by content.length

/-- The function `MapParser::validateMapDimensions`. -/
def validateMapDimensions (lines : List (List Char)) : Bool :=
  if lines.isEmpty then false
  else
    let expectedWidth := (lines.headD []).length
    lines.all (fun line => line.length == expectedWidth)

section MapParserOps

variable {K : Type} [OfScientific K]

/-- The body of the inner loop `for (int x = 0; x < width; x++)` of
`MapParser::loadMapFromString` at column `x` of row `y`. -/
def loadCell (lines : List (List Char)) (y : Int) (terrain : Terrain K) (x : Int) : Terrain K :=
  let row := lines.getD y.toNat []
  if x < (row.length : Int) then
    let type := charToTerrainType (row.getD x.toNat '.')
    let terrain := terrain.setTerrain x y type
    match type with
    | TerrainType.HILL => terrain.setElevation x y 3.0
    | TerrainType.WIND_ZONE => terrain.setWindResistance x y 2.0
    | _ => terrain
  else terrain

/-- The two nested loops of `MapParser::loadMapFromString` over the rows `y` and
the columns `x` of a grid of the given size. -/
def loadCells (lines : List (List Char)) (width height : Int) (terrain : Terrain K) : Terrain K :=
  (List.range height.toNat).foldl (fun terrain (y : Nat) =>
    (List.range width.toNat).foldl (fun terrain (x : Nat) =>
      loadCell lines (Int.ofNat y) terrain (Int.ofNat x)) terrain) terrain

/-- The function `MapParser::loadMapFromString`; a thrown error is the `error` result. -/
def loadMapFromString (mapData : List Char) : Except MapError (Terrain K) :=
  let lines := parseMapLines mapData
  if lines.isEmpty then Except.error MapError.emptyMapData
  else if !validateMapDimensions lines then Except.error MapError.invalidMapDimensions
  else
    let height : Int := Int.ofNat lines.length
    let width : Int := Int.ofNat (lines.headD []).length
    Except.ok (loadCells lines width height (Terrain.new width height))

/-- The function `MapParser::terrainToString`. -/
def terrainToString (t : Terrain K) : List Char :=
  (List.range t.height.toNat).flatMap (fun (y : Nat) =>
    (List.range t.width.toNat).map (fun (x : Nat) =>
      terrainTypeToChar (t.getTerrain (Int.ofNat x) (Int.ofNat y))) ++ ['\n'])

end MapParserOps

/-! ## Example grids for the path post-processor -/

/-- A 4 x 2 grid whose only obstacle is the cell `(2, 0)`: the route
`(0, 0), (1, 1), (2, 1), (3, 0)` passes below it. -/
def detourTerrain (K : Type) [SqrtField K] : Terrain K :=
  { grid := [[TerrainType.NORMAL, TerrainType.NORMAL, TerrainType.OBSTACLE, TerrainType.NORMAL],
             [TerrainType.NORMAL, TerrainType.NORMAL, TerrainType.NORMAL, TerrainType.NORMAL]]
    elevationMap := [[0, 0, 0, 0], [0, 0, 0, 0]]
    windResistance := [[0, 0, 0, 0], [0, 0, 0, 0]]
    width := 4
    height := 2 }

/-- A corridor of three Normal cells whose middle cell has elevation `-10.0`, as
after `Terrain(3, 1)` and `setElevation(1, 0, -10.0)`. -/
def pitTerrain (K : Type) [SqrtField K] : Terrain K :=
  { grid := [[TerrainType.NORMAL, TerrainType.NORMAL, TerrainType.NORMAL]]
    elevationMap := [[0, -10, 0]]
    windResistance := [[0, 0, 0]]
    width := 3
    height := 1 }

/-! ## `Optimizer::printPathStatistics`: the distance of a path -/

section Statistics

variable {K : Type} [OfScientific K] [IntCast K] [Add K] [Mul K] [HasSqrt K]

/-- The value of `totalDistance` in `Optimizer::printPathStatistics` after the loop
`for (size_t i = 1; i < path.size(); i++)`: the sum of
`calculateDistance(path[i-1], path[i])`. -/
def totalDistance (path : List Point) : K :=
  (path.zip path.tail).foldl (fun total (step : Point × Point) =>
    total + calculateDistance step.1 step.2) 0.0

end Statistics

/-! ## `Terrain::generateRandomTerrain`

The values returned by the successive calls `dis(gen)` are a parameter
`draws : Nat → K` of the embedding, and the state of the loops carries the
number of calls made so far next to the grid. -/

section RandomTerrain

variable {K : Type} [LinearOrder K] [Add K] [Mul K] [OfScientific K]

/-- The body of the inner loop `for (int x = 0; x < width; x++)` of
`Terrain::generateRandomTerrain` at column `x` of row `y`. -/
def randomCell (obstacleProb hillProb windProb : K) (draws : Nat → K) (y : Int)
    (st : Terrain K × Nat) (x : Int) : Terrain K × Nat :=
  let roll := draws st.2
  if roll < obstacleProb then
    (st.1.setTerrain x y TerrainType.OBSTACLE, st.2 + 1)
  else if roll < obstacleProb + hillProb then
    ((st.1.setTerrain x y TerrainType.HILL).setElevation x y (draws (st.2 + 1) * 5.0), st.2 + 2)
  else if roll < obstacleProb + hillProb + windProb then
    ((st.1.setTerrain x y TerrainType.WIND_ZONE).setWindResistance x y
      (draws (st.2 + 1) * 3.0), st.2 + 2)
  else
    ((st.1.setTerrain x y TerrainType.NORMAL).setElevation x y (draws (st.2 + 1) * 2.0), st.2 + 2)

/-- The function `Terrain::generateRandomTerrain`. -/
def Terrain.generateRandomTerrain (t : Terrain K) (obstacleProb hillProb windProb : K)
    (draws : Nat → K) : Terrain K :=
  ((List.range t.height.toNat).foldl (fun st (y : Nat) =>
    (List.range t.width.toNat).foldl (fun st (x : Nat) =>
      randomCell obstacleProb hillProb windProb draws (Int.ofNat y) st (Int.ofNat x)) st)
    (t, 0)).1

/-- The grids that the constructor or `loadMapFromString` produces, followed by
any sequence of `addObstacle`, `addHill` and `addWindZone` calls. -/
inductive Edited : Terrain K → Prop where
  | constructed (w h : Int) : Edited (Terrain.new w h)
  | loaded (mapData : List Char) (t : Terrain K) :
      loadMapFromString mapData = Except.ok t → Edited t
  | addObstacle (t : Terrain K) (pos : Point) : Edited t → Edited (t.addObstacle pos)
  | addHill (t : Terrain K) (pos : Point) : Edited t → Edited (t.addHill pos)
  | addWindZone (t : Terrain K) (pos : Point) : Edited t → Edited (t.addWindZone pos)

end RandomTerrain

/-! ## Notions used to state the properties of the greedy walk and of finalization -/

section WalkNotions

variable {K : Type} [LinearOrder K] [Zero K] [Add K] [Mul K] [OfScientific K] [IntCast K]
  [HasSqrt K] {Q : Type}

/-- The cell one step from `c` towards `goal`: each coordinate moves by the sign
of its remaining difference. -/
def stepToward (c goal : Point) : Point :=
  ⟨c.x + Int.sign (goal.x - c.x), c.y + Int.sign (goal.y - c.y)⟩

/-- The choice of `findPathGreedy` at the cell `c`: the walk is not at the goal,
and `n` is the first of the cells listed by `getNeighbors c` whose heuristic
cost to the goal is the least among them. -/
def GreedyChoice (t : Terrain K) (goal c n : Point) : Prop :=
  c ≠ goal ∧ ∃ before after, t.getNeighbors c = before ++ n :: after ∧
    (∀ m ∈ before, t.getHeuristicCost n goal < t.getHeuristicCost m goal) ∧
    (∀ m ∈ after, t.getHeuristicCost n goal ≤ t.getHeuristicCost m goal)

/-- The heuristic `hfun` is consistent: it drops by no more than the cost of a move. -/
def Consistent (t : Terrain K) (scale : K → K → K) (hfun : Point → K) : Prop :=
  ∀ a b, CanEnter t a b → hfun a ≤ scale (t.getMovementCost b) (calculateDistance a b) + hfun b

/-- The cell `v` is finalized with cost `d` in the state `st`: `d` is recorded
for `v`, no route from `start` to `v` is cheaper, and every move from `v` has
been relaxed with `d`. -/
def Finalized (t : Terrain K) (scale : K → K → K) (start : Point) (st : SearchState K Q)
    (v : Point) (d : K) : Prop :=
  mapFind st.gScore v = some d ∧
    (∀ L, IsRouteFromTo t start v L → d ≤ travelCostWith t scale L) ∧
    ∀ w, CanEnter t v w → ∃ d', mapFind st.gScore w = some d' ∧
      d' ≤ d + scale (t.getMovementCost w) (calculateDistance v w)

end WalkNotions

/-! ## The arithmetic of `double`: IEEE 754 binary64

A value of type `double` other than an infinity or a NaN is a rational number
of the form `m * 2 ^ e` with `|m| < 2 ^ 53`.  The operations of `Binary64`
compute the exact result and round it to the nearest number of that form, ties
going to the even `m`, so that every number they return is of that form.  The
range of the exponent is not limited: overflow to an infinity and gradual
underflow are not modelled. -/

/-- The loop of `bitLength`, with the argument itself as the bound on the
number of iterations. -/
def bitLengthAux : Nat → Nat → Nat
  | 0, _ => 0
  | fuel + 1, n => if n = 0 then 0 else bitLengthAux fuel (n / 2) + 1

/-- The number of binary digits of `n`. -/
def bitLength (n : Nat) : Nat :=
  bitLengthAux n n

/-- The loop of `isqrt`: the bits of the root from bit `b + 1` down to bit `0`. -/
def isqrtAux (n : Nat) : Nat → Nat → Nat
  | 0, r => if (r + 1) * (r + 1) ≤ n then r + 1 else r
  | b + 1, r =>
    isqrtAux n b (if (r + 2 ^ (b + 1)) * (r + 2 ^ (b + 1)) ≤ n then r + 2 ^ (b + 1) else r)

/-- The integer square root: the largest `r` with `r * r <= n`. -/
def isqrt (n : Nat) : Nat :=
  isqrtAux n (bitLength n / 2 + 1) 0

/-- The number `x * 2 ^ e`. -/
def scale2 (e : Int) (x : ℚ) : ℚ :=
  if 0 ≤ e then x * (2 ^ e.toNat : ℚ) else x / (2 ^ (-e).toNat : ℚ)

/-- The exponent `e` of the binade of a positive rational number `q`: the
integer with `2 ^ 52 <= q / 2 ^ e < 2 ^ 53`. -/
def binade (q : ℚ) : Int :=
  let e0 : Int := (bitLength q.num.natAbs : Int) - (bitLength q.den : Int) - 52
  if scale2 (-e0) q < 2 ^ 52 then e0 - 1 else e0

/-- The integer nearest to `x`, the even one of the two when `x` lies half way
between two integers. -/
def roundHalfEven (x : ℚ) : Int :=
  let m : Int := ⌊x⌋
  if 1 < 2 * (x - m) ∨ (2 * (x - m) = 1 ∧ m % 2 = 1) then m + 1 else m

/-- A positive rational number rounded to 53 significant bits, to nearest and
on a tie to the even significand. -/
def roundPos (q : ℚ) : ℚ :=
  scale2 (binade q) (roundHalfEven (scale2 (-binade q) q))

/-- Rounding to the nearest binary64 number, ties to even. -/
def round64 (q : ℚ) : ℚ :=
  if q = 0 then 0 else if 0 < q then roundPos q else -roundPos (-q)

/-- The correctly rounded square root.  With `y` the integer square root of
`q * 4 ^ j`, which has more than 54 bits, the root lies between `y / 2 ^ j` and
`(y + 1) / 2 ^ j` and is rounded as their midpoint is, unless it is `y / 2 ^ j`
exactly.  (`std::sqrt` of a negative number is a NaN; the program takes the
root of sums of squares only.) -/
def sqrt64 (q : ℚ) : ℚ :=
  if q ≤ 0 then 0
  else
    let j : Nat := 64 + bitLength q.den
    let n : Nat := q.num.natAbs * 4 ^ j
    let y : Nat := isqrt (n / q.den)
    let exact : Bool := y * y == n / q.den && n % q.den == 0
    round64 (scale2 (-(j : Int)) ((y : ℚ) + (if exact then 0 else 1 / 2)))

/-- A value of type `double` that is neither an infinity nor a NaN, held as the
rational number it stands for. -/
structure Binary64 where
  /-- The number that the value stands for. -/
  val : ℚ
  deriving Repr

namespace Binary64

/-- The comparisons of `double` are those of the numbers. -/
instance instLinearOrder : LinearOrder Binary64 :=
  LinearOrder.lift' Binary64.val (fun a b h => by cases a; cases b; cases h; rfl)

instance instZero : Zero Binary64 := ⟨⟨0⟩⟩

/-- The operator `+` of `double`. -/
instance instAdd : Add Binary64 := ⟨fun a b => ⟨round64 (a.val + b.val)⟩⟩

/-- The operator `*` of `double`. -/
instance instMul : Mul Binary64 := ⟨fun a b => ⟨round64 (a.val * b.val)⟩⟩

/-- A decimal literal of type `double`. -/
instance instOfScientific : OfScientific Binary64 :=
  ⟨fun m s e => ⟨round64 (OfScientific.ofScientific m s e)⟩⟩

/-- The conversion of an `int` to `double`. -/
instance instIntCast : IntCast Binary64 := ⟨fun n => ⟨round64 n⟩⟩

/-- The function `std::sqrt`. -/
instance instHasSqrt : HasSqrt Binary64 := ⟨fun a => ⟨sqrt64 a.val⟩⟩

end Binary64
/-! ## Notions used in the proofs about the search -/

section ProofNotions

variable {K : Type} {Q : Type}

/-- The nodes that a search from `start` constructs: the start node with cost
`0`, and for a node `p` already constructed and a move from its position to
`pos`, the node for `pos` whose cost is that of `p` plus the cost of the move
and whose parent is `p`. -/
inductive GoodNode [LinearOrder K] [Zero K] [Add K] [Mul K] [OfScientific K] [IntCast K] [HasSqrt K] (t : Terrain K) (hfun : Point → K) (scale : K → K → K) (start : Point) :
    PathNode K → Prop where
  | root : GoodNode t hfun scale start (PathNode.new start 0 (hfun start) none)
  | child (p : PathNode K) (pos : Point) :
      GoodNode t hfun scale start p → CanEnter t p.position pos →
      GoodNode t hfun scale start
        (PathNode.new pos
          (p.gCost + scale (t.getMovementCost pos) (calculateDistance p.position pos))
          (hfun pos) (some p))

/-- A node followed by its parent, its grandparent, and so on up to the root. -/
def PathNode.ancestors : PathNode K → List (PathNode K)
  | PathNode.root p g h f => [PathNode.root p g h f]
  | PathNode.child p g h f q => PathNode.child p g h f q :: PathNode.ancestors q

/-- All cells of the grid, row by row. -/
def allCells (t : Terrain K) : List Point :=
  (List.range t.height.toNat).flatMap (fun (y : Nat) =>
    (List.range t.width.toNat).map (fun (x : Nat) => (⟨Int.ofNat x, Int.ofNat y⟩ : Point)))

/-- All lists without repetition whose elements are taken from `U`. -/
def simpleLists {α : Type} (U : List α) : List (List α) :=
  U.sublists.flatMap List.permutations

/-- A bound on the number of nodes a search can create: the number of
repetition-free cell sequences over the start cell and the cells of the grid. -/
def chainBound (t : Terrain K) (start : Point) : Nat :=
  (simpleLists (start :: allCells t)).length

/-- Every move has a non-negative cost. -/
def NonnegSteps [LinearOrder K] [Zero K] [Add K] [Mul K] [OfScientific K] [IntCast K] [HasSqrt K] (t : Terrain K) (scale : K → K → K) : Prop :=
  ∀ a b, CanEnter t a b → 0 ≤ scale (t.getMovementCost b) (calculateDistance a b)

/-- The heuristic `hfun` never exceeds the cost of a route to the goal. -/
def Admissible [LinearOrder K] [Zero K] [Add K] [Mul K] [OfScientific K] [IntCast K] [HasSqrt K] (t : Terrain K) (scale : K → K → K) (hfun : Point → K) (goal : Point) : Prop :=
  ∀ p L, IsRouteFromTo t p goal L → hfun p ≤ travelCostWith t scale L

/-- The part of the loop invariant that concerns the created nodes. -/
structure Core [LinearOrder K] [Zero K] [Add K] [Mul K] [OfScientific K] [IntCast K] [HasSqrt K] (pq : PriorityQueue K Q) (t : Terrain K) (hfun : Point → K) (scale : K → K → K)
    (start : Point) (st : SearchState K Q) : Prop where
  open_sub : ∀ n ∈ pq.contents st.openSet, n ∈ st.createdNodes
  good : ∀ n ∈ st.createdNodes, GoodNode t hfun scale start n
  score_le : ∀ n ∈ st.createdNodes, ∃ d, mapFind st.gScore n.position = some d ∧ d ≤ n.gCost
  closed : ∀ n ∈ st.createdNodes, ∀ p, n.parent = some p → p ∈ st.createdNodes
  chains_nodup : (st.createdNodes.map reconstructPath).Nodup
  start_le : ∃ d, mapFind st.gScore start = some d ∧ d ≤ 0

/-- The part of the loop invariant that concerns the cost map while the
neighbours `rem` of the popped node `u` are still to be processed: every
recorded cost belongs to a node in the open set, or to a cell all of whose
moves have been relaxed with that cost, or to `u`, whose moves to cells outside
`rem` have been relaxed. -/
def SettledMid [LinearOrder K] [Zero K] [Add K] [Mul K] [OfScientific K] [IntCast K] [HasSqrt K] (pq : PriorityQueue K Q) (t : Terrain K) (scale : K → K → K) (goal : Point)
    (st : SearchState K Q) (u : PathNode K) (rem : List Point) : Prop :=
  ∀ v d, mapFind st.gScore v = some d →
    (∃ n ∈ pq.contents st.openSet, n.position = v ∧ n.gCost = d) ∨
    (v ≠ goal ∧ ∀ w, CanEnter t v w →
      ∃ d', mapFind st.gScore w = some d' ∧
        d' ≤ d + scale (t.getMovementCost w) (calculateDistance v w)) ∨
    (v = u.position ∧ d = u.gCost ∧ v ≠ goal ∧ ∀ w, CanEnter t v w →
      w ∈ rem ∨ ∃ d', mapFind st.gScore w = some d' ∧
        d' ≤ d + scale (t.getMovementCost w) (calculateDistance v w))

/-- The same at the head of the loop, where no node is being processed. -/
def Settled [LinearOrder K] [Zero K] [Add K] [Mul K] [OfScientific K] [IntCast K] [HasSqrt K] (pq : PriorityQueue K Q) (t : Terrain K) (scale : K → K → K) (goal : Point)
    (st : SearchState K Q) : Prop :=
  ∀ v d, mapFind st.gScore v = some d →
    (∃ n ∈ pq.contents st.openSet, n.position = v ∧ n.gCost = d) ∨
    (v ≠ goal ∧ ∀ w, CanEnter t v w →
      ∃ d', mapFind st.gScore w = some d' ∧
        d' ≤ d + scale (t.getMovementCost w) (calculateDistance v w))

/-- The paths of all created nodes are free of repetitions. -/
def Simple (st : SearchState K Q) : Prop :=
  ∀ n ∈ st.createdNodes, (reconstructPath n).Nodup

end ProofNotions


/-! ## The range of `int` -/

/-- The value that a 32-bit `int` holds for an expression whose exact value is
`n`: the representative of `n` modulo `2 ^ 32` in the range from `-2 ^ 31` to
`2 ^ 31 - 1`.  Where it differs from `n` the expression overflows, which the
C++ standard leaves undefined. -/
def intValue (n : Int) : Int :=
  (n + 2 ^ 31) % 2 ^ 32 - 2 ^ 31

/-! ## The cost that a search accumulates along a path -/

section AccumulatedCost

variable {K : Type} [Zero K] [Add K] [Mul K] [OfScientific K] [IntCast K] [HasSqrt K]

/-- The cost `gCost` of the node that a search creates for the last cell of
`path` when its nodes follow `path` from the start node: `0` for the start
node, and `current->gCost + scale movementCost distance` for the node of each
further cell, as computed for `tentativeGScore` in the loop body. -/
def costAlong (t : Terrain K) (scale : K → K → K) : List Point → K
  | [] => 0
  | start :: rest =>
    (rest.foldl (fun (node : Point × K) neighbor =>
      (neighbor, node.2 + scale (t.getMovementCost neighbor) (calculateDistance node.1 neighbor)))
      (start, 0)).2

end AccumulatedCost

/-! ## Example grids with the arithmetic of `double` -/

/-- Two cells in a row, the first of them a wind zone (movement cost
`2.0 + 2.0 * 0.3`), as after `Terrain(2, 1)` and `addWindZone((0, 0))`. -/
def windPair : Terrain Binary64 :=
  (Terrain.new 2 1).addWindZone ⟨0, 0⟩

/-- The 4 x 4 grid that `loadMapFromString` builds from the rows `..O^`, `.^.W`,
`.W..` and `^..O`, built here by the constructor and the calls that set the
same cells to the same values. -/
def loaderMap : Terrain Binary64 :=
  (((((((Terrain.new 4 4).addObstacle ⟨2, 0⟩).addHill ⟨3, 0⟩).addHill ⟨1, 1⟩).addWindZone
    ⟨3, 1⟩).addWindZone ⟨1, 2⟩).addHill ⟨0, 3⟩).addObstacle ⟨3, 3⟩

/-- The cells `(0, 0), (1, 1), ..., (n, n)` of the diagonal. -/
def diagonalCells (n : Nat) : List Point :=
  (List.range (n + 1)).map (fun (i : Nat) => (⟨Int.ofNat i, Int.ofNat i⟩ : Point))

/-! ## Notions used to state when the greedy walk goes straight to the goal -/

/-- The square of the Euclidean distance between two cells, an integer. -/
def squaredDistance (a b : Point) : Int :=
  (b.x - a.x) * (b.x - a.x) + (b.y - a.y) * (b.y - a.y)

section GreedyNotions

variable {K : Type} [LinearOrder K] [IntCast K] [Add K] [Mul K] [HasSqrt K]

/-- The computed heuristic cost to `goal` tells the cells of the grid apart as
their exact distances to `goal` do: of two cells in bounds, the one that is
nearer to `goal` has the lower heuristic cost. -/
def Terrain.SeparatesDistances (t : Terrain K) (goal : Point) : Prop :=
  ∀ p q, t.isValidPosition p = true → t.isValidPosition q = true →
    squaredDistance p goal < squaredDistance q goal →
    t.getHeuristicCost p goal < t.getHeuristicCost q goal

end GreedyNotions

/-! ## Notions used to state which lines of a simplified path are clear -/

/-- Two or more consecutive waypoints of `path` lie between an occurrence of `a`
and the following occurrence of `b`. -/
def RunBetween (path : List Point) (a b : Point) : Prop :=
  ∃ pre mid post, path = pre ++ a :: mid ++ b :: post ∧ 2 ≤ mid.length

/-- Some cell of the rectangle spanned by `a` and `b` is an obstacle. -/
def ObstacleInBox {K : Type} (t : Terrain K) (a b : Point) : Prop :=
  ∃ c : Point, min a.x b.x ≤ c.x ∧ c.x ≤ max a.x b.x ∧ min a.y b.y ≤ c.y ∧ c.y ≤ max a.y b.y ∧
    t.isObstacle c = true

/-- A corridor of three cells whose last cell is an obstacle, with the
arithmetic of `double`. -/
def trapCorridor : Terrain Binary64 :=
  (Terrain.new 3 1).addObstacle ⟨2, 0⟩

section Decidability

variable {K : Type} [LinearOrder K] [Zero K] [Add K] [Mul K] [OfScientific K]

instance CanEnter.instDecidable (t : Terrain K) (a b : Point) : Decidable (CanEnter t a b) :=
  inferInstanceAs (Decidable (b ∈ t.getNeighbors a ∧ t.getMovementCost b < 1000.0))

/-- Whether `path` is a route, decided move by move. -/
def IsRoute.decideRoute (t : Terrain K) : (path : List Point) → Decidable (IsRoute t path)
  | [] => isTrue List.chain'_nil
  | [a] => isTrue (List.chain'_singleton a)
  | a :: b :: rest =>
    match CanEnter.instDecidable t a b, IsRoute.decideRoute t (b :: rest) with
    | isTrue h1, isTrue h2 => isTrue (List.Chain'.cons h1 h2)
    | isFalse h1, _ => isFalse (fun h => h1 (List.chain'_cons.1 h).1)
    | isTrue _, isFalse h2 => isFalse (fun h => h2 (List.chain'_cons.1 h).2)

instance IsRoute.instDecidable (t : Terrain K) (path : List Point) : Decidable (IsRoute t path) :=
  IsRoute.decideRoute t path

instance IsRouteFromTo.instDecidable (t : Terrain K) (start goal : Point) (path : List Point) :
    Decidable (IsRouteFromTo t start goal path) :=
  inferInstanceAs (Decidable (IsRoute t path ∧ path.head? = some start ∧
    path.getLast? = some goal))

end Decidability

/-- A grid of 2 rows of 70000002 cells without obstacles, with the arithmetic
of `double`. -/
def wideStrip : Terrain Binary64 :=
  Terrain.new 70000002 2

/-- A grid of 1000 rows of 1000 cells without obstacles, with the arithmetic of
`double`. -/
def openField : Terrain Binary64 :=
  Terrain.new 1000 1000

/-! ## Notions used to state what Dijkstra's search keeps of a popped cell -/

/-- The properties of `+` and `<=` on which the order of the nodes popped by
Dijkstra's search rests: adding is monotone in both summands, and adding `0` to
a sum or to `0` changes nothing.  They hold in exact arithmetic and for the
rounded addition of `double`. -/
structure MonotoneAdd (K : Type) [LinearOrder K] [Zero K] [Add K] : Prop where
  add_le_add_right : ∀ a b c : K, a ≤ b → a + c ≤ b + c
  add_le_add_left : ∀ a b c : K, b ≤ c → a + b ≤ a + c
  add_zero_sum : ∀ a b : K, a + b + 0 = a + b
  zero_add_zero : (0 : K) + 0 = 0

section DijkstraNotions

variable {K : Type} {Q : Type}

/-- The part of the loop invariant of Dijkstra's search that concerns the open
set: every node in it has a cost of at least the cost recorded for its cell,
its `fCost` is its `gCost`, and adding `0` to its `gCost` changes nothing. -/
structure OpenKeys [LinearOrder K] [Zero K] [Add K] (pq : PriorityQueue K Q)
    (st : SearchState K Q) : Prop where
  score_le : ∀ m ∈ pq.contents st.openSet,
    ∃ d, mapFind st.gScore m.position = some d ∧ d ≤ m.gCost
  key_eq : ∀ m ∈ pq.contents st.openSet, m.fCost = m.gCost
  add_zero : ∀ m ∈ pq.contents st.openSet, m.gCost + 0 = m.gCost

/-- The cost `d` is recorded for the cell `v` and no node of the open set has a
lower cost. -/
def ClosedWith [LinearOrder K] (pq : PriorityQueue K Q) (st : SearchState K Q) (v : Point)
    (d : K) : Prop :=
  mapFind st.gScore v = some d ∧ ∀ m ∈ pq.contents st.openSet, d ≤ m.gCost

end DijkstraNotions
/-! ## Theorems -/

set_option linter.unusedSectionVars false

section QueueOrder

variable {K : Type} [LinearOrder K]

theorem comparator_eq_false_iff (a b : PathNode K) :
    PathNodeComparator a b = false ↔
      a.fCost < b.fCost ∨ (a.fCost = b.fCost ∧ a.hCost ≤ b.hCost) := by
  unfold PathNodeComparator
  by_cases h : a.fCost = b.fCost
  · simp [h]
  · simp only [ne_eq, h, not_false_eq_true, if_true, decide_eq_false_iff_not, not_lt, false_and,
      or_false, gt_iff_lt]
    exact ⟨fun hle => lt_of_le_of_ne hle h, le_of_lt⟩

theorem comparator_false_trans {a b c : PathNode K} (hab : PathNodeComparator a b = false)
    (hbc : PathNodeComparator b c = false) : PathNodeComparator a c = false := by
  rw [comparator_eq_false_iff] at *
  rcases hab with hab | ⟨h1, h2⟩ <;> rcases hbc with hbc | ⟨h3, h4⟩
  · exact Or.inl (lt_trans hab hbc)
  · exact Or.inl (h3 ▸ hab)
  · exact Or.inl (h1 ▸ hbc)
  · exact Or.inr ⟨h1.trans h3, le_trans h2 h4⟩

theorem comparator_false_total (a b : PathNode K) :
    PathNodeComparator a b = false ∨ PathNodeComparator b a = false := by
  simp only [comparator_eq_false_iff]
  rcases lt_trichotomy a.fCost b.fCost with h | h | h
  · exact Or.inl (Or.inl h)
  · rcases le_total a.hCost b.hCost with h' | h'
    · exact Or.inl (Or.inr ⟨h, h'⟩)
    · exact Or.inr (Or.inr ⟨h.symm, h'⟩)
  · exact Or.inr (Or.inl h)

theorem comparator_false_self (a : PathNode K) : PathNodeComparator a a = false := by
  simp [comparator_eq_false_iff]

theorem listPopTop_eq_none (l : List (PathNode K)) : listPopTop l = none ↔ l = [] := by
  cases l with
  | nil => simp [listPopTop]
  | cons n rest =>
    simp only [listPopTop]
    cases h : listPopTop rest with
    | none => simp
    | some v =>
      obtain ⟨m, r⟩ := v
      by_cases hc : PathNodeComparator n m = true <;> simp [hc]

theorem listPopTop_some : ∀ (l : List (PathNode K)) (n : PathNode K) (r : List (PathNode K)),
    listPopTop l = some (n, r) →
      List.Perm l (n :: r) ∧ ∀ m ∈ l, PathNodeComparator n m = false := by
  intro l
  induction l with
  | nil => intro n r h; simp [listPopTop] at h
  | cons a rest ih =>
    intro n r h
    simp only [listPopTop] at h
    cases hrec : listPopTop rest with
    | none =>
      rw [hrec] at h
      have hnil : rest = [] := (listPopTop_eq_none rest).1 hrec
      simp only [Option.some.injEq, Prod.mk.injEq] at h
      obtain ⟨rfl, rfl⟩ := h
      subst hnil
      exact ⟨List.Perm.refl _, by simp [comparator_false_self]⟩
    | some v =>
      obtain ⟨m, r'⟩ := v
      rw [hrec] at h
      obtain ⟨hperm, hmin⟩ := ih m r' hrec
      by_cases hc : PathNodeComparator a m = true
      · simp only [hc, if_true, Option.some.injEq, Prod.mk.injEq] at h
        obtain ⟨rfl, rfl⟩ := h
        refine ⟨(List.Perm.cons a hperm).trans (List.Perm.swap _ _ _), ?_⟩
        intro x hx
        rcases List.mem_cons.1 hx with rfl | hx
        · rcases comparator_false_total m x with h' | h'
          · exact h'
          · rw [h'] at hc; exact absurd hc (by simp)
        · exact hmin x hx
      · simp only [hc, Bool.false_eq_true, if_false, Option.some.injEq, Prod.mk.injEq] at h
        obtain ⟨rfl, rfl⟩ := h
        refine ⟨List.Perm.refl _, ?_⟩
        intro x hx
        have hc' : PathNodeComparator a m = false := by simpa using hc
        rcases List.mem_cons.1 hx with rfl | hx
        · exact comparator_false_self _
        · exact comparator_false_trans hc' (hmin x hx)

theorem listQueue_lawful : (listQueue : PriorityQueue K (List (PathNode K))).Lawful where
  contents_empty := rfl
  contents_push := fun q n => by simp [listQueue]
  pop_none := fun q => by
    simp only [listQueue, Multiset.coe_eq_zero]
    exact listPopTop_eq_none q
  pop_some := fun q n q' h => by
    obtain ⟨hperm, hmin⟩ := listPopTop_some q n q' h
    refine ⟨?_, fun m hm => hmin m (by simpa [listQueue] using hm)⟩
    simp only [listQueue, Multiset.cons_coe, Multiset.coe_eq_coe]
    exact hperm

end QueueOrder

section CellBounds

variable {K : Type}

theorem isValidPosition_iff (t : Terrain K) (p : Point) :
    t.isValidPosition p = true ↔ 0 ≤ p.x ∧ p.x < t.width ∧ 0 ≤ p.y ∧ p.y < t.height := by
  simp [Terrain.isValidPosition, and_assoc]

theorem intValue_eq {n : Int} (h1 : -2 ^ 31 ≤ n) (h2 : n < 2 ^ 31) : intValue n = n := by
  unfold intValue
  omega

end CellBounds

section Basics

variable {K : Type} [Add K]

@[simp] theorem position_new (p : Point) (g h : K) (q : Option (PathNode K)) :
    (PathNode.new p g h q).position = p := by cases q <;> rfl

@[simp] theorem gCost_new (p : Point) (g h : K) (q : Option (PathNode K)) :
    (PathNode.new p g h q).gCost = g := by cases q <;> rfl

@[simp] theorem hCost_new (p : Point) (g h : K) (q : Option (PathNode K)) :
    (PathNode.new p g h q).hCost = h := by cases q <;> rfl

@[simp] theorem fCost_new (p : Point) (g h : K) (q : Option (PathNode K)) :
    (PathNode.new p g h q).fCost = g + h := by cases q <;> rfl

@[simp] theorem parent_new (p : Point) (g h : K) (q : Option (PathNode K)) :
    (PathNode.new p g h q).parent = q := by cases q <;> rfl

@[simp] theorem reconstructPath_new_none (p : Point) (g h : K) :
    reconstructPath (PathNode.new p g h none) = [p] := rfl

@[simp] theorem reconstructPath_new_some (p : Point) (g h : K) (q : PathNode K) :
    reconstructPath (PathNode.new p g h (some q)) = reconstructPath q ++ [p] := rfl

end Basics

section FirstPop

variable {K : Type} [LinearOrder K] [Zero K] [Add K] [Mul K] [OfScientific K] [IntCast K] [HasSqrt K]

theorem pop_singleton {Q : Type} {pq : PriorityQueue K Q} (hpq : pq.Lawful) (n : PathNode K) :
    ∃ q', pq.pop (pq.push pq.empty n) = some (n, q') := by
  have hc : pq.contents (pq.push pq.empty n) = {n} := by
    rw [hpq.contents_push, hpq.contents_empty]; rfl
  cases h : pq.pop (pq.push pq.empty n) with
  | none =>
    rw [hpq.pop_none, hc] at h
    exact absurd h (Multiset.singleton_ne_zero n)
  | some v =>
    obtain ⟨m, q'⟩ := v
    have h1 := (hpq.pop_some _ _ _ h).1
    rw [hc] at h1
    have hm : m ∈ ({n} : Multiset (PathNode K)) := by rw [h1]; exact Multiset.mem_cons_self _ _
    rw [Multiset.mem_singleton] at hm
    subst hm
    exact ⟨q', rfl⟩

theorem searchLoop_start_eq_goal {Q : Type} {pq : PriorityQueue K Q} (hpq : pq.Lawful)
    (t : Terrain K) (hfun : Point → K) (scale : K → K → K) (s : Point) (fuel : Nat) :
    searchLoop pq t hfun scale s (fuel + 1) (initialState pq hfun s) = some [s] := by
  obtain ⟨q', hq'⟩ := pop_singleton hpq (PathNode.new s 0 (hfun s) none)
  simp only [searchLoop, initialState]
  rw [hq']
  simp

end FirstPop


/-! ## Rounding to the nearest `double`

The error of `round64` and of `sqrt64`, relative to the exact value. -/

section Rounding

theorem bitLengthAux_zero (fuel : Nat) : bitLengthAux fuel 0 = 0 := by
  cases fuel <;> simp [bitLengthAux]

theorem bitLengthAux_spec : ∀ (fuel n : Nat), n ≤ fuel → n ≠ 0 →
    2 ^ (bitLengthAux fuel n - 1) ≤ n ∧ n < 2 ^ bitLengthAux fuel n ∧ 1 ≤ bitLengthAux fuel n := by
  intro fuel
  induction fuel with
  | zero => intro n h h0; omega
  | succ fuel ih =>
    intro n h h0
    rw [bitLengthAux, if_neg h0]
    by_cases h2 : n / 2 = 0
    · rw [h2, bitLengthAux_zero]
      have : n = 1 := by omega
      subst this
      simp
    · obtain ⟨h3, h4, h5⟩ := ih (n / 2) (by omega) h2
      refine ⟨?_, ?_, by omega⟩
      · have : 2 ^ (bitLengthAux fuel (n / 2) + 1 - 1) = 2 * 2 ^ (bitLengthAux fuel (n / 2) - 1) := by
          rw [Nat.add_sub_cancel, ← pow_succ']
          congr 1
          omega
        rw [this]
        omega
      · rw [pow_succ]
        omega

theorem bitLength_spec {n : Nat} (h : n ≠ 0) :
    2 ^ (bitLength n - 1) ≤ n ∧ n < 2 ^ bitLength n ∧ 1 ≤ bitLength n :=
  bitLengthAux_spec n n le_rfl h

theorem scale2_eq (e : Int) (x : ℚ) : scale2 e x = x * (2 : ℚ) ^ e := by
  unfold scale2
  split
  · rename_i h
    congr 1
    rw [← zpow_natCast, Int.toNat_of_nonneg h]
  · rename_i h
    rw [div_eq_mul_inv, ← zpow_natCast, Int.toNat_of_nonneg (by omega), zpow_neg, inv_inv]

theorem binade_aux {A D U V : ℚ} (hA : 0 < A) (hD : 0 < D) (hU : 0 < U)
    (h1 : U ≤ 2 * A) (h2 : A < U) (h3 : V ≤ 2 * D) (h4 : D < V) :
    (2 : ℚ) ^ 51 < A / D * (V * 2 ^ 52 / U) ∧ A / D * (V * 2 ^ 52 / U) < 2 ^ 53 := by
  have e : A / D * (V * 2 ^ 52 / U) = (A * V * 2 ^ 52) / (D * U) := by
    field_simp
    ring
  rw [e]
  have hDU : 0 < D * U := mul_pos hD hU
  constructor
  · rw [lt_div_iff₀ hDU]
    have : D * U < 2 * (A * V) := by nlinarith
    nlinarith
  · rw [div_lt_iff₀ hDU]
    have : A * V < 2 * (D * U) := by nlinarith
    nlinarith

theorem binade_pre {q : ℚ} (hq : 0 < q) :
    (2 : ℚ) ^ 51 < q * (2 : ℚ) ^ (-((bitLength q.num.natAbs : Int) - (bitLength q.den : Int) - 52)) ∧
    q * (2 : ℚ) ^ (-((bitLength q.num.natAbs : Int) - (bitLength q.den : Int) - 52)) < 2 ^ 53 := by
  have hnum : 0 < q.num := Rat.num_pos.2 hq
  have ha0 : q.num.natAbs ≠ 0 := by omega
  have hd0 : q.den ≠ 0 := q.den_nz
  obtain ⟨a1, a2, a3⟩ := bitLength_spec ha0
  obtain ⟨d1, d2, d3⟩ := bitLength_spec hd0
  set bn := bitLength q.num.natAbs
  set bd := bitLength q.den
  have hqe : q = (q.num.natAbs : ℚ) / (q.den : ℚ) := by
    have hc : ((q.num.natAbs : Int) : ℚ) = (q.num : ℚ) := by
      rw [Int.natAbs_of_nonneg hnum.le]
    rw [← Int.cast_natCast, hc]
    exact (Rat.num_div_den q).symm
  have hz : (2 : ℚ) ^ (-((bn : Int) - (bd : Int) - 52)) = (2 : ℚ) ^ bd * 2 ^ 52 / (2 : ℚ) ^ bn := by
    have : -((bn : Int) - (bd : Int) - 52) = ((bd : Int) + 52) - (bn : Int) := by ring
    rw [this, zpow_sub₀ (by norm_num), zpow_add₀ (by norm_num)]
    simp [zpow_natCast]
    norm_num
  rw [hz]
  have hA : (0 : ℚ) < (q.num.natAbs : ℚ) := by
    exact_mod_cast Nat.pos_of_ne_zero ha0
  have hD : (0 : ℚ) < (q.den : ℚ) := by exact_mod_cast q.den_pos
  have hU : (0 : ℚ) < (2 : ℚ) ^ bn := by positivity
  have h1 : (2 : ℚ) ^ bn ≤ 2 * (q.num.natAbs : ℚ) := by
    have : 2 ^ bn ≤ 2 * q.num.natAbs := by
      have : 2 ^ bn = 2 * 2 ^ (bn - 1) := by
        rw [← pow_succ']
        congr 1
        omega
      omega
    exact_mod_cast this
  have h2 : (q.num.natAbs : ℚ) < (2 : ℚ) ^ bn := by exact_mod_cast a2
  have h3 : (2 : ℚ) ^ bd ≤ 2 * (q.den : ℚ) := by
    have : 2 ^ bd ≤ 2 * q.den := by
      have : 2 ^ bd = 2 * 2 ^ (bd - 1) := by
        rw [← pow_succ']
        congr 1
        omega
      omega
    exact_mod_cast this
  have h4 : (q.den : ℚ) < (2 : ℚ) ^ bd := by exact_mod_cast d2
  have := binade_aux hA hD hU h1 h2 h3 h4
  rw [← hqe] at this
  exact this

theorem binade_spec {q : ℚ} (hq : 0 < q) :
    (2 : ℚ) ^ 52 ≤ q * (2 : ℚ) ^ (-binade q) ∧ q * (2 : ℚ) ^ (-binade q) < 2 ^ 53 := by
  obtain ⟨h1, h2⟩ := binade_pre hq
  unfold binade
  simp only [scale2_eq]
  split
  · rename_i h
    have : -((bitLength q.num.natAbs : Int) - (bitLength q.den : Int) - 52 - 1)
        = -((bitLength q.num.natAbs : Int) - (bitLength q.den : Int) - 52) + 1 := by ring
    rw [this, zpow_add₀ (by norm_num), zpow_one, ← mul_assoc]
    constructor
    · nlinarith
    · nlinarith
  · rename_i h
    exact ⟨not_lt.1 h, h2⟩

theorem binade_le {q : ℚ} (hq : 0 < q) {e1 e2 : Int}
    (h1 : q * (2 : ℚ) ^ (-e1) < 2 ^ 53) (h2 : (2 : ℚ) ^ 52 ≤ q * (2 : ℚ) ^ (-e2)) :
    e2 ≤ e1 := by
  by_contra hlt
  have hlt : e1 + 1 ≤ e2 := by omega
  have hz : (2 : ℚ) ^ (-e2) * 2 ≤ (2 : ℚ) ^ (-e1) := by
    have : (2 : ℚ) ^ (-e2) * 2 = (2 : ℚ) ^ (-e2 + 1) := by
      rw [zpow_add₀ (by norm_num), zpow_one]
    rw [this]
    exact zpow_le_zpow_right₀ (by norm_num) (by omega)
  have : q * ((2 : ℚ) ^ (-e2) * 2) ≤ q * (2 : ℚ) ^ (-e1) := mul_le_mul_of_nonneg_left hz hq.le
  nlinarith

theorem binade_unique {q : ℚ} (hq : 0 < q) {e : Int}
    (h1 : (2 : ℚ) ^ 52 ≤ q * (2 : ℚ) ^ (-e)) (h2 : q * (2 : ℚ) ^ (-e) < 2 ^ 53) :
    binade q = e := by
  obtain ⟨b1, b2⟩ := binade_spec hq
  exact le_antisymm (binade_le hq h2 b1) (binade_le hq b2 h1)

theorem roundHalfEven_le (x : ℚ) : (roundHalfEven x : ℚ) ≤ x + 1 / 2 := by
  unfold roundHalfEven
  have h1 := Int.floor_le x
  have h2 := Int.lt_floor_add_one x
  simp only
  split
  · rename_i h
    push_cast
    rcases h with h | h
    · linarith
    · linarith [h.1]
  · linarith

theorem roundHalfEven_ge (x : ℚ) : x - 1 / 2 ≤ (roundHalfEven x : ℚ) := by
  unfold roundHalfEven
  have h1 := Int.floor_le x
  have h2 := Int.lt_floor_add_one x
  simp only
  split
  · push_cast
    linarith
  · rename_i h
    push_neg at h
    linarith [h.1]

theorem roundHalfEven_intCast (n : Int) : roundHalfEven (n : ℚ) = n := by
  unfold roundHalfEven
  simp

theorem roundHalfEven_mono {x y : ℚ} (h : x ≤ y) : roundHalfEven x ≤ roundHalfEven y := by
  by_cases hf : ⌊x⌋ = ⌊y⌋
  · -- same floor
    unfold roundHalfEven
    simp only [hf]
    by_cases c1 : 1 < 2 * (x - (⌊y⌋ : ℚ)) ∨ (2 * (x - (⌊y⌋ : ℚ)) = 1 ∧ ⌊y⌋ % 2 = 1)
    · have c2 : 1 < 2 * (y - (⌊y⌋ : ℚ)) ∨ (2 * (y - (⌊y⌋ : ℚ)) = 1 ∧ ⌊y⌋ % 2 = 1) := by
        rcases c1 with c | c
        · left; linarith
        · rcases eq_or_lt_of_le h with e | e
          · subst e; right; exact c
          · left; linarith [c.1]
      rw [if_pos c1, if_pos c2]
    · rw [if_neg c1]
      split <;> omega
  · have hlt : ⌊x⌋ < ⌊y⌋ := lt_of_le_of_ne (Int.floor_mono h) hf
    have h1 : roundHalfEven x ≤ ⌊x⌋ + 1 := by
      unfold roundHalfEven
      simp only
      split <;> omega
    have h2 : ⌊y⌋ ≤ roundHalfEven y := by
      unfold roundHalfEven
      simp only
      split <;> omega
    omega

theorem roundPos_eq (q : ℚ) :
    roundPos q = (roundHalfEven (q * (2 : ℚ) ^ (-binade q)) : ℚ) * (2 : ℚ) ^ binade q := by
  unfold roundPos
  rw [scale2_eq, scale2_eq]

theorem roundPos_significand {q : ℚ} (hq : 0 < q) :
    (2 : Int) ^ 52 ≤ roundHalfEven (q * (2 : ℚ) ^ (-binade q)) ∧
    roundHalfEven (q * (2 : ℚ) ^ (-binade q)) ≤ (2 : Int) ^ 53 := by
  obtain ⟨b1, b2⟩ := binade_spec hq
  constructor
  · have := roundHalfEven_mono b1
    have e : roundHalfEven ((2 : ℚ) ^ 52) = 2 ^ 52 := by
      have := roundHalfEven_intCast (2 ^ 52)
      push_cast at this
      exact this
    rwa [e] at this
  · have := roundHalfEven_mono b2.le
    have e : roundHalfEven ((2 : ℚ) ^ 53) = 2 ^ 53 := by
      have := roundHalfEven_intCast (2 ^ 53)
      push_cast at this
      exact this
    rwa [e] at this

theorem roundPos_pos {q : ℚ} (hq : 0 < q) : 0 < roundPos q := by
  rw [roundPos_eq]
  have h := (roundPos_significand hq).1
  have : (0 : ℚ) < (roundHalfEven (q * (2 : ℚ) ^ (-binade q)) : ℚ) := by
    have : (0 : Int) < roundHalfEven (q * (2 : ℚ) ^ (-binade q)) := by
      have : (0 : Int) < 2 ^ 52 := by norm_num
      omega
    exact_mod_cast this
  positivity

/-- The error of rounding a positive number is at most `2 ^ -53` of it. -/
theorem roundPos_error {q : ℚ} (hq : 0 < q) : |roundPos q - q| ≤ q / 2 ^ 53 := by
  obtain ⟨b1, b2⟩ := binade_spec hq
  have hle := roundHalfEven_le (q * (2 : ℚ) ^ (-binade q))
  have hge := roundHalfEven_ge (q * (2 : ℚ) ^ (-binade q))
  rw [roundPos_eq]
  have hp : (0 : ℚ) < (2 : ℚ) ^ binade q := by positivity
  have hq2 : q = (q * (2 : ℚ) ^ (-binade q)) * (2 : ℚ) ^ binade q := by
    rw [mul_assoc, ← zpow_add₀ (by norm_num)]
    simp
  set x := q * (2 : ℚ) ^ (-binade q)
  set m := (roundHalfEven x : ℚ)
  set P := (2 : ℚ) ^ binade q
  rw [hq2, ← sub_mul, abs_mul, abs_of_pos hp, mul_div_right_comm]
  apply mul_le_mul_of_nonneg_right _ hp.le
  rw [abs_le]
  have : (1 : ℚ) / 2 ≤ x / 2 ^ 53 := by
    rw [le_div_iff₀ (by norm_num)]
    linarith
  constructor <;> linarith

theorem round64_zero : round64 0 = 0 := by
  simp [round64]

theorem round64_of_pos {q : ℚ} (hq : 0 < q) : round64 q = roundPos q := by
  unfold round64
  rw [if_neg hq.ne', if_pos hq]

theorem round64_of_neg {q : ℚ} (hq : q < 0) : round64 q = -roundPos (-q) := by
  unfold round64
  rw [if_neg hq.ne, if_neg (not_lt.2 hq.le)]

theorem round64_neg (q : ℚ) : round64 (-q) = -round64 q := by
  rcases lt_trichotomy q 0 with h | h | h
  · rw [round64_of_neg h, round64_of_pos (by linarith : 0 < -q), neg_neg]
  · subst h
    simp [round64_zero]
  · rw [round64_of_pos h, round64_of_neg (by linarith : -q < 0), neg_neg]

theorem round64_pos {q : ℚ} (hq : 0 < q) : 0 < round64 q := by
  rw [round64_of_pos hq]
  exact roundPos_pos hq

theorem round64_nonneg {q : ℚ} (hq : 0 ≤ q) : 0 ≤ round64 q := by
  rcases eq_or_lt_of_le hq with h | h
  · rw [← h, round64_zero]
  · exact (round64_pos h).le

/-- The error of rounding is at most `2 ^ -53` of the number rounded. -/
theorem round64_error (q : ℚ) : |round64 q - q| ≤ |q| / 2 ^ 53 := by
  rcases lt_trichotomy q 0 with h | h | h
  · rw [round64_of_neg h, abs_of_neg h]
    have := roundPos_error (by linarith : 0 < -q)
    rw [abs_le] at this ⊢
    constructor <;> linarith [this.1, this.2]
  · subst h
    simp [round64_zero]
  · rw [round64_of_pos h, abs_of_pos h]
    exact roundPos_error h

theorem round64_ge {q : ℚ} (hq : 0 ≤ q) : q * (1 - 1 / 2 ^ 53) ≤ round64 q := by
  have := round64_error q
  rw [abs_of_nonneg hq, abs_le] at this
  linarith [this.1]

theorem round64_le {q : ℚ} (hq : 0 ≤ q) : round64 q ≤ q * (1 + 1 / 2 ^ 53) := by
  have := round64_error q
  rw [abs_of_nonneg hq, abs_le] at this
  linarith [this.2]

theorem roundPos_mono {q1 q2 : ℚ} (hq1 : 0 < q1) (h : q1 ≤ q2) : roundPos q1 ≤ roundPos q2 := by
  have hq2 : 0 < q2 := lt_of_lt_of_le hq1 h
  obtain ⟨a1, a2⟩ := binade_spec hq1
  obtain ⟨b1, b2⟩ := binade_spec hq2
  have he : binade q1 ≤ binade q2 := by
    apply binade_le hq1 _ a1
    have hp : (0 : ℚ) < (2 : ℚ) ^ (-binade q2) := by positivity
    calc q1 * (2 : ℚ) ^ (-binade q2) ≤ q2 * (2 : ℚ) ^ (-binade q2) :=
          mul_le_mul_of_nonneg_right h hp.le
      _ < 2 ^ 53 := b2
  rw [roundPos_eq, roundPos_eq]
  rcases eq_or_lt_of_le he with e | e
  · rw [e]
    have hp : (0 : ℚ) < (2 : ℚ) ^ (binade q2) := by positivity
    have hp2 : (0 : ℚ) < (2 : ℚ) ^ (-binade q2) := by positivity
    apply mul_le_mul_of_nonneg_right _ hp.le
    have := roundHalfEven_mono (mul_le_mul_of_nonneg_right h hp2.le)
    exact_mod_cast this
  · have s1 := (roundPos_significand hq1).2
    have s2 := (roundPos_significand hq2).1
    have s1q : (roundHalfEven (q1 * (2 : ℚ) ^ (-binade q1)) : ℚ) ≤ 2 ^ 53 := by exact_mod_cast s1
    have s2q : (2 : ℚ) ^ 52 ≤ (roundHalfEven (q2 * (2 : ℚ) ^ (-binade q2)) : ℚ) := by
      exact_mod_cast s2
    have hp1 : (0 : ℚ) < (2 : ℚ) ^ (binade q1) := by positivity
    have hp2 : (0 : ℚ) < (2 : ℚ) ^ (binade q2) := by positivity
    have hz : (2 : ℚ) ^ (binade q1) * 2 ≤ (2 : ℚ) ^ (binade q2) := by
      have : (2 : ℚ) ^ (binade q1) * 2 = (2 : ℚ) ^ (binade q1 + 1) := by
        rw [zpow_add₀ (by norm_num), zpow_one]
      rw [this]
      exact zpow_le_zpow_right₀ (by norm_num) (by omega)
    calc (roundHalfEven (q1 * (2 : ℚ) ^ (-binade q1)) : ℚ) * (2 : ℚ) ^ (binade q1)
        ≤ 2 ^ 53 * (2 : ℚ) ^ (binade q1) := mul_le_mul_of_nonneg_right s1q hp1.le
      _ = 2 ^ 52 * ((2 : ℚ) ^ (binade q1) * 2) := by ring
      _ ≤ 2 ^ 52 * (2 : ℚ) ^ (binade q2) := mul_le_mul_of_nonneg_left hz (by positivity)
      _ ≤ _ := mul_le_mul_of_nonneg_right s2q hp2.le

/-- Rounding is monotone. -/
theorem round64_mono {q1 q2 : ℚ} (h : q1 ≤ q2) : round64 q1 ≤ round64 q2 := by
  rcases lt_trichotomy q1 0 with h1 | h1 | h1
  · rcases lt_or_le q2 0 with h2 | h2
    · rw [round64_of_neg h1, round64_of_neg h2]
      have := roundPos_mono (by linarith : 0 < -q2) (by linarith : -q2 ≤ -q1)
      linarith
    · have a := round64_nonneg h2
      have b := round64_pos (by linarith : 0 < -q1)
      rw [round64_neg] at b
      linarith
  · subst h1
    rw [round64_zero]
    exact round64_nonneg h
  · rw [round64_of_pos h1, round64_of_pos (lt_of_lt_of_le h1 h)]
    exact roundPos_mono h1 h

theorem roundPos_exact {m : Int} (k : Int) (hm1 : 0 < m) (hm2 : m ≤ 2 ^ 53) :
    roundPos ((m : ℚ) * (2 : ℚ) ^ k) = (m : ℚ) * (2 : ℚ) ^ k := by
  have hmq : (0 : ℚ) < (m : ℚ) := by exact_mod_cast hm1
  have hmq2 : (m : ℚ) ≤ 2 ^ 53 := by exact_mod_cast hm2
  have hq : (0 : ℚ) < (m : ℚ) * (2 : ℚ) ^ k := by positivity
  obtain ⟨b1, b2⟩ := binade_spec hq
  set q := (m : ℚ) * (2 : ℚ) ^ k
  have hx : q * (2 : ℚ) ^ (-binade q) = (m : ℚ) * (2 : ℚ) ^ (k - binade q) := by
    show (m : ℚ) * (2 : ℚ) ^ k * (2 : ℚ) ^ (-binade q) = _
    rw [mul_assoc, ← zpow_add₀ (by norm_num), sub_eq_add_neg]
  have hint : ∃ n : Int, q * (2 : ℚ) ^ (-binade q) = (n : ℚ) := by
    rw [hx]
    by_cases hk : binade q ≤ k
    · refine ⟨m * 2 ^ (k - binade q).toNat, ?_⟩
      push_cast
      rw [← zpow_natCast, Int.toNat_of_nonneg (by omega)]
    · have hk1 : k - binade q ≤ -1 := by omega
      rw [hx] at b1
      have hz : (2 : ℚ) ^ (k - binade q) ≤ (2 : ℚ) ^ (-1 : Int) :=
        zpow_le_zpow_right₀ (by norm_num) hk1
      have hz1 : (2 : ℚ) ^ (-1 : Int) = 1 / 2 := by norm_num
      have hk2 : k - binade q = -1 := by
        by_contra hne
        have hk3 : k - binade q ≤ -2 := by omega
        have hz2 : (2 : ℚ) ^ (k - binade q) ≤ (2 : ℚ) ^ (-2 : Int) :=
          zpow_le_zpow_right₀ (by norm_num) hk3
        have hz3 : (2 : ℚ) ^ (-2 : Int) = 1 / 4 := by norm_num
        have : (m : ℚ) * (2 : ℚ) ^ (k - binade q) ≤ 2 ^ 53 * (1 / 4) := by
          rw [← hz3]
          exact mul_le_mul hmq2 hz2 (by positivity) (by positivity)
        norm_num at this b1
        linarith
      rw [hk2, hz1] at b1 ⊢
      have hm3 : (m : ℚ) = 2 ^ 53 := by
        apply le_antisymm hmq2
        linarith
      refine ⟨2 ^ 52, ?_⟩
      rw [hm3]
      norm_num
  obtain ⟨n, hn⟩ := hint
  rw [roundPos_eq, hn, roundHalfEven_intCast, ← hn, mul_assoc, ← zpow_add₀ (by norm_num)]
  simp

/-- A number with a significand of at most 53 bits is rounded to itself. -/
theorem round64_exact (m k : Int) (hm : |m| ≤ 2 ^ 53) :
    round64 ((m : ℚ) * (2 : ℚ) ^ k) = (m : ℚ) * (2 : ℚ) ^ k := by
  have hp : (0 : ℚ) < (2 : ℚ) ^ k := by positivity
  rcases lt_trichotomy m 0 with h | h | h
  · have hq : (m : ℚ) * (2 : ℚ) ^ k < 0 := by
      have : (m : ℚ) < 0 := by exact_mod_cast h
      exact mul_neg_of_neg_of_pos this hp
    rw [round64_of_neg hq]
    have := roundPos_exact (m := -m) k (by omega) (by rw [abs_of_neg h] at hm; exact hm)
    push_cast at this
    rw [← neg_mul, this]
    ring
  · subst h
    simp [round64_zero]
  · have hq : 0 < (m : ℚ) * (2 : ℚ) ^ k := by
      have : (0 : ℚ) < (m : ℚ) := by exact_mod_cast h
      positivity
    rw [round64_of_pos hq]
    exact roundPos_exact k h (by rw [abs_of_pos h] at hm; exact hm)

theorem round64_intCast (n : Int) (h : |n| ≤ 2 ^ 53) : round64 (n : ℚ) = (n : ℚ) := by
  have := round64_exact n 0 h
  simpa using this

/-- Rounding leaves a rounded number as it is. -/
theorem round64_idem (q : ℚ) : round64 (round64 q) = round64 q := by
  have key : ∀ q : ℚ, 0 < q → round64 (round64 q) = round64 q := by
    intro q hq
    rw [round64_of_pos hq, roundPos_eq]
    obtain ⟨s1, s2⟩ := roundPos_significand hq
    apply round64_exact
    rw [abs_of_pos (by omega)]
    exact s2
  rcases lt_trichotomy q 0 with h | h | h
  · have := key (-q) (by linarith)
    rw [round64_neg, round64_neg] at this
    linarith
  · subst h
    simp [round64_zero]
  · exact key q h

theorem isqrtAux_spec (n : Nat) : ∀ (b r : Nat), r * r ≤ n →
    n < (r + 2 ^ (b + 1)) * (r + 2 ^ (b + 1)) →
    isqrtAux n b r * isqrtAux n b r ≤ n ∧ n < (isqrtAux n b r + 1) * (isqrtAux n b r + 1) := by
  intro b
  induction b with
  | zero =>
    intro r h1 h2
    unfold isqrtAux
    split
    · rename_i h
      refine ⟨h, ?_⟩
      have : r + 2 ^ (0 + 1) = r + 1 + 1 := by norm_num
      rwa [this] at h2
    · rename_i h
      exact ⟨h1, not_le.1 h⟩
  | succ b ih =>
    intro r h1 h2
    unfold isqrtAux
    split
    · rename_i h
      apply ih _ h
      have : r + 2 ^ (b + 1) + 2 ^ (b + 1) = r + 2 ^ (b + 1 + 1) := by
        rw [pow_succ 2 (b + 1)]
        ring
      rwa [this]
    · rename_i h
      exact ih _ h1 (not_le.1 h)

theorem isqrt_spec (n : Nat) : isqrt n * isqrt n ≤ n ∧ n < (isqrt n + 1) * (isqrt n + 1) := by
  unfold isqrt
  apply isqrtAux_spec n _ 0 (by simp)
  have hb : n < 2 ^ (bitLength n + 1) := by
    by_cases h0 : n = 0
    · subst h0
      positivity
    · have := (bitLength_spec h0).2.1
      calc n < 2 ^ bitLength n := this
        _ ≤ 2 ^ (bitLength n + 1) := Nat.pow_le_pow_right (by norm_num) (by omega)
  have : (0 + 2 ^ (bitLength n / 2 + 1 + 1)) * (0 + 2 ^ (bitLength n / 2 + 1 + 1))
      = 2 ^ (2 * (bitLength n / 2) + 4) := by
    rw [Nat.zero_add, ← pow_add]
    congr 1
    omega
  rw [this]
  calc n < 2 ^ (bitLength n + 1) := hb
    _ ≤ 2 ^ (2 * (bitLength n / 2) + 4) := Nat.pow_le_pow_right (by norm_num) (by omega)

theorem sqrt64_of_nonpos {q : ℚ} (hq : q ≤ 0) : sqrt64 q = 0 := by
  unfold sqrt64
  rw [if_pos hq]

/-- The number that `sqrt64` rounds is within `2 ^ -65` of the root. -/
theorem sqrt64_core {q : ℚ} (hq : 0 < q) :
    ∃ v : ℚ, sqrt64 q = round64 v ∧ 0 < v ∧
      Real.sqrt (q : ℝ) * (1 - 1 / 2 ^ 65) ≤ (v : ℝ) ∧
      (v : ℝ) ≤ Real.sqrt (q : ℝ) * (1 + 1 / 2 ^ 65) := by
  have hnum : 0 < q.num := Rat.num_pos.2 hq
  have ha0 : q.num.natAbs ≠ 0 := by omega
  have hd0 : q.den ≠ 0 := q.den_nz
  have hdpos : 0 < q.den := q.den_pos
  obtain ⟨d1, d2, d3⟩ := bitLength_spec hd0
  obtain ⟨y1, y2⟩ := isqrt_spec (q.num.natAbs * 4 ^ (64 + bitLength q.den) / q.den)
  have hN1 := Nat.div_mul_le_self (q.num.natAbs * 4 ^ (64 + bitLength q.den)) q.den
  have hN2 := Nat.lt_mul_div_succ (q.num.natAbs * 4 ^ (64 + bitLength q.den)) hdpos
  have hN3 : 2 ^ 128 ≤ q.num.natAbs * 4 ^ (64 + bitLength q.den) / q.den := by
    rw [Nat.le_div_iff_mul_le hdpos]
    have e : (4 : Nat) ^ (64 + bitLength q.den) = 2 ^ 128 * (2 ^ bitLength q.den * 2 ^ bitLength q.den) := by
      have : (4 : Nat) = 2 ^ 2 := by norm_num
      rw [this, ← pow_mul, ← pow_add, ← pow_add]
      congr 1
      omega
    calc 2 ^ 128 * q.den ≤ 2 ^ 128 * (2 ^ bitLength q.den * 2 ^ bitLength q.den) := by
          apply Nat.mul_le_mul_left
          calc q.den ≤ 2 ^ bitLength q.den := d2.le
            _ ≤ 2 ^ bitLength q.den * 2 ^ bitLength q.den :=
              Nat.le_mul_of_pos_left _ (by positivity)
      _ = 4 ^ (64 + bitLength q.den) := e.symm
      _ ≤ q.num.natAbs * 4 ^ (64 + bitLength q.den) :=
          Nat.le_mul_of_pos_left _ (Nat.pos_of_ne_zero ha0)
  set j := 64 + bitLength q.den with hj
  set n := q.num.natAbs * 4 ^ j with hn
  set N := n / q.den with hN
  set y := isqrt N with hy
  have hy64 : 2 ^ 64 ≤ y := by
    by_contra hlt
    have h1 : y + 1 ≤ 2 ^ 64 := by omega
    have : (y + 1) * (y + 1) ≤ 2 ^ 64 * 2 ^ 64 := Nat.mul_le_mul h1 h1
    have e : (2 : Nat) ^ 64 * 2 ^ 64 = 2 ^ 128 := by norm_num
    omega
  -- the real numbers involved
  have hW : (0 : ℝ) < (2 : ℝ) ^ j := by positivity
  have hqe : (q : ℝ) = (q.num.natAbs : ℝ) / (q.den : ℝ) := by
    have hc : ((q.num.natAbs : Int) : ℚ) = (q.num : ℚ) := by
      rw [Int.natAbs_of_nonneg hnum.le]
    have : q = (q.num.natAbs : ℚ) / (q.den : ℚ) := by
      rw [← Int.cast_natCast, hc]
      exact (Rat.num_div_den q).symm
    have h2 : (q : ℝ) = (((q.num.natAbs : ℚ) / (q.den : ℚ) : ℚ) : ℝ) := by rw [← this]
    rw [h2]
    push_cast
    rfl
  have hdR : (0 : ℝ) < (q.den : ℝ) := by exact_mod_cast hdpos
  have hZ : (q : ℝ) * ((2 : ℝ) ^ j) ^ 2 = (n : ℝ) / (q.den : ℝ) := by
    rw [hqe, hn]
    push_cast
    have : ((4 : ℝ)) ^ j = ((2 : ℝ) ^ j) ^ 2 := by
      rw [← pow_mul, mul_comm, pow_mul]
      norm_num
    rw [this]
    ring
  have hZ1 : (N : ℝ) ≤ (n : ℝ) / (q.den : ℝ) := by
    rw [le_div_iff₀ hdR]
    exact_mod_cast hN1
  have hZ2 : (n : ℝ) / (q.den : ℝ) < (N : ℝ) + 1 := by
    rw [div_lt_iff₀ hdR]
    have : n < (N + 1) * q.den := by
      rw [mul_comm]
      exact hN2
    exact_mod_cast this
  have hqR : (0 : ℝ) < (q : ℝ) := by exact_mod_cast hq
  have hRW : Real.sqrt (q : ℝ) * (2 : ℝ) ^ j = Real.sqrt ((n : ℝ) / (q.den : ℝ)) := by
    rw [← hZ, Real.sqrt_mul hqR.le, Real.sqrt_sq hW.le]
  have hY1 : (y : ℝ) ≤ Real.sqrt ((n : ℝ) / (q.den : ℝ)) := by
    apply Real.le_sqrt_of_sq_le
    have : ((y * y : Nat) : ℝ) ≤ (N : ℝ) := by exact_mod_cast y1
    push_cast at this
    calc (y : ℝ) ^ 2 = (y : ℝ) * (y : ℝ) := by ring
      _ ≤ (N : ℝ) := this
      _ ≤ _ := hZ1
  have hY2 : Real.sqrt ((n : ℝ) / (q.den : ℝ)) < (y : ℝ) + 1 := by
    have h0 : (0 : ℝ) ≤ (y : ℝ) + 1 := by positivity
    rw [Real.sqrt_lt' (by positivity)]
    have : (N : ℝ) + 1 ≤ (((y + 1) * (y + 1) : Nat) : ℝ) := by exact_mod_cast y2
    push_cast at this
    calc (n : ℝ) / (q.den : ℝ) < (N : ℝ) + 1 := hZ2
      _ ≤ ((y : ℝ) + 1) * ((y : ℝ) + 1) := this
      _ = ((y : ℝ) + 1) ^ 2 := by ring
  have hY64 : (2 : ℝ) ^ 64 ≤ (y : ℝ) := by exact_mod_cast hy64
  by_cases hex : (y * y == N && n % q.den == 0) = true
  · -- the root is `y / 2 ^ j` exactly
    refine ⟨scale2 (-(j : Int)) ((y : ℚ) + 0), ?_, ?_, ?_⟩
    · unfold sqrt64
      rw [if_neg (not_le.2 hq)]
      simp only [← hj, ← hn, ← hN, ← hy, hex, if_true]
    · rw [scale2_eq]
      have : (0 : ℚ) < (y : ℚ) := by
        have : 0 < y := by omega
        exact_mod_cast this
      positivity
    · simp only [Bool.and_eq_true, beq_iff_eq] at hex
      obtain ⟨e1, e2⟩ := hex
      have hdvd : q.den ∣ n := Nat.dvd_of_mod_eq_zero e2
      have hZN : (n : ℝ) / (q.den : ℝ) = (N : ℝ) := by
        rw [div_eq_iff hdR.ne']
        have : n = N * q.den := (Nat.div_mul_cancel hdvd).symm
        exact_mod_cast this
      have hv : ((scale2 (-(j : Int)) ((y : ℚ) + 0) : ℚ) : ℝ) = Real.sqrt (q : ℝ) := by
        rw [scale2_eq]
        push_cast
        have hs : Real.sqrt (q : ℝ) * (2 : ℝ) ^ j = (y : ℝ) := by
          rw [hRW, hZN]
          have : (N : ℝ) = (y : ℝ) ^ 2 := by
            have : ((y * y : Nat) : ℝ) = (N : ℝ) := by exact_mod_cast e1
            push_cast at this
            rw [← this]
            ring
          rw [this, Real.sqrt_sq (by positivity)]
        rw [zpow_neg, zpow_natCast, add_zero, ← hs]
        field_simp
      rw [hv]
      have := Real.sqrt_nonneg (q : ℝ)
      exact ⟨mul_le_of_le_one_right this (by norm_num), le_mul_of_one_le_right this (by norm_num)⟩
  · refine ⟨scale2 (-(j : Int)) ((y : ℚ) + 1 / 2), ?_, ?_, ?_⟩
    · unfold sqrt64
      rw [if_neg (not_le.2 hq)]
      simp only [← hj, ← hn, ← hN, ← hy, hex]
      rfl
    · rw [scale2_eq]
      positivity
    · have hv : ((scale2 (-(j : Int)) ((y : ℚ) + 1 / 2) : ℚ) : ℝ) * (2 : ℝ) ^ j = (y : ℝ) + 1 / 2 := by
        rw [scale2_eq]
        push_cast
        rw [zpow_neg, zpow_natCast]
        field_simp
        ring
      set v := ((scale2 (-(j : Int)) ((y : ℚ) + 1 / 2) : ℚ) : ℝ)
      set R := Real.sqrt (q : ℝ)
      rw [← hRW] at hY1 hY2
      have h65 : (1 : ℝ) / 2 ≤ R * (2 : ℝ) ^ j * (1 / 2 ^ 65) := by
        calc (1 : ℝ) / 2 = (2 : ℝ) ^ 64 * (1 / 2 ^ 65) := by norm_num
          _ ≤ R * (2 : ℝ) ^ j * (1 / 2 ^ 65) :=
            mul_le_mul_of_nonneg_right (hY64.trans hY1) (by positivity)
      constructor
      · apply le_of_mul_le_mul_right _ hW
        have e : R * (1 - 1 / 2 ^ 65) * (2 : ℝ) ^ j
            = R * (2 : ℝ) ^ j - R * (2 : ℝ) ^ j * (1 / 2 ^ 65) := by ring
        rw [e, hv]
        linarith
      · apply le_of_mul_le_mul_right _ hW
        have e : R * (1 + 1 / 2 ^ 65) * (2 : ℝ) ^ j
            = R * (2 : ℝ) ^ j + R * (2 : ℝ) ^ j * (1 / 2 ^ 65) := by ring
        rw [e, hv]
        linarith

theorem sqrt64_nonneg (q : ℚ) : 0 ≤ sqrt64 q := by
  rcases le_or_lt q 0 with h | h
  · rw [sqrt64_of_nonpos h]
  · obtain ⟨v, hv, hpos, -, -⟩ := sqrt64_core h
    rw [hv]
    exact round64_nonneg hpos.le

/-- The computed square root is within `2 ^ -53 + 2 ^ -64` of the root. -/
theorem sqrt64_bounds {q : ℚ} (hq : 0 ≤ q) :
    Real.sqrt (q : ℝ) * (1 - (1 / 2 ^ 53 + 1 / 2 ^ 64)) ≤ ((sqrt64 q : ℚ) : ℝ) ∧
    ((sqrt64 q : ℚ) : ℝ) ≤ Real.sqrt (q : ℝ) * (1 + (1 / 2 ^ 53 + 1 / 2 ^ 64)) := by
  rcases eq_or_lt_of_le hq with h | h
  · rw [← h, sqrt64_of_nonpos le_rfl]
    simp
  · obtain ⟨v, hv, hpos, h1, h2⟩ := sqrt64_core h
    rw [hv]
    have hR := Real.sqrt_nonneg (q : ℝ)
    have g1 : ((v * (1 - 1 / 2 ^ 53) : ℚ) : ℝ) ≤ ((round64 v : ℚ) : ℝ) := by
      exact_mod_cast round64_ge hpos.le
    have g2 : ((round64 v : ℚ) : ℝ) ≤ ((v * (1 + 1 / 2 ^ 53) : ℚ) : ℝ) := by
      exact_mod_cast round64_le hpos.le
    push_cast at g1 g2
    set R := Real.sqrt (q : ℝ)
    set V := (v : ℝ)
    constructor
    · calc R * (1 - (1 / 2 ^ 53 + 1 / 2 ^ 64))
          ≤ R * ((1 - 1 / 2 ^ 65) * (1 - 1 / 2 ^ 53)) :=
            mul_le_mul_of_nonneg_left (by norm_num) hR
        _ = R * (1 - 1 / 2 ^ 65) * (1 - 1 / 2 ^ 53) := by ring
        _ ≤ V * (1 - 1 / 2 ^ 53) := mul_le_mul_of_nonneg_right h1 (by norm_num)
        _ ≤ _ := g1
    · calc ((round64 v : ℚ) : ℝ) ≤ V * (1 + 1 / 2 ^ 53) := g2
        _ ≤ R * (1 + 1 / 2 ^ 65) * (1 + 1 / 2 ^ 53) :=
            mul_le_mul_of_nonneg_right h2 (by norm_num)
        _ = R * ((1 + 1 / 2 ^ 65) * (1 + 1 / 2 ^ 53)) := by ring
        _ ≤ R * (1 + (1 / 2 ^ 53 + 1 / 2 ^ 64)) :=
            mul_le_mul_of_nonneg_left (by norm_num) hR

/-- The computed sum of two squares of integers is within a factor
`(1 +- 2 ^ -53) ^ 2` of the sum. -/
theorem sumSquares_bounds (x y : Int) (hx : |x| ≤ 2 ^ 53) (hy : |y| ≤ 2 ^ 53) :
    ((x * x + y * y : Int) : ℚ) * (1 - 1 / 2 ^ 53) ^ 2 ≤
      round64 (round64 (round64 (x : ℚ) * round64 (x : ℚ)) +
        round64 (round64 (y : ℚ) * round64 (y : ℚ))) ∧
    round64 (round64 (round64 (x : ℚ) * round64 (x : ℚ)) +
        round64 (round64 (y : ℚ) * round64 (y : ℚ))) ≤
      ((x * x + y * y : Int) : ℚ) * (1 + 1 / 2 ^ 53) ^ 2 := by
  rw [round64_intCast x hx, round64_intCast y hy]
  have hX : (0 : ℚ) ≤ (x : ℚ) * (x : ℚ) := mul_self_nonneg _
  have hY : (0 : ℚ) ≤ (y : ℚ) * (y : ℚ) := mul_self_nonneg _
  have x1 := round64_ge hX
  have x2 := round64_le hX
  have y1 := round64_ge hY
  have y2 := round64_le hY
  have hs : (0 : ℚ) ≤ round64 ((x : ℚ) * (x : ℚ)) + round64 ((y : ℚ) * (y : ℚ)) :=
    add_nonneg (round64_nonneg hX) (round64_nonneg hY)
  have s1 := round64_ge hs
  have s2 := round64_le hs
  push_cast
  set X := (x : ℚ) * (x : ℚ)
  set Y := (y : ℚ) * (y : ℚ)
  set A := round64 X
  set B := round64 Y
  constructor
  · calc (X + Y) * (1 - 1 / 2 ^ 53) ^ 2
        = (X * (1 - 1 / 2 ^ 53) + Y * (1 - 1 / 2 ^ 53)) * (1 - 1 / 2 ^ 53) := by ring
      _ ≤ (A + B) * (1 - 1 / 2 ^ 53) :=
          mul_le_mul_of_nonneg_right (add_le_add x1 y1) (by norm_num)
      _ ≤ _ := s1
  · calc round64 (A + B) ≤ (A + B) * (1 + 1 / 2 ^ 53) := s2
      _ ≤ (X * (1 + 1 / 2 ^ 53) + Y * (1 + 1 / 2 ^ 53)) * (1 + 1 / 2 ^ 53) :=
          mul_le_mul_of_nonneg_right (add_le_add x2 y2) (by norm_num)
      _ = (X + Y) * (1 + 1 / 2 ^ 53) ^ 2 := by ring

/-- The computed length of an integer vector is within a factor
`(1 +- 2 ^ -53) * (1 +- (2 ^ -53 + 2 ^ -64))` of its length. -/
theorem length64_bounds (x y : Int) (hx : |x| ≤ 2 ^ 53) (hy : |y| ≤ 2 ^ 53) :
    Real.sqrt ((x * x + y * y : Int) : ℝ) * ((1 - 1 / 2 ^ 53) * (1 - (1 / 2 ^ 53 + 1 / 2 ^ 64))) ≤
      ((sqrt64 (round64 (round64 (round64 (x : ℚ) * round64 (x : ℚ)) +
        round64 (round64 (y : ℚ) * round64 (y : ℚ)))) : ℚ) : ℝ) ∧
    ((sqrt64 (round64 (round64 (round64 (x : ℚ) * round64 (x : ℚ)) +
        round64 (round64 (y : ℚ) * round64 (y : ℚ)))) : ℚ) : ℝ) ≤
      Real.sqrt ((x * x + y * y : Int) : ℝ) * ((1 + 1 / 2 ^ 53) * (1 + (1 / 2 ^ 53 + 1 / 2 ^ 64))) := by
  obtain ⟨b1, b2⟩ := sumSquares_bounds x y hx hy
  set S := round64 (round64 (round64 (x : ℚ) * round64 (x : ℚ)) +
        round64 (round64 (y : ℚ) * round64 (y : ℚ)))
  have hT : (0 : ℚ) ≤ ((x * x + y * y : Int) : ℚ) := by
    have : (0 : Int) ≤ x * x + y * y := add_nonneg (mul_self_nonneg _) (mul_self_nonneg _)
    exact_mod_cast this
  have hS : 0 ≤ S := le_trans (mul_nonneg hT (by positivity)) b1
  obtain ⟨c1, c2⟩ := sqrt64_bounds hS
  have b1R := (Rat.cast_le (K := ℝ)).2 b1
  have b2R := (Rat.cast_le (K := ℝ)).2 b2
  push_cast at b1R b2R
  have hTR : (0 : ℝ) ≤ ((x * x + y * y : Int) : ℝ) := by exact_mod_cast hT
  have hTe : ((x * x + y * y : Int) : ℝ) = (x : ℝ) * (x : ℝ) + (y : ℝ) * (y : ℝ) := by
    push_cast
    ring
  rw [← hTe] at b1R b2R
  set T := ((x * x + y * y : Int) : ℝ)
  have r1 : Real.sqrt T * (1 - 1 / 2 ^ 53) ≤ Real.sqrt (S : ℝ) := by
    have : Real.sqrt (T * (1 - 1 / 2 ^ 53) ^ 2) = Real.sqrt T * (1 - 1 / 2 ^ 53) := by
      rw [Real.sqrt_mul hTR, Real.sqrt_sq (by norm_num)]
    rw [← this]
    exact Real.sqrt_le_sqrt b1R
  have r2 : Real.sqrt (S : ℝ) ≤ Real.sqrt T * (1 + 1 / 2 ^ 53) := by
    have : Real.sqrt (T * (1 + 1 / 2 ^ 53) ^ 2) = Real.sqrt T * (1 + 1 / 2 ^ 53) := by
      rw [Real.sqrt_mul hTR, Real.sqrt_sq (by norm_num)]
    rw [← this]
    exact Real.sqrt_le_sqrt b2R
  constructor
  · calc Real.sqrt T * ((1 - 1 / 2 ^ 53) * (1 - (1 / 2 ^ 53 + 1 / 2 ^ 64)))
        = Real.sqrt T * (1 - 1 / 2 ^ 53) * (1 - (1 / 2 ^ 53 + 1 / 2 ^ 64)) := by ring
      _ ≤ Real.sqrt (S : ℝ) * (1 - (1 / 2 ^ 53 + 1 / 2 ^ 64)) :=
          mul_le_mul_of_nonneg_right r1 (by norm_num)
      _ ≤ _ := c1
  · calc ((sqrt64 S : ℚ) : ℝ) ≤ Real.sqrt (S : ℝ) * (1 + (1 / 2 ^ 53 + 1 / 2 ^ 64)) := c2
      _ ≤ Real.sqrt T * (1 + 1 / 2 ^ 53) * (1 + (1 / 2 ^ 53 + 1 / 2 ^ 64)) :=
          mul_le_mul_of_nonneg_right r2 (by norm_num)
      _ = _ := by ring

end Rounding
/-! ### Square roots and Euclidean distance -/

section Distance

variable {K : Type} [SqrtField K]

theorem sqrt_zero_eq : SqrtField.sqrt (0 : K) = 0 := by
  have h := SqrtField.mul_self_sqrt (0 : K) le_rfl
  exact mul_self_eq_zero.1 h

theorem sqrt_one_eq : SqrtField.sqrt (1 : K) = 1 := by
  have h := SqrtField.mul_self_sqrt (1 : K) zero_le_one
  have h0 := SqrtField.sqrt_nonneg (1 : K)
  nlinarith [sq_nonneg (SqrtField.sqrt (1 : K) - 1)]

/-- The triangle inequality for the Euclidean length computed with `sqrt`. -/
theorem sqrt_triangle (x₁ y₁ x₂ y₂ : K) :
    SqrtField.sqrt ((x₁ + x₂) * (x₁ + x₂) + (y₁ + y₂) * (y₁ + y₂)) ≤
      SqrtField.sqrt (x₁ * x₁ + y₁ * y₁) + SqrtField.sqrt (x₂ * x₂ + y₂ * y₂) := by
  set A := SqrtField.sqrt (x₁ * x₁ + y₁ * y₁) with hA
  set B := SqrtField.sqrt (x₂ * x₂ + y₂ * y₂) with hB
  set C := SqrtField.sqrt ((x₁ + x₂) * (x₁ + x₂) + (y₁ + y₂) * (y₁ + y₂)) with hC
  have hA0 : 0 ≤ A := SqrtField.sqrt_nonneg _
  have hB0 : 0 ≤ B := SqrtField.sqrt_nonneg _
  have hC0 : 0 ≤ C := SqrtField.sqrt_nonneg _
  have hA2 : A * A = x₁ * x₁ + y₁ * y₁ :=
    SqrtField.mul_self_sqrt _ (add_nonneg (mul_self_nonneg _) (mul_self_nonneg _))
  have hB2 : B * B = x₂ * x₂ + y₂ * y₂ :=
    SqrtField.mul_self_sqrt _ (add_nonneg (mul_self_nonneg _) (mul_self_nonneg _))
  have hC2 : C * C = (x₁ + x₂) * (x₁ + x₂) + (y₁ + y₂) * (y₁ + y₂) :=
    SqrtField.mul_self_sqrt _ (add_nonneg (mul_self_nonneg _) (mul_self_nonneg _))
  -- Cauchy-Schwarz: the inner product is at most `A * B`
  have hcs : x₁ * x₂ + y₁ * y₂ ≤ A * B := by
    by_contra hlt
    push_neg at hlt
    have hAB : 0 ≤ A * B := mul_nonneg hA0 hB0
    have h1 : (A * B) * (A * B) < (x₁ * x₂ + y₁ * y₂) * (x₁ * x₂ + y₁ * y₂) :=
      mul_self_lt_mul_self hAB hlt
    have h2 : (A * B) * (A * B) = (x₁ * x₁ + y₁ * y₁) * (x₂ * x₂ + y₂ * y₂) := by
      rw [← hA2, ← hB2]; ring
    nlinarith [mul_self_nonneg (x₁ * y₂ - y₁ * x₂)]
  by_contra hlt
  push_neg at hlt
  have h3 : (A + B) * (A + B) < C * C := mul_self_lt_mul_self (add_nonneg hA0 hB0) hlt
  nlinarith

theorem calculateDistance_nonneg (a b : Point) : (0 : K) ≤ calculateDistance a b :=
  SqrtField.sqrt_nonneg _

theorem getHeuristicCost_nonneg (t : Terrain K) (a b : Point) : 0 ≤ t.getHeuristicCost a b :=
  SqrtField.sqrt_nonneg _

theorem getHeuristicCost_self (t : Terrain K) (a : Point) : t.getHeuristicCost a a = 0 := by
  simp [Terrain.getHeuristicCost, sqrt_zero_eq]

/-- The heuristic is the distance function with its arguments exchanged. -/
theorem getHeuristicCost_eq_distance (t : Terrain K) (a b : Point) :
    t.getHeuristicCost a b = calculateDistance b a := by
  unfold Terrain.getHeuristicCost calculateDistance
  simp only
  congr 1
  have h1 : ((|b.x - a.x| : Int) : K) * ((|b.x - a.x| : Int) : K)
      = ((b.x - a.x : Int) : K) * ((b.x - a.x : Int) : K) := by
    rw [← Int.cast_mul, ← Int.cast_mul, abs_mul_abs_self]
  have h2 : ((|b.y - a.y| : Int) : K) * ((|b.y - a.y| : Int) : K)
      = ((b.y - a.y : Int) : K) * ((b.y - a.y : Int) : K) := by
    rw [← Int.cast_mul, ← Int.cast_mul, abs_mul_abs_self]
  rw [h1, h2]

/-- Consistency of the Euclidean heuristic with respect to the step length. -/
theorem getHeuristicCost_triangle (t : Terrain K) (a b goal : Point) :
    t.getHeuristicCost a goal ≤ calculateDistance a b + t.getHeuristicCost b goal := by
  rw [getHeuristicCost_eq_distance, getHeuristicCost_eq_distance]
  unfold calculateDistance
  simp only
  have h := sqrt_triangle (((b.x - a.x : Int) : K)) (((b.y - a.y : Int) : K))
    (((goal.x - b.x : Int) : K)) (((goal.y - b.y : Int) : K))
  have e1 : (((b.x - a.x : Int) : K)) + (((goal.x - b.x : Int) : K)) = ((goal.x - a.x : Int) : K) := by
    push_cast; ring
  have e2 : (((b.y - a.y : Int) : K)) + (((goal.y - b.y : Int) : K)) = ((goal.y - a.y : Int) : K) := by
    push_cast; ring
  rw [e1, e2] at h
  have e3 : ((a.x - b.x : Int) : K) * ((a.x - b.x : Int) : K)
      = ((b.x - a.x : Int) : K) * ((b.x - a.x : Int) : K) := by push_cast; ring
  have e4 : ((a.y - b.y : Int) : K) * ((a.y - b.y : Int) : K)
      = ((b.y - a.y : Int) : K) * ((b.y - a.y : Int) : K) := by push_cast; ring
  rw [e3, e4]
  exact h

end Distance

/-! ### The grid as a graph -/

section Neighbours

variable {K : Type}

theorem mem_getNeighbors {t : Terrain K} {a b : Point} :
    b ∈ t.getNeighbors a ↔
      (∃ d ∈ neighborOffsets, b = ⟨a.x + d.1, a.y + d.2⟩) ∧ t.isPassable b = true := by
  unfold Terrain.getNeighbors
  rw [List.mem_filter, List.mem_map]
  constructor
  · rintro ⟨⟨d, hd, rfl⟩, hp⟩
    exact ⟨⟨d, hd, rfl⟩, hp⟩
  · rintro ⟨⟨d, hd, rfl⟩, hp⟩
    exact ⟨⟨d, hd, rfl⟩, hp⟩

theorem offsets_spec {d : Int × Int} (hd : d ∈ neighborOffsets) :
    (-1 ≤ d.1 ∧ d.1 ≤ 1) ∧ (-1 ≤ d.2 ∧ d.2 ≤ 1) ∧ (d.1 ≠ 0 ∨ d.2 ≠ 0) := by
  simp only [neighborOffsets, List.mem_cons, List.mem_singleton, List.not_mem_nil, or_false] at hd
  rcases hd with rfl | rfl | rfl | rfl | rfl | rfl | rfl | rfl <;> decide

theorem isPassable_of_mem_getNeighbors {t : Terrain K} {a b : Point}
    (h : b ∈ t.getNeighbors a) : t.isPassable b = true :=
  (mem_getNeighbors.1 h).2

theorem isValidPosition_of_isPassable {t : Terrain K} {p : Point}
    (h : t.isPassable p = true) : t.isValidPosition p = true := by
  unfold Terrain.isPassable at h
  simp only [Bool.and_eq_true] at h
  exact h.1

theorem ne_of_mem_getNeighbors {t : Terrain K} {a b : Point}
    (h : b ∈ t.getNeighbors a) : b ≠ a := by
  obtain ⟨⟨d, hd, rfl⟩, _⟩ := mem_getNeighbors.1 h
  obtain ⟨_, _, h0⟩ := offsets_spec hd
  intro he
  have hx : a.x + d.1 = a.x := congrArg Point.x he
  have hy : a.y + d.2 = a.y := congrArg Point.y he
  rcases h0 with h0 | h0
  · exact h0 (by omega)
  · exact h0 (by omega)

theorem adjacent_of_mem_getNeighbors {t : Terrain K} {a b : Point}
    (h : b ∈ t.getNeighbors a) : |b.x - a.x| ≤ 1 ∧ |b.y - a.y| ≤ 1 := by
  obtain ⟨⟨d, hd, rfl⟩, _⟩ := mem_getNeighbors.1 h
  obtain ⟨h1, h2, _⟩ := offsets_spec hd
  simp only [add_sub_cancel_left]
  exact ⟨abs_le.2 h1, abs_le.2 h2⟩

end Neighbours

section Graph

variable {K : Type} [SqrtField K]

theorem one_le_getMovementCost {t : Terrain K} (hn : t.NonNeg) (p : Point) :
    1 ≤ t.getMovementCost p := by
  unfold Terrain.getMovementCost
  by_cases hv : t.isValidPosition p = true
  · obtain ⟨he, hw⟩ := hn p hv
    have h1 : 0 ≤ t.elevationAt p * 0.5 := mul_nonneg he (by norm_num)
    have h2 : 0 ≤ t.windAt p * 0.3 := mul_nonneg hw (by norm_num)
    simp only [hv, Bool.not_true, Bool.false_eq_true, if_false]
    cases t.typeAt p <;> simp only [NORMAL_COST, HILL_COST, WIND_COST, OBSTACLE_COST] <;>
      norm_num <;> linarith
  · simp only [Bool.not_eq_true] at hv
    simp only [hv, Bool.not_false, if_true, OBSTACLE_COST]
    norm_num

/-- The cost of a step in A* and Dijkstra is at least the length of the step. -/
theorem distance_le_stepCost {t : Terrain K} (hn : t.NonNeg) (a b : Point) :
    calculateDistance a b ≤ t.getMovementCost b * calculateDistance a b := by
  have h1 := one_le_getMovementCost hn b
  have h2 : (0 : K) ≤ calculateDistance a b := calculateDistance_nonneg a b
  nlinarith

/-- Whenever the version with checked table reads succeeds, `getMovementCost`
returns the same value. -/
theorem getMovementCostChecked_sound (t : Terrain K) (p : Point) (v : K)
    (h : t.getMovementCostChecked p = some v) : t.getMovementCost p = v := by
  unfold Terrain.getMovementCostChecked at h
  unfold Terrain.getMovementCost Terrain.typeAt Terrain.elevationAt Terrain.windAt
  by_cases hv : t.isValidPosition p = true
  · simp only [hv, Bool.not_true, Bool.false_eq_true, if_false] at h ⊢
    cases hg : cellAt t.grid p with
    | none => rw [hg] at h; simp at h
    | some ty =>
      rw [hg] at h
      cases he : cellAt t.elevationMap p with
      | none =>
        cases ty <;> simp [he] at h ⊢
        exact h
      | some e =>
        cases hw : cellAt t.windResistance p with
        | none =>
          cases ty <;> simp [he, hw] at h ⊢
          exact h
        | some w => cases ty <;> simp [he, hw] at h ⊢ <;> exact h
  · simp only [Bool.not_eq_true] at hv
    simp only [hv, Bool.not_false, if_true, Option.some.injEq] at h ⊢
    exact h
/-! ### Routes and their cost -/

theorem travelCostWith_append_singleton (t : Terrain K) (scale : K → K → K) :
    ∀ (l : List Point) (a p : Point), l.getLast? = some a →
      travelCostWith t scale (l ++ [p]) =
        travelCostWith t scale l + scale (t.getMovementCost p) (calculateDistance a p) := by
  intro l
  induction l with
  | nil => intro a p h; simp at h
  | cons x rest ih =>
    intro a p h
    cases rest with
    | nil =>
      simp only [List.getLast?_singleton, Option.some.injEq] at h
      subst h
      simp [travelCostWith]
    | cons y rest' =>
      have h' : (y :: rest').getLast? = some a := by
        rw [List.getLast?_cons_cons] at h; exact h
      have := ih a p h'
      rw [List.cons_append] at this
      rw [List.cons_append, List.cons_append]
      simp only [travelCostWith]
      rw [this]; ring

theorem isRoute_append_singleton {t : Terrain K} {l : List Point} {a p : Point}
    (hl : IsRoute t l) (hlast : l.getLast? = some a) (hstep : CanEnter t a p) :
    IsRoute t (l ++ [p]) := by
  unfold IsRoute at *
  rw [List.chain'_append]
  refine ⟨hl, List.chain'_singleton p, ?_⟩
  intro x hx y hy
  rw [hlast] at hx
  simp only [Option.mem_def, Option.some.injEq] at hx
  simp only [List.head?_cons, Option.mem_def, Option.some.injEq] at hy
  subst hx; subst hy
  exact hstep

end Graph

/-! ### One relaxation step -/

section Relax

variable {K : Type} [LinearOrder K] [Zero K] [Add K] [Mul K] [OfScientific K] [IntCast K] [HasSqrt K] {Q : Type}

theorem mapFind_mapSet (m : List (Point × K)) (p q : Point) (v : K) :
    mapFind (mapSet m p v) q = if p = q then some v else mapFind m q := by
  simp [mapSet, mapFind]

/-- The three ways in which the loop body treats a neighbour. -/
theorem relaxNeighbor_spec (pq : PriorityQueue K Q) (t : Terrain K) (hfun : Point → K)
    (scale : K → K → K) (u : PathNode K) (st : SearchState K Q) (w : Point) :
    (¬ t.getMovementCost w < 1000.0 ∧ relaxNeighbor pq t hfun scale u st w = st) ∨
    (t.getMovementCost w < 1000.0 ∧
      (∃ known, mapFind st.gScore w = some known ∧
        known ≤ u.gCost + scale (t.getMovementCost w) (calculateDistance u.position w)) ∧
      relaxNeighbor pq t hfun scale u st w = st) ∨
    (t.getMovementCost w < 1000.0 ∧
      (∀ known, mapFind st.gScore w = some known →
        u.gCost + scale (t.getMovementCost w) (calculateDistance u.position w) < known) ∧
      relaxNeighbor pq t hfun scale u st w =
        { openSet := pq.push st.openSet (PathNode.new w
            (u.gCost + scale (t.getMovementCost w) (calculateDistance u.position w))
            (hfun w) (some u))
          gScore := mapSet st.gScore w
            (u.gCost + scale (t.getMovementCost w) (calculateDistance u.position w))
          createdNodes := st.createdNodes ++ [PathNode.new w
            (u.gCost + scale (t.getMovementCost w) (calculateDistance u.position w))
            (hfun w) (some u)] }) := by
  unfold relaxNeighbor
  by_cases hc : t.getMovementCost w ≥ 1000.0
  · left
    exact ⟨not_lt.2 hc, by simp [hc]⟩
  · right
    have hc' : t.getMovementCost w < 1000.0 := not_le.1 hc
    simp only [hc, if_false]
    cases hf : mapFind st.gScore w with
    | none =>
      right
      exact ⟨hc', by simp, rfl⟩
    | some known =>
      by_cases hlt : u.gCost + scale (t.getMovementCost w) (calculateDistance u.position w) < known
      · right
        refine ⟨hc', ?_, by simp [hlt]⟩
        intro k hk
        simp only [Option.some.injEq] at hk
        subst hk
        exact hlt
      · left
        exact ⟨hc', ⟨known, rfl, not_lt.1 hlt⟩, by simp [hlt]⟩

end Relax

/-! ### Created nodes -/

section NodeFacts

variable {K : Type} [SqrtField K] {Q : Type}

theorem reconstructPath_getLast (n : PathNode K) :
    (reconstructPath n).getLast? = some n.position := by
  cases n <;> simp [reconstructPath, PathNode.position]

theorem reconstructPath_ne_nil (n : PathNode K) : reconstructPath n ≠ [] := by
  cases n <;> simp [reconstructPath]

theorem GoodNode.route {t : Terrain K} {hfun : Point → K} {scale : K → K → K} {start : Point}
    {n : PathNode K} (h : GoodNode t hfun scale start n) :
    IsRouteFromTo t start n.position (reconstructPath n) := by
  induction h with
  | root =>
    refine ⟨?_, by simp, by simp⟩
    simp [IsRoute]
  | child p pos _ hstep ih =>
    obtain ⟨hr, hh, hl⟩ := ih
    refine ⟨?_, ?_, by simp⟩
    · rw [reconstructPath_new_some]
      exact isRoute_append_singleton hr hl hstep
    · rw [reconstructPath_new_some]
      cases hrp : reconstructPath p with
      | nil => exact absurd hrp (reconstructPath_ne_nil p)
      | cons a rest =>
        rw [hrp] at hh
        simpa using hh

theorem GoodNode.gCost_eq {t : Terrain K} {hfun : Point → K} {scale : K → K → K} {start : Point}
    {n : PathNode K} (h : GoodNode t hfun scale start n) :
    n.gCost = travelCostWith t scale (reconstructPath n) := by
  induction h with
  | root => simp [travelCostWith]
  | child p pos _ _ ih =>
    rw [reconstructPath_new_some, gCost_new,
      travelCostWith_append_singleton t scale _ _ _ (reconstructPath_getLast p), ih]

theorem GoodNode.hCost_eq {t : Terrain K} {hfun : Point → K} {scale : K → K → K} {start : Point}
    {n : PathNode K} (h : GoodNode t hfun scale start n) : n.hCost = hfun n.position := by
  cases h <;> simp

theorem GoodNode.fCost_eq {t : Terrain K} {hfun : Point → K} {scale : K → K → K} {start : Point}
    {n : PathNode K} (h : GoodNode t hfun scale start n) : n.fCost = n.gCost + n.hCost := by
  cases h <;> simp

end NodeFacts

section CoreInvariant

variable {K : Type} [SqrtField K] {Q : Type}

theorem Core.init_core {pq : PriorityQueue K Q} (hpq : pq.Lawful) (t : Terrain K)
    (hfun : Point → K) (scale : K → K → K) (start : Point) :
    Core pq t hfun scale start (initialState pq hfun start) where
  open_sub := by
    intro n hn
    simp only [initialState, hpq.contents_push, hpq.contents_empty] at hn
    simp only [initialState]
    rw [Multiset.mem_cons] at hn
    rcases hn with rfl | hn
    · simp
    · simp at hn
  good := by
    intro n hn
    simp only [initialState, List.mem_singleton] at hn
    subst hn
    exact GoodNode.root
  score_le := by
    intro n hn
    simp only [initialState, List.mem_singleton] at hn
    subst hn
    exact ⟨0, by simp [initialState, mapFind_mapSet], by simp⟩
  closed := by
    intro n hn p hp
    simp only [initialState, List.mem_singleton] at hn
    subst hn
    simp at hp
  chains_nodup := by simp [initialState]
  start_le := ⟨0, by simp [initialState, mapFind_mapSet], le_rfl⟩

theorem Core.pop_core {pq : PriorityQueue K Q} (hpq : pq.Lawful) {t : Terrain K}
    {hfun : Point → K} {scale : K → K → K} {start : Point} {st : SearchState K Q}
    (hc : Core pq t hfun scale start st) {u : PathNode K} {rest : Q}
    (hpop : pq.pop st.openSet = some (u, rest)) :
    Core pq t hfun scale start { st with openSet := rest } ∧ u ∈ st.createdNodes := by
  obtain ⟨hcont, _⟩ := hpq.pop_some _ _ _ hpop
  refine ⟨⟨?_, hc.good, hc.score_le, hc.closed, hc.chains_nodup, hc.start_le⟩, ?_⟩
  · intro n hn
    exact hc.open_sub n (by rw [hcont]; exact Multiset.mem_cons_of_mem hn)
  · exact hc.open_sub u (by rw [hcont]; exact Multiset.mem_cons_self _ _)

theorem Core.relax_core {pq : PriorityQueue K Q} (hpq : pq.Lawful) {t : Terrain K}
    {hfun : Point → K} {scale : K → K → K} {start : Point} {st : SearchState K Q}
    (hc : Core pq t hfun scale start st) {u : PathNode K} (hu : u ∈ st.createdNodes)
    {w : Point} (hw : w ∈ t.getNeighbors u.position) :
    Core pq t hfun scale start (relaxNeighbor pq t hfun scale u st w) := by
  rcases relaxNeighbor_spec pq t hfun scale u st w with ⟨_, he⟩ | ⟨_, _, he⟩ | ⟨hcost, hupd, he⟩
  · rw [he]; exact hc
  · rw [he]; exact hc
  · rw [he]
    set tent := u.gCost + scale (t.getMovementCost w) (calculateDistance u.position w) with htent
    have hgood : GoodNode t hfun scale start (PathNode.new w tent (hfun w) (some u)) :=
      GoodNode.child u w (hc.good u hu) ⟨hw, hcost⟩
    refine ⟨?_, ?_, ?_, ?_, ?_, ?_⟩
    · intro n hn
      simp only [hpq.contents_push, Multiset.mem_cons] at hn
      simp only [List.mem_append, List.mem_singleton]
      rcases hn with rfl | hn
      · exact Or.inr rfl
      · exact Or.inl (hc.open_sub n hn)
    · intro n hn
      simp only [List.mem_append, List.mem_singleton] at hn
      rcases hn with hn | rfl
      · exact hc.good n hn
      · exact hgood
    · intro n hn
      simp only [List.mem_append, List.mem_singleton] at hn
      simp only [mapFind_mapSet]
      rcases hn with hn | rfl
      · obtain ⟨d, hd, hle⟩ := hc.score_le n hn
        by_cases hwn : w = n.position
        · refine ⟨tent, by simp [hwn], ?_⟩
          have := hupd d (by rw [hwn]; exact hd)
          exact le_trans (le_of_lt this) hle
        · exact ⟨d, by simp [hwn, hd], hle⟩
      · exact ⟨tent, by simp, by simp⟩
    · intro n hn p hp
      simp only [List.mem_append, List.mem_singleton] at hn ⊢
      rcases hn with hn | rfl
      · exact Or.inl (hc.closed n hn p hp)
      · simp only [parent_new, Option.some.injEq] at hp
        subst hp
        exact Or.inl hu
    · simp only [List.map_append, List.map_cons, List.map_nil]
      rw [List.nodup_append]
      refine ⟨hc.chains_nodup, List.nodup_singleton _, ?_⟩
      intro l hl hl'
      simp only [List.mem_singleton] at hl'
      subst hl'
      obtain ⟨m, hm, hml⟩ := List.mem_map.1 hl
      have hpos : m.position = w := by
        have h1 := reconstructPath_getLast m
        rw [hml, reconstructPath_getLast] at h1
        simpa using h1.symm
      have hg : m.gCost = tent := by
        rw [(hc.good m hm).gCost_eq, hml, ← hgood.gCost_eq, gCost_new]
      obtain ⟨d, hd, hle⟩ := hc.score_le m hm
      rw [hpos] at hd
      have := hupd d hd
      rw [hg] at hle
      exact absurd this (not_lt.2 hle)
    · obtain ⟨d, hd, hle⟩ := hc.start_le
      simp only [mapFind_mapSet]
      by_cases hws : w = start
      · refine ⟨tent, by simp [hws], ?_⟩
        have := hupd d (by rw [hws]; exact hd)
        exact le_trans (le_of_lt this) hle
      · exact ⟨d, by simp [hws, hd], hle⟩

/-- The created nodes only grow during the loop over the neighbours. -/
theorem relaxNeighbor_created_sub (pq : PriorityQueue K Q) (t : Terrain K) (hfun : Point → K)
    (scale : K → K → K) (u : PathNode K) (st : SearchState K Q) (w : Point) :
    ∀ n ∈ st.createdNodes, n ∈ (relaxNeighbor pq t hfun scale u st w).createdNodes := by
  intro n hn
  rcases relaxNeighbor_spec pq t hfun scale u st w with ⟨_, he⟩ | ⟨_, _, he⟩ | ⟨_, _, he⟩ <;>
    rw [he]
  · exact hn
  · exact hn
  · exact List.mem_append_left _ hn

theorem Core.foldl_core {pq : PriorityQueue K Q} (hpq : pq.Lawful) {t : Terrain K}
    {hfun : Point → K} {scale : K → K → K} {start : Point} {u : PathNode K} :
    ∀ (rem : List Point) (st : SearchState K Q), Core pq t hfun scale start st →
      u ∈ st.createdNodes → (∀ w ∈ rem, w ∈ t.getNeighbors u.position) →
      Core pq t hfun scale start (rem.foldl (relaxNeighbor pq t hfun scale u) st) := by
  intro rem
  induction rem with
  | nil => intro st hc _ _; exact hc
  | cons w rem ih =>
    intro st hc hu hrem
    rw [List.foldl_cons]
    exact ih _ (hc.relax_core hpq hu (hrem w (List.mem_cons_self _ _)))
      (relaxNeighbor_created_sub pq t hfun scale u st w u hu)
      (fun x hx => hrem x (List.mem_cons_of_mem _ hx))

end CoreInvariant

/-! ### The cost map -/

section SettledInvariant

variable {K : Type} [LinearOrder K] [Zero K] [Add K] [Mul K] [OfScientific K] [IntCast K] [HasSqrt K] {Q : Type}

/-- A relaxation never raises a recorded cost and never forgets one. -/
theorem relaxNeighbor_score_le (pq : PriorityQueue K Q) (t : Terrain K) (hfun : Point → K)
    (scale : K → K → K) (u : PathNode K) (st : SearchState K Q) (w x : Point) (d : K)
    (hd : mapFind st.gScore x = some d) :
    ∃ d', mapFind (relaxNeighbor pq t hfun scale u st w).gScore x = some d' ∧ d' ≤ d := by
  rcases relaxNeighbor_spec pq t hfun scale u st w with ⟨_, he⟩ | ⟨_, _, he⟩ | ⟨_, hupd, he⟩ <;>
    rw [he]
  · exact ⟨d, hd, le_rfl⟩
  · exact ⟨d, hd, le_rfl⟩
  · simp only [mapFind_mapSet]
    by_cases hwx : w = x
    · subst hwx
      exact ⟨_, by simp, le_of_lt (hupd d hd)⟩
    · exact ⟨d, by simp [hwx, hd], le_rfl⟩

/-- After a relaxation of the move from `u` to `w`, the cost recorded for `w` is
at most the cost of `u` plus the cost of the move. -/
theorem relaxNeighbor_target (pq : PriorityQueue K Q) (t : Terrain K) (hfun : Point → K)
    (scale : K → K → K) (u : PathNode K) (st : SearchState K Q) (w : Point)
    (hcost : t.getMovementCost w < 1000.0) :
    ∃ d', mapFind (relaxNeighbor pq t hfun scale u st w).gScore w = some d' ∧
      d' ≤ u.gCost + scale (t.getMovementCost w) (calculateDistance u.position w) := by
  rcases relaxNeighbor_spec pq t hfun scale u st w with ⟨hn, _⟩ | ⟨_, hk, he⟩ | ⟨_, _, he⟩
  · exact absurd hcost hn
  · rw [he]; exact hk
  · rw [he]
    exact ⟨_, by simp [mapFind_mapSet], le_rfl⟩

theorem relaxNeighbor_open_sub {pq : PriorityQueue K Q} (hpq : pq.Lawful) (t : Terrain K)
    (hfun : Point → K) (scale : K → K → K) (u : PathNode K) (st : SearchState K Q) (w : Point) :
    ∀ n ∈ pq.contents st.openSet,
      n ∈ pq.contents (relaxNeighbor pq t hfun scale u st w).openSet := by
  intro n hn
  rcases relaxNeighbor_spec pq t hfun scale u st w with ⟨_, he⟩ | ⟨_, _, he⟩ | ⟨_, _, he⟩ <;>
    rw [he]
  · exact hn
  · exact hn
  · simp only [hpq.contents_push]
    exact Multiset.mem_cons_of_mem hn

/-- A cost recorded after a relaxation was recorded before it, or belongs to the
node that the relaxation pushed. -/
theorem relaxNeighbor_score_origin {pq : PriorityQueue K Q} (hpq : pq.Lawful) (t : Terrain K)
    (hfun : Point → K) (scale : K → K → K) (u : PathNode K) (st : SearchState K Q)
    (w v : Point) (d : K)
    (hd : mapFind (relaxNeighbor pq t hfun scale u st w).gScore v = some d) :
    mapFind st.gScore v = some d ∨
      ∃ n ∈ pq.contents (relaxNeighbor pq t hfun scale u st w).openSet,
        n.position = v ∧ n.gCost = d := by
  rcases relaxNeighbor_spec pq t hfun scale u st w with ⟨_, he⟩ | ⟨_, _, he⟩ | ⟨_, _, he⟩ <;>
    rw [he] at hd ⊢
  · exact Or.inl hd
  · exact Or.inl hd
  · simp only [mapFind_mapSet] at hd
    by_cases hwv : w = v
    · simp only [hwv, if_true, Option.some.injEq] at hd
      right
      refine ⟨PathNode.new w
        (u.gCost + scale (t.getMovementCost w) (calculateDistance u.position w))
        (hfun w) (some u), ?_, ?_, ?_⟩
      · simp only [hpq.contents_push]
        exact Multiset.mem_cons_self _ _
      · simp [hwv]
      · simp only [gCost_new]; rw [← hd, hwv]
    · simp only [hwv, if_false] at hd
      exact Or.inl hd

theorem SettledMid.relax_settled {pq : PriorityQueue K Q} (hpq : pq.Lawful) {t : Terrain K}
    (hfun : Point → K) {scale : K → K → K} {goal : Point} {st : SearchState K Q}
    {u : PathNode K} {w : Point} {rem : List Point}
    (hs : SettledMid pq t scale goal st u (w :: rem)) :
    SettledMid pq t scale goal (relaxNeighbor pq t hfun scale u st w) u rem := by
  intro v d hd
  rcases relaxNeighbor_score_origin hpq t hfun scale u st w v d hd with hold | hnew
  · rcases hs v d hold with ⟨n, hn, hp, hg⟩ | ⟨hvg, hB⟩ | ⟨hv, hdu, hvg, hC⟩
    · exact Or.inl ⟨n, relaxNeighbor_open_sub hpq t hfun scale u st w n hn, hp, hg⟩
    · refine Or.inr (Or.inl ⟨hvg, ?_⟩)
      intro w' hw'
      obtain ⟨d', hd', hle⟩ := hB w' hw'
      obtain ⟨d'', hd'', hle'⟩ := relaxNeighbor_score_le pq t hfun scale u st w w' d' hd'
      exact ⟨d'', hd'', le_trans hle' hle⟩
    · refine Or.inr (Or.inr ⟨hv, hdu, hvg, ?_⟩)
      intro w' hw'
      rcases hC w' hw' with hmem | ⟨d', hd', hle⟩
      · rcases List.mem_cons.1 hmem with rfl | hmem
        · right
          obtain ⟨d', hd', hle⟩ := relaxNeighbor_target pq t hfun scale u st w' hw'.2
          exact ⟨d', hd', by rw [hv, hdu]; exact hle⟩
        · exact Or.inl hmem
      · right
        obtain ⟨d'', hd'', hle'⟩ := relaxNeighbor_score_le pq t hfun scale u st w w' d' hd'
        exact ⟨d'', hd'', le_trans hle' hle⟩
  · exact Or.inl hnew

theorem SettledMid.foldl_settled {pq : PriorityQueue K Q} (hpq : pq.Lawful) {t : Terrain K}
    (hfun : Point → K) {scale : K → K → K} {goal : Point} {u : PathNode K} :
    ∀ (rem : List Point) (st : SearchState K Q), SettledMid pq t scale goal st u rem →
      Settled pq t scale goal (rem.foldl (relaxNeighbor pq t hfun scale u) st) := by
  intro rem
  induction rem with
  | nil =>
    intro st hs v d hd
    rcases hs v d hd with h | h | ⟨_, _, hvg, hC⟩
    · exact Or.inl h
    · exact Or.inr h
    · refine Or.inr ⟨hvg, fun w hw => ?_⟩
      rcases hC w hw with hmem | h
      · simp at hmem
      · exact h
  | cons w rem ih =>
    intro st hs
    rw [List.foldl_cons]
    exact ih _ (hs.relax_settled hpq hfun)

theorem Settled.init_settled {pq : PriorityQueue K Q} (hpq : pq.Lawful) (t : Terrain K)
    (hfun : Point → K) (scale : K → K → K) (start goal : Point) :
    Settled pq t scale goal (initialState pq hfun start) := by
  intro v d hd
  simp only [initialState, mapFind_mapSet] at hd
  by_cases hsv : start = v
  · simp only [hsv, if_true, Option.some.injEq] at hd
    left
    refine ⟨PathNode.new start 0 (hfun start) none, ?_, by simp [hsv], by simp [hd]⟩
    simp only [initialState, hpq.contents_push]
    exact Multiset.mem_cons_self _ _
  · simp [hsv, mapFind] at hd

theorem Settled.pop_settled {pq : PriorityQueue K Q} (hpq : pq.Lawful) {t : Terrain K}
    {scale : K → K → K} {goal : Point} {st : SearchState K Q}
    (hs : Settled pq t scale goal st) {u : PathNode K} {rest : Q}
    (hpop : pq.pop st.openSet = some (u, rest)) (hug : u.position ≠ goal) :
    SettledMid pq t scale goal { st with openSet := rest } u (t.getNeighbors u.position) := by
  obtain ⟨hcont, _⟩ := hpq.pop_some _ _ _ hpop
  intro v d hd
  rcases hs v d hd with ⟨n, hn, hp, hg⟩ | h
  · rw [hcont, Multiset.mem_cons] at hn
    rcases hn with rfl | hn
    · refine Or.inr (Or.inr ⟨hp.symm, hg.symm, hp ▸ hug, ?_⟩)
      intro w hw
      left
      rw [hp]
      exact hw.1
    · exact Or.inl ⟨n, hn, hp, hg⟩
  · exact Or.inr (Or.inl h)

end SettledInvariant

/-! ### The main loop -/

section Loop

variable {K : Type} [SqrtField K] {Q : Type}

/-- Whatever the loop returns, it returns from a state reached along the loop:
either the open set of that state is empty and the result is the empty path,
or the node popped there is at the goal and the result is its path. -/
theorem searchLoop_final {pq : PriorityQueue K Q} {t : Terrain K} {hfun : Point → K}
    {scale : K → K → K} {goal : Point} (P : SearchState K Q → Prop)
    (hstep : ∀ st u rest, P st → pq.pop st.openSet = some (u, rest) → u.position ≠ goal →
      P ((t.getNeighbors u.position).foldl (relaxNeighbor pq t hfun scale u)
        { st with openSet := rest })) :
    ∀ (fuel : Nat) (st : SearchState K Q) (path : List Point), P st →
      searchLoop pq t hfun scale goal fuel st = some path →
      ∃ st', P st' ∧ ((pq.pop st'.openSet = none ∧ path = []) ∨
        ∃ u rest, pq.pop st'.openSet = some (u, rest) ∧ u.position = goal ∧
          path = reconstructPath u) := by
  intro fuel
  induction fuel with
  | zero => intro st path _ h; simp [searchLoop] at h
  | succ fuel ih =>
    intro st path hP h
    simp only [searchLoop] at h
    cases hpop : pq.pop st.openSet with
    | none =>
      rw [hpop] at h
      simp only [Option.some.injEq] at h
      exact ⟨st, hP, Or.inl ⟨hpop, h.symm⟩⟩
    | some v =>
      obtain ⟨u, rest⟩ := v
      rw [hpop] at h
      simp only at h
      by_cases hg : u.position = goal
      · simp only [hg, if_true, Option.some.injEq] at h
        exact ⟨st, hP, Or.inr ⟨u, rest, hpop, hg, h.symm⟩⟩
      · simp only [hg, if_false] at h
        exact ih _ path (hstep st u rest hP hpop hg) h

/-- More fuel does not change a result. -/
theorem searchLoop_mono {pq : PriorityQueue K Q} {t : Terrain K} {hfun : Point → K}
    {scale : K → K → K} {goal : Point} :
    ∀ (fuel : Nat) (st : SearchState K Q) (path : List Point),
      searchLoop pq t hfun scale goal fuel st = some path →
      ∀ extra, searchLoop pq t hfun scale goal (fuel + extra) st = some path := by
  intro fuel
  induction fuel with
  | zero => intro st path h; simp [searchLoop] at h
  | succ fuel ih =>
    intro st path h extra
    have e : fuel + 1 + extra = (fuel + extra) + 1 := by omega
    rw [e]
    simp only [searchLoop] at h ⊢
    cases hpop : pq.pop st.openSet with
    | none => rw [hpop] at h; exact h
    | some v =>
      obtain ⟨u, rest⟩ := v
      rw [hpop] at h
      simp only at h ⊢
      by_cases hg : u.position = goal
      · simp only [hg, if_true] at h ⊢; exact h
      · simp only [hg, if_false] at h ⊢
        exact ih _ path h extra

/-- The loop invariant holds in every state reached along the loop. -/
theorem invariant_step {pq : PriorityQueue K Q} (hpq : pq.Lawful) {t : Terrain K}
    {hfun : Point → K} {scale : K → K → K} {start goal : Point} (st : SearchState K Q)
    (u : PathNode K) (rest : Q)
    (hP : Core pq t hfun scale start st ∧ Settled pq t scale goal st)
    (hpop : pq.pop st.openSet = some (u, rest)) (hug : u.position ≠ goal) :
    Core pq t hfun scale start ((t.getNeighbors u.position).foldl
        (relaxNeighbor pq t hfun scale u) { st with openSet := rest }) ∧
      Settled pq t scale goal ((t.getNeighbors u.position).foldl
        (relaxNeighbor pq t hfun scale u) { st with openSet := rest }) := by
  obtain ⟨hc, hs⟩ := hP
  obtain ⟨hc', hu⟩ := hc.pop_core hpq hpop
  exact ⟨Core.foldl_core hpq _ _ hc' hu (fun _ h => h),
    SettledMid.foldl_settled hpq hfun _ _ (hs.pop_settled hpq hpop hug)⟩

end Loop

/-! ### Optimality and completeness at the end of the loop -/

section Optimality

variable {K : Type} [SqrtField K] {Q : Type}

/-- From every cell with a recorded cost that has a route to the goal, some
node of the open set lies on a route to the goal that is no more expensive. -/
theorem frontier {pq : PriorityQueue K Q} {t : Terrain K} {scale : K → K → K} {goal : Point}
    {st : SearchState K Q} (hs : Settled pq t scale goal st) :
    ∀ (L : List Point) (v : Point) (d : K), IsRouteFromTo t v goal L →
      mapFind st.gScore v = some d →
      ∃ m ∈ pq.contents st.openSet, ∃ L', IsRouteFromTo t m.position goal L' ∧
        m.gCost + travelCostWith t scale L' ≤ d + travelCostWith t scale L := by
  intro L
  induction L with
  | nil => intro v d hL _; simp [IsRouteFromTo] at hL
  | cons a rest ih =>
    intro v d hL hd
    obtain ⟨hr, hh, hl⟩ := hL
    simp only [List.head?_cons, Option.some.injEq] at hh
    subst hh
    rcases hs a d hd with ⟨n, hn, hp, hg⟩ | ⟨hvg, hB⟩
    · exact ⟨n, hn, a :: rest, by rw [hp]; exact ⟨hr, by simp, hl⟩, by rw [hg]⟩
    · cases rest with
      | nil =>
        simp only [List.getLast?_singleton, Option.some.injEq] at hl
        exact absurd hl hvg
      | cons b rest' =>
        have hstep : CanEnter t a b := by
          unfold IsRoute at hr
          exact (List.chain'_cons.1 hr).1
        have hr' : IsRoute t (b :: rest') := by
          unfold IsRoute at hr ⊢
          exact (List.chain'_cons.1 hr).2
        have hl' : (b :: rest').getLast? = some goal := by
          rw [List.getLast?_cons_cons] at hl; exact hl
        obtain ⟨d', hd', hle⟩ := hB b hstep
        obtain ⟨m, hm, L', hL', hcost⟩ := ih b d' ⟨hr', by simp, hl'⟩ hd'
        refine ⟨m, hm, L', hL', ?_⟩
        simp only [travelCostWith]
        linarith

/-- When the open set runs empty there is no route from the start to the goal. -/
theorem final_complete {pq : PriorityQueue K Q} (hpq : pq.Lawful) {t : Terrain K}
    {hfun : Point → K} {scale : K → K → K} {start goal : Point} {st : SearchState K Q}
    (hc : Core pq t hfun scale start st) (hs : Settled pq t scale goal st)
    (hpop : pq.pop st.openSet = none) (L : List Point) : ¬ IsRouteFromTo t start goal L := by
  intro hL
  obtain ⟨d, hd, _⟩ := hc.start_le
  obtain ⟨m, hm, _⟩ := frontier hs L start d hL hd
  rw [(hpq.pop_none _).1 hpop] at hm
  simp at hm

/-- The node popped at the goal has the least cost among all routes from the
start to the goal, provided the heuristic is admissible. -/
theorem final_optimal {pq : PriorityQueue K Q} (hpq : pq.Lawful) {t : Terrain K}
    {hfun : Point → K} {scale : K → K → K} {start goal : Point} {st : SearchState K Q}
    (hc : Core pq t hfun scale start st) (hs : Settled pq t scale goal st)
    (hadm : Admissible t scale hfun goal) (hgoal : 0 ≤ hfun goal)
    {u : PathNode K} {rest : Q} (hpop : pq.pop st.openSet = some (u, rest))
    (hug : u.position = goal) (L : List Point) (hL : IsRouteFromTo t start goal L) :
    travelCostWith t scale (reconstructPath u) ≤ travelCostWith t scale L := by
  obtain ⟨hcont, hmin⟩ := hpq.pop_some _ _ _ hpop
  obtain ⟨d, hd, hd0⟩ := hc.start_le
  obtain ⟨m, hm, L', hL', hcost⟩ := frontier hs L start d hL hd
  have hu : u ∈ st.createdNodes :=
    hc.open_sub u (by rw [hcont]; exact Multiset.mem_cons_self _ _)
  have hgu := hc.good u hu
  have hgm := hc.good m (hc.open_sub m hm)
  have hcmp := (comparator_eq_false_iff u m).1 (hmin m hm)
  have hfle : u.fCost ≤ m.fCost := by
    rcases hcmp with h | ⟨h, _⟩
    · exact le_of_lt h
    · exact le_of_eq h
  rw [hgu.fCost_eq, hgm.fCost_eq, hgu.hCost_eq, hgm.hCost_eq, hug] at hfle
  have hadm' := hadm m.position L' hL'
  rw [← hgu.gCost_eq]
  linarith

end Optimality

/-! ### Termination -/

section Termination

variable {K : Type} [SqrtField K] {Q : Type}

theorem ancestors_new_some (pos : Point) (g h : K) (p : PathNode K) :
    (PathNode.new pos g h (some p)).ancestors = PathNode.new pos g h (some p) :: p.ancestors := rfl

theorem ancestors_new_none (pos : Point) (g h : K) :
    (PathNode.new pos g h none).ancestors = [PathNode.new pos g h none] := rfl

theorem mem_reconstructPath (n : PathNode K) (p : Point) :
    p ∈ reconstructPath n ↔ ∃ a ∈ n.ancestors, a.position = p := by
  induction n with
  | root q g h f => simp [reconstructPath, PathNode.ancestors, PathNode.position, eq_comm]
  | child q g h f par ih =>
    simp only [reconstructPath, PathNode.ancestors, List.mem_append, List.mem_singleton, ih,
      List.mem_cons, exists_eq_or_imp, PathNode.position, List.not_mem_nil, or_false]
    constructor
    · rintro (h | h)
      · exact Or.inr h
      · exact Or.inl h.symm
    · rintro (h | h)
      · exact Or.inr h.symm
      · exact Or.inl h

theorem Core.ancestors_mem {pq : PriorityQueue K Q} {t : Terrain K} {hfun : Point → K}
    {scale : K → K → K} {start : Point} {st : SearchState K Q}
    (hc : Core pq t hfun scale start st) :
    ∀ n : PathNode K, n ∈ st.createdNodes → ∀ a ∈ n.ancestors, a ∈ st.createdNodes := by
  intro n
  induction n with
  | root q g h f =>
    intro hn a ha
    simp only [PathNode.ancestors, List.mem_singleton] at ha
    subst ha; exact hn
  | child q g h f par ih =>
    intro hn a ha
    simp only [PathNode.ancestors, List.mem_cons] at ha
    rcases ha with rfl | ha
    · exact hn
    · exact ih (hc.closed _ hn par rfl) a ha

theorem GoodNode.ancestors_le {t : Terrain K} {hfun : Point → K} {scale : K → K → K}
    {start : Point} (hns : NonnegSteps t scale) {n : PathNode K}
    (h : GoodNode t hfun scale start n) : ∀ a ∈ n.ancestors, a.gCost ≤ n.gCost := by
  induction h with
  | root =>
    intro a ha
    rw [ancestors_new_none, List.mem_singleton] at ha
    subst ha; exact le_rfl
  | child p pos _ hstep ih =>
    intro a ha
    rw [ancestors_new_some, List.mem_cons] at ha
    rcases ha with rfl | ha
    · exact le_rfl
    · have h1 := ih a ha
      have h2 := hns _ _ hstep
      rw [gCost_new]
      linarith

theorem Simple.init_simple (pq : PriorityQueue K Q) (hfun : Point → K) (start : Point) :
    Simple (initialState pq hfun start) := by
  intro n hn
  simp only [initialState, List.mem_singleton] at hn
  subst hn
  simp

theorem Simple.relax_simple {pq : PriorityQueue K Q} {t : Terrain K}
    {hfun : Point → K} {scale : K → K → K} {start : Point} {st : SearchState K Q}
    (hns : NonnegSteps t scale) (hc : Core pq t hfun scale start st) (hsimp : Simple st)
    {u : PathNode K} (hu : u ∈ st.createdNodes) {w : Point}
    (hw : w ∈ t.getNeighbors u.position) :
    Simple (relaxNeighbor pq t hfun scale u st w) := by
  rcases relaxNeighbor_spec pq t hfun scale u st w with ⟨_, he⟩ | ⟨_, _, he⟩ | ⟨hcost, hupd, he⟩
  · rw [he]; exact hsimp
  · rw [he]; exact hsimp
  · rw [he]
    intro n hn
    simp only [List.mem_append, List.mem_singleton] at hn
    rcases hn with hn | rfl
    · exact hsimp n hn
    · rw [reconstructPath_new_some]
      refine List.Nodup.append (hsimp u hu) (List.nodup_singleton _) ?_
      intro p hp hp'
      simp only [List.mem_singleton] at hp'
      subst hp'
      obtain ⟨a, ha, hap⟩ := (mem_reconstructPath u p).1 hp
      have hac := hc.ancestors_mem u hu a ha
      obtain ⟨d, hd, hle⟩ := hc.score_le a hac
      rw [hap] at hd
      have h1 := hupd d hd
      have h2 := (hc.good u hu).ancestors_le hns a ha
      have h3 := hns _ _ (⟨hw, hcost⟩ : CanEnter t u.position p)
      linarith

theorem Simple.foldl_simple {pq : PriorityQueue K Q} (hpq : pq.Lawful) {t : Terrain K}
    {hfun : Point → K} {scale : K → K → K} {start : Point} {u : PathNode K}
    (hns : NonnegSteps t scale) :
    ∀ (rem : List Point) (st : SearchState K Q), Core pq t hfun scale start st → Simple st →
      u ∈ st.createdNodes → (∀ w ∈ rem, w ∈ t.getNeighbors u.position) →
      Simple (rem.foldl (relaxNeighbor pq t hfun scale u) st) := by
  intro rem
  induction rem with
  | nil => intro st _ hs _ _; exact hs
  | cons w rem ih =>
    intro st hc hs hu hrem
    rw [List.foldl_cons]
    exact ih _ (hc.relax_core hpq hu (hrem w (List.mem_cons_self _ _)))
      (hs.relax_simple hns hc hu (hrem w (List.mem_cons_self _ _)))
      (relaxNeighbor_created_sub pq t hfun scale u st w u hu)
      (fun x hx => hrem x (List.mem_cons_of_mem _ hx))


theorem mem_allCells {t : Terrain K} {p : Point} (hv : t.isValidPosition p = true) :
    p ∈ allCells t := by
  obtain ⟨h1, h2, h3, h4⟩ := (isValidPosition_iff t p).1 hv
  unfold allCells
  rw [List.mem_flatMap]
  have hy : p.y.toNat < t.height.toNat := by omega
  have hx : p.x.toNat < t.width.toNat := by omega
  refine ⟨p.y.toNat, List.mem_range.2 hy, List.mem_map.2 ⟨p.x.toNat, List.mem_range.2 hx, ?_⟩⟩
  cases p with
  | mk x y =>
    simp only at h1 h3 ⊢
    simp only [Int.ofNat_eq_coe]
    rw [Int.toNat_of_nonneg h1, Int.toNat_of_nonneg h3]

theorem mem_simpleLists {α : Type} {U l : List α} (hnd : l.Nodup) (hsub : l ⊆ U) :
    l ∈ simpleLists U := by
  obtain ⟨l', hperm, hsl⟩ := List.subperm_of_subset hnd hsub
  unfold simpleLists
  rw [List.mem_flatMap]
  exact ⟨l', List.mem_sublists.2 hsl, List.mem_permutations.2 hperm.symm⟩

theorem route_subset {t : Terrain K} :
    ∀ (L : List Point) (a : Point), IsRoute t (a :: L) →
      ∀ p ∈ L, t.isPassable p = true := by
  intro L
  induction L with
  | nil => intro a _ p hp; simp at hp
  | cons b rest ih =>
    intro a hr p hp
    unfold IsRoute at hr
    obtain ⟨hstep, hr'⟩ := List.chain'_cons.1 hr
    rcases List.mem_cons.1 hp with rfl | hp
    · exact isPassable_of_mem_getNeighbors hstep.1
    · exact ih b hr' p hp

theorem GoodNode.path_subset {t : Terrain K} {hfun : Point → K} {scale : K → K → K}
    {start : Point} {n : PathNode K} (h : GoodNode t hfun scale start n) :
    reconstructPath n ⊆ start :: allCells t := by
  obtain ⟨hr, hh, _⟩ := h.route
  cases hrp : reconstructPath n with
  | nil => exact absurd hrp (reconstructPath_ne_nil n)
  | cons a rest =>
    rw [hrp] at hr hh
    simp only [List.head?_cons, Option.some.injEq] at hh
    subst hh
    intro p hp
    rcases List.mem_cons.1 hp with rfl | hp
    · exact List.mem_cons_self _ _
    · exact List.mem_cons_of_mem _
        (mem_allCells (isValidPosition_of_isPassable (route_subset rest a hr p hp)))

theorem created_length_le {pq : PriorityQueue K Q} {t : Terrain K} {hfun : Point → K}
    {scale : K → K → K} {start : Point} {st : SearchState K Q}
    (hc : Core pq t hfun scale start st) (hs : Simple st) :
    st.createdNodes.length ≤ chainBound t start := by
  have hsub : st.createdNodes.map reconstructPath ⊆ simpleLists (start :: allCells t) := by
    intro l hl
    obtain ⟨n, hn, rfl⟩ := List.mem_map.1 hl
    exact mem_simpleLists (hs n hn) (hc.good n hn).path_subset
  have := (List.subperm_of_subset hc.chains_nodup hsub).length_le
  simpa [chainBound] using this

/-- A relaxation adds as many nodes to the open set as to the created nodes. -/
theorem relaxNeighbor_count {pq : PriorityQueue K Q} (hpq : pq.Lawful) (t : Terrain K)
    (hfun : Point → K) (scale : K → K → K) (u : PathNode K) (st : SearchState K Q) (w : Point) :
    Multiset.card (pq.contents (relaxNeighbor pq t hfun scale u st w).openSet) +
        st.createdNodes.length =
      Multiset.card (pq.contents st.openSet) +
        (relaxNeighbor pq t hfun scale u st w).createdNodes.length := by
  rcases relaxNeighbor_spec pq t hfun scale u st w with ⟨_, he⟩ | ⟨_, _, he⟩ | ⟨_, _, he⟩ <;>
    rw [he]
  simp only [hpq.contents_push, Multiset.card_cons, List.length_append, List.length_singleton]
  omega

theorem foldl_relax_count {pq : PriorityQueue K Q} (hpq : pq.Lawful) (t : Terrain K)
    (hfun : Point → K) (scale : K → K → K) (u : PathNode K) :
    ∀ (rem : List Point) (st : SearchState K Q),
      Multiset.card (pq.contents (rem.foldl (relaxNeighbor pq t hfun scale u) st).openSet) +
          st.createdNodes.length =
        Multiset.card (pq.contents st.openSet) +
          (rem.foldl (relaxNeighbor pq t hfun scale u) st).createdNodes.length := by
  intro rem
  induction rem with
  | nil => intro st; rfl
  | cons w rem ih =>
    intro st
    rw [List.foldl_cons]
    have h1 := ih (relaxNeighbor pq t hfun scale u st w)
    have h2 := relaxNeighbor_count hpq t hfun scale u st w
    omega

theorem searchLoop_terminates_aux {pq : PriorityQueue K Q} (hpq : pq.Lawful) {t : Terrain K}
    {hfun : Point → K} {scale : K → K → K} {start : Point} (goal : Point)
    (hns : NonnegSteps t scale) :
    ∀ (fuel : Nat) (st : SearchState K Q), Core pq t hfun scale start st → Simple st →
      chainBound t start + Multiset.card (pq.contents st.openSet) <
        fuel + st.createdNodes.length →
      ∃ path, searchLoop pq t hfun scale goal fuel st = some path := by
  intro fuel
  induction fuel with
  | zero =>
    intro st hc hs hlt
    have := created_length_le hc hs
    omega
  | succ fuel ih =>
    intro st hc hs hlt
    simp only [searchLoop]
    cases hpop : pq.pop st.openSet with
    | none => exact ⟨[], rfl⟩
    | some v =>
      obtain ⟨u, rest⟩ := v
      simp only
      by_cases hg : u.position = goal
      · exact ⟨reconstructPath u, by simp [hg]⟩
      · simp only [hg, if_false]
        obtain ⟨hc', hu⟩ := hc.pop_core hpq hpop
        have hcard : Multiset.card (pq.contents st.openSet) =
            Multiset.card (pq.contents rest) + 1 := by
          rw [(hpq.pop_some _ _ _ hpop).1, Multiset.card_cons]
        have hcount := foldl_relax_count hpq t hfun scale u (t.getNeighbors u.position)
          { st with openSet := rest }
        apply ih
        · exact Core.foldl_core hpq _ _ hc' hu (fun _ h => h)
        · exact Simple.foldl_simple hpq hns _ _ hc' hs hu (fun _ h => h)
        · simp only at hcount
          omega

/-- With non-negative step costs the search loop finishes when started in its
initial state with more than `chainBound` units of fuel. -/
theorem searchLoop_terminates {pq : PriorityQueue K Q} (hpq : pq.Lawful) (t : Terrain K)
    (hfun : Point → K) {scale : K → K → K} (start goal : Point) (hns : NonnegSteps t scale) :
    ∃ path, searchLoop pq t hfun scale goal (chainBound t start + 1)
      (initialState pq hfun start) = some path := by
  apply searchLoop_terminates_aux hpq goal hns _ _ (Core.init_core hpq t hfun scale start)
    (Simple.init_simple pq hfun start)
  simp [initialState, hpq.contents_push, hpq.contents_empty]

end Termination

/-! ### Results about the three searches -/

section SearchResults

variable {K : Type} [SqrtField K] {Q : Type}

theorem mem_neighborOffsets_of_bounds {d : Int × Int} (h1 : -1 ≤ d.1 ∧ d.1 ≤ 1)
    (h2 : -1 ≤ d.2 ∧ d.2 ≤ 1) (h0 : d.1 ≠ 0 ∨ d.2 ≠ 0) : d ∈ neighborOffsets := by
  obtain ⟨a, b⟩ := d
  simp only at h1 h2 h0
  have ha : a = -1 ∨ a = 0 ∨ a = 1 := by omega
  have hb : b = -1 ∨ b = 0 ∨ b = 1 := by omega
  rcases ha with rfl | rfl | rfl <;> rcases hb with rfl | rfl | rfl <;>
    first
      | (exfalso; omega)
      | decide

/-- The moves of the search are the moves to a passable 8-adjacent cell whose
movement cost is below the obstacle penalty. -/
theorem canEnter_iff {t : Terrain K} {a b : Point} :
    CanEnter t a b ↔
      Adjacent8 a b ∧ t.isPassable b = true ∧ t.getMovementCost b < 1000.0 := by
  unfold CanEnter
  constructor
  · rintro ⟨hmem, hcost⟩
    exact ⟨⟨(ne_of_mem_getNeighbors hmem).symm, adjacent_of_mem_getNeighbors hmem⟩,
      isPassable_of_mem_getNeighbors hmem, hcost⟩
  · rintro ⟨⟨hne, hx, hy⟩, hpass, hcost⟩
    refine ⟨mem_getNeighbors.2 ⟨⟨(b.x - a.x, b.y - a.y), ?_, ?_⟩, hpass⟩, hcost⟩
    · apply mem_neighborOffsets_of_bounds (abs_le.1 hx) (abs_le.1 hy)
      by_contra hcon
      push_neg at hcon
      apply hne
      cases a; cases b
      simp only [Point.mk.injEq] at hcon ⊢
      constructor <;> omega
    · cases a; cases b
      simp only [Point.mk.injEq]
      constructor <;> omega

theorem isCellPath_iff {t : Terrain K} {start goal : Point} {path : List Point} :
    IsCellPath t start goal path ↔ IsRouteFromTo t start goal path := by
  unfold IsCellPath IsRouteFromTo IsRoute
  have : (fun a b => Adjacent8 a b ∧ t.isPassable b = true ∧ t.getMovementCost b < 1000.0)
      = CanEnter t := by
    funext a b
    exact propext canEnter_iff.symm
  rw [this]
  tauto

theorem nonnegSteps_of_nonNeg {t : Terrain K} (hn : t.NonNeg) :
    NonnegSteps t (fun movementCost distance => movementCost * distance) := by
  intro a b _
  have h1 := one_le_getMovementCost hn b
  have h2 : (0 : K) ≤ calculateDistance a b := calculateDistance_nonneg a b
  exact mul_nonneg (by linarith) h2

/-- The Euclidean heuristic of A* is admissible on grids with non-negative
elevation and wind resistance. -/
theorem admissible_heuristic {t : Terrain K} (hn : t.NonNeg) (goal : Point) :
    Admissible t (fun movementCost distance => movementCost * distance)
      (fun p => t.getHeuristicCost p goal) goal := by
  intro p L
  induction L generalizing p with
  | nil => intro hL; simp [IsRouteFromTo] at hL
  | cons a rest ih =>
    intro hL
    obtain ⟨hr, hh, hl⟩ := hL
    simp only [List.head?_cons, Option.some.injEq] at hh
    subst hh
    cases rest with
    | nil =>
      simp only [List.getLast?_singleton, Option.some.injEq] at hl
      subst hl
      simp [travelCostWith, getHeuristicCost_self]
    | cons b rest' =>
      unfold IsRoute at hr
      obtain ⟨_, hr'⟩ := List.chain'_cons.1 hr
      have hl' : (b :: rest').getLast? = some goal := by
        rw [List.getLast?_cons_cons] at hl; exact hl
      have h1 := ih b ⟨hr', by simp, hl'⟩
      have h2 := getHeuristicCost_triangle t a b goal
      have h3 := distance_le_stepCost hn a b
      simp only [travelCostWith]
      simp only at h1
      linarith

/-- A non-empty result of the loop is the path of a node at the goal. -/
theorem searchLoop_sound {pq : PriorityQueue K Q} (hpq : pq.Lawful) {t : Terrain K}
    {hfun : Point → K} {scale : K → K → K} {start goal : Point} {fuel : Nat}
    {path : List Point}
    (h : searchLoop pq t hfun scale goal fuel (initialState pq hfun start) = some path)
    (hne : path ≠ []) :
    ∃ u, GoodNode t hfun scale start u ∧ u.position = goal ∧ path = reconstructPath u := by
  obtain ⟨st', ⟨hc, _⟩, hfin⟩ := searchLoop_final
    (fun st => Core pq t hfun scale start st ∧ Settled pq t scale goal st)
    (fun st u rest hP hpop hug => invariant_step hpq st u rest hP hpop hug) fuel _ path
    ⟨Core.init_core hpq t hfun scale start, Settled.init_settled hpq t hfun scale start goal⟩ h
  rcases hfin with ⟨_, hnil⟩ | ⟨u, rest, hpop, hug, hpath⟩
  · exact absurd hnil hne
  · exact ⟨u, hc.good u (hc.pop_core hpq hpop).2, hug, hpath⟩

/-- A non-empty result of the loop is a route from the start to the goal. -/
theorem searchLoop_route {pq : PriorityQueue K Q} (hpq : pq.Lawful) {t : Terrain K}
    {hfun : Point → K} {scale : K → K → K} {start goal : Point} {fuel : Nat}
    {path : List Point}
    (h : searchLoop pq t hfun scale goal fuel (initialState pq hfun start) = some path)
    (hne : path ≠ []) : IsRouteFromTo t start goal path := by
  obtain ⟨u, hgood, hug, rfl⟩ := searchLoop_sound hpq h hne
  rw [← hug]
  exact hgood.route

/-- The loop returns the empty path exactly when no route leads to the goal. -/
theorem searchLoop_empty_iff {pq : PriorityQueue K Q} (hpq : pq.Lawful) {t : Terrain K}
    {hfun : Point → K} {scale : K → K → K} {start goal : Point} {fuel : Nat}
    {path : List Point}
    (h : searchLoop pq t hfun scale goal fuel (initialState pq hfun start) = some path) :
    path = [] ↔ ¬ ∃ L, IsRouteFromTo t start goal L := by
  constructor
  · intro hnil
    obtain ⟨st', ⟨hc, hs⟩, hfin⟩ := searchLoop_final
      (fun st => Core pq t hfun scale start st ∧ Settled pq t scale goal st)
      (fun st u rest hP hpop hug => invariant_step hpq st u rest hP hpop hug) fuel _ path
      ⟨Core.init_core hpq t hfun scale start, Settled.init_settled hpq t hfun scale start goal⟩ h
    rcases hfin with ⟨hpop, _⟩ | ⟨u, rest, _, _, hpath⟩
    · rintro ⟨L, hL⟩
      exact final_complete hpq hc hs hpop L hL
    · rw [hnil] at hpath
      exact absurd hpath.symm (reconstructPath_ne_nil u)
  · intro hno
    by_contra hne
    exact hno ⟨path, searchLoop_route hpq h hne⟩

/-- With an admissible heuristic a non-empty result of the loop costs no more
than any route from the start to the goal. -/
theorem searchLoop_optimal {pq : PriorityQueue K Q} (hpq : pq.Lawful) {t : Terrain K}
    {hfun : Point → K} {scale : K → K → K} {start goal : Point} {fuel : Nat}
    {path : List Point} (hadm : Admissible t scale hfun goal) (hgoal : 0 ≤ hfun goal)
    (h : searchLoop pq t hfun scale goal fuel (initialState pq hfun start) = some path)
    (hne : path ≠ []) (L : List Point) (hL : IsRouteFromTo t start goal L) :
    travelCostWith t scale path ≤ travelCostWith t scale L := by
  obtain ⟨st', ⟨hc, hs⟩, hfin⟩ := searchLoop_final
    (fun st => Core pq t hfun scale start st ∧ Settled pq t scale goal st)
    (fun st u rest hP hpop hug => invariant_step hpq st u rest hP hpop hug) fuel _ path
    ⟨Core.init_core hpq t hfun scale start, Settled.init_settled hpq t hfun scale start goal⟩ h
  rcases hfin with ⟨_, hnil⟩ | ⟨u, rest, hpop, hug, hpath⟩
  · exact absurd hnil hne
  · rw [hpath]
    exact final_optimal hpq hc hs hadm hgoal hpop hug L hL

/-- The result of a call does not depend on the fuel. -/
theorem returns_unique {α : Type} {run : Nat → Option α}
    (hmono : ∀ fuel r, run fuel = some r → ∀ extra, run (fuel + extra) = some r)
    {r₁ r₂ : α} (h₁ : Returns run r₁) (h₂ : Returns run r₂) : r₁ = r₂ := by
  obtain ⟨f₁, h₁⟩ := h₁
  obtain ⟨f₂, h₂⟩ := h₂
  have e₁ := hmono f₁ r₁ h₁ f₂
  have e₂ := hmono f₂ r₂ h₂ f₁
  rw [Nat.add_comm] at e₂
  rw [e₁] at e₂
  exact Option.some.inj e₂

end SearchResults

/-! ### Evaluation of concrete runs -/

section Evaluation

variable {K : Type} [SqrtField K] {Q : Type}

theorem sqrt_two_bounds : (1 : K) < SqrtField.sqrt 2 ∧ SqrtField.sqrt (2 : K) < 2 ∧
    SqrtField.sqrt (2 : K) * SqrtField.sqrt 2 = 2 := by
  have h2 := SqrtField.mul_self_sqrt (2 : K) (by norm_num)
  have h0 := SqrtField.sqrt_nonneg (2 : K)
  refine ⟨?_, ?_, h2⟩
  · by_contra h
    push_neg at h
    nlinarith
  · by_contra h
    push_neg at h
    nlinarith

theorem tie_neighbors00 : (tieTerrain K).getNeighbors ⟨0, 0⟩ = [⟨0, 1⟩, ⟨1, 0⟩, ⟨1, 1⟩] := by
  rfl

theorem tie_neighbors10 : (tieTerrain K).getNeighbors ⟨1, 0⟩ =
    [⟨0, 0⟩, ⟨0, 1⟩, ⟨1, 1⟩, ⟨2, 0⟩, ⟨2, 1⟩] := by
  rfl

theorem tie_cost00 : (tieTerrain K).getMovementCost ⟨0, 0⟩ = 1 := by
  simp [Terrain.getMovementCost, Terrain.isValidPosition, tieTerrain, Terrain.typeAt, cellAt,
    Terrain.elevationAt, Terrain.windAt, NORMAL_COST]
  norm_num

theorem tie_cost10 : (tieTerrain K).getMovementCost ⟨1, 0⟩ = 2 * SqrtField.sqrt 2 - 1 := by
  simp [Terrain.getMovementCost, Terrain.isValidPosition, tieTerrain, Terrain.typeAt, cellAt,
    Terrain.elevationAt, Terrain.windAt, NORMAL_COST]
  norm_num
  ring

theorem tie_cost11 : (tieTerrain K).getMovementCost ⟨1, 1⟩ = 1 := by
  simp [Terrain.getMovementCost, Terrain.isValidPosition, tieTerrain, Terrain.typeAt, cellAt,
    Terrain.elevationAt, Terrain.windAt, NORMAL_COST]
  norm_num

theorem tie_cost20 : (tieTerrain K).getMovementCost ⟨2, 0⟩ = 1 := by
  simp [Terrain.getMovementCost, Terrain.isValidPosition, tieTerrain, Terrain.typeAt, cellAt,
    Terrain.elevationAt, Terrain.windAt, NORMAL_COST]
  norm_num

theorem tie_cost01 : (tieTerrain K).getMovementCost ⟨0, 1⟩ = 1001 := by
  simp [Terrain.getMovementCost, Terrain.isValidPosition, tieTerrain, Terrain.typeAt, cellAt,
    Terrain.elevationAt, Terrain.windAt, NORMAL_COST]
  norm_num

theorem tie_cost21 : (tieTerrain K).getMovementCost ⟨2, 1⟩ = 1001 := by
  simp [Terrain.getMovementCost, Terrain.isValidPosition, tieTerrain, Terrain.typeAt, cellAt,
    Terrain.elevationAt, Terrain.windAt, NORMAL_COST]
  norm_num

theorem relaxNeighbor_skip {pq : PriorityQueue K Q} {t : Terrain K} {hfun : Point → K}
    {scale : K → K → K} {u : PathNode K} {st : SearchState K Q} {w : Point}
    (h : 1000.0 ≤ t.getMovementCost w) : relaxNeighbor pq t hfun scale u st w = st := by
  rcases relaxNeighbor_spec pq t hfun scale u st w with ⟨_, he⟩ | ⟨hc, _, _⟩ | ⟨hc, _, _⟩
  · exact he
  · exact absurd hc (not_lt.2 h)
  · exact absurd hc (not_lt.2 h)

theorem relaxNeighbor_keep {pq : PriorityQueue K Q} {t : Terrain K} {hfun : Point → K}
    {scale : K → K → K} {u : PathNode K} {st : SearchState K Q} {w : Point} (known : K)
    (hk : mapFind st.gScore w = some known)
    (hle : known ≤ u.gCost + scale (t.getMovementCost w) (calculateDistance u.position w)) :
    relaxNeighbor pq t hfun scale u st w = st := by
  rcases relaxNeighbor_spec pq t hfun scale u st w with ⟨_, he⟩ | ⟨_, _, he⟩ | ⟨_, hupd, _⟩
  · exact he
  · exact he
  · exact absurd (hupd known hk) (not_lt.2 hle)

theorem relaxNeighbor_push {pq : PriorityQueue K Q} {t : Terrain K} {hfun : Point → K}
    {scale : K → K → K} {u : PathNode K} {st : SearchState K Q} {w : Point} (g : K)
    (hc : t.getMovementCost w < 1000.0)
    (hg : u.gCost + scale (t.getMovementCost w) (calculateDistance u.position w) = g)
    (hk : ∀ known, mapFind st.gScore w = some known → g < known) :
    relaxNeighbor pq t hfun scale u st w =
      { openSet := pq.push st.openSet (PathNode.new w g (hfun w) (some u))
        gScore := mapSet st.gScore w g
        createdNodes := st.createdNodes ++ [PathNode.new w g (hfun w) (some u)] } := by
  subst hg
  rcases relaxNeighbor_spec pq t hfun scale u st w with ⟨hn, _⟩ | ⟨_, ⟨k, hk1, hk2⟩, _⟩ | ⟨_, _, he⟩
  · exact absurd hc hn
  · exact absurd (hk k hk1) (not_lt.2 hk2)
  · exact he

theorem searchLoop_found {pq : PriorityQueue K Q} {t : Terrain K} {hfun : Point → K}
    {scale : K → K → K} {goal : Point} {st : SearchState K Q} (u : PathNode K) (rest : Q)
    (fuel : Nat) (hpop : pq.pop st.openSet = some (u, rest)) (hg : u.position = goal) :
    searchLoop pq t hfun scale goal (fuel + 1) st = some (reconstructPath u) := by
  simp only [searchLoop, hpop, hg, if_true]

theorem searchLoop_expand {pq : PriorityQueue K Q} {t : Terrain K} {hfun : Point → K}
    {scale : K → K → K} {goal : Point} {st : SearchState K Q} (u : PathNode K) (rest : Q)
    (fuel : Nat) (hpop : pq.pop st.openSet = some (u, rest)) (hg : u.position ≠ goal) :
    searchLoop pq t hfun scale goal (fuel + 1) st =
      searchLoop pq t hfun scale goal fuel
        ((t.getNeighbors u.position).foldl (relaxNeighbor pq t hfun scale u)
          { st with openSet := rest }) := by
  simp only [searchLoop, hpop, hg, if_false]

theorem distance_straight_x (x y : Int) (x' : Int) (h : |x - x'| = 1) :
    calculateDistance (⟨x, y⟩ : Point) ⟨x', y⟩ = (1 : K) := by
  unfold calculateDistance
  simp only [sub_self, Int.cast_zero, mul_zero, add_zero]
  rw [← Int.cast_mul, ← abs_mul_abs_self, h]
  simp [sqrt_one_eq]

theorem distance_straight_y (x y : Int) (y' : Int) (h : |y - y'| = 1) :
    calculateDistance (⟨x, y⟩ : Point) ⟨x, y'⟩ = (1 : K) := by
  unfold calculateDistance
  simp only [sub_self, Int.cast_zero, mul_zero, zero_add]
  rw [← Int.cast_mul, ← abs_mul_abs_self, h]
  simp [sqrt_one_eq]

theorem distance_diagonal (x y x' y' : Int) (hx : |x - x'| = 1) (hy : |y - y'| = 1) :
    calculateDistance (⟨x, y⟩ : Point) ⟨x', y'⟩ = SqrtField.sqrt (2 : K) := by
  unfold calculateDistance
  simp only
  rw [← Int.cast_mul, ← Int.cast_mul, ← abs_mul_abs_self (x - x'), ← abs_mul_abs_self (y - y'),
    hx, hy]
  norm_num

theorem comparator_eq_true_iff (a b : PathNode K) :
    PathNodeComparator a b = true ↔
      b.fCost < a.fCost ∨ (a.fCost = b.fCost ∧ b.hCost < a.hCost) := by
  rw [← Bool.not_eq_false, comparator_eq_false_iff]
  constructor
  · intro h
    push_neg at h
    rcases lt_trichotomy a.fCost b.fCost with h1 | h1 | h1
    · exact absurd h1 (not_lt.2 h.1)
    · exact Or.inr ⟨h1, h.2 h1⟩
    · exact Or.inl h1
  · rintro (h | ⟨h1, h2⟩) hcon
    · rcases hcon with h' | ⟨h', _⟩
      · exact lt_asymm h h'
      · rw [h'] at h; exact lt_irrefl _ h
    · rcases hcon with h' | ⟨_, h'⟩
      · rw [h1] at h'; exact lt_irrefl _ h'
      · exact absurd h2 (not_lt.2 h')

/-- A lawful queue pops the node that the comparator ranks strictly above all
other nodes it holds. -/
theorem pop_of_strict_top {pq : PriorityQueue K Q} (hpq : pq.Lawful) (q : Q) (a : PathNode K)
    (others : Multiset (PathNode K)) (hc : pq.contents q = a ::ₘ others)
    (htop : ∀ b ∈ others, PathNodeComparator b a = true) :
    ∃ q', pq.pop q = some (a, q') ∧ pq.contents q' = others := by
  cases h : pq.pop q with
  | none =>
    rw [hpq.pop_none, hc] at h
    exact absurd h (Multiset.cons_ne_zero)
  | some v =>
    obtain ⟨n, q'⟩ := v
    obtain ⟨hcont, hmin⟩ := hpq.pop_some _ _ _ h
    have hn : n ∈ a ::ₘ others := by rw [← hc, hcont]; exact Multiset.mem_cons_self _ _
    rcases Multiset.mem_cons.1 hn with rfl | hn
    · refine ⟨q', rfl, ?_⟩
      rw [hc] at hcont
      exact ((Multiset.cons_inj_right n).1 hcont).symm
    · have h1 := htop n hn
      have h2 := hmin a (by rw [hc]; exact Multiset.mem_cons_self _ _)
      rw [h2] at h1
      exact absurd h1 (by simp)


theorem tie_astar {pq : PriorityQueue K Q} (hpq : pq.Lawful) :
    findPathAStar pq (tieTerrain K) 3 ⟨0, 0⟩ ⟨2, 0⟩ = some [⟨0, 0⟩, ⟨1, 0⟩, ⟨2, 0⟩] := by
  obtain ⟨hlo, hhi, hsq⟩ := sqrt_two_bounds (K := K)
  set s : K := SqrtField.sqrt 2 with hs
  have c00 := tie_cost00 (K := K)
  have c10 := tie_cost10 (K := K)
  have c11 := tie_cost11 (K := K)
  have c20 := tie_cost20 (K := K)
  have c01 := tie_cost01 (K := K)
  have c21 := tie_cost21 (K := K)
  rw [← hs] at c10
  have d_00_10 : calculateDistance (⟨0, 0⟩ : Point) ⟨1, 0⟩ = (1 : K) :=
    distance_straight_x _ _ _ (by decide)
  have d_00_11 : calculateDistance (⟨0, 0⟩ : Point) ⟨1, 1⟩ = s :=
    distance_diagonal _ _ _ _ (by decide) (by decide)
  have d_10_00 : calculateDistance (⟨1, 0⟩ : Point) ⟨0, 0⟩ = (1 : K) :=
    distance_straight_x _ _ _ (by decide)
  have d_10_11 : calculateDistance (⟨1, 0⟩ : Point) ⟨1, 1⟩ = (1 : K) :=
    distance_straight_y _ _ _ (by decide)
  have d_10_20 : calculateDistance (⟨1, 0⟩ : Point) ⟨2, 0⟩ = (1 : K) :=
    distance_straight_x _ _ _ (by decide)
  have h10 : (tieTerrain K).getHeuristicCost ⟨1, 0⟩ ⟨2, 0⟩ = 1 := by
    rw [getHeuristicCost_eq_distance]; exact distance_straight_x _ _ _ (by decide)
  have h11 : (tieTerrain K).getHeuristicCost ⟨1, 1⟩ ⟨2, 0⟩ = s := by
    rw [getHeuristicCost_eq_distance]; exact distance_diagonal _ _ _ _ (by decide) (by decide)
  have h20 : (tieTerrain K).getHeuristicCost ⟨2, 0⟩ ⟨2, 0⟩ = 0 := getHeuristicCost_self _ _
  have big : (1000.0 : K) ≤ 1001 := by norm_num
  have small : (1 : K) < 1000.0 := by norm_num
  have smallX : 2 * s - 1 < (1000.0 : K) := by norm_num; linarith
  unfold findPathAStar
  generalize hh0 : (tieTerrain K).getHeuristicCost ⟨0, 0⟩ ⟨2, 0⟩ = h0
  -- first iteration: the start node
  obtain ⟨q0, hpop0, hq0⟩ := pop_of_strict_top hpq
    (pq.push pq.empty (PathNode.new ⟨0, 0⟩ 0 h0 none)) (PathNode.new ⟨0, 0⟩ 0 h0 none) 0
    (by rw [hpq.contents_push, hpq.contents_empty]) (by simp)
  rw [searchLoop_expand (PathNode.new ⟨0, 0⟩ 0 h0 none) q0 2
    (by simp only [initialState, hh0]; exact hpop0) (by simp)]
  simp only [position_new, tie_neighbors00, List.foldl_cons, List.foldl_nil, initialState, hh0]
  rw [relaxNeighbor_skip (w := ⟨0, 1⟩) (by rw [c01]; exact big)]
  rw [relaxNeighbor_push (w := ⟨1, 0⟩) (2 * s - 1) (by rw [c10]; exact smallX)
    (by simp only [gCost_new, position_new, c10, d_00_10]; ring)
    (by intro k hk; simp [mapFind, mapSet] at hk)]
  rw [relaxNeighbor_push (w := ⟨1, 1⟩) s (by rw [c11]; exact small)
    (by simp only [gCost_new, position_new, c11, d_00_11]; ring)
    (by intro k hk; simp [mapFind, mapSet] at hk)]
  simp only [mapSet, List.cons_append, List.nil_append, h10, h11]
  -- second iteration: equal priority, the node at (1, 0) has the smaller heuristic
  obtain ⟨q1, hpop1, hq1⟩ := pop_of_strict_top hpq
    (pq.push (pq.push q0 (PathNode.new ⟨1, 0⟩ (2 * s - 1) 1
        (some (PathNode.new ⟨0, 0⟩ 0 h0 none))))
      (PathNode.new ⟨1, 1⟩ s s (some (PathNode.new ⟨0, 0⟩ 0 h0 none))))
    (PathNode.new ⟨1, 0⟩ (2 * s - 1) 1 (some (PathNode.new ⟨0, 0⟩ 0 h0 none)))
    {PathNode.new ⟨1, 1⟩ s s (some (PathNode.new ⟨0, 0⟩ 0 h0 none))}
    (by rw [hpq.contents_push, hpq.contents_push, hq0]; exact Multiset.pair_comm _ _)
    (by
      intro b hb
      rw [Multiset.mem_singleton] at hb
      subst hb
      rw [comparator_eq_true_iff]
      right
      simp only [fCost_new, hCost_new]
      exact ⟨by ring, hlo⟩)
  rw [searchLoop_expand (PathNode.new ⟨1, 0⟩ (2 * s - 1) 1 (some (PathNode.new ⟨0, 0⟩ 0 h0 none)))
    q1 1 hpop1 (by simp)]
  simp only [position_new, tie_neighbors10, List.foldl_cons, List.foldl_nil]
  rw [relaxNeighbor_keep (w := ⟨0, 0⟩) 0 (by simp [mapFind])
    (by simp only [gCost_new, position_new, c00, d_10_00]; linarith)]
  rw [relaxNeighbor_skip (w := ⟨0, 1⟩) (by rw [c01]; exact big)]
  rw [relaxNeighbor_keep (w := ⟨1, 1⟩) s (by simp [mapFind])
    (by simp only [gCost_new, position_new, c11, d_10_11]; linarith)]
  rw [relaxNeighbor_push (w := ⟨2, 0⟩) (2 * s) (by rw [c20]; exact small)
    (by simp only [gCost_new, position_new, c20, d_10_20]; ring)
    (by intro k hk; simp [mapFind] at hk)]
  rw [relaxNeighbor_skip (w := ⟨2, 1⟩) (by rw [c21]; exact big)]
  simp only [mapSet, List.cons_append, List.nil_append, h20]
  -- third iteration: equal priority, the node at the goal has the smaller heuristic
  obtain ⟨q2, hpop2, _⟩ := pop_of_strict_top hpq
    (pq.push q1 (PathNode.new ⟨2, 0⟩ (2 * s) 0
      (some (PathNode.new ⟨1, 0⟩ (2 * s - 1) 1 (some (PathNode.new ⟨0, 0⟩ 0 h0 none))))))
    (PathNode.new ⟨2, 0⟩ (2 * s) 0
      (some (PathNode.new ⟨1, 0⟩ (2 * s - 1) 1 (some (PathNode.new ⟨0, 0⟩ 0 h0 none)))))
    {PathNode.new ⟨1, 1⟩ s s (some (PathNode.new ⟨0, 0⟩ 0 h0 none))}
    (by rw [hpq.contents_push, hq1])
    (by
      intro b hb
      rw [Multiset.mem_singleton] at hb
      subst hb
      rw [comparator_eq_true_iff]
      right
      simp only [fCost_new, hCost_new]
      exact ⟨by ring, by linarith⟩)
  rw [searchLoop_found (PathNode.new ⟨2, 0⟩ (2 * s) 0
      (some (PathNode.new ⟨1, 0⟩ (2 * s - 1) 1 (some (PathNode.new ⟨0, 0⟩ 0 h0 none))))) q2 0
    hpop2 (by simp)]
  simp

end Evaluation

/-! ### The search functions -/

section Functions

variable {K : Type} [SqrtField K] {Q : Type}

theorem findPathAStar_terminates {pq : PriorityQueue K Q} (hpq : pq.Lawful) {t : Terrain K}
    (hn : t.NonNeg) (start goal : Point) :
    ∃ path, Returns (fun fuel => findPathAStar pq t fuel start goal) path := by
  obtain ⟨path, h⟩ := searchLoop_terminates hpq t (fun p => t.getHeuristicCost p goal) start goal
    (nonnegSteps_of_nonNeg hn)
  exact ⟨path, _, h⟩

theorem findPathDijkstra_terminates {pq : PriorityQueue K Q} (hpq : pq.Lawful) {t : Terrain K}
    (hn : t.NonNeg) (start goal : Point) :
    ∃ path, Returns (fun fuel => findPathDijkstra pq t fuel start goal) path := by
  obtain ⟨path, h⟩ := searchLoop_terminates hpq t (fun _ => (0 : K)) start goal
    (nonnegSteps_of_nonNeg hn)
  exact ⟨path, _, h⟩

theorem findPathAStar_optimal {pq : PriorityQueue K Q} (hpq : pq.Lawful) {t : Terrain K}
    (hn : t.NonNeg) {start goal : Point} {fuel : Nat} {path : List Point}
    (h : findPathAStar pq t fuel start goal = some path) (hne : path ≠ [])
    (L : List Point) (hL : IsRouteFromTo t start goal L) : travelCost t path ≤ travelCost t L :=
  searchLoop_optimal hpq (admissible_heuristic hn goal)
    (le_of_eq (getHeuristicCost_self t goal).symm) h hne L hL

theorem tie_nonNeg : (tieTerrain K).NonNeg := by
  obtain ⟨hlo, _, _⟩ := sqrt_two_bounds (K := K)
  intro p hv
  obtain ⟨h1, h2, h3, h4⟩ := (isValidPosition_iff _ p).1 hv
  obtain ⟨x, y⟩ := p
  simp only [tieTerrain] at h1 h2 h3 h4
  have hx : x = 0 ∨ x = 1 ∨ x = 2 := by omega
  have hy : y = 0 ∨ y = 1 := by omega
  rcases hx with rfl | rfl | rfl <;> rcases hy with rfl | rfl
  all_goals simp [Terrain.elevationAt, Terrain.windAt, cellAt, tieTerrain]
  linarith

end Functions

/-! ### Cells, neighbours and the heuristic -/

section CellFacts

variable {K : Type}

theorem isPassable_eq_not_isObstacle (t : Terrain K) (c : Point) :
    t.isPassable c = !t.isObstacle c := by
  unfold Terrain.isPassable Terrain.isObstacle
  cases t.isValidPosition c <;> simp

end CellFacts

section TerrainFacts

variable {K : Type} [SqrtField K]

theorem sqrt_eq_zero_iff {x : K} (hx : 0 ≤ x) : SqrtField.sqrt x = 0 ↔ x = 0 := by
  constructor
  · intro h
    have := SqrtField.mul_self_sqrt x hx
    rw [h] at this
    simpa using this.symm
  · intro h
    rw [h]; exact sqrt_zero_eq

theorem neighborOffsets_nodup : neighborOffsets.Nodup := by decide

theorem getNeighbors_nodup (t : Terrain K) (p : Point) : (t.getNeighbors p).Nodup := by
  unfold Terrain.getNeighbors
  apply List.Nodup.filter
  apply List.Nodup.map _ neighborOffsets_nodup
  intro d₁ d₂ h
  simp only [Point.mk.injEq] at h
  obtain ⟨h1, h2⟩ := h
  exact Prod.ext (by omega) (by omega)

theorem getNeighbors_length_le (t : Terrain K) (p : Point) : (t.getNeighbors p).length ≤ 8 := by
  unfold Terrain.getNeighbors
  refine le_trans (List.length_filter_le _ _) ?_
  simp [neighborOffsets]

/-- The heuristic never exceeds the travel cost of a sequence of cells that
starts at `a` and ends at the goal, whatever the cells in between. -/
theorem heuristic_le_travelCost {t : Terrain K} (hn : t.NonNeg) (goal : Point) :
    ∀ (L : List Point) (a : Point), L.head? = some a → L.getLast? = some goal →
      t.getHeuristicCost a goal ≤ travelCost t L := by
  intro L
  induction L with
  | nil => intro a h; simp at h
  | cons x rest ih =>
    intro a hh hl
    simp only [List.head?_cons, Option.some.injEq] at hh
    subst hh
    cases rest with
    | nil =>
      simp only [List.getLast?_singleton, Option.some.injEq] at hl
      subst hl
      simp [travelCost, travelCostWith, getHeuristicCost_self]
    | cons b rest' =>
      have hl' : (b :: rest').getLast? = some goal := by
        rw [List.getLast?_cons_cons] at hl; exact hl
      have h1 := ih b (by simp) hl'
      have h2 := getHeuristicCost_triangle t x b goal
      have h3 := distance_le_stepCost hn x b
      unfold travelCost at h1 ⊢
      simp only [travelCostWith]
      linarith

theorem route_tail_canEnter {t : Terrain K} :
    ∀ (L : List Point) (a : Point), IsRoute t (a :: L) → ∀ p ∈ L, ∃ q, CanEnter t q p := by
  intro L
  induction L with
  | nil => intro a _ p hp; simp at hp
  | cons b rest ih =>
    intro a hr p hp
    unfold IsRoute at hr
    obtain ⟨hstep, hr'⟩ := List.chain'_cons.1 hr
    rcases List.mem_cons.1 hp with rfl | hp
    · exact ⟨a, hstep⟩
    · exact ih b hr' p hp

end TerrainFacts

/-! ### The greedy walk -/

section Greedy

variable {K : Type} [LinearOrder K] [IntCast K] [Add K] [Mul K] [HasSqrt K]

theorem toSizeT_nonneg (n : Int) : 0 ≤ toSizeT n :=
  Int.emod_nonneg n (by norm_num)

theorem toSizeT_le {n : Int} (h : 0 ≤ n) : toSizeT n ≤ n := by
  unfold toSizeT
  omega

/-- Once the path is no longer than the size limit, the greedy loop returns a
path that exceeds the limit by at most one cell. -/
theorem greedyLoop_length_le (t : Terrain K) (goal : Point) :
    ∀ (fuel : Nat) (current : Point) (path r : List Point),
      (path.length : Int) ≤ toSizeT (t.width * t.height) →
      greedyLoop t goal fuel current path = some r →
      (r.length : Int) ≤ toSizeT (t.width * t.height) + 1 := by
  intro fuel
  induction fuel with
  | zero => intro current path r _ h; simp [greedyLoop] at h
  | succ fuel ih =>
    intro current path r hlen h
    simp only [greedyLoop] at h
    by_cases hg : current = goal
    · simp only [hg, if_true, Option.some.injEq] at h
      subst h; omega
    · simp only [hg, if_false] at h
      cases hnb : t.getNeighbors current with
      | nil =>
        rw [hnb] at h
        simp only [Option.some.injEq] at h
        subst h; omega
      | cons first others =>
        rw [hnb] at h
        simp only at h
        by_cases hbig : ((path ++ [bestNeighbor t goal first (first :: others)]).length : Int) >
            toSizeT (t.width * t.height)
        · simp only [hbig, if_true, Option.some.injEq] at h
          subst h
          simp only [List.length_append, List.length_singleton, Nat.cast_add, Nat.cast_one]
          omega
        · simp only [hbig, if_false] at h
          exact ih _ _ r (not_lt.1 hbig) h

/-- The greedy loop finishes when the fuel exceeds the number of cells that may
still be appended. -/
theorem greedyLoop_terminates (t : Terrain K) (goal : Point) :
    ∀ (fuel : Nat) (current : Point) (path : List Point),
      toSizeT (t.width * t.height) + 1 < (fuel : Int) + path.length →
      (path.length : Int) ≤ toSizeT (t.width * t.height) + 1 →
      ∃ r, greedyLoop t goal fuel current path = some r := by
  intro fuel
  induction fuel with
  | zero =>
    intro current path h1 h2
    simp only [Nat.cast_zero, zero_add] at h1
    omega
  | succ fuel ih =>
    intro current path h1 h2
    simp only [greedyLoop]
    by_cases hg : current = goal
    · exact ⟨path, by simp [hg]⟩
    · simp only [hg, if_false]
      cases hnb : t.getNeighbors current with
      | nil => exact ⟨path, rfl⟩
      | cons first others =>
        simp only
        by_cases hbig : ((path ++ [bestNeighbor t goal first (first :: others)]).length : Int) >
            toSizeT (t.width * t.height)
        · exact ⟨path ++ [bestNeighbor t goal first (first :: others)], by
            simp only [hbig, if_true]⟩
        · simp only [hbig, if_false]
          apply ih
          · simp only [List.length_append, List.length_singleton, Nat.cast_add, Nat.cast_one]
            push_cast at h1
            omega
          · have := not_lt.1 hbig
            omega

theorem bestNeighbor_singleton (t : Terrain K) (goal a : Point) :
    bestNeighbor t goal a [a] = a := by
  simp [bestNeighbor]

end Greedy

section GreedyExample

variable {K : Type} [SqrtField K]

theorem trap_neighbors00 : (trapTerrain K).getNeighbors ⟨0, 0⟩ = [⟨1, 0⟩] := by rfl

theorem trap_neighbors10 : (trapTerrain K).getNeighbors ⟨1, 0⟩ = [⟨0, 0⟩] := by rfl

/-- The greedy walk in the corridor: it oscillates until the path has one cell
more than the grid. -/
theorem trap_greedy :
    findPathGreedy (trapTerrain K) 4 ⟨0, 0⟩ ⟨2, 0⟩ = some [⟨0, 0⟩, ⟨1, 0⟩, ⟨0, 0⟩, ⟨1, 0⟩] := by
  have h1 : ((⟨0, 0⟩ : Point) = ⟨2, 0⟩) = False := by simp
  have h2 : ((⟨1, 0⟩ : Point) = ⟨2, 0⟩) = False := by simp
  have hT : toSizeT ((trapTerrain K).width * (trapTerrain K).height) = 3 := by
    simp [trapTerrain, toSizeT]
  simp only [findPathGreedy, greedyLoop, h1, h2, if_false, trap_neighbors00, trap_neighbors10,
    bestNeighbor_singleton, hT]
  simp

end GreedyExample

/-! ### Updates of the tables -/

section Tables

variable {K : Type} [SqrtField K]

theorem cellAt_setCell_ne {α : Type} (tbl : List (List α)) (x y : Int) (v : α) (q : Point)
    (hq : q ≠ ⟨x, y⟩) : cellAt (setCell tbl x y v) q = cellAt tbl q := by
  unfold setCell
  by_cases hxy : 0 ≤ x ∧ 0 ≤ y
  · simp only [hxy, and_self, if_true]
    unfold cellAt
    by_cases hqq : 0 ≤ q.x ∧ 0 ≤ q.y
    · simp only [hqq, and_self, if_true]
      by_cases hrow : y.toNat = q.y.toNat
      · have hyq : q.y = y := by omega
        have hxq : x.toNat ≠ q.x.toNat := by
          intro h
          apply hq
          cases q
          simp only [Point.mk.injEq] at *
          constructor <;> omega
        rw [List.getElem?_modify]
        cases hr : tbl[q.y.toNat]? with
        | none => simp
        | some row => simp [hrow, List.getElem?_set_ne hxq]
      · rw [List.getElem?_modify_ne _ _ hrow]
    · simp [hqq]
  · simp [hxy]

theorem cellAt_setCell_eq {α : Type} (tbl : List (List α)) (w h x y : Int) (v : α)
    (hs : TableShape tbl w h) (hx : 0 ≤ x ∧ x < w) (hy : 0 ≤ y ∧ y < h) :
    cellAt (setCell tbl x y v) ⟨x, y⟩ = some v := by
  obtain ⟨hlen, hrows⟩ := hs
  unfold setCell cellAt
  have hylt : y.toNat < tbl.length := by omega
  rw [if_pos ⟨hx.1, hy.1⟩, if_pos ⟨hx.1, hy.1⟩]
  rw [List.getElem?_modify_eq]
  rw [List.getElem?_eq_getElem hylt]
  have hrow := hrows (tbl[y.toNat]) (List.getElem_mem _)
  have hxlt : x.toNat < (tbl[y.toNat]).length := by omega
  simp only [Option.map_eq_map, Option.map_some']
  rw [List.getElem?_set_eq_of_lt v hxlt]


theorem setTerrain_typeAt_ne (t : Terrain K) (x y : Int) (ty : TerrainType) (q : Point)
    (hq : q ≠ ⟨x, y⟩) : (t.setTerrain x y ty).typeAt q = t.typeAt q := by
  unfold Terrain.setTerrain Terrain.typeAt
  by_cases hv : t.isValidPosition ⟨x, y⟩ = true
  · simp only [hv, if_true]
    rw [cellAt_setCell_ne _ _ _ _ _ hq]
  · simp [hv]

theorem setTerrain_typeAt_eq (t : Terrain K) (hwf : t.WellFormed) (x y : Int)
    (ty : TerrainType) (hv : t.isValidPosition ⟨x, y⟩ = true) :
    (t.setTerrain x y ty).typeAt ⟨x, y⟩ = ty := by
  obtain ⟨h1, h2, h3, h4⟩ := (isValidPosition_iff t ⟨x, y⟩).1 hv
  unfold Terrain.setTerrain Terrain.typeAt
  simp only [hv, if_true]
  rw [cellAt_setCell_eq _ _ _ _ _ _ hwf.2.2.1 ⟨h1, h2⟩ ⟨h3, h4⟩]
  rfl

theorem setTerrain_elevationAt (t : Terrain K) (x y : Int) (ty : TerrainType) (q : Point) :
    (t.setTerrain x y ty).elevationAt q = t.elevationAt q := by
  unfold Terrain.setTerrain Terrain.elevationAt
  by_cases hv : t.isValidPosition ⟨x, y⟩ = true <;> simp [hv]

theorem setTerrain_windAt (t : Terrain K) (x y : Int) (ty : TerrainType) (q : Point) :
    (t.setTerrain x y ty).windAt q = t.windAt q := by
  unfold Terrain.setTerrain Terrain.windAt
  by_cases hv : t.isValidPosition ⟨x, y⟩ = true <;> simp [hv]

theorem setTerrain_isValidPosition (t : Terrain K) (x y : Int) (ty : TerrainType) (q : Point) :
    (t.setTerrain x y ty).isValidPosition q = t.isValidPosition q := by
  unfold Terrain.setTerrain
  by_cases hv : t.isValidPosition ⟨x, y⟩ = true
  · simp only [hv, if_true]
    rfl
  · simp [hv]

theorem setTerrain_shapes (t : Terrain K) (x y : Int) (ty : TerrainType) :
    (t.setTerrain x y ty).elevationMap = t.elevationMap ∧
    (t.setTerrain x y ty).windResistance = t.windResistance ∧
    (t.setTerrain x y ty).width = t.width ∧ (t.setTerrain x y ty).height = t.height := by
  unfold Terrain.setTerrain
  by_cases hv : t.isValidPosition ⟨x, y⟩ = true <;> simp [hv]

theorem setElevation_elevationAt_ne (t : Terrain K) (x y : Int) (e : K) (q : Point)
    (hq : q ≠ ⟨x, y⟩) : (t.setElevation x y e).elevationAt q = t.elevationAt q := by
  unfold Terrain.setElevation Terrain.elevationAt
  by_cases hv : t.isValidPosition ⟨x, y⟩ = true
  · simp only [hv, if_true]
    rw [cellAt_setCell_ne _ _ _ _ _ hq]
  · simp [hv]

theorem setElevation_elevationAt_eq (t : Terrain K) (x y : Int) (e : K)
    (hs : TableShape t.elevationMap t.width t.height)
    (hv : t.isValidPosition ⟨x, y⟩ = true) :
    (t.setElevation x y e).elevationAt ⟨x, y⟩ = e := by
  obtain ⟨h1, h2, h3, h4⟩ := (isValidPosition_iff t ⟨x, y⟩).1 hv
  unfold Terrain.setElevation Terrain.elevationAt
  simp only [hv, if_true]
  rw [cellAt_setCell_eq _ _ _ _ _ _ hs ⟨h1, h2⟩ ⟨h3, h4⟩]
  rfl

theorem setElevation_typeAt (t : Terrain K) (x y : Int) (e : K) (q : Point) :
    (t.setElevation x y e).typeAt q = t.typeAt q := by
  unfold Terrain.setElevation Terrain.typeAt
  by_cases hv : t.isValidPosition ⟨x, y⟩ = true <;> simp [hv]

theorem setElevation_windAt (t : Terrain K) (x y : Int) (e : K) (q : Point) :
    (t.setElevation x y e).windAt q = t.windAt q := by
  unfold Terrain.setElevation Terrain.windAt
  by_cases hv : t.isValidPosition ⟨x, y⟩ = true <;> simp [hv]

theorem setWindResistance_windAt_ne (t : Terrain K) (x y : Int) (r : K) (q : Point)
    (hq : q ≠ ⟨x, y⟩) : (t.setWindResistance x y r).windAt q = t.windAt q := by
  unfold Terrain.setWindResistance Terrain.windAt
  by_cases hv : t.isValidPosition ⟨x, y⟩ = true
  · simp only [hv, if_true]
    rw [cellAt_setCell_ne _ _ _ _ _ hq]
  · simp [hv]

theorem setWindResistance_windAt_eq (t : Terrain K) (x y : Int) (r : K)
    (hs : TableShape t.windResistance t.width t.height)
    (hv : t.isValidPosition ⟨x, y⟩ = true) :
    (t.setWindResistance x y r).windAt ⟨x, y⟩ = r := by
  obtain ⟨h1, h2, h3, h4⟩ := (isValidPosition_iff t ⟨x, y⟩).1 hv
  unfold Terrain.setWindResistance Terrain.windAt
  simp only [hv, if_true]
  rw [cellAt_setCell_eq _ _ _ _ _ _ hs ⟨h1, h2⟩ ⟨h3, h4⟩]
  rfl

theorem setWindResistance_typeAt (t : Terrain K) (x y : Int) (r : K) (q : Point) :
    (t.setWindResistance x y r).typeAt q = t.typeAt q := by
  unfold Terrain.setWindResistance Terrain.typeAt
  by_cases hv : t.isValidPosition ⟨x, y⟩ = true <;> simp [hv]

theorem setWindResistance_elevationAt (t : Terrain K) (x y : Int) (r : K) (q : Point) :
    (t.setWindResistance x y r).elevationAt q = t.elevationAt q := by
  unfold Terrain.setWindResistance Terrain.elevationAt
  by_cases hv : t.isValidPosition ⟨x, y⟩ = true <;> simp [hv]

theorem tableShape_replicate {α : Type} (w h : Int) (hw : 0 ≤ w) (hh : 0 ≤ h) (v : α) :
    TableShape (List.replicate h.toNat (List.replicate w.toNat v)) w h := by
  constructor
  · simp [Int.toNat_of_nonneg hh]
  · intro row hrow
    rw [List.eq_of_mem_replicate hrow]
    simp [Int.toNat_of_nonneg hw]

/-- The constructor establishes the class invariant. -/
theorem new_wellFormed (w h : Int) (hw : 0 ≤ w) (hh : 0 ≤ h) :
    (Terrain.new w h : Terrain K).WellFormed :=
  ⟨hw, hh, tableShape_replicate w h hw hh _, tableShape_replicate w h hw hh _,
    tableShape_replicate w h hw hh _⟩

end Tables


/-! ### The path post-processor -/

section Simplify

variable {K : Type}

/-- The flag `canSkip` is cleared exactly when an interpolated cell strictly
between the two neighbours is an obstacle. -/
theorem canSkip_eq_false_iff (t : Terrain K) (prev next : Point) :
    canSkip t prev next = false ↔ ObstacleBetween t prev next := by
  unfold canSkip ObstacleBetween lineCell lineSteps
  simp only
  by_cases hs : max |next.x - prev.x| |next.y - prev.y| > 0
  · rw [if_pos hs]
    simp only [Bool.not_eq_false', List.any_eq_true, List.mem_range'_1]
    constructor
    · rintro ⟨k, ⟨h1, h2⟩, hk⟩
      exact ⟨(k : Int), by omega, by omega, hk⟩
    · rintro ⟨step, h1, h2, hk⟩
      refine ⟨step.toNat, ⟨by omega, by omega⟩, ?_⟩
      rw [Int.toNat_of_nonneg (by omega)]
      exact hk
  · rw [if_neg hs]
    constructor
    · intro h
      exact absurd h (by simp)
    · rintro ⟨step, h1, h2, _⟩
      omega

theorem canSkip_eq_true_iff (t : Terrain K) (prev next : Point) :
    canSkip t prev next = true ↔ ¬ ObstacleBetween t prev next := by
  rw [← canSkip_eq_false_iff]
  simp

theorem keptWaypoints_cons₃ (t : Terrain K) (a b c : Point) (rest : List Point) :
    keptWaypoints t (a :: b :: c :: rest) =
      (if canSkip t a c then [] else [b]) ++ keptWaypoints t (b :: c :: rest) := by
  rw [keptWaypoints]
  split <;> rfl

theorem keptWaypoints_short (t : Terrain K) (path : List Point) (h : path.length ≤ 2) :
    keptWaypoints t path = [] := by
  match path, h with
  | [], _ => rfl
  | [_], _ => rfl
  | [_, _], _ => rfl

/-- The waypoints kept by the loop, by index: the waypoint at index `i + 1` is
kept exactly when `canSkip` is false for the cells at indices `i` and `i + 2`. -/
theorem keptWaypoints_eq_filter (t : Terrain K) (d : Point) :
    ∀ path : List Point, keptWaypoints t path =
      ((List.range (path.length - 2)).filter (fun i =>
        !canSkip t (path.getD i d) (path.getD (i + 2) d))).map (fun i => path.getD (i + 1) d) := by
  intro path
  induction path with
  | nil => rfl
  | cons a l ih =>
    match l, ih with
    | [], _ => rfl
    | [_], _ => rfl
    | b :: c :: rest, ih =>
      rw [keptWaypoints_cons₃, ih]
      have hlen : (a :: b :: c :: rest).length - 2 = (rest.length) + 1 := by simp
      have hlen' : (b :: c :: rest).length - 2 = rest.length := by simp
      rw [hlen, hlen', List.range_succ_eq_map, List.filter_cons, List.filter_map]
      by_cases hc : canSkip t a c = true
      · simp [hc, Function.comp_def]
      · simp [hc, Function.comp_def]

theorem keptWaypoints_sublist (t : Terrain K) :
    ∀ (a : Point) (l : List Point), (keptWaypoints t (a :: l)).Sublist l.dropLast := by
  intro a l
  induction l generalizing a with
  | nil => exact List.Sublist.refl _
  | cons b l ih =>
    match l, ih with
    | [], _ => exact List.Sublist.refl _
    | c :: rest, ih =>
      rw [keptWaypoints_cons₃, List.dropLast_cons₂]
      by_cases hc : canSkip t a c = true
      · simpa [hc] using (ih b).cons b
      · simpa [hc] using (ih b).cons₂ b

theorem optimizePath_cons₃ (t : Terrain K) (a b c : Point) (rest : List Point) :
    optimizePath t (a :: b :: c :: rest) =
      a :: keptWaypoints t (a :: b :: c :: rest) ++ [(b :: c :: rest).getLast (by simp)] := by
  unfold optimizePath
  rw [if_neg (by simp)]
  simp [List.getLast?_eq_getLast, List.getLast_cons]

theorem optimizePath_sublist (t : Terrain K) (path : List Point) :
    (optimizePath t path).Sublist path := by
  match path with
  | [] => exact List.Sublist.refl _
  | [_] => exact List.Sublist.refl _
  | [_, _] => exact List.Sublist.refl _
  | a :: b :: c :: rest =>
    rw [optimizePath_cons₃]
    have h := keptWaypoints_sublist t a (b :: c :: rest)
    have h2 : (b :: c :: rest) = (b :: c :: rest).dropLast ++ [(b :: c :: rest).getLast (by simp)] :=
      (List.dropLast_append_getLast _).symm
    conv_rhs => rw [h2]
    exact (h.append (List.Sublist.refl _)).cons₂ a

theorem lineSteps_nonneg (a b : Point) : 0 ≤ lineSteps a b :=
  le_max_of_le_left (abs_nonneg _)

theorem lineCell_zero (a b : Point) : lineCell a b 0 = a := by
  simp [lineCell]

theorem lineCell_last (a b : Point) (h : 0 < lineSteps a b) : lineCell a b (lineSteps a b) = b := by
  have hne : lineSteps a b ≠ 0 := ne_of_gt h
  simp [lineCell, Int.mul_tdiv_cancel _ hne]

/-- Between two cells that differ by at most one in each coordinate there is no
interpolated cell, so the line is clear when the two cells are no obstacles. -/
theorem lineClear_of_adjacent {t : Terrain K} {a b : Point}
    (hx : |b.x - a.x| ≤ 1) (hy : |b.y - a.y| ≤ 1)
    (ha : t.isObstacle a = false) (hb : t.isObstacle b = false) : LineClear t a b := by
  intro step h0 h1
  have hs : lineSteps a b ≤ 1 := max_le hx hy
  rcases lt_or_eq_of_le h0 with hpos | rfl
  · have h2 : step = lineSteps a b := by omega
    rw [h2, lineCell_last a b (by omega)]
    exact hb
  · rw [lineCell_zero]
    exact ha

/-- When `canSkip` holds for two cells that are no obstacles, the whole line
between them is clear. -/
theorem lineClear_of_canSkip {t : Terrain K} {a b : Point} (hc : canSkip t a b = true)
    (ha : t.isObstacle a = false) (hb : t.isObstacle b = false) : LineClear t a b := by
  intro step h0 h1
  rcases lt_or_eq_of_le h0 with hpos | rfl
  · rcases lt_or_eq_of_le h1 with hlt | hlast
    · by_contra hob
      exact (canSkip_eq_true_iff t a b).1 hc ⟨step, by omega, hlt, by simpa using hob⟩
    · rw [hlast, lineCell_last a b (by omega)]
      exact hb
  · rw [lineCell_zero]
    exact ha

theorem optimizePath_cons_cons_cons (t : Terrain K) (a b c : Point) (rest : List Point) :
    optimizePath t (a :: b :: c :: rest) =
      a :: keptWaypoints t (a :: b :: c :: rest) ++ (b :: c :: rest).getLast?.toList := by
  rw [optimizePath_cons₃, List.getLast?_eq_getLast _ (by simp)]
  rfl

/-- The result of the pass is a chain of clear lines when consecutive cells of
the path are adjacent, no cell is an obstacle and no two consecutive waypoints
are both dropped. -/
theorem chain_lineClear_aux (t : Terrain K) :
    ∀ (n : Nat) (a : Point) (l : List Point), l.length ≤ n →
      List.Chain' (fun p q => |q.x - p.x| ≤ 1 ∧ |q.y - p.y| ≤ 1) (a :: l) →
      (∀ c ∈ a :: l, t.isObstacle c = false) →
      (∀ pre x y z w post, a :: l = pre ++ x :: y :: z :: w :: post →
        ¬ (canSkip t x z = true ∧ canSkip t y w = true)) →
      List.Chain' (LineClear t) (a :: keptWaypoints t (a :: l) ++ l.getLast?.toList) := by
  intro n
  induction n using Nat.strong_induction_on with
  | _ n ih =>
    intro a l hlen hadj hob hno
    match l, hlen, hadj, hob, hno with
    | [], _, _, _, _ => simp [keptWaypoints]
    | [b], _, hadj, hob, _ =>
      have hab := (List.chain'_cons.1 hadj).1
      simpa [keptWaypoints] using
        lineClear_of_adjacent hab.1 hab.2 (hob a (by simp)) (hob b (by simp))
    | b :: c :: rest, hlen, hadj, hob, hno =>
      have hab := (List.chain'_cons.1 hadj).1
      have hadj' := (List.chain'_cons.1 hadj).2
      have hob' : ∀ p ∈ b :: c :: rest, t.isObstacle p = false :=
        fun p hp => hob p (List.mem_cons_of_mem _ hp)
      have hno' : ∀ pre x y z w post, b :: c :: rest = pre ++ x :: y :: z :: w :: post →
          ¬ (canSkip t x z = true ∧ canSkip t y w = true) := by
        intro pre x y z w post he
        exact hno (a :: pre) x y z w post (by rw [he]; rfl)
      rw [keptWaypoints_cons₃, List.getLast?_cons_cons]
      by_cases hc : canSkip t a c = true
      · rw [if_pos hc, List.nil_append]
        match rest, hlen, hadj', hob', hno', hno with
        | [], _, _, _, _, _ =>
          simpa [keptWaypoints] using
            lineClear_of_canSkip hc (hob a (by simp)) (hob c (by simp))
        | d :: rest', hlen, hadj', hob', hno', hno =>
          have hbd : canSkip t b d = false := by
            have := hno [] a b c d rest' rfl
            simpa [hc] using this
          rw [keptWaypoints_cons₃, hbd, List.getLast?_cons_cons]
          simp only [Bool.false_eq_true, if_false, List.singleton_append, List.cons_append]
          refine List.Chain'.cons (lineClear_of_canSkip hc (hob a (by simp)) (hob c (by simp))) ?_
          have hadj'' := (List.chain'_cons.1 hadj').2
          have := ih (rest'.length + 1) (by simp at hlen ⊢; omega) c (d :: rest') (by simp) hadj''
            (fun p hp => hob' p (List.mem_cons_of_mem _ hp))
            (fun pre x y z w post he => hno' (b :: pre) x y z w post (by rw [he]; rfl))
          simpa using this
      · rw [if_neg hc]
        simp only [List.singleton_append, List.cons_append]
        refine List.Chain'.cons
          (lineClear_of_adjacent hab.1 hab.2 (hob a (by simp)) (hob b (by simp))) ?_
        have := ih (rest.length + 1) (by simp at hlen ⊢; omega) b (c :: rest) (by simp) hadj'
          hob' hno'
        simpa using this

/-- When `canSkip` is false for every interior waypoint, the loop keeps all of them. -/
theorem keptWaypoints_all (t : Terrain K) :
    ∀ (a : Point) (l : List Point),
      (∀ pre x y z post, a :: l = pre ++ x :: y :: z :: post → canSkip t x z = false) →
      keptWaypoints t (a :: l) = l.dropLast := by
  intro a l
  induction l generalizing a with
  | nil => intro _; rfl
  | cons b l ih =>
    intro h
    match l, ih, h with
    | [], _, _ => rfl
    | c :: rest, ih, h =>
      rw [keptWaypoints_cons₃, h [] a b c rest rfl, List.dropLast_cons₂]
      rw [ih b (fun pre x y z post he => h (a :: pre) x y z post (by rw [he]; rfl))]
      rfl

theorem optimizePath_eq_self (t : Terrain K) (path : List Point)
    (h : ∀ pre x y z post, path = pre ++ x :: y :: z :: post → canSkip t x z = false) :
    optimizePath t path = path := by
  match path, h with
  | [], _ => rfl
  | [_], _ => rfl
  | [_, _], _ => rfl
  | a :: b :: c :: rest, h =>
    rw [optimizePath_cons₃, keptWaypoints_all t a _ h, List.cons_append,
      List.dropLast_append_getLast]

theorem drop_pred_length {α : Type} : ∀ (l : List α) (h : l ≠ []),
    l.drop (l.length - 1) = [l.getLast h]
  | [x], _ => rfl
  | x :: y :: l, _ => by
    have ih := drop_pred_length (y :: l) (by simp)
    rw [List.getLast_cons (by simp)]
    simpa using ih

end Simplify

/-! ### Path cost and validity -/

section PathCost

variable {K : Type} [SqrtField K]

theorem foldl_cost_eq (t : Terrain K) (path : List Point) (acc : K) :
    path.foldl (fun totalCost p => totalCost + t.getMovementCost p) acc =
      acc + (path.map t.getMovementCost).sum := by
  induction path generalizing acc with
  | nil => simp
  | cons p rest ih => rw [List.foldl_cons, ih, List.map_cons, List.sum_cons, add_assoc]

/-- The loop of `calculatePathCost` adds up the movement costs of the cells. -/
theorem calculatePathCost_eq_sum (t : Terrain K) (path : List Point) :
    calculatePathCost t path = (path.map t.getMovementCost).sum := by
  unfold calculatePathCost
  cases path with
  | nil => norm_num
  | cons p rest =>
    rw [if_neg (by simp), foldl_cost_eq]
    norm_num

theorem getMovementCost_nonneg {t : Terrain K} (hn : t.NonNeg) (p : Point) :
    0 ≤ t.getMovementCost p :=
  le_trans zero_le_one (one_le_getMovementCost hn p)

/-- Dropping cells of non-negative movement cost does not increase the cost of a path. -/
theorem calculatePathCost_sublist (t : Terrain K) {p q : List Point} (h : p.Sublist q)
    (hq : ∀ c ∈ q, 0 ≤ t.getMovementCost c) : calculatePathCost t p ≤ calculatePathCost t q := by
  rw [calculatePathCost_eq_sum, calculatePathCost_eq_sum]
  apply List.Sublist.sum_le_sum (h.map _)
  intro x hx
  obtain ⟨c, hc, rfl⟩ := List.mem_map.1 hx
  exact hq c hc

theorem isPathValid_eq_true_iff (t : Terrain K) (path : List Point) :
    isPathValid t path = true ↔ ∀ c ∈ path, t.isPassable c = true := by
  simp [isPathValid]

end PathCost

/-! ### The example grids of the path post-processor -/

section SimplifyExamples

variable {K : Type} [SqrtField K]

theorem detour_optimizePath :
    optimizePath (detourTerrain K) [⟨0, 0⟩, ⟨1, 1⟩, ⟨2, 1⟩, ⟨3, 0⟩] = [⟨0, 0⟩, ⟨3, 0⟩] := by
  rfl

theorem detour_passable :
    ∀ c ∈ ([⟨0, 0⟩, ⟨1, 1⟩, ⟨2, 1⟩, ⟨3, 0⟩] : List Point), (detourTerrain K).isPassable c = true := by
  intro c hc
  simp only [List.mem_cons, List.mem_singleton, List.not_mem_nil, or_false] at hc
  rcases hc with rfl | rfl | rfl | rfl <;> rfl

theorem detour_adjacent :
    List.Chain' Adjacent8 ([⟨0, 0⟩, ⟨1, 1⟩, ⟨2, 1⟩, ⟨3, 0⟩] : List Point) := by
  simp [Adjacent8]

theorem detour_obstacle : (detourTerrain K).isObstacle (lineCell ⟨0, 0⟩ ⟨3, 0⟩ 2) = true := by
  rfl

theorem pit_optimizePath :
    optimizePath (pitTerrain K) [⟨0, 0⟩, ⟨1, 0⟩, ⟨2, 0⟩] = [⟨0, 0⟩, ⟨2, 0⟩] := by
  rfl

theorem pit_cost00 : (pitTerrain K).getMovementCost ⟨0, 0⟩ = 1 := by
  simp [Terrain.getMovementCost, Terrain.isValidPosition, pitTerrain, Terrain.typeAt, cellAt,
    Terrain.elevationAt, Terrain.windAt, NORMAL_COST]
  norm_num

theorem pit_cost10 : (pitTerrain K).getMovementCost ⟨1, 0⟩ = -4 := by
  simp [Terrain.getMovementCost, Terrain.isValidPosition, pitTerrain, Terrain.typeAt, cellAt,
    Terrain.elevationAt, Terrain.windAt, NORMAL_COST]
  norm_num

theorem pit_cost20 : (pitTerrain K).getMovementCost ⟨2, 0⟩ = 1 := by
  simp [Terrain.getMovementCost, Terrain.isValidPosition, pitTerrain, Terrain.typeAt, cellAt,
    Terrain.elevationAt, Terrain.windAt, NORMAL_COST]
  norm_num

end SimplifyExamples

/-! ## Costs and distances computed with the arithmetic of `double` -/

section DoubleCosts

set_option maxRecDepth 100000

theorem binary64_ext {a b : Binary64} (h : a.val = b.val) : a = b := by
  cases a; cases b; cases h; rfl

theorem binary64_le_iff (a b : Binary64) : a ≤ b ↔ a.val ≤ b.val := Iff.rfl

theorem binary64_lt_iff (a b : Binary64) : a < b ↔ a.val < b.val := Iff.rfl

theorem binary64_add_val (a b : Binary64) : (a + b).val = round64 (a.val + b.val) := rfl

theorem binary64_mul_val (a b : Binary64) : (a * b).val = round64 (a.val * b.val) := rfl

theorem binary64_zero_val : (0 : Binary64).val = 0 := rfl

theorem round64_one : round64 1 = 1 := by
  have := round64_intCast 1 (by norm_num)
  simpa using this

theorem binary64_getHeuristicCost_val (t : Terrain Binary64) (a g : Point) :
    (t.getHeuristicCost a g).val =
      sqrt64 (round64 (round64 (round64 ((|g.x - a.x| : Int) : ℚ) * round64 ((|g.x - a.x| : Int) : ℚ)) +
        round64 (round64 ((|g.y - a.y| : Int) : ℚ) * round64 ((|g.y - a.y| : Int) : ℚ)))) := rfl

theorem binary64_calculateDistance_val (a b : Point) :
    (calculateDistance a b : Binary64).val =
      sqrt64 (round64 (round64 (round64 ((a.x - b.x : Int) : ℚ) * round64 ((a.x - b.x : Int) : ℚ)) +
        round64 (round64 ((a.y - b.y : Int) : ℚ) * round64 ((a.y - b.y : Int) : ℚ)))) := rfl

theorem binary64_getHeuristicCost_nonneg (t : Terrain Binary64) (a g : Point) :
    0 ≤ (t.getHeuristicCost a g).val := sqrt64_nonneg _

theorem binary64_calculateDistance_nonneg (a b : Point) :
    0 ≤ (calculateDistance a b : Binary64).val := sqrt64_nonneg _

/-- The triangle inequality for the exact Euclidean distance between cells. -/
theorem realDistance_triangle (a b g : Point) :
    Real.sqrt ((squaredDistance a g : Int) : ℝ) ≤
      Real.sqrt ((squaredDistance a b : Int) : ℝ) + Real.sqrt ((squaredDistance b g : Int) : ℝ) := by
  have h := sqrt_triangle (K := ℝ) ((b.x - a.x : Int) : ℝ) ((b.y - a.y : Int) : ℝ)
    ((g.x - b.x : Int) : ℝ) ((g.y - b.y : Int) : ℝ)
  have e1 : ((b.x - a.x : Int) : ℝ) + ((g.x - b.x : Int) : ℝ) = ((g.x - a.x : Int) : ℝ) := by
    push_cast; ring
  have e2 : ((b.y - a.y : Int) : ℝ) + ((g.y - b.y : Int) : ℝ) = ((g.y - a.y : Int) : ℝ) := by
    push_cast; ring
  rw [e1, e2] at h
  unfold squaredDistance
  push_cast at h ⊢
  exact h

theorem binary64_getHeuristicCost_bounds (t : Terrain Binary64) (a g : Point)
    (hx : |g.x - a.x| < 2 ^ 31) (hy : |g.y - a.y| < 2 ^ 31) :
    Real.sqrt ((squaredDistance a g : Int) : ℝ) *
        ((1 - 1 / 2 ^ 53) * (1 - (1 / 2 ^ 53 + 1 / 2 ^ 64))) ≤
      (((t.getHeuristicCost a g).val : ℚ) : ℝ) ∧
    (((t.getHeuristicCost a g).val : ℚ) : ℝ) ≤
      Real.sqrt ((squaredDistance a g : Int) : ℝ) *
        ((1 + 1 / 2 ^ 53) * (1 + (1 / 2 ^ 53 + 1 / 2 ^ 64))) := by
  have h := length64_bounds |g.x - a.x| |g.y - a.y|
    (by rw [abs_abs]; exact le_trans hx.le (by norm_num))
    (by rw [abs_abs]; exact le_trans hy.le (by norm_num))
  rw [abs_mul_abs_self, abs_mul_abs_self] at h
  exact h

theorem binary64_calculateDistance_bounds (a b : Point)
    (hx : |b.x - a.x| < 2 ^ 31) (hy : |b.y - a.y| < 2 ^ 31) :
    Real.sqrt ((squaredDistance a b : Int) : ℝ) *
        ((1 - 1 / 2 ^ 53) * (1 - (1 / 2 ^ 53 + 1 / 2 ^ 64))) ≤
      (((calculateDistance a b : Binary64).val : ℚ) : ℝ) ∧
    (((calculateDistance a b : Binary64).val : ℚ) : ℝ) ≤
      Real.sqrt ((squaredDistance a b : Int) : ℝ) *
        ((1 + 1 / 2 ^ 53) * (1 + (1 / 2 ^ 53 + 1 / 2 ^ 64))) := by
  have h := length64_bounds (a.x - b.x) (a.y - b.y)
    (by rw [abs_sub_comm]; exact le_trans hx.le (by norm_num))
    (by rw [abs_sub_comm]; exact le_trans hy.le (by norm_num))
  have e : (a.x - b.x) * (a.x - b.x) + (a.y - b.y) * (a.y - b.y) = squaredDistance a b := by
    unfold squaredDistance
    ring
  rw [e] at h
  exact h

theorem binary64_sum_ge_one {c e w : Binary64} (x y : Binary64) (hc : 1 ≤ c.val)
    (he : 0 ≤ e.val) (hw : 0 ≤ w.val) (hx : 0 ≤ x.val) (hy : 0 ≤ y.val) :
    1 ≤ (c + e * x + w * y).val := by
  rw [binary64_add_val, binary64_add_val, binary64_mul_val, binary64_mul_val]
  have h1 : 0 ≤ round64 (e.val * x.val) := round64_nonneg (mul_nonneg he hx)
  have h2 : 0 ≤ round64 (w.val * y.val) := round64_nonneg (mul_nonneg hw hy)
  have h3 : 1 ≤ round64 (c.val + round64 (e.val * x.val)) := by
    rw [← round64_one]
    exact round64_mono (by linarith)
  rw [← round64_one]
  exact round64_mono (by linarith)

/-- With the arithmetic of `double`, the movement cost of a cell of a grid with
non-negative elevation and wind resistance is at least `1`. -/
theorem binary64_one_le_getMovementCost {t : Terrain Binary64} (hn : t.NonNeg) (p : Point) :
    1 ≤ (t.getMovementCost p).val := by
  have k1 : (0 : ℚ) ≤ (0.5 : Binary64).val := round64_nonneg (by norm_num)
  have k2 : (0 : ℚ) ≤ (0.3 : Binary64).val := round64_nonneg (by norm_num)
  have c1 : (1 : ℚ) ≤ (1.0 : Binary64).val := by decide!
  have c2 : (1 : ℚ) ≤ (2.0 : Binary64).val := by decide!
  have c3 : (1 : ℚ) ≤ (3.0 : Binary64).val := by decide!
  have c4 : (1 : ℚ) ≤ (1000.0 : Binary64).val := by decide!
  unfold Terrain.getMovementCost
  by_cases hv : t.isValidPosition p = true
  · obtain ⟨he, hw⟩ := hn p hv
    simp only [hv, Bool.not_true, Bool.false_eq_true, if_false]
    cases t.typeAt p <;> simp only [NORMAL_COST, HILL_COST, WIND_COST, OBSTACLE_COST]
    all_goals first
      | exact c4
      | exact binary64_sum_ge_one _ _ (by assumption) he hw k1 k2
  · simp only [hv, Bool.not_false, if_true, OBSTACLE_COST]
    exact c4

end DoubleCosts

section DoubleHeuristic

/-- The cost of a step and what is added to it, computed with the arithmetic of
`double`, is at least the exact sum of the computed distance and the summand
up to two roundings. -/
theorem binary64_stepSum_ge {t : Terrain Binary64} (hn : t.NonNeg) (a b : Point) (x : Binary64)
    (hx : 0 ≤ x.val) :
    (1 - 1 / 2 ^ 53) * ((1 - 1 / 2 ^ 53) * (calculateDistance a b : Binary64).val + x.val) ≤
      (t.getMovementCost b * calculateDistance a b + x).val := by
  rw [binary64_add_val, binary64_mul_val]
  have hc := binary64_one_le_getMovementCost hn b
  have hd := binary64_calculateDistance_nonneg a b
  set c := (t.getMovementCost b).val
  set d := (calculateDistance a b : Binary64).val
  have hcd : 0 ≤ c * d := mul_nonneg (by linarith) hd
  have h1 := round64_ge hcd
  have h2 : d * (1 - 1 / 2 ^ 53) ≤ round64 (c * d) := by
    refine le_trans ?_ h1
    apply mul_le_mul_of_nonneg_right _ (by norm_num)
    nlinarith
  have h3 : 0 ≤ round64 (c * d) + x.val := add_nonneg (round64_nonneg hcd) hx
  have h4 := round64_ge h3
  refine le_trans ?_ h4
  rw [mul_comm]
  apply mul_le_mul_of_nonneg_right _ (by norm_num)
  linarith

theorem binary64_stepSum_nonneg {t : Terrain Binary64} (hn : t.NonNeg) (a b : Point)
    (x : Binary64) (hx : 0 ≤ x.val) :
    0 ≤ (t.getMovementCost b * calculateDistance a b + x).val := by
  rw [binary64_add_val, binary64_mul_val]
  have hc := binary64_one_le_getMovementCost hn b
  have hd := binary64_calculateDistance_nonneg a b
  exact round64_nonneg (add_nonneg (round64_nonneg (mul_nonneg (by linarith) hd)) hx)

/-- With the arithmetic of `double` the heuristic is consistent up to a factor
of `1 + 2 ^ -50`. -/
theorem binary64_consistent_within {t : Terrain Binary64} (hn : t.NonNeg) (goal a b : Point)
    (hag : |goal.x - a.x| < 2 ^ 31 ∧ |goal.y - a.y| < 2 ^ 31)
    (hab : |b.x - a.x| < 2 ^ 31 ∧ |b.y - a.y| < 2 ^ 31)
    (hbg : |goal.x - b.x| < 2 ^ 31 ∧ |goal.y - b.y| < 2 ^ 31) :
    (t.getHeuristicCost a goal).val ≤
      (t.getMovementCost b * calculateDistance a b + t.getHeuristicCost b goal).val *
        (1 + 1 / 2 ^ 50) := by
  have h1 := (binary64_getHeuristicCost_bounds t a goal hag.1 hag.2).2
  have h2 := (binary64_calculateDistance_bounds a b hab.1 hab.2).1
  have h3 := (binary64_getHeuristicCost_bounds t b goal hbg.1 hbg.2).1
  have h4 := binary64_stepSum_ge hn a b (t.getHeuristicCost b goal)
    (binary64_getHeuristicCost_nonneg t b goal)
  have h5 := realDistance_triangle a b goal
  have h4R := (Rat.cast_le (K := ℝ)).2 h4
  push_cast at h4R
  rw [← Rat.cast_le (K := ℝ)]
  push_cast
  have n1 := Real.sqrt_nonneg ((squaredDistance a goal : Int) : ℝ)
  have n2 := Real.sqrt_nonneg ((squaredDistance a b : Int) : ℝ)
  have n3 := Real.sqrt_nonneg ((squaredDistance b goal : Int) : ℝ)
  set A := Real.sqrt ((squaredDistance a goal : Int) : ℝ)
  set B := Real.sqrt ((squaredDistance a b : Int) : ℝ)
  set C := Real.sqrt ((squaredDistance b goal : Int) : ℝ)
  set H := (((t.getHeuristicCost a goal).val : ℚ) : ℝ)
  set D := (((calculateDistance a b : Binary64).val : ℚ) : ℝ)
  set G := (((t.getHeuristicCost b goal).val : ℚ) : ℝ)
  set R := (((t.getMovementCost b * calculateDistance a b + t.getHeuristicCost b goal).val : ℚ) : ℝ)
  have hG : 0 ≤ G := (Rat.cast_nonneg (K := ℝ)).2 (binary64_getHeuristicCost_nonneg t b goal)
  -- the computed right-hand side is at least `A` up to four roundings
  have k1 : A * ((1 - 1 / 2 ^ 53) * (1 - 1 / 2 ^ 53) *
      ((1 - 1 / 2 ^ 53) * (1 - (1 / 2 ^ 53 + 1 / 2 ^ 64)))) ≤ R := by
    have e1 : (B + C) * ((1 - 1 / 2 ^ 53) * (1 - (1 / 2 ^ 53 + 1 / 2 ^ 64))) ≤ D + G := by
      linarith
    have e2 : (1 - 1 / 2 ^ 53 : ℝ) * D + G ≥ (1 - 1 / 2 ^ 53) * (D + G) := by
      nlinarith
    have e3 : (A : ℝ) * ((1 - 1 / 2 ^ 53) * (1 - (1 / 2 ^ 53 + 1 / 2 ^ 64))) ≤ D + G :=
      le_trans (mul_le_mul_of_nonneg_right h5 (by norm_num)) e1
    calc A * ((1 - 1 / 2 ^ 53) * (1 - 1 / 2 ^ 53) *
          ((1 - 1 / 2 ^ 53) * (1 - (1 / 2 ^ 53 + 1 / 2 ^ 64))))
        = (1 - 1 / 2 ^ 53) * ((1 - 1 / 2 ^ 53) *
            (A * ((1 - 1 / 2 ^ 53) * (1 - (1 / 2 ^ 53 + 1 / 2 ^ 64))))) := by ring
      _ ≤ (1 - 1 / 2 ^ 53) * ((1 - 1 / 2 ^ 53) * (D + G)) :=
          mul_le_mul_of_nonneg_left (mul_le_mul_of_nonneg_left e3 (by norm_num)) (by norm_num)
      _ ≤ (1 - 1 / 2 ^ 53) * ((1 - 1 / 2 ^ 53) * D + G) :=
          mul_le_mul_of_nonneg_left e2 (by norm_num)
      _ ≤ R := h4R
  have k2 : ((1 + 1 / 2 ^ 53) * (1 + (1 / 2 ^ 53 + 1 / 2 ^ 64)) : ℝ) ≤
      ((1 - 1 / 2 ^ 53) * (1 - 1 / 2 ^ 53) *
        ((1 - 1 / 2 ^ 53) * (1 - (1 / 2 ^ 53 + 1 / 2 ^ 64)))) * (1 + 1 / 2 ^ 50) := by
    norm_num
  calc H ≤ A * ((1 + 1 / 2 ^ 53) * (1 + (1 / 2 ^ 53 + 1 / 2 ^ 64))) := h1
    _ ≤ A * (((1 - 1 / 2 ^ 53) * (1 - 1 / 2 ^ 53) *
        ((1 - 1 / 2 ^ 53) * (1 - (1 / 2 ^ 53 + 1 / 2 ^ 64)))) * (1 + 1 / 2 ^ 50)) :=
        mul_le_mul_of_nonneg_left k2 n1
    _ = A * ((1 - 1 / 2 ^ 53) * (1 - 1 / 2 ^ 53) *
        ((1 - 1 / 2 ^ 53) * (1 - (1 / 2 ^ 53 + 1 / 2 ^ 64)))) * (1 + 1 / 2 ^ 50) := by ring
    _ ≤ R * (1 + 1 / 2 ^ 50) := mul_le_mul_of_nonneg_right k1 (by norm_num)

end DoubleHeuristic

section DoubleAdmissible

theorem squaredDistance_self (a : Point) : squaredDistance a a = 0 := by
  simp [squaredDistance]

/-- The travel cost computed with the arithmetic of `double` is at least the
exact distance between the ends of the path, up to one rounding for each cell
of the path and the roundings of one distance. -/
theorem binary64_travelCost_ge {t : Terrain Binary64} (hn : t.NonNeg) (goal : Point) :
    ∀ (L : List Point) (a : Point), L.head? = some a → L.getLast? = some goal →
      (∀ p ∈ L, ∀ q ∈ L, |q.x - p.x| < 2 ^ 31 ∧ |q.y - p.y| < 2 ^ 31) →
      0 ≤ (travelCost t L).val ∧
      Real.sqrt ((squaredDistance a goal : Int) : ℝ) *
        (((1 - 1 / 2 ^ 53) * (1 - (1 / 2 ^ 53 + 1 / 2 ^ 64))) * (1 - 1 / 2 ^ 53) ^ L.length) ≤
        (((travelCost t L).val : ℚ) : ℝ) := by
  intro L
  induction L with
  | nil => intro a h; simp at h
  | cons x rest ih =>
    intro a hh hl hb
    simp only [List.head?_cons, Option.some.injEq] at hh
    subst hh
    cases rest with
    | nil =>
      simp only [List.getLast?_singleton, Option.some.injEq] at hl
      subst hl
      have e : travelCost t [x] = 0 := rfl
      rw [e, squaredDistance_self]
      simp [binary64_zero_val]
    | cons y rest =>
      have hl' : (y :: rest).getLast? = some goal := by
        rw [← hl, List.getLast?_cons_cons]
      obtain ⟨ih0, ih1⟩ := ih y rfl hl' (fun p hp q hq =>
        hb p (List.mem_cons_of_mem _ hp) q (List.mem_cons_of_mem _ hq))
      have hxm : x ∈ x :: y :: rest := List.mem_cons_self _ _
      have hym : y ∈ x :: y :: rest := List.mem_cons_of_mem _ (List.mem_cons_self _ _)
      have e : travelCost t (x :: y :: rest)
          = t.getMovementCost y * calculateDistance x y + travelCost t (y :: rest) := rfl
      rw [e]
      refine ⟨binary64_stepSum_nonneg hn x y _ ih0, ?_⟩
      have h2 := (binary64_calculateDistance_bounds x y (hb x hxm y hym).1 (hb x hxm y hym).2).1
      have h4 := binary64_stepSum_ge hn x y (travelCost t (y :: rest)) ih0
      have h5 := realDistance_triangle x y goal
      have h4R := (Rat.cast_le (K := ℝ)).2 h4
      push_cast at h4R
      have n2 := Real.sqrt_nonneg ((squaredDistance x y : Int) : ℝ)
      have n3 := Real.sqrt_nonneg ((squaredDistance y goal : Int) : ℝ)
      set A := Real.sqrt ((squaredDistance x goal : Int) : ℝ)
      set B := Real.sqrt ((squaredDistance x y : Int) : ℝ)
      set C := Real.sqrt ((squaredDistance y goal : Int) : ℝ)
      set D := (((calculateDistance x y : Binary64).val : ℚ) : ℝ)
      set T := (((travelCost t (y :: rest)).val : ℚ) : ℝ)
      set κ : ℝ := (1 - 1 / 2 ^ 53) * (1 - (1 / 2 ^ 53 + 1 / 2 ^ 64)) with hκ
      have hκ0 : 0 ≤ κ := by rw [hκ]; norm_num
      have hu0 : (0 : ℝ) ≤ 1 - 1 / 2 ^ 53 := by norm_num
      have hu1 : (1 - 1 / 2 ^ 53 : ℝ) ≤ 1 := by norm_num
      have hlen : (x :: y :: rest).length = (y :: rest).length + 1 := rfl
      rw [hlen, pow_succ]
      set P := (1 - 1 / 2 ^ 53 : ℝ) ^ (y :: rest).length with hP
      have hP0 : 0 ≤ P := pow_nonneg hu0 _
      have hP1 : P ≤ 1 - 1 / 2 ^ 53 := by
        rw [hP, List.length_cons, pow_succ]
        exact mul_le_of_le_one_left hu0 (pow_le_one₀ hu0 hu1)
      -- `(1 - u) * D + T` is at least `kappa * P * A`
      have k1 : B * (κ * P) ≤ (1 - 1 / 2 ^ 53) * D := by
        calc B * (κ * P) = (B * κ) * P := by ring
          _ ≤ (B * κ) * (1 - 1 / 2 ^ 53) :=
              mul_le_mul_of_nonneg_left hP1 (mul_nonneg n2 hκ0)
          _ ≤ D * (1 - 1 / 2 ^ 53) := mul_le_mul_of_nonneg_right h2 hu0
          _ = _ := by ring
      have k2 : A * (κ * P) ≤ (1 - 1 / 2 ^ 53) * D + T := by
        calc A * (κ * P) ≤ (B + C) * (κ * P) :=
              mul_le_mul_of_nonneg_right h5 (mul_nonneg hκ0 hP0)
          _ = B * (κ * P) + C * (κ * P) := by ring
          _ ≤ (1 - 1 / 2 ^ 53) * D + T := add_le_add k1 ih1
      calc A * (κ * (P * (1 - 1 / 2 ^ 53))) = (1 - 1 / 2 ^ 53) * (A * (κ * P)) := by ring
        _ ≤ (1 - 1 / 2 ^ 53) * ((1 - 1 / 2 ^ 53) * D + T) :=
            mul_le_mul_of_nonneg_left k2 hu0
        _ ≤ _ := h4R

/-- The cost that a search accumulates along a path with the arithmetic of
`double` is at least the exact distance between the ends of the path, up to one
rounding for each cell of the path and the roundings of one distance. -/
theorem binary64_foldCost_ge {t : Terrain Binary64} (hn : t.NonNeg) (goal : Point) :
    ∀ (rest : List Point) (p : Point) (acc : Binary64), 0 ≤ acc.val →
      (p :: rest).getLast? = some goal →
      (∀ a ∈ p :: rest, ∀ b ∈ p :: rest, |b.x - a.x| < 2 ^ 31 ∧ |b.y - a.y| < 2 ^ 31) →
      0 ≤ (rest.foldl (fun (node : Point × Binary64) neighbor =>
          (neighbor, node.2 + t.getMovementCost neighbor * calculateDistance node.1 neighbor))
          (p, acc)).2.val ∧
      (((acc.val : ℚ) : ℝ) + Real.sqrt ((squaredDistance p goal : Int) : ℝ) *
          ((1 - 1 / 2 ^ 53) * ((1 - 1 / 2 ^ 53) * (1 - (1 / 2 ^ 53 + 1 / 2 ^ 64))))) *
        (1 - 1 / 2 ^ 53) ^ rest.length ≤
        ((((rest.foldl (fun (node : Point × Binary64) neighbor =>
          (neighbor, node.2 + t.getMovementCost neighbor * calculateDistance node.1 neighbor))
          (p, acc)).2.val : ℚ)) : ℝ) := by
  intro rest
  induction rest with
  | nil =>
    intro p acc hacc hl _
    simp only [List.getLast?_singleton, Option.some.injEq] at hl
    subst hl
    simp only [List.foldl_nil, List.length_nil, pow_zero, mul_one, squaredDistance_self]
    exact ⟨hacc, by simp⟩
  | cons q rest ih =>
    intro p acc hacc hl hb
    have hl' : (q :: rest).getLast? = some goal := by
      rw [← hl, List.getLast?_cons_cons]
    have hpm : p ∈ p :: q :: rest := List.mem_cons_self _ _
    have hqm : q ∈ p :: q :: rest := List.mem_cons_of_mem _ (List.mem_cons_self _ _)
    have hc := binary64_one_le_getMovementCost hn q
    have hd := binary64_calculateDistance_nonneg p q
    have hcd : 0 ≤ (t.getMovementCost q).val * (calculateDistance p q : Binary64).val :=
      mul_nonneg (by linarith) hd
    have hacc' : 0 ≤ (acc + t.getMovementCost q * calculateDistance p q).val := by
      rw [binary64_add_val, binary64_mul_val]
      exact round64_nonneg (add_nonneg hacc (round64_nonneg hcd))
    obtain ⟨ih0, ih1⟩ := ih q (acc + t.getMovementCost q * calculateDistance p q) hacc' hl'
      (fun a ha b hb' => hb a (List.mem_cons_of_mem _ ha) b (List.mem_cons_of_mem _ hb'))
    rw [List.foldl_cons]
    refine ⟨ih0, le_trans ?_ ih1⟩
    have h2 := (binary64_calculateDistance_bounds p q (hb p hpm q hqm).1 (hb p hpm q hqm).2).1
    have h5 := realDistance_triangle p q goal
    -- the new accumulated cost
    have g1 : (1 - 1 / 2 ^ 53) * (acc.val + (1 - 1 / 2 ^ 53) * (calculateDistance p q : Binary64).val)
        ≤ (acc + t.getMovementCost q * calculateDistance p q).val := by
      rw [binary64_add_val, binary64_mul_val]
      have r1 := round64_ge hcd
      have r2 := round64_ge (add_nonneg hacc (round64_nonneg hcd))
      refine le_trans ?_ r2
      rw [mul_comm]
      apply mul_le_mul_of_nonneg_right _ (by norm_num)
      have : (calculateDistance p q : Binary64).val * (1 - 1 / 2 ^ 53)
          ≤ (t.getMovementCost q).val * (calculateDistance p q : Binary64).val * (1 - 1 / 2 ^ 53) := by
        apply mul_le_mul_of_nonneg_right _ (by norm_num)
        nlinarith
      linarith
    have g1R := (Rat.cast_le (K := ℝ)).2 g1
    push_cast at g1R
    have haccR : (0 : ℝ) ≤ ((acc.val : ℚ) : ℝ) := (Rat.cast_nonneg (K := ℝ)).2 hacc
    have n1 := Real.sqrt_nonneg ((squaredDistance p goal : Int) : ℝ)
    have n2 := Real.sqrt_nonneg ((squaredDistance p q : Int) : ℝ)
    have n3 := Real.sqrt_nonneg ((squaredDistance q goal : Int) : ℝ)
    set A := Real.sqrt ((squaredDistance p goal : Int) : ℝ)
    set B := Real.sqrt ((squaredDistance p q : Int) : ℝ)
    set C := Real.sqrt ((squaredDistance q goal : Int) : ℝ)
    set D := (((calculateDistance p q : Binary64).val : ℚ) : ℝ)
    set G := ((acc.val : ℚ) : ℝ)
    set N := ((((acc + t.getMovementCost q * calculateDistance p q).val : ℚ)) : ℝ)
    set κ : ℝ := (1 - 1 / 2 ^ 53) * (1 - (1 / 2 ^ 53 + 1 / 2 ^ 64)) with hκ
    have hκ0 : 0 ≤ κ := by rw [hκ]; norm_num
    have hu0 : (0 : ℝ) ≤ 1 - 1 / 2 ^ 53 := by norm_num
    have hlen : (q :: rest).length = rest.length + 1 := rfl
    rw [hlen, pow_succ]
    set P := (1 - 1 / 2 ^ 53 : ℝ) ^ rest.length with hP
    have hP0 : 0 ≤ P := pow_nonneg hu0 _
    have k1 : (G + A * ((1 - 1 / 2 ^ 53) * κ)) * (1 - 1 / 2 ^ 53)
        ≤ N + C * ((1 - 1 / 2 ^ 53) * κ) := by
      have e1 : A * ((1 - 1 / 2 ^ 53) * κ) ≤ (B + C) * ((1 - 1 / 2 ^ 53) * κ) :=
        mul_le_mul_of_nonneg_right h5 (mul_nonneg hu0 hκ0)
      have e2 : B * κ * ((1 - 1 / 2 ^ 53) * (1 - 1 / 2 ^ 53))
          ≤ D * ((1 - 1 / 2 ^ 53) * (1 - 1 / 2 ^ 53)) :=
        mul_le_mul_of_nonneg_right h2 (mul_nonneg hu0 hu0)
      have e3 : C * ((1 - 1 / 2 ^ 53) * κ) * (1 - 1 / 2 ^ 53) ≤ C * ((1 - 1 / 2 ^ 53) * κ) :=
        mul_le_of_le_one_right (mul_nonneg n3 (mul_nonneg hu0 hκ0)) (by norm_num)
      calc (G + A * ((1 - 1 / 2 ^ 53) * κ)) * (1 - 1 / 2 ^ 53)
          ≤ (G + (B + C) * ((1 - 1 / 2 ^ 53) * κ)) * (1 - 1 / 2 ^ 53) :=
            mul_le_mul_of_nonneg_right (by linarith) hu0
        _ = (1 - 1 / 2 ^ 53) * G + B * κ * ((1 - 1 / 2 ^ 53) * (1 - 1 / 2 ^ 53))
            + C * ((1 - 1 / 2 ^ 53) * κ) * (1 - 1 / 2 ^ 53) := by ring
        _ ≤ (1 - 1 / 2 ^ 53) * G + D * ((1 - 1 / 2 ^ 53) * (1 - 1 / 2 ^ 53))
            + C * ((1 - 1 / 2 ^ 53) * κ) := by linarith
        _ = (1 - 1 / 2 ^ 53) * (G + (1 - 1 / 2 ^ 53) * D) + C * ((1 - 1 / 2 ^ 53) * κ) := by ring
        _ ≤ N + C * ((1 - 1 / 2 ^ 53) * κ) := by linarith
    calc (G + A * ((1 - 1 / 2 ^ 53) * κ)) * (P * (1 - 1 / 2 ^ 53))
        = ((G + A * ((1 - 1 / 2 ^ 53) * κ)) * (1 - 1 / 2 ^ 53)) * P := by ring
      _ ≤ (N + C * ((1 - 1 / 2 ^ 53) * κ)) * P := mul_le_mul_of_nonneg_right k1 hP0

/-- A lower bound of the factor by which the roundings along a path of `n` cells
can lower a cost. -/
theorem roundings_factor (n : Nat) (h : 0 ≤ (1 : ℝ) - ((n : ℝ) + 5) / 2 ^ 53) :
    ((1 + 1 / 2 ^ 53) * (1 + (1 / 2 ^ 53 + 1 / 2 ^ 64)) : ℝ) * (1 - ((n : ℝ) + 5) / 2 ^ 53) ≤
      ((1 - 1 / 2 ^ 53) * (1 - (1 / 2 ^ 53 + 1 / 2 ^ 64))) * (1 - 1 / 2 ^ 53) ^ n := by
  have hb : (1 : ℝ) + (n : ℝ) * (-(1 / 2 ^ 53)) ≤ (1 + -(1 / 2 ^ 53)) ^ n :=
    one_add_mul_le_pow (by norm_num) n
  have hb' : (1 : ℝ) - (n : ℝ) / 2 ^ 53 ≤ (1 - 1 / 2 ^ 53) ^ n := by
    have e1 : (1 : ℝ) + (n : ℝ) * (-(1 / 2 ^ 53)) = 1 - (n : ℝ) / 2 ^ 53 := by ring
    have e2 : (1 : ℝ) + -(1 / 2 ^ 53) = 1 - 1 / 2 ^ 53 := by ring
    rw [e1, e2] at hb
    exact hb
  have hn0 : (0 : ℝ) ≤ (n : ℝ) := Nat.cast_nonneg n
  have k : ((1 + 1 / 2 ^ 53) * (1 + (1 / 2 ^ 53 + 1 / 2 ^ 64)) : ℝ) * (1 - 5 / 2 ^ 53) ≤
      (1 - 1 / 2 ^ 53) * (1 - (1 / 2 ^ 53 + 1 / 2 ^ 64)) := by norm_num
  have hκ0 : (0 : ℝ) ≤ (1 - 1 / 2 ^ 53) * (1 - (1 / 2 ^ 53 + 1 / 2 ^ 64)) := by norm_num
  have hκp : (0 : ℝ) ≤ (1 + 1 / 2 ^ 53) * (1 + (1 / 2 ^ 53 + 1 / 2 ^ 64)) := by norm_num
  have hn1 : (0 : ℝ) ≤ 1 - (n : ℝ) / 2 ^ 53 := by
    have : (1 : ℝ) - ((n : ℝ) + 5) / 2 ^ 53 ≤ 1 - (n : ℝ) / 2 ^ 53 := by
      have : (n : ℝ) / 2 ^ 53 ≤ ((n : ℝ) + 5) / 2 ^ 53 :=
        div_le_div_of_nonneg_right (by linarith) (by norm_num)
      linarith
    linarith
  have e : (1 : ℝ) - ((n : ℝ) + 5) / 2 ^ 53 ≤ (1 - 5 / 2 ^ 53) * (1 - (n : ℝ) / 2 ^ 53) := by
    have : (1 - 5 / 2 ^ 53 : ℝ) * (1 - (n : ℝ) / 2 ^ 53)
        = 1 - ((n : ℝ) + 5) / 2 ^ 53 + 5 / 2 ^ 53 * ((n : ℝ) / 2 ^ 53) := by ring
    rw [this]
    have : (0 : ℝ) ≤ 5 / 2 ^ 53 * ((n : ℝ) / 2 ^ 53) := by positivity
    linarith
  calc ((1 + 1 / 2 ^ 53) * (1 + (1 / 2 ^ 53 + 1 / 2 ^ 64)) : ℝ) * (1 - ((n : ℝ) + 5) / 2 ^ 53)
      ≤ ((1 + 1 / 2 ^ 53) * (1 + (1 / 2 ^ 53 + 1 / 2 ^ 64))) *
          ((1 - 5 / 2 ^ 53) * (1 - (n : ℝ) / 2 ^ 53)) := mul_le_mul_of_nonneg_left e hκp
    _ = (((1 + 1 / 2 ^ 53) * (1 + (1 / 2 ^ 53 + 1 / 2 ^ 64))) * (1 - 5 / 2 ^ 53)) *
          (1 - (n : ℝ) / 2 ^ 53) := by ring
    _ ≤ ((1 - 1 / 2 ^ 53) * (1 - (1 / 2 ^ 53 + 1 / 2 ^ 64))) * (1 - (n : ℝ) / 2 ^ 53) :=
        mul_le_mul_of_nonneg_right k hn1
    _ ≤ _ := mul_le_mul_of_nonneg_left hb' hκ0

/-- With the arithmetic of `double` the heuristic exceeds neither the travel
cost of a path of `n` cells nor the cost that a search accumulates along it by
more than the factor `1 / (1 - (n + 5) / 2 ^ 53)`. -/
theorem binary64_admissible_within {t : Terrain Binary64} (hn : t.NonNeg) (goal a : Point)
    (L : List Point) (hh : L.head? = some a) (hl : L.getLast? = some goal)
    (hb : ∀ p ∈ L, ∀ q ∈ L, |q.x - p.x| < 2 ^ 31 ∧ |q.y - p.y| < 2 ^ 31) :
    (t.getHeuristicCost a goal).val * (1 - ((L.length : ℚ) + 5) / 2 ^ 53) ≤ (travelCost t L).val ∧
    (t.getHeuristicCost a goal).val * (1 - ((L.length : ℚ) + 5) / 2 ^ 53) ≤
      (costAlong t (fun movementCost distance => movementCost * distance) L).val := by
  have ham : a ∈ L := List.mem_of_mem_head? hh
  have hgm : goal ∈ L := List.mem_of_getLast?_eq_some hl
  have h1 := (binary64_getHeuristicCost_bounds t a goal (hb a ham goal hgm).1 (hb a ham goal hgm).2).2
  have hH := binary64_getHeuristicCost_nonneg t a goal
  obtain ⟨t0, t1⟩ := binary64_travelCost_ge hn goal L a hh hl hb
  -- the accumulated cost
  have hc : 0 ≤ (costAlong t (fun movementCost distance => movementCost * distance) L).val ∧
      Real.sqrt ((squaredDistance a goal : Int) : ℝ) *
        (((1 - 1 / 2 ^ 53) * (1 - (1 / 2 ^ 53 + 1 / 2 ^ 64))) * (1 - 1 / 2 ^ 53) ^ L.length) ≤
        (((costAlong t (fun movementCost distance => movementCost * distance) L).val : ℚ) : ℝ) := by
    cases L with
    | nil => simp at hh
    | cons x rest =>
      simp only [List.head?_cons, Option.some.injEq] at hh
      subst hh
      obtain ⟨c0, c1⟩ := binary64_foldCost_ge hn goal rest x 0 le_rfl hl hb
      refine ⟨c0, le_trans (le_of_eq ?_) c1⟩
      rw [binary64_zero_val, List.length_cons, pow_succ]
      push_cast
      ring
  obtain ⟨c0, c1⟩ := hc
  have key : ∀ T : ℚ, 0 ≤ T →
      Real.sqrt ((squaredDistance a goal : Int) : ℝ) *
        (((1 - 1 / 2 ^ 53) * (1 - (1 / 2 ^ 53 + 1 / 2 ^ 64))) * (1 - 1 / 2 ^ 53) ^ L.length) ≤
        ((T : ℚ) : ℝ) →
      (t.getHeuristicCost a goal).val * (1 - ((L.length : ℚ) + 5) / 2 ^ 53) ≤ T := by
    intro T hT hle
    rw [← Rat.cast_le (K := ℝ)]
    push_cast
    have hHR : (0 : ℝ) ≤ (((t.getHeuristicCost a goal).val : ℚ) : ℝ) :=
      (Rat.cast_nonneg (K := ℝ)).2 hH
    have hTR : (0 : ℝ) ≤ ((T : ℚ) : ℝ) := (Rat.cast_nonneg (K := ℝ)).2 hT
    rcases le_or_lt 0 ((1 : ℝ) - ((L.length : ℝ) + 5) / 2 ^ 53) with hpos | hneg
    · have hf := roundings_factor L.length hpos
      have n1 := Real.sqrt_nonneg ((squaredDistance a goal : Int) : ℝ)
      calc (((t.getHeuristicCost a goal).val : ℚ) : ℝ) * (1 - ((L.length : ℝ) + 5) / 2 ^ 53)
          ≤ Real.sqrt ((squaredDistance a goal : Int) : ℝ) *
              ((1 + 1 / 2 ^ 53) * (1 + (1 / 2 ^ 53 + 1 / 2 ^ 64))) *
              (1 - ((L.length : ℝ) + 5) / 2 ^ 53) := mul_le_mul_of_nonneg_right h1 hpos
        _ = Real.sqrt ((squaredDistance a goal : Int) : ℝ) *
              (((1 + 1 / 2 ^ 53) * (1 + (1 / 2 ^ 53 + 1 / 2 ^ 64))) *
              (1 - ((L.length : ℝ) + 5) / 2 ^ 53)) := by ring
        _ ≤ _ := mul_le_mul_of_nonneg_left hf n1
        _ ≤ _ := hle
    · have : (((t.getHeuristicCost a goal).val : ℚ) : ℝ) * (1 - ((L.length : ℝ) + 5) / 2 ^ 53) ≤ 0 :=
        mul_nonpos_of_nonneg_of_nonpos hHR hneg.le
      linarith
  exact ⟨key _ t0 t1, key _ c0 c1⟩

end DoubleAdmissible

section DoubleSeparation

/-- The computed square roots of two integers of at most `2 ^ 50` differ as the
integers do. -/
theorem sqrt64_lt_of_lt {S T : Int} (hS : 0 ≤ S) (hST : S < T) (hT : T ≤ 2 ^ 50) :
    sqrt64 (S : ℚ) < sqrt64 (T : ℚ) := by
  have hSq : (0 : ℚ) ≤ (S : ℚ) := by exact_mod_cast hS
  have hTq : (0 : ℚ) ≤ (T : ℚ) := by exact_mod_cast le_trans hS hST.le
  have b1 := (sqrt64_bounds hSq).2
  have b2 := (sqrt64_bounds hTq).1
  rw [← Rat.cast_lt (K := ℝ)]
  refine lt_of_le_of_lt b1 (lt_of_lt_of_le ?_ b2)
  push_cast
  have hSR : (0 : ℝ) ≤ (S : ℝ) := by exact_mod_cast hS
  have hTR : (0 : ℝ) ≤ (T : ℝ) := by exact_mod_cast le_trans hS hST.le
  have hx2 : Real.sqrt (S : ℝ) * Real.sqrt (S : ℝ) = (S : ℝ) := Real.mul_self_sqrt hSR
  have hy2 : Real.sqrt (T : ℝ) * Real.sqrt (T : ℝ) = (T : ℝ) := Real.mul_self_sqrt hTR
  have hx0 := Real.sqrt_nonneg (S : ℝ)
  have hy0 := Real.sqrt_nonneg (T : ℝ)
  have hxy : Real.sqrt (S : ℝ) ≤ Real.sqrt (T : ℝ) :=
    Real.sqrt_le_sqrt (by exact_mod_cast hST.le)
  have hd : (S : ℝ) + 1 ≤ (T : ℝ) := by exact_mod_cast hST
  have hT50 : (T : ℝ) ≤ 2 ^ 50 := by exact_mod_cast hT
  set x := Real.sqrt (S : ℝ)
  set y := Real.sqrt (T : ℝ)
  by_contra hcon
  push_neg at hcon
  have h1 : y - x ≤ (1 / 2 ^ 53 + 1 / 2 ^ 64) * (x + y) := by linarith
  have h2 : (y - x) * (x + y) ≤ (1 / 2 ^ 53 + 1 / 2 ^ 64) * (x + y) * (x + y) :=
    mul_le_mul_of_nonneg_right h1 (add_nonneg hx0 hy0)
  have h3 : (x + y) * (x + y) ≤ (2 * y) * (2 * y) :=
    mul_self_le_mul_self (add_nonneg hx0 hy0) (by linarith)
  have h4 : (1 / 2 ^ 53 + 1 / 2 ^ 64 : ℝ) * ((x + y) * (x + y)) ≤
      (1 / 2 ^ 53 + 1 / 2 ^ 64) * ((2 * y) * (2 * y)) :=
    mul_le_mul_of_nonneg_left h3 (by norm_num)
  have h5 : (2 * y) * (2 * y) = 4 * (T : ℝ) := by rw [← hy2]; ring
  have h6 : (y - x) * (x + y) = (T : ℝ) - (S : ℝ) := by rw [← hy2, ← hx2]; ring
  have h7 : (1 / 2 ^ 53 + 1 / 2 ^ 64 : ℝ) * (4 * (T : ℝ)) ≤
      (1 / 2 ^ 53 + 1 / 2 ^ 64) * (4 * 2 ^ 50) :=
    mul_le_mul_of_nonneg_left (by linarith) (by norm_num)
  have h8 : (1 / 2 ^ 53 + 1 / 2 ^ 64 : ℝ) * (4 * 2 ^ 50) < 1 := by norm_num
  rw [h5] at h4
  rw [h6] at h2
  have h9 : (1 / 2 ^ 53 + 1 / 2 ^ 64 : ℝ) * (x + y) * (x + y)
      = (1 / 2 ^ 53 + 1 / 2 ^ 64) * ((x + y) * (x + y)) := by ring
  rw [h9] at h2
  linarith

/-- For cells whose coordinates differ by at most `2 ^ 26` the heuristic is the
computed square root of the exact sum of squares. -/
theorem binary64_getHeuristicCost_exact (t : Terrain Binary64) (p g : Point)
    (hx : |g.x - p.x| ≤ 2 ^ 26) (hy : |g.y - p.y| ≤ 2 ^ 26) :
    (t.getHeuristicCost p g).val = sqrt64 ((squaredDistance p g : Int) : ℚ) := by
  have hx0 := abs_nonneg (g.x - p.x)
  have hy0 := abs_nonneg (g.y - p.y)
  have hxx : |g.x - p.x| * |g.x - p.x| ≤ 2 ^ 52 := by
    have := mul_le_mul hx hx hx0 (by norm_num)
    exact le_trans this (by norm_num)
  have hyy : |g.y - p.y| * |g.y - p.y| ≤ 2 ^ 52 := by
    have := mul_le_mul hy hy hy0 (by norm_num)
    exact le_trans this (by norm_num)
  have hxx0 := mul_nonneg hx0 hx0
  have hyy0 := mul_nonneg hy0 hy0
  rw [binary64_getHeuristicCost_val,
    round64_intCast _ (by rw [abs_abs]; exact le_trans hx (by norm_num)),
    round64_intCast _ (by rw [abs_abs]; exact le_trans hy (by norm_num)),
    ← Int.cast_mul, ← Int.cast_mul,
    round64_intCast _ (by rw [abs_of_nonneg hxx0]; exact le_trans hxx (by norm_num)),
    round64_intCast _ (by rw [abs_of_nonneg hyy0]; exact le_trans hyy (by norm_num)),
    ← Int.cast_add,
    round64_intCast _ (by
      rw [abs_of_nonneg (add_nonneg hxx0 hyy0)]
      have : |g.x - p.x| * |g.x - p.x| + |g.y - p.y| * |g.y - p.y| ≤ 2 ^ 52 + 2 ^ 52 :=
        add_le_add hxx hyy
      exact le_trans this (by norm_num)),
    abs_mul_abs_self, abs_mul_abs_self]
  rfl

/-- On a grid of at most `2 ^ 24` columns and rows the heuristic computed with
the arithmetic of `double` tells the cells apart as their exact distances to
the goal do. -/
theorem binary64_separatesDistances (t : Terrain Binary64) (goal : Point)
    (hw : t.width ≤ 2 ^ 24) (hh : t.height ≤ 2 ^ 24) (hg : t.isValidPosition goal = true) :
    t.SeparatesDistances goal := by
  intro p q hp hq hlt
  rw [isValidPosition_iff] at hp hq hg
  have bx : ∀ c : Point, (0 ≤ c.x ∧ c.x < t.width ∧ 0 ≤ c.y ∧ c.y < t.height) →
      |goal.x - c.x| ≤ 2 ^ 24 ∧ |goal.y - c.y| ≤ 2 ^ 24 := by
    intro c hc
    constructor <;> rw [abs_le] <;> constructor <;> omega
  have ex : ∀ c : Point, (0 ≤ c.x ∧ c.x < t.width ∧ 0 ≤ c.y ∧ c.y < t.height) →
      (t.getHeuristicCost c goal).val = sqrt64 ((squaredDistance c goal : Int) : ℚ) := by
    intro c hc
    exact binary64_getHeuristicCost_exact t c goal (le_trans (bx c hc).1 (by norm_num))
      (le_trans (bx c hc).2 (by norm_num))
  rw [binary64_lt_iff, ex p hp, ex q hq]
  apply sqrt64_lt_of_lt _ hlt
  · obtain ⟨h1, h2⟩ := bx q hq
    have h3 : (goal.x - q.x) * (goal.x - q.x) ≤ 2 ^ 24 * 2 ^ 24 := by
      rw [← abs_mul_abs_self]
      exact mul_le_mul h1 h1 (abs_nonneg _) (by norm_num)
    have h4 : (goal.y - q.y) * (goal.y - q.y) ≤ 2 ^ 24 * 2 ^ 24 := by
      rw [← abs_mul_abs_self]
      exact mul_le_mul h2 h2 (abs_nonneg _) (by norm_num)
    unfold squaredDistance
    have : (goal.x - q.x) * (goal.x - q.x) + (goal.y - q.y) * (goal.y - q.y)
        ≤ 2 ^ 24 * 2 ^ 24 + 2 ^ 24 * 2 ^ 24 := add_le_add h3 h4
    exact le_trans this (by norm_num)
  · unfold squaredDistance
    exact add_nonneg (mul_self_nonneg _) (mul_self_nonneg _)

end DoubleSeparation

section DoubleDistance

theorem round64_eq_zero_iff (q : ℚ) : round64 q = 0 ↔ q = 0 := by
  constructor
  · intro h
    rcases lt_trichotomy q 0 with hq | hq | hq
    · have := round64_pos (by linarith : 0 < -q)
      rw [round64_neg, h] at this
      simp at this
    · exact hq
    · have := round64_pos hq
      rw [h] at this
      exact absurd this (lt_irrefl _)
  · rintro rfl
    exact round64_zero

theorem sqrt64_pos {q : ℚ} (hq : 0 < q) : 0 < sqrt64 q := by
  obtain ⟨v, hv, hpos, -, -⟩ := sqrt64_core hq
  rw [hv]
  exact round64_pos hpos

theorem sqrt64_eq_zero_iff {q : ℚ} (hq : 0 ≤ q) : sqrt64 q = 0 ↔ q = 0 := by
  constructor
  · intro h
    rcases eq_or_lt_of_le hq with h0 | h0
    · exact h0.symm
    · have := sqrt64_pos h0
      rw [h] at this
      exact absurd this (lt_irrefl _)
  · rintro rfl
    exact sqrt64_of_nonpos le_rfl

theorem binary64_getHeuristicCost_symm (t : Terrain Binary64) (a b : Point) :
    t.getHeuristicCost a b = t.getHeuristicCost b a := by
  unfold Terrain.getHeuristicCost
  rw [abs_sub_comm b.x a.x, abs_sub_comm b.y a.y]

theorem binary64_getHeuristicCost_eq_zero_iff (t : Terrain Binary64) (a b : Point) :
    t.getHeuristicCost a b = 0 ↔ a = b := by
  have hX : (0 : ℚ) ≤ round64 ((|b.x - a.x| : Int) : ℚ) * round64 ((|b.x - a.x| : Int) : ℚ) :=
    mul_self_nonneg _
  have hY : (0 : ℚ) ≤ round64 ((|b.y - a.y| : Int) : ℚ) * round64 ((|b.y - a.y| : Int) : ℚ) :=
    mul_self_nonneg _
  have hA := round64_nonneg hX
  have hB := round64_nonneg hY
  have hS := round64_nonneg (add_nonneg hA hB)
  constructor
  · intro h
    have hv : (t.getHeuristicCost a b).val = 0 := by rw [h]; rfl
    rw [binary64_getHeuristicCost_val, sqrt64_eq_zero_iff hS, round64_eq_zero_iff] at hv
    have hA0 : round64 (round64 ((|b.x - a.x| : Int) : ℚ) * round64 ((|b.x - a.x| : Int) : ℚ)) = 0 := by
      linarith
    have hB0 : round64 (round64 ((|b.y - a.y| : Int) : ℚ) * round64 ((|b.y - a.y| : Int) : ℚ)) = 0 := by
      linarith
    rw [round64_eq_zero_iff, mul_self_eq_zero, round64_eq_zero_iff] at hA0 hB0
    have hx : |b.x - a.x| = 0 := by exact_mod_cast hA0
    have hy : |b.y - a.y| = 0 := by exact_mod_cast hB0
    rw [abs_eq_zero] at hx hy
    cases a; cases b
    simp only [Point.mk.injEq] at hx hy ⊢
    constructor <;> omega
  · rintro rfl
    apply binary64_ext
    rw [binary64_getHeuristicCost_val]
    simp [round64_zero, sqrt64_of_nonpos, binary64_zero_val]

/-- With the arithmetic of `double` the heuristic is the Euclidean distance up
to a relative error of `2 ^ -51`. -/
theorem binary64_getHeuristicCost_near (t : Terrain Binary64) (a b : Point)
    (hx : |a.x - b.x| < 2 ^ 31) (hy : |a.y - b.y| < 2 ^ 31) :
    Real.sqrt ((((a.x - b.x) ^ 2 + (a.y - b.y) ^ 2 : Int)) : ℝ) * (1 - 1 / 2 ^ 51) ≤
      (((t.getHeuristicCost a b).val : ℚ) : ℝ) ∧
    (((t.getHeuristicCost a b).val : ℚ) : ℝ) ≤
      Real.sqrt ((((a.x - b.x) ^ 2 + (a.y - b.y) ^ 2 : Int)) : ℝ) * (1 + 1 / 2 ^ 51) := by
  rw [abs_sub_comm] at hx hy
  obtain ⟨h1, h2⟩ := binary64_getHeuristicCost_bounds t a b hx hy
  have e : (a.x - b.x) ^ 2 + (a.y - b.y) ^ 2 = squaredDistance a b := by
    unfold squaredDistance
    ring
  rw [e]
  have hn := Real.sqrt_nonneg ((squaredDistance a b : Int) : ℝ)
  constructor
  · refine le_trans (mul_le_mul_of_nonneg_left ?_ hn) h1
    norm_num
  · refine le_trans h2 (mul_le_mul_of_nonneg_left ?_ hn)
    norm_num

end DoubleDistance

/-! ### The map parser: lines of a text -/

section MapLines

theorem getline_nil : getline [] = none := rfl

theorem takeWhile_not_newline (r rest : List Char) (h : '\n' ∉ r) :
    (r ++ '\n' :: rest).takeWhile (fun c => c != '\n') = r := by
  induction r with
  | nil => simp
  | cons c r ih =>
    have hc : c ≠ '\n' := fun he => h (by simp [he])
    have hr : '\n' ∉ r := fun hm => h (List.mem_cons_of_mem _ hm)
    simp [List.takeWhile_cons, hc, ih hr]

theorem dropWhile_not_newline (r rest : List Char) (h : '\n' ∉ r) :
    (r ++ '\n' :: rest).dropWhile (fun c => c != '\n') = '\n' :: rest := by
  induction r with
  | nil => simp
  | cons c r ih =>
    have hc : c ≠ '\n' := fun he => h (by simp [he])
    have hr : '\n' ∉ r := fun hm => h (List.mem_cons_of_mem _ hm)
    simp [List.dropWhile_cons, hc, ih hr]

theorem takeWhile_no_newline (r : List Char) (h : '\n' ∉ r) :
    r.takeWhile (fun c => c != '\n') = r := by
  rw [List.takeWhile_eq_self_iff]
  intro c hc
  simpa using fun he : c = '\n' => h (he ▸ hc)

theorem dropWhile_no_newline (r : List Char) (h : '\n' ∉ r) :
    r.dropWhile (fun c => c != '\n') = [] := by
  rw [List.dropWhile_eq_nil_iff]
  intro c hc
  simpa using fun he : c = '\n' => h (he ▸ hc)

/-- Reading a line that is followed by a newline. -/
theorem getline_line_newline (r rest : List Char) (h : '\n' ∉ r) :
    getline (r ++ '\n' :: rest) = some (r, rest) := by
  unfold getline
  rw [if_neg (by simp), takeWhile_not_newline r rest h, dropWhile_not_newline r rest h]
  rfl

/-- Reading the last line of a text that does not end in a newline. -/
theorem getline_last_line (r : List Char) (hne : r ≠ []) (h : '\n' ∉ r) :
    getline r = some (r, []) := by
  unfold getline
  rw [if_neg (by simpa using hne), takeWhile_no_newline r h, dropWhile_no_newline r h]
  rfl

theorem parseMapLines_nil : parseMapLines [] = [] := by
  rw [parseMapLines]
  split
  · rfl
  · rename_i h
    simp [getline] at h

theorem parseMapLines_of_getline {content line rest : List Char}
    (h : getline content = some (line, rest)) :
    parseMapLines content =
      if !(stripCarriageReturn line).isEmpty then stripCarriageReturn line :: parseMapLines rest
      else parseMapLines rest := by
  rw [parseMapLines]
  split
  · rename_i h'
    rw [h] at h'
    cases h'
  · rename_i l r h'
    rw [h] at h'
    cases h'
    rfl

/-- The lines of a text whose newline-separated lines are `lines`: each line
loses a carriage return at its end, and the lines that are then empty are
skipped. -/
theorem parseMapLines_intercalate :
    ∀ lines : List (List Char), (∀ l ∈ lines, '\n' ∉ l) →
      parseMapLines (List.intercalate ['\n'] lines) =
        (lines.map stripCarriageReturn).filter (fun l => !l.isEmpty) := by
  intro lines
  induction lines with
  | nil => intro _; simpa [List.intercalate] using parseMapLines_nil
  | cons r rs ih =>
    intro h
    have hr : '\n' ∉ r := h r (List.mem_cons_self _ _)
    have hrs : ∀ l ∈ rs, '\n' ∉ l := fun l hl => h l (List.mem_cons_of_mem _ hl)
    cases rs with
    | nil =>
      by_cases hne : r = []
      · subst hne
        simpa [List.intercalate, stripCarriageReturn] using parseMapLines_nil
      · have : List.intercalate ['\n'] [r] = r := by simp [List.intercalate]
        rw [this, parseMapLines_of_getline (getline_last_line r hne hr), parseMapLines_nil]
        by_cases hs : (stripCarriageReturn r).isEmpty = true <;> simp [hs]
    | cons r' rs' =>
      have : List.intercalate ['\n'] (r :: r' :: rs') =
          r ++ '\n' :: List.intercalate ['\n'] (r' :: rs') := by
        simp [List.intercalate]
      rw [this, parseMapLines_of_getline (getline_line_newline r _ hr), ih hrs]
      by_cases hs : (stripCarriageReturn r).isEmpty = true <;> simp [hs]

/-- Every text is the concatenation of its newline-separated lines. -/
theorem exists_lines (text : List Char) :
    ∃ l ls, (∀ r ∈ l :: ls, '\n' ∉ r) ∧ text = List.intercalate ['\n'] (l :: ls) := by
  induction text with
  | nil => exact ⟨[], [], by simp, by simp [List.intercalate]⟩
  | cons c s ih =>
    obtain ⟨l, ls, hl, rfl⟩ := ih
    by_cases hc : c = '\n'
    · subst hc
      refine ⟨[], l :: ls, ?_, by simp [List.intercalate]⟩
      intro r hr
      rcases List.mem_cons.1 hr with rfl | hr
      · simp
      · exact hl r hr
    · refine ⟨c :: l, ls, ?_, ?_⟩
      · intro r hr
        rcases List.mem_cons.1 hr with rfl | hr
        · intro hm
          rcases List.mem_cons.1 hm with he | hm
          · exact hc he.symm
          · exact hl l (List.mem_cons_self _ _) hm
        · exact hl r (List.mem_cons_of_mem _ hr)
      · cases ls <;> simp [List.intercalate]

theorem stripCarriageReturn_of_clean {r : List Char} (h : r.getLast? ≠ some '\r') :
    stripCarriageReturn r = r := by
  unfold stripCarriageReturn
  rw [if_neg]
  simpa using fun _ => h

theorem stripCarriageReturn_append_cr (r : List Char) :
    stripCarriageReturn (r ++ ['\r']) = r := by
  simp [stripCarriageReturn]

theorem stripCarriageReturn_eq_nil_iff (l : List Char) :
    stripCarriageReturn l = [] ↔ l = [] ∨ l = ['\r'] := by
  unfold stripCarriageReturn
  rcases List.eq_nil_or_concat l with rfl | ⟨l', c, rfl⟩
  · simp
  · by_cases hc : c = '\r'
    · subst hc
      simp
    · have hne : l' ++ [c] ≠ ['\r'] := by
        intro h
        have := congrArg List.getLast? h
        simp at this
        exact hc this
      simp [hc, hne]

end MapLines

/-! ### The map parser: texts made of rows -/

section MapRows

theorem parseMapLines_row_eol {r eol : List Char} (rest : List Char) (hne : r ≠ [])
    (hnl : '\n' ∉ r) (hcr : r.getLast? ≠ some '\r')
    (heol : eol = ['\n'] ∨ eol = ['\r', '\n']) :
    parseMapLines (r ++ eol ++ rest) = r :: parseMapLines rest := by
  have hne' : (r.isEmpty) = false := by simpa using hne
  rcases heol with rfl | rfl
  · have : r ++ ['\n'] ++ rest = r ++ '\n' :: rest := by simp
    rw [this, parseMapLines_of_getline (getline_line_newline r rest hnl),
      stripCarriageReturn_of_clean hcr]
    simp [hne']
  · have : r ++ ['\r', '\n'] ++ rest = (r ++ ['\r']) ++ '\n' :: rest := by simp
    have hnl' : '\n' ∉ r ++ ['\r'] := by
      intro hm
      rcases List.mem_append.1 hm with h | h
      · exact hnl h
      · simp at h
    rw [this, parseMapLines_of_getline (getline_line_newline _ rest hnl'),
      stripCarriageReturn_append_cr]
    simp [hne']

theorem parseMapLines_single {r : List Char} (hne : r ≠ []) (hnl : '\n' ∉ r)
    (hcr : r.getLast? ≠ some '\r') : parseMapLines r = [r] := by
  have hne' : (r.isEmpty) = false := by simpa using hne
  rw [parseMapLines_of_getline (getline_last_line r hne hnl), stripCarriageReturn_of_clean hcr,
    parseMapLines_nil]
  simp [hne']

/-- The lines of a text made of rows that are joined, or each terminated, by a
newline or by a carriage return and a newline are these rows. -/
theorem parseMapLines_joined {eol : List Char} (heol : eol = ['\n'] ∨ eol = ['\r', '\n']) :
    ∀ rows : List (List Char), rows ≠ [] →
      (∀ r ∈ rows, r ≠ [] ∧ '\n' ∉ r ∧ r.getLast? ≠ some '\r') →
      parseMapLines (List.intercalate eol rows) = rows ∧
      parseMapLines (List.intercalate eol rows ++ eol) = rows := by
  intro rows
  induction rows with
  | nil => intro h; exact absurd rfl h
  | cons r rs ih =>
    intro _ hclean
    obtain ⟨h1, h2, h3⟩ := hclean r (List.mem_cons_self _ _)
    cases rs with
    | nil =>
      have hi : List.intercalate eol [r] = r := by simp [List.intercalate]
      rw [hi]
      refine ⟨parseMapLines_single h1 h2 h3, ?_⟩
      have := parseMapLines_row_eol [] h1 h2 h3 heol
      rw [List.append_nil, parseMapLines_nil] at this
      exact this
    | cons r' rs' =>
      obtain ⟨ih1, ih2⟩ := ih (by simp) (fun x hx => hclean x (List.mem_cons_of_mem _ hx))
      have hi : List.intercalate eol (r :: r' :: rs') =
          r ++ eol ++ List.intercalate eol (r' :: rs') := by
        simp [List.intercalate]
      rw [hi]
      refine ⟨by rw [parseMapLines_row_eol _ h1 h2 h3 heol, ih1], ?_⟩
      rw [List.append_assoc (r ++ eol), parseMapLines_row_eol _ h1 h2 h3 heol, ih2]

end MapRows

/-! ### The map parser: filling the grid -/

section MapLoad

variable {K : Type} [SqrtField K]

theorem tableShape_setCell {α : Type} {tbl : List (List α)} {w h : Int}
    (hs : TableShape tbl w h) (x y : Int) (v : α) : TableShape (setCell tbl x y v) w h := by
  unfold setCell
  split
  · refine ⟨by rw [List.length_modify]; exact hs.1, ?_⟩
    intro row hrow
    obtain ⟨i, hi⟩ := List.mem_iff_getElem?.1 hrow
    rw [List.getElem?_modify] at hi
    cases hr : tbl[i]? with
    | none => simp [hr] at hi
    | some r =>
      have hmem : r ∈ tbl := List.mem_iff_getElem?.2 ⟨i, hr⟩
      simp only [hr, Option.map_eq_map, Option.map_some', Option.some.injEq] at hi
      rw [← hi]
      split
      · rw [List.length_set]
        exact hs.2 r hmem
      · exact hs.2 r hmem
  · exact hs

theorem setTerrain_wellFormed {t : Terrain K} (hwf : t.WellFormed) (x y : Int)
    (ty : TerrainType) : (t.setTerrain x y ty).WellFormed := by
  unfold Terrain.setTerrain
  split
  · exact ⟨hwf.1, hwf.2.1, tableShape_setCell hwf.2.2.1 x y ty, hwf.2.2.2.1, hwf.2.2.2.2⟩
  · exact hwf

theorem setElevation_wellFormed {t : Terrain K} (hwf : t.WellFormed) (x y : Int) (e : K) :
    (t.setElevation x y e).WellFormed := by
  unfold Terrain.setElevation
  split
  · exact ⟨hwf.1, hwf.2.1, hwf.2.2.1, tableShape_setCell hwf.2.2.2.1 x y e, hwf.2.2.2.2⟩
  · exact hwf

theorem setWindResistance_wellFormed {t : Terrain K} (hwf : t.WellFormed) (x y : Int) (r : K) :
    (t.setWindResistance x y r).WellFormed := by
  unfold Terrain.setWindResistance
  split
  · exact ⟨hwf.1, hwf.2.1, hwf.2.2.1, hwf.2.2.2.1, tableShape_setCell hwf.2.2.2.2 x y r⟩
  · exact hwf

theorem setElevation_dims (t : Terrain K) (x y : Int) (e : K) :
    (t.setElevation x y e).width = t.width ∧ (t.setElevation x y e).height = t.height := by
  unfold Terrain.setElevation
  split <;> exact ⟨rfl, rfl⟩

theorem setWindResistance_dims (t : Terrain K) (x y : Int) (r : K) :
    (t.setWindResistance x y r).width = t.width ∧
      (t.setWindResistance x y r).height = t.height := by
  unfold Terrain.setWindResistance
  split <;> exact ⟨rfl, rfl⟩

theorem loadCell_dims (lines : List (List Char)) (t : Terrain K) (x y : Int) :
    (loadCell lines y t x).width = t.width ∧ (loadCell lines y t x).height = t.height := by
  unfold loadCell
  simp only
  split
  · split
    · exact ⟨(setElevation_dims _ _ _ _).1.trans (setTerrain_shapes t x y _).2.2.1,
        (setElevation_dims _ _ _ _).2.trans (setTerrain_shapes t x y _).2.2.2⟩
    · exact ⟨(setWindResistance_dims _ _ _ _).1.trans (setTerrain_shapes t x y _).2.2.1,
        (setWindResistance_dims _ _ _ _).2.trans (setTerrain_shapes t x y _).2.2.2⟩
    · exact ⟨(setTerrain_shapes t x y _).2.2.1, (setTerrain_shapes t x y _).2.2.2⟩
  · exact ⟨rfl, rfl⟩

theorem loadCell_wellFormed (lines : List (List Char)) {t : Terrain K} (hwf : t.WellFormed)
    (x y : Int) : (loadCell lines y t x).WellFormed := by
  unfold loadCell
  simp only
  split
  · split
    · exact setElevation_wellFormed (setTerrain_wellFormed hwf _ _ _) _ _ _
    · exact setWindResistance_wellFormed (setTerrain_wellFormed hwf _ _ _) _ _ _
    · exact setTerrain_wellFormed hwf _ _ _
  · exact hwf

/-- One step of the loader writes the classification of the character at
column `x` of line `y` into the cell `(x, y)` and leaves the classification of
every other cell as it was. -/
theorem loadCell_typeAt (lines : List (List Char)) {t : Terrain K} (hwf : t.WellFormed)
    (x y : Int) (hv : t.isValidPosition ⟨x, y⟩ = true)
    (hx : x < ((lines.getD y.toNat []).length : Int)) (q : Point) :
    (loadCell lines y t x).typeAt q =
      if q = ⟨x, y⟩ then charToTerrainType ((lines.getD y.toNat []).getD x.toNat '.')
      else t.typeAt q := by
  unfold loadCell
  simp only
  rw [if_pos hx]
  have key : (t.setTerrain x y
        (charToTerrainType ((lines.getD y.toNat []).getD x.toNat '.'))).typeAt q =
      if q = ⟨x, y⟩ then charToTerrainType ((lines.getD y.toNat []).getD x.toNat '.')
      else t.typeAt q := by
    by_cases hq : q = ⟨x, y⟩
    · rw [if_pos hq, hq, setTerrain_typeAt_eq t hwf x y _ hv]
    · rw [if_neg hq, setTerrain_typeAt_ne t x y _ q hq]
  split
  · rw [setElevation_typeAt, key]
  · rw [setWindResistance_typeAt, key]
  · exact key

theorem isValidPosition_congr {t t' : Terrain K} (hw : t'.width = t.width)
    (hh : t'.height = t.height) (p : Point) : t'.isValidPosition p = t.isValidPosition p := by
  unfold Terrain.isValidPosition
  rw [hw, hh]

/-- Loading a list of cells one after the other. -/
theorem foldl_loadCell (lines : List (List Char)) :
    ∀ (cs : List Point) (t : Terrain K), t.WellFormed →
      (∀ c ∈ cs, t.isValidPosition c = true ∧
        c.x < ((lines.getD c.y.toNat []).length : Int)) →
      (cs.foldl (fun t c => loadCell lines c.y t c.x) t).WellFormed ∧
      (cs.foldl (fun t c => loadCell lines c.y t c.x) t).width = t.width ∧
      (cs.foldl (fun t c => loadCell lines c.y t c.x) t).height = t.height ∧
      ∀ q, (cs.foldl (fun t c => loadCell lines c.y t c.x) t).typeAt q =
        if q ∈ cs then charToTerrainType ((lines.getD q.y.toNat []).getD q.x.toNat '.')
        else t.typeAt q := by
  intro cs
  induction cs with
  | nil => intro t hwf _; exact ⟨hwf, rfl, rfl, fun q => by simp⟩
  | cons c cs ih =>
    intro t hwf hcs
    obtain ⟨hv, hx⟩ := hcs c (List.mem_cons_self _ _)
    obtain ⟨hw1, hh1⟩ := loadCell_dims lines t c.x c.y
    have hwf1 := loadCell_wellFormed lines hwf c.x c.y
    obtain ⟨h1, h2, h3, h4⟩ := ih (loadCell lines c.y t c.x) hwf1 (fun c' hc' => by
      obtain ⟨hv', hx'⟩ := hcs c' (List.mem_cons_of_mem _ hc')
      exact ⟨by rw [isValidPosition_congr hw1 hh1]; exact hv', hx'⟩)
    rw [List.foldl_cons]
    refine ⟨h1, h2.trans hw1, h3.trans hh1, fun q => ?_⟩
    rw [h4 q, loadCell_typeAt lines hwf c.x c.y hv hx q]
    by_cases hq : q ∈ cs
    · simp [hq]
    · by_cases hqc : q = c
      · subst hqc
        simp
      · have : (q = (⟨c.x, c.y⟩ : Point)) = False := by simpa using hqc
        simp [hq, hqc, this]

/-- The nested loops over rows and columns visit the cells row by row. -/
theorem loadCells_eq_foldl (lines : List (List Char)) (width height : Int) (t : Terrain K) :
    loadCells lines width height t =
      ((List.range height.toNat).flatMap (fun (y : Nat) =>
        (List.range width.toNat).map (fun (x : Nat) =>
          (⟨Int.ofNat x, Int.ofNat y⟩ : Point)))).foldl
        (fun t c => loadCell lines c.y t c.x) t := by
  unfold loadCells
  generalize List.range height.toNat = ys
  induction ys generalizing t with
  | nil => rfl
  | cons y ys ih =>
    rw [List.foldl_cons, ih, List.flatMap_cons, List.foldl_append, List.foldl_map]

theorem mem_cellList (width height : Int) {q : Point} :
    q ∈ (List.range height.toNat).flatMap (fun (y : Nat) =>
        (List.range width.toNat).map (fun (x : Nat) => (⟨Int.ofNat x, Int.ofNat y⟩ : Point))) ↔
      0 ≤ q.x ∧ q.x < width ∧ 0 ≤ q.y ∧ q.y < height := by
  simp only [List.mem_flatMap, List.mem_range, List.mem_map]
  constructor
  · rintro ⟨y, hy, x, hx, rfl⟩
    simp only [Int.ofNat_eq_coe]
    omega
  · rintro ⟨h1, h2, h3, h4⟩
    refine ⟨q.y.toNat, by omega, q.x.toNat, by omega, ?_⟩
    cases q with
    | mk qx qy =>
      simp only [Int.ofNat_eq_coe, Point.mk.injEq]
      simp only at h1 h3
      exact ⟨Int.toNat_of_nonneg h1, Int.toNat_of_nonneg h3⟩

end MapLoad

/-! ### The map parser: `loadMapFromString` -/

section MapResult

variable {K : Type} [SqrtField K]

theorem validateMapDimensions_eq_true_iff (lines : List (List Char)) :
    validateMapDimensions lines = true ↔
      lines ≠ [] ∧ ∀ l ∈ lines, l.length = (lines.headD []).length := by
  unfold validateMapDimensions
  cases lines with
  | nil => simp
  | cons r rs => simp

/-- The dimension check fails on a non-empty list of lines exactly when two of
the lines differ in length. -/
theorem validateMapDimensions_eq_false_iff {lines : List (List Char)} (hne : lines ≠ []) :
    validateMapDimensions lines = false ↔
      ∃ l₁ ∈ lines, ∃ l₂ ∈ lines, l₁.length ≠ l₂.length := by
  rw [← Bool.not_eq_true, validateMapDimensions_eq_true_iff]
  constructor
  · intro h
    by_contra hall
    apply h
    refine ⟨hne, fun l hl => ?_⟩
    by_contra hlen
    cases lines with
    | nil => exact hne rfl
    | cons r rs => exact hall ⟨l, hl, r, List.mem_cons_self _ _, by simpa using hlen⟩
  · rintro ⟨l₁, h₁, l₂, h₂, hlen⟩ ⟨_, hall⟩
    exact hlen ((hall l₁ h₁).trans (hall l₂ h₂).symm)

theorem loadMapFromString_eq_emptyMapData_iff (mapData : List Char) :
    (loadMapFromString mapData : Except MapError (Terrain K)) =
        Except.error MapError.emptyMapData ↔ parseMapLines mapData = [] := by
  unfold loadMapFromString
  simp only
  by_cases he : parseMapLines mapData = []
  · simp [he]
  · have he' : (parseMapLines mapData).isEmpty = false := by simpa using he
    simp only [he', Bool.false_eq_true, if_false, he, iff_false]
    split <;> simp

theorem loadMapFromString_eq_invalid_iff (mapData : List Char) :
    (loadMapFromString mapData : Except MapError (Terrain K)) =
        Except.error MapError.invalidMapDimensions ↔
      ∃ l₁ ∈ parseMapLines mapData, ∃ l₂ ∈ parseMapLines mapData, l₁.length ≠ l₂.length := by
  unfold loadMapFromString
  simp only
  by_cases he : parseMapLines mapData = []
  · simp [he]
  · have he' : (parseMapLines mapData).isEmpty = false := by simpa using he
    rw [← validateMapDimensions_eq_false_iff he]
    simp only [he', Bool.false_eq_true, if_false]
    by_cases hv : validateMapDimensions (parseMapLines mapData) = true
    · simp [hv]
    · simp [hv]

/-- The grid that the loader returns when the text has the lines `rows`, all of
the same length `w`. -/
theorem loadMapFromString_of_lines (mapData : List Char) {rows : List (List Char)} {w : Nat}
    (hp : parseMapLines mapData = rows) (hne : rows ≠ []) (hlen : ∀ r ∈ rows, r.length = w) :
    ∃ t : Terrain K, loadMapFromString mapData = Except.ok t ∧ t.WellFormed ∧
      t.width = (w : Int) ∧ t.height = (rows.length : Int) ∧
      ∀ q : Point, 0 ≤ q.x → q.x < (w : Int) → 0 ≤ q.y → q.y < (rows.length : Int) →
        t.typeAt q = charToTerrainType ((rows.getD q.y.toNat []).getD q.x.toNat '.') := by
  have hhead : (rows.headD []).length = w := by
    cases rows with
    | nil => exact absurd rfl hne
    | cons r rs => exact hlen r (List.mem_cons_self _ _)
  have hval : validateMapDimensions rows = true :=
    (validateMapDimensions_eq_true_iff rows).2 ⟨hne, fun l hl => (hlen l hl).trans hhead.symm⟩
  have hwf0 : (Terrain.new (Int.ofNat w) (Int.ofNat rows.length) : Terrain K).WellFormed :=
    new_wellFormed _ _ (Int.ofNat_nonneg _) (Int.ofNat_nonneg _)
  have hcells : ∀ c ∈ (List.range (Int.ofNat rows.length).toNat).flatMap (fun (y : Nat) =>
        (List.range (Int.ofNat w).toNat).map (fun (x : Nat) =>
          (⟨Int.ofNat x, Int.ofNat y⟩ : Point))),
      (Terrain.new (Int.ofNat w) (Int.ofNat rows.length) : Terrain K).isValidPosition c = true ∧
        c.x < (((rows.getD c.y.toNat []).length : Nat) : Int) := by
    intro c hc
    obtain ⟨h1, h2, h3, h4⟩ := (mem_cellList _ _).1 hc
    refine ⟨(isValidPosition_iff _ c).2 ⟨h1, h2, h3, h4⟩, ?_⟩
    have hy : c.y.toNat < rows.length := by
      simp only [Int.ofNat_eq_coe] at h4
      omega
    have hrow : (rows.getD c.y.toNat []).length = w := by
      rw [List.getD_eq_getElem _ _ hy]
      exact hlen _ (List.getElem_mem _)
    rw [hrow]
    exact h2
  obtain ⟨f1, f2, f3, f4⟩ := foldl_loadCell rows _ _ hwf0 hcells
  refine ⟨loadCells rows (Int.ofNat w) (Int.ofNat rows.length)
    (Terrain.new (Int.ofNat w) (Int.ofNat rows.length)), ?_, ?_, ?_, ?_, ?_⟩
  · unfold loadMapFromString
    have he' : rows.isEmpty = false := by simpa using hne
    simp only [hp, he', hval, hhead, Bool.false_eq_true, if_false, Bool.not_true]
  · rw [loadCells_eq_foldl]; exact f1
  · rw [loadCells_eq_foldl]; exact f2
  · rw [loadCells_eq_foldl]; exact f3
  · intro q h1 h2 h3 h4
    rw [loadCells_eq_foldl, f4 q]
    exact if_pos ((mem_cellList (Int.ofNat w) (Int.ofNat rows.length)).2
      ⟨h1, h2, h3, h4⟩)

/-- A grid returned by the loader has as many rows as the text has lines, at least one. -/
theorem loadMapFromString_height {mapData : List Char} {t : Terrain K}
    (h : loadMapFromString mapData = Except.ok t) :
    t.height = ((parseMapLines mapData).length : Int) ∧ parseMapLines mapData ≠ [] := by
  unfold loadMapFromString at h
  simp only at h
  by_cases he : parseMapLines mapData = []
  · simp [he] at h
  · have he' : (parseMapLines mapData).isEmpty = false := by simpa using he
    by_cases hv : validateMapDimensions (parseMapLines mapData) = true
    · simp only [he', hv, Bool.false_eq_true, if_false, Bool.not_true, Except.ok.injEq] at h
      refine ⟨?_, he⟩
      rw [← h, loadCells_eq_foldl]
      have hlen := ((validateMapDimensions_eq_true_iff _).1 hv).2
      obtain ⟨t', ht', _, _, hh, _⟩ := loadMapFromString_of_lines (K := K) mapData
        rfl he hlen
      unfold loadMapFromString at ht'
      simp only [he', hv, Bool.false_eq_true, if_false, Bool.not_true, Except.ok.injEq] at ht'
      rw [← loadCells_eq_foldl, ht']
      exact hh
    · simp [he', hv] at h

end MapResult

/-! ### The states that the search loop runs through -/

section TrajectorySteps

variable {K : Type} [LinearOrder K] [Zero K] [Add K] [Mul K] [OfScientific K] [IntCast K] [HasSqrt K] {Q : Type}

/-- An iteration that does not leave the loop uses up one unit of fuel. -/
theorem searchLoop_of_loopStep {pq : PriorityQueue K Q} {t : Terrain K} {hfun : Point → K}
    {scale : K → K → K} {goal : Point} {st st' : SearchState K Q}
    (h : loopStep pq t hfun scale goal st = some st') (fuel : Nat) :
    searchLoop pq t hfun scale goal (fuel + 1) st = searchLoop pq t hfun scale goal fuel st' := by
  unfold loopStep at h
  simp only [searchLoop]
  cases hpop : pq.pop st.openSet with
  | none => simp [hpop] at h
  | some v =>
    obtain ⟨u, rest⟩ := v
    simp only [hpop] at h ⊢
    by_cases hg : u.position = goal
    · simp [hg] at h
    · simp only [hg, if_false, Option.some.injEq] at h ⊢
      rw [h]

/-- The loop started with `n + fuel` units of fuel reaches the state after `n`
iterations with `fuel` units left. -/
theorem searchLoop_of_stateAfter {pq : PriorityQueue K Q} {t : Terrain K} {hfun : Point → K}
    {scale : K → K → K} {goal : Point} :
    ∀ (n : Nat) (st st' : SearchState K Q),
      stateAfter pq t hfun scale goal n st = some st' → ∀ fuel,
      searchLoop pq t hfun scale goal (n + fuel) st =
        searchLoop pq t hfun scale goal fuel st' := by
  intro n
  induction n with
  | zero =>
    intro st st' h fuel
    simp only [stateAfter, Option.some.injEq] at h
    rw [h, Nat.zero_add]
  | succ n ih =>
    intro st st' h fuel
    simp only [stateAfter] at h
    cases hstep : loopStep pq t hfun scale goal st with
    | none => simp [hstep] at h
    | some st₁ =>
      simp only [hstep] at h
      rw [show n + 1 + fuel = (n + fuel) + 1 by omega, searchLoop_of_loopStep hstep,
        ih st₁ st' h fuel]

end TrajectorySteps

section TrajectoryFacts

variable {K : Type} [SqrtField K] {Q : Type}

/-- One iteration keeps the invariants and the balance between the open set,
the created nodes and the number of iterations. -/
theorem loopStep_invariant {pq : PriorityQueue K Q} (hpq : pq.Lawful) {t : Terrain K}
    {hfun : Point → K} {scale : K → K → K} {start goal : Point} (hns : NonnegSteps t scale)
    {st st' : SearchState K Q} (hc : Core pq t hfun scale start st) (hs : Simple st)
    (h : loopStep pq t hfun scale goal st = some st') :
    Core pq t hfun scale start st' ∧ Simple st' ∧
      Multiset.card (pq.contents st'.openSet) + 1 + st.createdNodes.length =
        Multiset.card (pq.contents st.openSet) + st'.createdNodes.length := by
  unfold loopStep at h
  cases hpop : pq.pop st.openSet with
  | none => simp [hpop] at h
  | some v =>
    obtain ⟨u, rest⟩ := v
    simp only [hpop] at h
    by_cases hg : u.position = goal
    · simp [hg] at h
    · simp only [hg, if_false, Option.some.injEq] at h
      obtain ⟨hc', hu⟩ := hc.pop_core hpq hpop
      have hcard : Multiset.card (pq.contents st.openSet) =
          Multiset.card (pq.contents rest) + 1 := by
        rw [(hpq.pop_some _ _ _ hpop).1, Multiset.card_cons]
      have hcount := foldl_relax_count hpq t hfun scale u (t.getNeighbors u.position)
        { st with openSet := rest }
      rw [← h]
      refine ⟨Core.foldl_core hpq _ _ hc' hu (fun _ hw => hw),
        Simple.foldl_simple hpq hns _ _ hc' hs hu (fun _ hw => hw), ?_⟩
      simp only at hcount
      omega

theorem stateAfter_invariant {pq : PriorityQueue K Q} (hpq : pq.Lawful) {t : Terrain K}
    {hfun : Point → K} {scale : K → K → K} {start goal : Point} (hns : NonnegSteps t scale) :
    ∀ (n : Nat) (st st' : SearchState K Q), Core pq t hfun scale start st → Simple st →
      stateAfter pq t hfun scale goal n st = some st' →
      Core pq t hfun scale start st' ∧ Simple st' ∧
        Multiset.card (pq.contents st'.openSet) + n + st.createdNodes.length =
          Multiset.card (pq.contents st.openSet) + st'.createdNodes.length := by
  intro n
  induction n with
  | zero =>
    intro st st' hc hs h
    simp only [stateAfter, Option.some.injEq] at h
    subst h
    exact ⟨hc, hs, rfl⟩
  | succ n ih =>
    intro st st' hc hs h
    simp only [stateAfter] at h
    cases hstep : loopStep pq t hfun scale goal st with
    | none => simp [hstep] at h
    | some st₁ =>
      simp only [hstep] at h
      obtain ⟨hc₁, hs₁, hb₁⟩ := loopStep_invariant hpq hns hc hs hstep
      obtain ⟨hc₂, hs₂, hb₂⟩ := ih st₁ st' hc₁ hs₁ h
      exact ⟨hc₂, hs₂, by omega⟩

/-- In every state that the loop reaches from its initial state, the number of
nodes created (each of them pushed once) and the number of iterations made are
bounded by `chainBound`. -/
theorem stateAfter_bounded {pq : PriorityQueue K Q} (hpq : pq.Lawful) (t : Terrain K)
    (hfun : Point → K) {scale : K → K → K} (start goal : Point) (hns : NonnegSteps t scale)
    (n : Nat) (st : SearchState K Q)
    (h : stateAfter pq t hfun scale goal n (initialState pq hfun start) = some st) :
    st.createdNodes.length ≤ chainBound t start ∧ n ≤ st.createdNodes.length := by
  obtain ⟨hc, hs, hb⟩ := stateAfter_invariant hpq hns n _ st
    (Core.init_core hpq t hfun scale start) (Simple.init_simple pq hfun start) h
  refine ⟨created_length_le hc hs, ?_⟩
  simp only [initialState, hpq.contents_push, hpq.contents_empty, Multiset.card_cons,
    Multiset.card_zero, List.length_singleton] at hb
  omega

end TrajectoryFacts

/-! ### Freshly constructed grids -/

section NewGridCells

variable {K : Type} [OfScientific K]

theorem cellAt_replicate {α : Type} (w h : Nat) (v : α) (p : Point) :
    cellAt (List.replicate h (List.replicate w v)) p = some v ∨
      cellAt (List.replicate h (List.replicate w v)) p = none := by
  unfold cellAt
  by_cases hp : 0 ≤ p.x ∧ 0 ≤ p.y
  · rw [if_pos hp, List.getElem?_replicate]
    by_cases hy : p.y.toNat < h
    · rw [if_pos hy]
      simp only
      rw [List.getElem?_replicate]
      by_cases hx : p.x.toNat < w
      · exact Or.inl (if_pos hx)
      · exact Or.inr (if_neg hx)
    · rw [if_neg hy]
      exact Or.inr rfl
  · rw [if_neg hp]
    exact Or.inr rfl

theorem new_typeAt (w h : Int) (p : Point) :
    (Terrain.new w h : Terrain K).typeAt p = TerrainType.NORMAL := by
  unfold Terrain.typeAt Terrain.new
  rcases cellAt_replicate w.toNat h.toNat TerrainType.NORMAL p with hc | hc <;> simp [hc]

theorem new_isValidPosition (w h : Int) (p : Point) :
    (Terrain.new w h : Terrain K).isValidPosition p = true ↔
      0 ≤ p.x ∧ p.x < w ∧ 0 ≤ p.y ∧ p.y < h :=
  isValidPosition_iff _ p

theorem new_isPassable (w h : Int) (p : Point) :
    (Terrain.new w h : Terrain K).isPassable p = (Terrain.new w h : Terrain K).isValidPosition p := by
  unfold Terrain.isPassable Terrain.isObstacle
  rw [new_typeAt]
  cases hv : (Terrain.new w h : Terrain K).isValidPosition p <;> simp

/-- The two tables of a freshly constructed grid hold the literal `0.0`; a read
outside of them gives `0`. -/
theorem new_values [Zero K] (w h : Int) (p : Point) :
    ((Terrain.new w h : Terrain K).elevationAt p = 0 ∨
      (Terrain.new w h : Terrain K).elevationAt p = 0.0) ∧
    ((Terrain.new w h : Terrain K).windAt p = 0 ∨
      (Terrain.new w h : Terrain K).windAt p = 0.0) := by
  unfold Terrain.elevationAt Terrain.windAt Terrain.new
  rcases cellAt_replicate w.toNat h.toNat (0.0 : K) p with hc | hc
  · exact ⟨Or.inr (by simp [hc]), Or.inr (by simp [hc])⟩
  · exact ⟨Or.inl (by simp [hc]), Or.inl (by simp [hc])⟩

theorem new_nonNeg_of [Zero K] [LinearOrder K] (h0 : (0 : K) ≤ 0.0) (w h : Int) :
    (Terrain.new w h : Terrain K).NonNeg := by
  intro p _
  obtain ⟨h1, h2⟩ := new_values (K := K) w h p
  constructor
  · rcases h1 with h1 | h1 <;> rw [h1]
    exact h0
  · rcases h2 with h2 | h2 <;> rw [h2]
    exact h0

end NewGridCells

section NewGrid

variable {K : Type} [SqrtField K]

theorem new_elevationAt (w h : Int) (p : Point) :
    (Terrain.new w h : Terrain K).elevationAt p = 0 := by
  unfold Terrain.elevationAt Terrain.new
  rcases cellAt_replicate w.toNat h.toNat (0.0 : K) p with hc | hc
  · simp [hc]
    norm_num
  · simp [hc]

theorem new_windAt (w h : Int) (p : Point) :
    (Terrain.new w h : Terrain K).windAt p = 0 := by
  unfold Terrain.windAt Terrain.new
  rcases cellAt_replicate w.toNat h.toNat (0.0 : K) p with hc | hc
  · simp [hc]
    norm_num
  · simp [hc]

theorem new_nonNeg (w h : Int) : (Terrain.new w h : Terrain K).NonNeg := by
  intro p _
  rw [new_elevationAt, new_windAt]
  exact ⟨le_rfl, le_rfl⟩

theorem new_getMovementCost (w h : Int) (p : Point)
    (hv : (Terrain.new w h : Terrain K).isValidPosition p = true) :
    (Terrain.new w h : Terrain K).getMovementCost p = 1 := by
  unfold Terrain.getMovementCost
  rw [new_typeAt, new_elevationAt, new_windAt]
  simp only [hv, Bool.not_true, Bool.false_eq_true, if_false, NORMAL_COST]
  norm_num

end NewGrid

/-! ### The energy weight and the comparator -/

section EnergyFacts

variable {K : Type} [SqrtField K] {Q : Type}

/-- A step cost that is larger at every step gives a larger travel cost. -/
theorem travelCostWith_mono (t : Terrain K) {scale scale' : K → K → K}
    (h : ∀ a b, scale (t.getMovementCost b) (calculateDistance a b) ≤
      scale' (t.getMovementCost b) (calculateDistance a b)) :
    ∀ L : List Point, travelCostWith t scale L ≤ travelCostWith t scale' L := by
  intro L
  induction L with
  | nil => simp [travelCostWith]
  | cons a rest ih =>
    cases rest with
    | nil => simp [travelCostWith]
    | cons b rest' =>
      simp only [travelCostWith]
      exact add_le_add (h a b) ih

/-- With an energy weight of at least 1 the Euclidean heuristic is at most the
weighted travel cost of every sequence of cells that leads to the goal. -/
theorem heuristic_le_weighted {t : Terrain K} (hn : t.NonNeg) (goal : Point) {energyWeight : K}
    (hw : 1 ≤ energyWeight) (L : List Point) (a : Point) (hh : L.head? = some a)
    (hl : L.getLast? = some goal) :
    t.getHeuristicCost a goal ≤
      travelCostWith t (fun movementCost distance => movementCost * energyWeight * distance) L := by
  refine le_trans (heuristic_le_travelCost hn goal L a hh hl) ?_
  apply travelCostWith_mono
  intro x y
  have h1 := one_le_getMovementCost hn y
  have h2 : (0 : K) ≤ calculateDistance x y := calculateDistance_nonneg x y
  have h3 : t.getMovementCost y ≤ t.getMovementCost y * energyWeight := by nlinarith
  exact mul_le_mul_of_nonneg_right h3 h2

theorem pair_neighbors : (Terrain.new 2 1 : Terrain K).getNeighbors ⟨0, 0⟩ = [⟨1, 0⟩] := by
  rfl

theorem pair_route :
    IsRouteFromTo (Terrain.new 2 1 : Terrain K) ⟨0, 0⟩ ⟨1, 0⟩ [⟨0, 0⟩, ⟨1, 0⟩] := by
  refine ⟨?_, rfl, rfl⟩
  unfold IsRoute
  refine List.chain'_pair.2 ⟨by rw [pair_neighbors]; simp, ?_⟩
  rw [new_getMovementCost 2 1 ⟨1, 0⟩ rfl]
  norm_num

theorem pair_heuristic :
    (Terrain.new 2 1 : Terrain K).getHeuristicCost ⟨0, 0⟩ ⟨1, 0⟩ = 1 := by
  simp [Terrain.getHeuristicCost, sqrt_one_eq]

theorem pair_weighted_cost (energyWeight : K) :
    travelCostWith (Terrain.new 2 1 : Terrain K)
      (fun movementCost distance => movementCost * energyWeight * distance)
      [⟨0, 0⟩, ⟨1, 0⟩] = energyWeight := by
  simp only [travelCostWith]
  rw [new_getMovementCost 2 1 ⟨1, 0⟩ rfl, distance_straight_x 0 0 1 (by decide)]
  ring

theorem comparator_true_trans (a b c : PathNode K) :
    (PathNodeComparator a b = true → PathNodeComparator b c = true →
      PathNodeComparator a c = true) := by
  simp only [comparator_eq_true_iff]
  rintro (h1 | ⟨h1, h2⟩) (h3 | ⟨h3, h4⟩)
  · exact Or.inl (lt_trans h3 h1)
  · exact Or.inl (h3 ▸ h1)
  · exact Or.inl (h1 ▸ h3)
  · exact Or.inr ⟨h1.trans h3, lt_trans h4 h2⟩

theorem comparator_incomparable_iff (a b : PathNode K) :
    (PathNodeComparator a b = false ∧ PathNodeComparator b a = false) ↔
      a.fCost = b.fCost ∧ a.hCost = b.hCost := by
  simp only [comparator_eq_false_iff]
  constructor
  · rintro ⟨h1 | ⟨h1, h2⟩, h3 | ⟨h3, h4⟩⟩
    · exact absurd h1 (lt_asymm h3)
    · exact absurd h3.symm (ne_of_lt h1)
    · exact absurd h1.symm (ne_of_lt h3)
    · exact ⟨h1, le_antisymm h2 h4⟩
  · rintro ⟨h1, h2⟩
    exact ⟨Or.inr ⟨h1, le_of_eq h2⟩, Or.inr ⟨h1.symm, le_of_eq h2.symm⟩⟩

end EnergyFacts


/-! ### Simple paths -/

section SimplePaths

variable {K : Type} [SqrtField K] {Q : Type}

theorem sqrt_pos_of_pos {x : K} (hx : 0 < x) : 0 < SqrtField.sqrt x := by
  rcases lt_or_eq_of_le (SqrtField.sqrt_nonneg x) with h | h
  · exact h
  · exact absurd ((sqrt_eq_zero_iff (le_of_lt hx)).1 h.symm) (ne_of_gt hx)

theorem calculateDistance_pos {a b : Point} (h : a ≠ b) : (0 : K) < calculateDistance a b := by
  unfold calculateDistance
  apply sqrt_pos_of_pos
  have hne : a.x - b.x ≠ 0 ∨ a.y - b.y ≠ 0 := by
    by_contra hcon
    push_neg at hcon
    apply h
    cases a; cases b
    simp only [Point.mk.injEq]
    simp only at hcon
    omega
  have h1 : (0 : K) ≤ ((a.x - b.x : Int) : K) * ((a.x - b.x : Int) : K) := mul_self_nonneg _
  have h2 : (0 : K) ≤ ((a.y - b.y : Int) : K) * ((a.y - b.y : Int) : K) := mul_self_nonneg _
  rcases hne with hx | hy
  · have : ((a.x - b.x : Int) : K) ≠ 0 := Int.cast_ne_zero.2 hx
    have := mul_self_pos.2 this
    linarith
  · have : ((a.y - b.y : Int) : K) ≠ 0 := Int.cast_ne_zero.2 hy
    have := mul_self_pos.2 this
    linarith

/-- On a grid with non-negative elevation and wind resistance every move of the
search has a positive cost. -/
theorem stepCost_pos {t : Terrain K} (hn : t.NonNeg) {a b : Point} (h : CanEnter t a b) :
    0 < t.getMovementCost b * calculateDistance a b := by
  have h1 := one_le_getMovementCost hn b
  have h2 : (0 : K) < calculateDistance a b :=
    calculateDistance_pos (fun he => ne_of_mem_getNeighbors h.1 he.symm)
  exact mul_pos (by linarith) h2

/-- The accumulated cost of a created node exceeds that of its parent. -/
theorem GoodNode.parent_lt {t : Terrain K} (hn : t.NonNeg) {hfun : Point → K} {start : Point}
    {n : PathNode K}
    (h : GoodNode t hfun (fun movementCost distance => movementCost * distance) start n)
    (p : PathNode K) (hp : n.parent = some p) : p.gCost < n.gCost := by
  cases h with
  | root => simp at hp
  | child q pos _ hstep =>
    simp only [parent_new, Option.some.injEq] at hp
    subst hp
    rw [gCost_new]
    have := stepCost_pos hn hstep
    linarith

/-- Whatever the loop returns is free of repetitions when no move has a negative cost. -/
theorem searchLoop_nodup {pq : PriorityQueue K Q} (hpq : pq.Lawful) {t : Terrain K}
    {hfun : Point → K} {scale : K → K → K} {start goal : Point} (hns : NonnegSteps t scale)
    {fuel : Nat} {path : List Point}
    (h : searchLoop pq t hfun scale goal fuel (initialState pq hfun start) = some path) :
    path.Nodup := by
  obtain ⟨st', ⟨hc, hs⟩, hfin⟩ := searchLoop_final
    (fun st => Core pq t hfun scale start st ∧ Simple st)
    (fun st u rest hP hpop _ => by
      obtain ⟨hc', hu⟩ := hP.1.pop_core hpq hpop
      exact ⟨Core.foldl_core hpq _ _ hc' hu (fun _ hw => hw),
        Simple.foldl_simple hpq hns _ _ hc' hP.2 hu (fun _ hw => hw)⟩) fuel _ path
    ⟨Core.init_core hpq t hfun scale start, Simple.init_simple pq hfun start⟩ h
  rcases hfin with ⟨_, hnil⟩ | ⟨u, rest, hpop, _, hpath⟩
  · rw [hnil]; exact List.nodup_nil
  · rw [hpath]
    exact hs u (hc.pop_core hpq hpop).2

end SimplePaths


/-! ### The diagonal of the empty 5 x 5 grid -/

section Diagonal

variable {K : Type} [SqrtField K] {Q : Type}

/-- A step between 8-adjacent cells has length 1 when it is straight and
`sqrt 2` when it is diagonal. -/
theorem distance_of_adjacent {a b : Point} (h : Adjacent8 a b) :
    (calculateDistance a b = (1 : K) ∧ |b.x - a.x| + |b.y - a.y| = 1) ∨
    (calculateDistance a b = SqrtField.sqrt (2 : K) ∧ |b.x - a.x| = 1 ∧ |b.y - a.y| = 1) := by
  obtain ⟨hne, hx, hy⟩ := h
  obtain ⟨ax, ay⟩ := a
  obtain ⟨bx, by'⟩ := b
  simp only at hx hy
  have hne' : bx ≠ ax ∨ by' ≠ ay := by
    by_contra hcon
    push_neg at hcon
    exact hne (by rw [hcon.1, hcon.2])
  by_cases h1 : bx = ax
  · subst h1
    have h2 : |by' - ay| = 1 := by
      have : by' ≠ ay := by tauto
      rw [abs_le] at hy
      rcases abs_cases (by' - ay) with ⟨he, _⟩ | ⟨he, _⟩ <;> omega
    left
    refine ⟨distance_straight_y bx ay by' (by rw [abs_sub_comm]; exact h2), ?_⟩
    simp only [sub_self, abs_zero, zero_add]
    exact h2
  · have h2 : |bx - ax| = 1 := by
      rw [abs_le] at hx
      rcases abs_cases (bx - ax) with ⟨he, _⟩ | ⟨he, _⟩ <;> omega
    by_cases h3 : by' = ay
    · subst h3
      left
      refine ⟨distance_straight_x ax by' bx (by rw [abs_sub_comm]; exact h2), ?_⟩
      simp only [sub_self, abs_zero, add_zero]
      exact h2
    · have h4 : |by' - ay| = 1 := by
        rw [abs_le] at hy
        rcases abs_cases (by' - ay) with ⟨he, _⟩ | ⟨he, _⟩ <;> omega
      right
      exact ⟨distance_diagonal ax ay bx by' (by rw [abs_sub_comm]; exact h2)
        (by rw [abs_sub_comm]; exact h4), h2, h4⟩

/-- The length of a step is at least `sqrt 2 / 2` times the progress it makes in
`x + y`, with equality only for the step by `(1, 1)`. -/
theorem progress_le_distance {a b : Point} (h : Adjacent8 a b) :
    SqrtField.sqrt (2 : K) / 2 * (((b.x + b.y) - (a.x + a.y) : Int) : K) ≤
        calculateDistance a b ∧
    (calculateDistance a b ≤
        SqrtField.sqrt (2 : K) / 2 * (((b.x + b.y) - (a.x + a.y) : Int) : K) →
      b = ⟨a.x + 1, a.y + 1⟩) := by
  obtain ⟨hlo, hhi, hsq⟩ := sqrt_two_bounds (K := K)
  have key : ∀ v : Int, -1 ≤ v → v ≤ 1 →
      SqrtField.sqrt (2 : K) / 2 * (v : K) < 1 := by
    intro v h1 h2
    have hv : v = -1 ∨ v = 0 ∨ v = 1 := by omega
    rcases hv with rfl | rfl | rfl <;> push_cast <;> linarith
  rcases distance_of_adjacent (K := K) h with ⟨hd, hs⟩ | ⟨hd, hx, hy⟩
  · rw [hd]
    have hb : -1 ≤ (b.x + b.y) - (a.x + a.y) ∧ (b.x + b.y) - (a.x + a.y) ≤ 1 := by
      rcases abs_cases (b.x - a.x) with ⟨he, _⟩ | ⟨he, _⟩ <;>
        rcases abs_cases (b.y - a.y) with ⟨he', _⟩ | ⟨he', _⟩ <;> omega
    have := key _ hb.1 hb.2
    exact ⟨le_of_lt this, fun hle => absurd this (not_lt.2 hle)⟩
  · rw [hd]
    have hv : (b.x + b.y) - (a.x + a.y) = -2 ∨ (b.x + b.y) - (a.x + a.y) = 0 ∨
        ((b.x + b.y) - (a.x + a.y) = 2 ∧ b.x = a.x + 1 ∧ b.y = a.y + 1) := by
      rcases abs_cases (b.x - a.x) with ⟨he, _⟩ | ⟨he, _⟩ <;>
        rcases abs_cases (b.y - a.y) with ⟨he', _⟩ | ⟨he', _⟩ <;> omega
    rcases hv with hv | hv | ⟨hv, hbx, hby⟩ <;> rw [hv] <;> push_cast
    · exact ⟨by linarith, fun hle => by linarith⟩
    · exact ⟨by linarith, fun hle => by linarith⟩
    · refine ⟨by linarith, fun _ => ?_⟩
      cases b
      simp only at hbx hby
      rw [hbx, hby]

/-- On a grid with non-negative elevation and wind resistance a route costs at
least `sqrt 2 / 2` times its progress in `x + y`, and a route that costs no
more than that moves by `(1, 1)` at every step. -/
theorem route_progress {t : Terrain K} (hn : t.NonNeg) (goal : Point) :
    ∀ (L : List Point) (a : Point), IsRouteFromTo t a goal L →
      SqrtField.sqrt (2 : K) / 2 * (((goal.x + goal.y) - (a.x + a.y) : Int) : K) ≤
          travelCost t L ∧
      (travelCost t L ≤
          SqrtField.sqrt (2 : K) / 2 * (((goal.x + goal.y) - (a.x + a.y) : Int) : K) →
        List.Chain' (fun p q : Point => q = ⟨p.x + 1, p.y + 1⟩) L) := by
  intro L
  induction L with
  | nil => intro a hL; simp [IsRouteFromTo] at hL
  | cons x rest ih =>
    intro a hL
    obtain ⟨hr, hh, hl⟩ := hL
    simp only [List.head?_cons, Option.some.injEq] at hh
    subst hh
    cases rest with
    | nil =>
      simp only [List.getLast?_singleton, Option.some.injEq] at hl
      subst hl
      simp [travelCost, travelCostWith]
    | cons b rest' =>
      unfold IsRoute at hr
      obtain ⟨hstep, hr'⟩ := List.chain'_cons.1 hr
      have hl' : (b :: rest').getLast? = some goal := by
        rw [List.getLast?_cons_cons] at hl; exact hl
      obtain ⟨ih1, ih2⟩ := ih b ⟨hr', by simp, hl'⟩
      obtain ⟨p1, p2⟩ := progress_le_distance (K := K) (canEnter_iff.1 hstep).1
      have hcost := distance_le_stepCost hn x b
      have hsplit : (((goal.x + goal.y) - (x.x + x.y) : Int) : K) =
          (((b.x + b.y) - (x.x + x.y) : Int) : K) + (((goal.x + goal.y) - (b.x + b.y) : Int) : K) := by
        push_cast; ring
      unfold travelCost at ih1 ih2 ⊢
      simp only [travelCostWith]
      rw [hsplit, mul_add]
      refine ⟨by linarith, fun hle => ?_⟩
      exact List.Chain'.cons (p2 (by linarith)) (ih2 (by linarith))

/-- The diagonal of the empty 5 x 5 grid. -/
theorem diagonal_route :
    IsRouteFromTo (Terrain.new 5 5 : Terrain K) ⟨0, 0⟩ ⟨4, 4⟩
      [⟨0, 0⟩, ⟨1, 1⟩, ⟨2, 2⟩, ⟨3, 3⟩, ⟨4, 4⟩] := by
  refine ⟨?_, rfl, rfl⟩
  have hc : ∀ a b : Point, b ∈ (Terrain.new 5 5 : Terrain K).getNeighbors a →
      CanEnter (Terrain.new 5 5 : Terrain K) a b := by
    intro a b hb
    refine ⟨hb, ?_⟩
    rw [new_getMovementCost 5 5 b
      (isValidPosition_of_isPassable (isPassable_of_mem_getNeighbors hb))]
    norm_num
  unfold IsRoute
  refine List.Chain'.cons (hc _ _ ?_) (List.Chain'.cons (hc _ _ ?_) (List.Chain'.cons (hc _ _ ?_)
    (List.chain'_pair.2 (hc _ _ ?_)))) <;>
  · rw [mem_getNeighbors]
    exact ⟨⟨(1, 1), by decide, rfl⟩, rfl⟩

theorem diagonal_travelCost :
    travelCost (Terrain.new 5 5 : Terrain K) [⟨0, 0⟩, ⟨1, 1⟩, ⟨2, 2⟩, ⟨3, 3⟩, ⟨4, 4⟩] =
      4 * SqrtField.sqrt 2 := by
  simp only [travelCost, travelCostWith]
  rw [new_getMovementCost 5 5 ⟨1, 1⟩ rfl, new_getMovementCost 5 5 ⟨2, 2⟩ rfl,
    new_getMovementCost 5 5 ⟨3, 3⟩ rfl, new_getMovementCost 5 5 ⟨4, 4⟩ rfl,
    distance_diagonal 0 0 1 1 (by decide) (by decide),
    distance_diagonal 1 1 2 2 (by decide) (by decide),
    distance_diagonal 2 2 3 3 (by decide) (by decide),
    distance_diagonal 3 3 4 4 (by decide) (by decide)]
  ring

/-- A route of the empty 5 x 5 grid from `(0, 0)` to `(4, 4)` that moves by
`(1, 1)` at every step is the diagonal. -/
theorem eq_diagonal {L : List Point}
    (hL : IsRouteFromTo (Terrain.new 5 5 : Terrain K) ⟨0, 0⟩ ⟨4, 4⟩ L)
    (hd : List.Chain' (fun p q : Point => q = ⟨p.x + 1, p.y + 1⟩) L) :
    L = [⟨0, 0⟩, ⟨1, 1⟩, ⟨2, 2⟩, ⟨3, 3⟩, ⟨4, 4⟩] := by
  obtain ⟨hr, hh, hl⟩ := hL
  have hvalid : ∀ p ∈ L.tail, (Terrain.new 5 5 : Terrain K).isValidPosition p = true := by
    intro p hp
    cases L with
    | nil => simp at hp
    | cons a rest =>
      obtain ⟨q, hq⟩ := route_tail_canEnter rest a hr p hp
      exact isValidPosition_of_isPassable (isPassable_of_mem_getNeighbors hq.1)
  match L, hh, hl, hd, hvalid with
  | [a], hh, hl, _, _ =>
    simp only [List.head?_cons, Option.some.injEq, List.getLast?_singleton] at hh hl
    rw [hh] at hl
    exact absurd hl (by decide)
  | [a, b], hh, hl, hd, _ =>
    simp only [List.head?_cons, Option.some.injEq] at hh
    subst hh
    simp only [List.chain'_cons, List.chain'_singleton, and_true] at hd
    subst hd
    exact absurd hl (by decide)
  | [a, b, c], hh, hl, hd, _ =>
    simp only [List.head?_cons, Option.some.injEq] at hh
    subst hh
    simp only [List.chain'_cons, List.chain'_singleton, and_true] at hd
    obtain ⟨rfl, rfl⟩ := hd
    exact absurd hl (by decide)
  | [a, b, c, d], hh, hl, hd, _ =>
    simp only [List.head?_cons, Option.some.injEq] at hh
    subst hh
    simp only [List.chain'_cons, List.chain'_singleton, and_true] at hd
    obtain ⟨rfl, rfl, rfl⟩ := hd
    exact absurd hl (by decide)
  | [a, b, c, d, e], hh, _, hd, _ =>
    simp only [List.head?_cons, Option.some.injEq] at hh
    subst hh
    simp only [List.chain'_cons, List.chain'_singleton, and_true] at hd
    obtain ⟨rfl, rfl, rfl, rfl⟩ := hd
    rfl
  | a :: b :: c :: d :: e :: f :: rest, hh, _, hd, hvalid =>
    simp only [List.head?_cons, Option.some.injEq] at hh
    subst hh
    simp only [List.chain'_cons] at hd
    obtain ⟨rfl, rfl, rfl, rfl, rfl, _⟩ := hd
    have := hvalid ⟨0 + 1 + 1 + 1 + 1 + 1, 0 + 1 + 1 + 1 + 1 + 1⟩ (by simp)
    have h := (new_isValidPosition 5 5 _).1 this
    simp at h

end Diagonal

/-! ### The choices of the greedy walk -/

section GreedyChoices

variable {K : Type} [LinearOrder K] [IntCast K] [Add K] [Mul K] [HasSqrt K]

/-- The scan for the best neighbour, started from a candidate `b₀` with its
cost: either the candidate stays, and no cell of the list is better, or the
result is the first cell of the list with the least cost, which is better than
the candidate. -/
theorem bestScan_spec (t : Terrain K) (goal : Point) :
    ∀ (l : List Point) (b₀ : Point),
      ((l.foldl (fun (best : Point × K) neighbor =>
          if t.getHeuristicCost neighbor goal < best.2
          then (neighbor, t.getHeuristicCost neighbor goal) else best)
        (b₀, t.getHeuristicCost b₀ goal)).1 = b₀ ∧
        ∀ m ∈ l, t.getHeuristicCost b₀ goal ≤ t.getHeuristicCost m goal) ∨
      ∃ before after b, l = before ++ b :: after ∧
        (l.foldl (fun (best : Point × K) neighbor =>
          if t.getHeuristicCost neighbor goal < best.2
          then (neighbor, t.getHeuristicCost neighbor goal) else best)
        (b₀, t.getHeuristicCost b₀ goal)).1 = b ∧
        t.getHeuristicCost b goal < t.getHeuristicCost b₀ goal ∧
        (∀ m ∈ before, t.getHeuristicCost b goal < t.getHeuristicCost m goal) ∧
        (∀ m ∈ after, t.getHeuristicCost b goal ≤ t.getHeuristicCost m goal) := by
  intro l
  induction l with
  | nil => intro b₀; exact Or.inl ⟨rfl, by simp⟩
  | cons m l ih =>
    intro b₀
    rw [List.foldl_cons]
    by_cases hlt : t.getHeuristicCost m goal < t.getHeuristicCost b₀ goal
    · simp only [hlt, if_true]
      right
      rcases ih m with ⟨h1, h2⟩ | ⟨before, after, b, hl, h1, h2, h3, h4⟩
      · exact ⟨[], l, m, rfl, h1, hlt, by simp, h2⟩
      · refine ⟨m :: before, after, b, by rw [hl]; rfl, h1, lt_trans h2 hlt, ?_, h4⟩
        intro x hx
        rcases List.mem_cons.1 hx with rfl | hx
        · exact h2
        · exact h3 x hx
    · simp only [hlt, if_false]
      have hle := not_lt.1 hlt
      rcases ih b₀ with ⟨h1, h2⟩ | ⟨before, after, b, hl, h1, h2, h3, h4⟩
      · left
        refine ⟨h1, ?_⟩
        intro x hx
        rcases List.mem_cons.1 hx with rfl | hx
        · exact hle
        · exact h2 x hx
      · right
        refine ⟨m :: before, after, b, by rw [hl]; rfl, h1, h2, ?_, h4⟩
        intro x hx
        rcases List.mem_cons.1 hx with rfl | hx
        · exact lt_of_lt_of_le h2 hle
        · exact h3 x hx

/-- The best neighbour is the first of the neighbours with the least heuristic cost. -/
theorem bestNeighbor_spec (t : Terrain K) (goal first : Point) (others : List Point) :
    ∃ before after, first :: others =
        before ++ bestNeighbor t goal first (first :: others) :: after ∧
      (∀ m ∈ before, t.getHeuristicCost (bestNeighbor t goal first (first :: others)) goal <
        t.getHeuristicCost m goal) ∧
      (∀ m ∈ after, t.getHeuristicCost (bestNeighbor t goal first (first :: others)) goal ≤
        t.getHeuristicCost m goal) := by
  unfold bestNeighbor
  simp only
  rcases bestScan_spec t goal (first :: others) first with
    ⟨h1, h2⟩ | ⟨before, after, b, hl, h1, _, h3, h4⟩
  · rw [h1]
    exact ⟨[], others, rfl, by simp, fun m hm => h2 m (List.mem_cons_of_mem _ hm)⟩
  · rw [h1]
    exact ⟨before, after, hl, h3, h4⟩

/-- What the greedy loop returns: the path it was given, extended by choices of
the best neighbour, up to a cell where the loop stops. -/
theorem greedyLoop_spec (t : Terrain K) (goal : Point) :
    ∀ (fuel : Nat) (current : Point) (path r : List Point),
      path.getLast? = some current → List.Chain' (GreedyChoice t goal) path →
      greedyLoop t goal fuel current path = some r →
      path <+: r ∧ List.Chain' (GreedyChoice t goal) r ∧
      ∃ c, r.getLast? = some c ∧ (c = goal ∨ t.getNeighbors c = [] ∨
        (r.length : Int) > toSizeT (t.width * t.height)) := by
  intro fuel
  induction fuel with
  | zero => intro current path r _ _ h; simp [greedyLoop] at h
  | succ fuel ih =>
    intro current path r hlast hch h
    simp only [greedyLoop] at h
    by_cases hg : current = goal
    · simp only [hg, if_true, Option.some.injEq] at h
      subst h
      exact ⟨List.prefix_refl _, hch, current, hlast, Or.inl hg⟩
    · simp only [hg, if_false] at h
      cases hnb : t.getNeighbors current with
      | nil =>
        rw [hnb] at h
        simp only [Option.some.injEq] at h
        subst h
        exact ⟨List.prefix_refl _, hch, current, hlast, Or.inr (Or.inl hnb)⟩
      | cons first others =>
        rw [hnb] at h
        simp only at h
        have hchoice : GreedyChoice t goal current
            (bestNeighbor t goal first (first :: others)) := by
          obtain ⟨before, after, hl, h1, h2⟩ := bestNeighbor_spec t goal first others
          exact ⟨hg, before, after, by rw [hnb]; exact hl, h1, h2⟩
        have hch' : List.Chain' (GreedyChoice t goal)
            (path ++ [bestNeighbor t goal first (first :: others)]) := by
          apply List.Chain'.append hch (List.chain'_singleton _)
          intro x hx y hy
          rw [hlast] at hx
          simp only [Option.mem_def, Option.some.injEq] at hx
          simp only [List.head?_cons, Option.mem_def, Option.some.injEq] at hy
          rw [← hx, ← hy]
          exact hchoice
        have hlast' : (path ++ [bestNeighbor t goal first (first :: others)]).getLast? =
            some (bestNeighbor t goal first (first :: others)) := by simp
        by_cases hbig : ((path ++ [bestNeighbor t goal first (first :: others)]).length : Int) >
            toSizeT (t.width * t.height)
        · simp only [hbig, if_true, Option.some.injEq] at h
          subst h
          exact ⟨List.prefix_append _ _, hch', _, hlast', Or.inr (Or.inr hbig)⟩
        · simp only [hbig, if_false] at h
          obtain ⟨h1, h2, h3⟩ := ih _ _ r hlast' hch' h
          exact ⟨(List.prefix_append _ _).trans h1, h2, h3⟩

end GreedyChoices


/-! ### The greedy walk on a grid without obstacles -/

section GreedyFree

variable {K : Type} [SqrtField K]

theorem sqrt_lt_sqrt {a b : K} (ha : 0 ≤ a) (hab : a < b) :
    SqrtField.sqrt a < SqrtField.sqrt b := by
  by_contra hcon
  push_neg at hcon
  have h1 := SqrtField.mul_self_sqrt a ha
  have h2 := SqrtField.mul_self_sqrt b (le_trans ha (le_of_lt hab))
  have h3 := SqrtField.sqrt_nonneg b
  have : SqrtField.sqrt b * SqrtField.sqrt b ≤ SqrtField.sqrt a * SqrtField.sqrt a :=
    mul_le_mul hcon hcon h3 (le_trans h3 hcon)
  linarith

/-- The heuristic cost is the square root of the squared distance, an integer. -/
theorem getHeuristicCost_eq_sqrt (t : Terrain K) (p g : Point) :
    t.getHeuristicCost p g =
      SqrtField.sqrt ((((g.x - p.x) * (g.x - p.x) + (g.y - p.y) * (g.y - p.y) : Int)) : K) := by
  unfold Terrain.getHeuristicCost
  simp only
  rw [← Int.cast_mul, ← Int.cast_mul, abs_mul_abs_self, abs_mul_abs_self, ← Int.cast_add]

theorem getHeuristicCost_lt_of_sq_lt (t : Terrain K) (p q g : Point)
    (h : (g.x - p.x) * (g.x - p.x) + (g.y - p.y) * (g.y - p.y) <
      (g.x - q.x) * (g.x - q.x) + (g.y - q.y) * (g.y - q.y)) :
    t.getHeuristicCost p g < t.getHeuristicCost q g := by
  rw [getHeuristicCost_eq_sqrt, getHeuristicCost_eq_sqrt]
  apply sqrt_lt_sqrt
  · exact_mod_cast add_nonneg (mul_self_nonneg _) (mul_self_nonneg _)
  · exact_mod_cast h

/-- Without rounding the heuristic cost tells all cells apart as their exact
distances do. -/
theorem separatesDistances_exact (t : Terrain K) (goal : Point) : t.SeparatesDistances goal :=
  fun p q _ _ h => getHeuristicCost_lt_of_sq_lt t p q goal h

end GreedyFree

section GreedyStraight

variable {K : Type} [LinearOrder K] [IntCast K] [Add K] [Mul K] [HasSqrt K]

/-- In one coordinate, the step by the sign of the difference leaves the least
remaining difference among the steps `-1`, `0`, `1`, and it alone does. -/
theorem sign_step_best (d e : Int) (h1 : -1 ≤ e) (h2 : e ≤ 1) :
    (d - Int.sign d) * (d - Int.sign d) ≤ (d - e) * (d - e) ∧
    ((d - e) * (d - e) ≤ (d - Int.sign d) * (d - Int.sign d) → e = Int.sign d) := by
  have he : e = -1 ∨ e = 0 ∨ e = 1 := by omega
  rcases lt_trichotomy d 0 with hd | hd | hd
  · rw [Int.sign_eq_neg_one_of_neg hd]
    rcases he with rfl | rfl | rfl
    · exact ⟨le_rfl, fun _ => rfl⟩
    · exact ⟨by nlinarith, fun h => by nlinarith⟩
    · exact ⟨by nlinarith, fun h => by nlinarith⟩
  · subst hd
    rcases he with rfl | rfl | rfl <;> simp
  · rw [Int.sign_eq_one_of_pos hd]
    rcases he with rfl | rfl | rfl
    · exact ⟨by nlinarith, fun h => by nlinarith⟩
    · exact ⟨by nlinarith, fun h => by nlinarith⟩
    · exact ⟨le_rfl, fun _ => rfl⟩

theorem sign_bounds (d : Int) : -1 ≤ Int.sign d ∧ Int.sign d ≤ 1 := by
  rcases lt_trichotomy d 0 with hd | hd | hd
  · rw [Int.sign_eq_neg_one_of_neg hd]; omega
  · subst hd; simp
  · rw [Int.sign_eq_one_of_pos hd]; omega

theorem sign_between (c g : Int) :
    (c ≤ c + Int.sign (g - c) ∧ c + Int.sign (g - c) ≤ g) ∨
    (g ≤ c + Int.sign (g - c) ∧ c + Int.sign (g - c) ≤ c) := by
  rcases lt_trichotomy (g - c) 0 with hd | hd | hd
  · rw [Int.sign_eq_neg_one_of_neg hd]; right; omega
  · rw [hd]; simp only [Int.sign_zero, add_zero]; left; omega
  · rw [Int.sign_eq_one_of_pos hd]; left; omega

theorem abs_sub_sign (c g : Int) :
    |g - (c + Int.sign (g - c))| = |g - c| - (if g = c then 0 else 1) := by
  rcases lt_trichotomy (g - c) 0 with hd | hd | hd
  · rw [Int.sign_eq_neg_one_of_neg hd, if_neg (by omega), abs_of_neg hd,
      abs_of_nonpos (by omega)]
    omega
  · have : g = c := by omega
    subst this
    simp
  · rw [Int.sign_eq_one_of_pos hd, if_neg (by omega), abs_of_pos hd,
      abs_of_nonneg (by omega)]
    omega

/-- A step towards the goal lowers the larger of the two coordinate differences by one. -/
theorem lineSteps_stepToward {c goal : Point} (h : c ≠ goal) :
    lineSteps (stepToward c goal) goal = lineSteps c goal - 1 := by
  unfold lineSteps stepToward
  simp only
  rw [abs_sub_sign, abs_sub_sign]
  have hne : ¬ (goal.x = c.x ∧ goal.y = c.y) := by
    rintro ⟨hx, hy⟩
    apply h
    cases c; cases goal
    simp only at hx hy
    rw [hx, hy]
  have h1 := abs_nonneg (goal.x - c.x)
  have h2 := abs_nonneg (goal.y - c.y)
  have e1 : goal.x = c.x → |goal.x - c.x| = 0 := fun he => by rw [he]; simp
  have e2 : goal.y = c.y → |goal.y - c.y| = 0 := fun he => by rw [he]; simp
  have e3 : goal.x ≠ c.x → 1 ≤ |goal.x - c.x| := fun he =>
    Int.one_le_abs (sub_ne_zero.2 he)
  have e4 : goal.y ≠ c.y → 1 ≤ |goal.y - c.y| := fun he =>
    Int.one_le_abs (sub_ne_zero.2 he)
  by_cases hx : goal.x = c.x <;> by_cases hy : goal.y = c.y
  · exact absurd ⟨hx, hy⟩ hne
  · have := e1 hx; have := e4 hy
    simp only [hx, hy, if_true, if_false]
    simp only [sub_self, abs_zero, sub_zero] at *
    omega
  · have := e3 hx; have := e2 hy
    simp only [hx, hy, if_true, if_false]
    simp only [sub_self, abs_zero, sub_zero] at *
    omega
  · have := e3 hx; have := e4 hy
    simp only [hx, hy, if_false]
    omega

theorem isPassable_of_free {t : Terrain K}
    (hfree : ∀ p, t.isValidPosition p = true → t.typeAt p ≠ TerrainType.OBSTACLE) {p : Point}
    (hv : t.isValidPosition p = true) : t.isPassable p = true := by
  unfold Terrain.isPassable Terrain.isObstacle
  simp [hv, hfree p hv]

theorem stepToward_valid {t : Terrain K} {c goal : Point} (hc : t.isValidPosition c = true)
    (hg : t.isValidPosition goal = true) : t.isValidPosition (stepToward c goal) = true := by
  rw [isValidPosition_iff] at hc hg ⊢
  unfold stepToward
  simp only
  rcases sign_between c.x goal.x with h1 | h1 <;> rcases sign_between c.y goal.y with h2 | h2 <;>
    omega

theorem stepToward_mem {t : Terrain K}
    (hfree : ∀ p, t.isValidPosition p = true → t.typeAt p ≠ TerrainType.OBSTACLE)
    {c goal : Point} (hc : t.isValidPosition c = true) (hg : t.isValidPosition goal = true)
    (hne : c ≠ goal) : stepToward c goal ∈ t.getNeighbors c := by
  rw [mem_getNeighbors]
  refine ⟨⟨(Int.sign (goal.x - c.x), Int.sign (goal.y - c.y)), ?_, rfl⟩,
    isPassable_of_free hfree (stepToward_valid hc hg)⟩
  apply mem_neighborOffsets_of_bounds (sign_bounds _) (sign_bounds _)
  by_contra hcon
  push_neg at hcon
  simp only [Int.sign_eq_zero_iff_zero] at hcon
  apply hne
  cases c; cases goal
  simp only [Point.mk.injEq] at hcon ⊢
  constructor <;> omega

/-- Every other neighbour is farther from the goal than the step towards it. -/
theorem stepToward_lt {t : Terrain K} {c goal m : Point} (hsep : t.SeparatesDistances goal)
    (hc : t.isValidPosition c = true) (hg : t.isValidPosition goal = true)
    (hm : m ∈ t.getNeighbors c) (hms : m ≠ stepToward c goal) :
    t.getHeuristicCost (stepToward c goal) goal < t.getHeuristicCost m goal := by
  have hmv := isValidPosition_of_isPassable (isPassable_of_mem_getNeighbors hm)
  obtain ⟨⟨d, hd, rfl⟩, _⟩ := mem_getNeighbors.1 hm
  obtain ⟨hb1, hb2, _⟩ := offsets_spec hd
  apply hsep _ _ (stepToward_valid hc hg) hmv
  unfold squaredDistance stepToward
  simp only
  obtain ⟨x1, x2⟩ := sign_step_best (goal.x - c.x) d.1 hb1.1 hb1.2
  obtain ⟨y1, y2⟩ := sign_step_best (goal.y - c.y) d.2 hb2.1 hb2.2
  have ex : goal.x - (c.x + Int.sign (goal.x - c.x)) = goal.x - c.x - Int.sign (goal.x - c.x) := by
    ring
  have ey : goal.y - (c.y + Int.sign (goal.y - c.y)) = goal.y - c.y - Int.sign (goal.y - c.y) := by
    ring
  have ex' : goal.x - (c.x + d.1) = goal.x - c.x - d.1 := by ring
  have ey' : goal.y - (c.y + d.2) = goal.y - c.y - d.2 := by ring
  rw [ex, ey, ex', ey']
  by_contra hcon
  push_neg at hcon
  have hxe : d.1 = Int.sign (goal.x - c.x) := x2 (by linarith)
  have hye : d.2 = Int.sign (goal.y - c.y) := y2 (by linarith)
  apply hms
  unfold stepToward
  rw [hxe, hye]

/-- On a grid without obstacles the best neighbour is the step towards the goal. -/
theorem bestNeighbor_eq_stepToward {t : Terrain K}
    (hfree : ∀ p, t.isValidPosition p = true → t.typeAt p ≠ TerrainType.OBSTACLE)
    {c goal : Point} (hsep : t.SeparatesDistances goal) (hc : t.isValidPosition c = true) (hg : t.isValidPosition goal = true)
    (hne : c ≠ goal) {first : Point} {others : List Point}
    (hnb : t.getNeighbors c = first :: others) :
    bestNeighbor t goal first (first :: others) = stepToward c goal := by
  obtain ⟨before, after, hl, h1, h2⟩ := bestNeighbor_spec t goal first others
  have hs := stepToward_mem hfree hc hg hne
  generalize bestNeighbor t goal first (first :: others) = b at hl h1 h2 ⊢
  have hb : b ∈ t.getNeighbors c := by
    rw [hnb, hl]; simp
  by_contra hcon
  have hlt := stepToward_lt hsep hc hg hb hcon
  rw [hnb, hl, List.mem_append, List.mem_cons] at hs
  rcases hs with hs | hs | hs
  · exact absurd (h1 _ hs) (not_lt.2 (le_of_lt hlt))
  · exact hcon hs.symm
  · exact absurd hlt (not_lt.2 (h2 _ hs))

theorem lineSteps_eq_zero {c goal : Point} (h : lineSteps c goal = 0) : c = goal := by
  unfold lineSteps at h
  have h1 := abs_nonneg (goal.x - c.x)
  have h2 := abs_nonneg (goal.y - c.y)
  have hx : |goal.x - c.x| = 0 := le_antisymm (by rw [← h]; exact le_max_left _ _) h1
  have hy : |goal.y - c.y| = 0 := le_antisymm (by rw [← h]; exact le_max_right _ _) h2
  rw [abs_eq_zero] at hx hy
  cases c; cases goal
  simp only [Point.mk.injEq] at hx hy ⊢
  constructor <;> omega

theorem lineSteps_self (c : Point) : lineSteps c c = 0 := by
  simp [lineSteps]

/-- The greedy loop on a grid without obstacles: from a cell `n` steps away from
the goal it appends the `n` steps towards the goal, provided the cap is not
reached on the way. -/
theorem greedyLoop_free {t : Terrain K}
    (hfree : ∀ p, t.isValidPosition p = true → t.typeAt p ≠ TerrainType.OBSTACLE)
    {goal : Point} (hsep : t.SeparatesDistances goal) (hg : t.isValidPosition goal = true) :
    ∀ (n : Nat) (c : Point) (path : List Point), t.isValidPosition c = true →
      lineSteps c goal = (n : Int) →
      (path.length : Int) + n ≤ toSizeT (t.width * t.height) →
      ∃ tail, greedyLoop t goal (n + 1) c path = some (path ++ tail) ∧ tail.length = n ∧
        List.Chain' (fun a b => b = stepToward a goal) (c :: tail) ∧
        (c :: tail).getLast? = some goal := by
  intro n
  induction n with
  | zero =>
    intro c path _ hn _
    have hcg : c = goal := lineSteps_eq_zero (by simpa using hn)
    refine ⟨[], ?_, rfl, List.chain'_singleton _, by simp [hcg]⟩
    simp [greedyLoop, hcg]
  | succ n ih =>
    intro c path hc hn hcap
    have hne : c ≠ goal := by
      intro he
      rw [he, lineSteps_self] at hn
      omega
    have hs := stepToward_mem hfree hc hg hne
    cases hnb : t.getNeighbors c with
    | nil => rw [hnb] at hs; simp at hs
    | cons first others =>
      have hbest := bestNeighbor_eq_stepToward hfree hsep hc hg hne hnb
      have hsteps : lineSteps (stepToward c goal) goal = (n : Int) := by
        rw [lineSteps_stepToward hne, hn]
        push_cast
        ring
      obtain ⟨tail, h1, h2, h3, h4⟩ := ih (stepToward c goal) (path ++ [stepToward c goal])
        (stepToward_valid hc hg) hsteps (by
          simp only [List.length_append, List.length_singleton, Nat.cast_add, Nat.cast_one]
          push_cast at hcap
          omega)
      refine ⟨stepToward c goal :: tail, ?_, by simp [h2], List.Chain'.cons rfl h3, ?_⟩
      · rw [greedyLoop]
        simp only [hne, if_false, hnb, hbest]
        have hnot : ¬ (((path ++ [stepToward c goal]).length : Int) >
            toSizeT (t.width * t.height)) := by
          simp only [List.length_append, List.length_singleton, Nat.cast_add, Nat.cast_one]
          push_cast at hcap
          omega
        rw [if_neg hnot, h1]
        simp
      · rw [List.getLast?_cons_cons]
        exact h4

theorem greedyLoop_mono (t : Terrain K) (goal : Point) :
    ∀ (fuel : Nat) (c : Point) (path r : List Point),
      greedyLoop t goal fuel c path = some r →
      ∀ extra, greedyLoop t goal (fuel + extra) c path = some r := by
  intro fuel
  induction fuel with
  | zero => intro c path r h; simp [greedyLoop] at h
  | succ fuel ih =>
    intro c path r h extra
    have e : fuel + 1 + extra = (fuel + extra) + 1 := by omega
    rw [e]
    simp only [greedyLoop] at h ⊢
    by_cases hg : c = goal
    · simp only [hg, if_true] at h ⊢; exact h
    · simp only [hg, if_false] at h ⊢
      cases hnb : t.getNeighbors c with
      | nil => rw [hnb] at h; exact h
      | cons first others =>
        rw [hnb] at h
        simp only at h ⊢
        by_cases hbig : ((path ++ [bestNeighbor t goal first (first :: others)]).length : Int) >
            toSizeT (t.width * t.height)
        · simp only [hbig, if_true] at h ⊢; exact h
        · simp only [hbig, if_false] at h ⊢
          exact ih _ _ r h extra

end GreedyStraight

/-! ### The shape of the tables under the operations of `Terrain` -/

section Shapes

variable {K : Type} [SqrtField K]

theorem foldl_invariant {σ α : Type} (P : σ → Prop) (f : σ → α → σ)
    (hstep : ∀ s x, P s → P (f s x)) : ∀ (l : List α) (s : σ), P s → P (l.foldl f s) := by
  intro l
  induction l with
  | nil => intro s hs; exact hs
  | cons x l ih => intro s hs; exact ih _ (hstep s x hs)

theorem setTerrain_dims (t : Terrain K) (x y : Int) (ty : TerrainType) :
    (t.setTerrain x y ty).width = t.width ∧ (t.setTerrain x y ty).height = t.height :=
  ⟨(setTerrain_shapes t x y ty).2.2.1, (setTerrain_shapes t x y ty).2.2.2⟩

theorem addObstacle_shape {t : Terrain K} (hwf : t.WellFormed) (pos : Point) :
    (t.addObstacle pos).WellFormed ∧ (t.addObstacle pos).width = t.width ∧
      (t.addObstacle pos).height = t.height :=
  ⟨setTerrain_wellFormed hwf _ _ _, (setTerrain_dims t _ _ _).1, (setTerrain_dims t _ _ _).2⟩

theorem addHill_shape {t : Terrain K} (hwf : t.WellFormed) (pos : Point) :
    (t.addHill pos).WellFormed ∧ (t.addHill pos).width = t.width ∧
      (t.addHill pos).height = t.height :=
  ⟨setElevation_wellFormed (setTerrain_wellFormed hwf _ _ _) _ _ _,
    (setElevation_dims _ _ _ _).1.trans (setTerrain_dims t _ _ _).1,
    (setElevation_dims _ _ _ _).2.trans (setTerrain_dims t _ _ _).2⟩

theorem addWindZone_shape {t : Terrain K} (hwf : t.WellFormed) (pos : Point) :
    (t.addWindZone pos).WellFormed ∧ (t.addWindZone pos).width = t.width ∧
      (t.addWindZone pos).height = t.height :=
  ⟨setWindResistance_wellFormed (setTerrain_wellFormed hwf _ _ _) _ _ _,
    (setWindResistance_dims _ _ _ _).1.trans (setTerrain_dims t _ _ _).1,
    (setWindResistance_dims _ _ _ _).2.trans (setTerrain_dims t _ _ _).2⟩

theorem randomCell_shape (t : Terrain K) (obstacleProb hillProb windProb : K) (draws : Nat → K)
    (y x : Int) (st : Terrain K × Nat)
    (h : st.1.WellFormed ∧ st.1.width = t.width ∧ st.1.height = t.height) :
    (randomCell obstacleProb hillProb windProb draws y st x).1.WellFormed ∧
      (randomCell obstacleProb hillProb windProb draws y st x).1.width = t.width ∧
      (randomCell obstacleProb hillProb windProb draws y st x).1.height = t.height := by
  obtain ⟨hwf, hw, hh⟩ := h
  unfold randomCell
  simp only
  split
  · exact ⟨setTerrain_wellFormed hwf _ _ _, (setTerrain_dims _ _ _ _).1.trans hw,
      (setTerrain_dims _ _ _ _).2.trans hh⟩
  · split
    · exact ⟨setElevation_wellFormed (setTerrain_wellFormed hwf _ _ _) _ _ _,
        ((setElevation_dims _ _ _ _).1.trans (setTerrain_dims _ _ _ _).1).trans hw,
        ((setElevation_dims _ _ _ _).2.trans (setTerrain_dims _ _ _ _).2).trans hh⟩
    · split
      · exact ⟨setWindResistance_wellFormed (setTerrain_wellFormed hwf _ _ _) _ _ _,
          ((setWindResistance_dims _ _ _ _).1.trans (setTerrain_dims _ _ _ _).1).trans hw,
          ((setWindResistance_dims _ _ _ _).2.trans (setTerrain_dims _ _ _ _).2).trans hh⟩
      · exact ⟨setElevation_wellFormed (setTerrain_wellFormed hwf _ _ _) _ _ _,
          ((setElevation_dims _ _ _ _).1.trans (setTerrain_dims _ _ _ _).1).trans hw,
          ((setElevation_dims _ _ _ _).2.trans (setTerrain_dims _ _ _ _).2).trans hh⟩

theorem generateRandomTerrain_shape {t : Terrain K} (hwf : t.WellFormed)
    (obstacleProb hillProb windProb : K) (draws : Nat → K) :
    (t.generateRandomTerrain obstacleProb hillProb windProb draws).WellFormed ∧
      (t.generateRandomTerrain obstacleProb hillProb windProb draws).width = t.width ∧
      (t.generateRandomTerrain obstacleProb hillProb windProb draws).height = t.height := by
  unfold Terrain.generateRandomTerrain
  apply foldl_invariant
    (fun st : Terrain K × Nat => st.1.WellFormed ∧ st.1.width = t.width ∧ st.1.height = t.height)
  · intro st y hst
    apply foldl_invariant
      (fun st : Terrain K × Nat =>
        st.1.WellFormed ∧ st.1.width = t.width ∧ st.1.height = t.height)
    · intro st' x hst'
      exact randomCell_shape t _ _ _ _ _ _ st' hst'
    · exact hst
  · exact ⟨hwf, rfl, rfl⟩

end Shapes


/-! ### The values of elevation and wind resistance on constructed, loaded and edited grids -/

section EditedValues

variable {K : Type} [SqrtField K]

theorem cellAt_setCell_cases {α : Type} (tbl : List (List α)) (x y : Int) (v : α) (q : Point) :
    cellAt (setCell tbl x y v) q = cellAt tbl q ∨ cellAt (setCell tbl x y v) q = some v := by
  by_cases hq : q = ⟨x, y⟩
  · subst hq
    unfold setCell
    by_cases hxy : 0 ≤ x ∧ 0 ≤ y
    · rw [if_pos hxy]
      unfold cellAt
      rw [if_pos hxy, if_pos hxy, List.getElem?_modify_eq]
      cases hr : tbl[y.toNat]? with
      | none => left; simp
      | some row =>
        simp only [Option.map_eq_map, Option.map_some']
        by_cases hx : x.toNat < row.length
        · right
          exact List.getElem?_set_eq_of_lt v hx
        · left
          rw [List.set_eq_of_length_le (by omega)]
    · left
      rw [if_neg hxy]
  · left
    exact cellAt_setCell_ne tbl x y v q hq

theorem setElevation_elevationAt_cases (t : Terrain K) (x y : Int) (e : K) (q : Point) :
    (t.setElevation x y e).elevationAt q = t.elevationAt q ∨
      (t.setElevation x y e).elevationAt q = e := by
  unfold Terrain.setElevation Terrain.elevationAt
  by_cases hv : t.isValidPosition ⟨x, y⟩ = true
  · simp only [hv, if_true]
    rcases cellAt_setCell_cases t.elevationMap x y e q with h | h
    · left; rw [h]
    · right; rw [h]; rfl
  · left
    simp [hv]

theorem setWindResistance_windAt_cases (t : Terrain K) (x y : Int) (r : K) (q : Point) :
    (t.setWindResistance x y r).windAt q = t.windAt q ∨
      (t.setWindResistance x y r).windAt q = r := by
  unfold Terrain.setWindResistance Terrain.windAt
  by_cases hv : t.isValidPosition ⟨x, y⟩ = true
  · simp only [hv, if_true]
    rcases cellAt_setCell_cases t.windResistance x y r q with h | h
    · left; rw [h]
    · right; rw [h]; rfl
  · left
    simp [hv]

theorem twoValued_setTerrain {t : Terrain K}
    (h : ∀ p, (t.elevationAt p = 0 ∨ t.elevationAt p = 3.0) ∧
      (t.windAt p = 0 ∨ t.windAt p = 2.0)) (x y : Int) (ty : TerrainType) :
    ∀ p, ((t.setTerrain x y ty).elevationAt p = 0 ∨ (t.setTerrain x y ty).elevationAt p = 3.0) ∧
      ((t.setTerrain x y ty).windAt p = 0 ∨ (t.setTerrain x y ty).windAt p = 2.0) := by
  intro p
  rw [setTerrain_elevationAt, setTerrain_windAt]
  exact h p

theorem twoValued_setElevation {t : Terrain K}
    (h : ∀ p, (t.elevationAt p = 0 ∨ t.elevationAt p = 3.0) ∧
      (t.windAt p = 0 ∨ t.windAt p = 2.0)) (x y : Int) :
    ∀ p, ((t.setElevation x y 3.0).elevationAt p = 0 ∨
        (t.setElevation x y 3.0).elevationAt p = 3.0) ∧
      ((t.setElevation x y 3.0).windAt p = 0 ∨ (t.setElevation x y 3.0).windAt p = 2.0) := by
  intro p
  rw [setElevation_windAt]
  refine ⟨?_, (h p).2⟩
  rcases setElevation_elevationAt_cases t x y 3.0 p with he | he
  · rw [he]; exact (h p).1
  · exact Or.inr he

theorem twoValued_setWindResistance {t : Terrain K}
    (h : ∀ p, (t.elevationAt p = 0 ∨ t.elevationAt p = 3.0) ∧
      (t.windAt p = 0 ∨ t.windAt p = 2.0)) (x y : Int) :
    ∀ p, ((t.setWindResistance x y 2.0).elevationAt p = 0 ∨
        (t.setWindResistance x y 2.0).elevationAt p = 3.0) ∧
      ((t.setWindResistance x y 2.0).windAt p = 0 ∨
        (t.setWindResistance x y 2.0).windAt p = 2.0) := by
  intro p
  rw [setWindResistance_elevationAt]
  refine ⟨(h p).1, ?_⟩
  rcases setWindResistance_windAt_cases t x y 2.0 p with he | he
  · rw [he]; exact (h p).2
  · exact Or.inr he

theorem twoValued_loadCell (lines : List (List Char)) (y x : Int) {t : Terrain K}
    (h : ∀ p, (t.elevationAt p = 0 ∨ t.elevationAt p = 3.0) ∧
      (t.windAt p = 0 ∨ t.windAt p = 2.0)) :
    ∀ p, ((loadCell lines y t x).elevationAt p = 0 ∨ (loadCell lines y t x).elevationAt p = 3.0) ∧
      ((loadCell lines y t x).windAt p = 0 ∨ (loadCell lines y t x).windAt p = 2.0) := by
  unfold loadCell
  simp only
  split
  · split
    · exact twoValued_setElevation (twoValued_setTerrain h _ _ _) _ _
    · exact twoValued_setWindResistance (twoValued_setTerrain h _ _ _) _ _
    · exact twoValued_setTerrain h _ _ _
  · exact h

theorem twoValued_loadCells (lines : List (List Char)) (width height : Int) {t : Terrain K}
    (h : ∀ p, (t.elevationAt p = 0 ∨ t.elevationAt p = 3.0) ∧
      (t.windAt p = 0 ∨ t.windAt p = 2.0)) :
    ∀ p, ((loadCells lines width height t).elevationAt p = 0 ∨
        (loadCells lines width height t).elevationAt p = 3.0) ∧
      ((loadCells lines width height t).windAt p = 0 ∨
        (loadCells lines width height t).windAt p = 2.0) := by
  unfold loadCells
  apply foldl_invariant (fun t : Terrain K =>
    ∀ p, (t.elevationAt p = 0 ∨ t.elevationAt p = 3.0) ∧ (t.windAt p = 0 ∨ t.windAt p = 2.0))
  · intro t' y ht'
    apply foldl_invariant (fun t : Terrain K =>
      ∀ p, (t.elevationAt p = 0 ∨ t.elevationAt p = 3.0) ∧ (t.windAt p = 0 ∨ t.windAt p = 2.0))
    · intro t'' x ht''
      exact twoValued_loadCell lines _ _ ht''
    · exact ht'
  · exact h

theorem twoValued_new (w h : Int) :
    ∀ p, ((Terrain.new w h : Terrain K).elevationAt p = 0 ∨
        (Terrain.new w h : Terrain K).elevationAt p = 3.0) ∧
      ((Terrain.new w h : Terrain K).windAt p = 0 ∨
        (Terrain.new w h : Terrain K).windAt p = 2.0) :=
  fun p => ⟨Or.inl (new_elevationAt w h p), Or.inl (new_windAt w h p)⟩

theorem twoValued_loaded (mapData : List Char) (t : Terrain K)
    (h : loadMapFromString mapData = Except.ok t) :
    ∀ p, (t.elevationAt p = 0 ∨ t.elevationAt p = 3.0) ∧
      (t.windAt p = 0 ∨ t.windAt p = 2.0) := by
  unfold loadMapFromString at h
  simp only at h
  split at h
  · exact absurd h (by simp)
  · split at h
    · exact absurd h (by simp)
    · simp only [Except.ok.injEq] at h
      rw [← h]
      exact twoValued_loadCells _ _ _ (twoValued_new _ _)

theorem twoValued_of_edited {t : Terrain K} (h : Edited t) :
    ∀ p, (t.elevationAt p = 0 ∨ t.elevationAt p = 3.0) ∧
      (t.windAt p = 0 ∨ t.windAt p = 2.0) := by
  induction h with
  | constructed w h => exact twoValued_new w h
  | loaded mapData t hl => exact twoValued_loaded mapData t hl
  | addObstacle t pos _ ih => exact twoValued_setTerrain ih _ _ _
  | addHill t pos _ ih => exact twoValued_setElevation (twoValued_setTerrain ih _ _ _) _ _
  | addWindZone t pos _ ih =>
    exact twoValued_setWindResistance (twoValued_setTerrain ih _ _ _) _ _

theorem nonNeg_of_twoValued {t : Terrain K}
    (h : ∀ p, (t.elevationAt p = 0 ∨ t.elevationAt p = 3.0) ∧
      (t.windAt p = 0 ∨ t.windAt p = 2.0)) : t.NonNeg := by
  intro p _
  constructor
  · rcases (h p).1 with he | he <;> rw [he]
    norm_num
  · rcases (h p).2 with he | he <;> rw [he]
    norm_num

end EditedValues


/-! ### Writing a grid as text and loading the text -/

section RoundTrip

variable {K : Type} [SqrtField K]

theorem charToTerrainType_terrainTypeToChar (ty : TerrainType) :
    charToTerrainType (terrainTypeToChar ty) = ty := by
  cases ty <;> decide

theorem terrainTypeToChar_ne_eol (ty : TerrainType) :
    terrainTypeToChar ty ≠ '\n' ∧ terrainTypeToChar ty ≠ '\r' := by
  cases ty <;> decide

theorem flatMap_append_eol (eol : List Char) :
    ∀ rows : List (List Char), rows ≠ [] →
      rows.flatMap (fun r => r ++ eol) = List.intercalate eol rows ++ eol := by
  intro rows
  induction rows with
  | nil => intro h; exact absurd rfl h
  | cons r rs ih =>
    intro _
    cases rs with
    | nil => simp [List.intercalate]
    | cons r' rs' =>
      have hi : List.intercalate eol (r :: r' :: rs') =
          r ++ eol ++ List.intercalate eol (r' :: rs') := by
        simp [List.intercalate]
      rw [List.flatMap_cons, ih (by simp), hi]
      simp

theorem loadCell_elevationAt (lines : List (List Char)) {t : Terrain K} (hwf : t.WellFormed)
    (x y : Int) (hv : t.isValidPosition ⟨x, y⟩ = true)
    (hx : x < ((lines.getD y.toNat []).length : Int)) (q : Point) :
    (loadCell lines y t x).elevationAt q =
      if q = ⟨x, y⟩ ∧
          charToTerrainType ((lines.getD y.toNat []).getD x.toNat '.') = TerrainType.HILL
      then 3.0 else t.elevationAt q := by
  unfold loadCell
  simp only
  rw [if_pos hx]
  split
  · rename_i hty
    by_cases hq : q = ⟨x, y⟩
    · rw [if_pos ⟨hq, hty⟩, hq]
      exact setElevation_elevationAt_eq _ x y _ (setTerrain_wellFormed hwf x y _).2.2.2.1
        (by rw [setTerrain_isValidPosition]; exact hv)
    · rw [if_neg (fun h => hq h.1), setElevation_elevationAt_ne _ x y _ q hq,
        setTerrain_elevationAt]
  · rename_i hty
    rw [if_neg (fun h => by rw [hty] at h; exact absurd h.2 (by decide)),
      setWindResistance_elevationAt, setTerrain_elevationAt]
  · rename_i hty _
    rw [if_neg (fun h => hty h.2), setTerrain_elevationAt]

theorem loadCell_windAt (lines : List (List Char)) {t : Terrain K} (hwf : t.WellFormed)
    (x y : Int) (hv : t.isValidPosition ⟨x, y⟩ = true)
    (hx : x < ((lines.getD y.toNat []).length : Int)) (q : Point) :
    (loadCell lines y t x).windAt q =
      if q = ⟨x, y⟩ ∧
          charToTerrainType ((lines.getD y.toNat []).getD x.toNat '.') = TerrainType.WIND_ZONE
      then 2.0 else t.windAt q := by
  unfold loadCell
  simp only
  rw [if_pos hx]
  split
  · rename_i hty
    rw [if_neg (fun h => by rw [hty] at h; exact absurd h.2 (by decide)),
      setElevation_windAt, setTerrain_windAt]
  · rename_i hty
    by_cases hq : q = ⟨x, y⟩
    · rw [if_pos ⟨hq, hty⟩, hq]
      exact setWindResistance_windAt_eq _ x y _ (setTerrain_wellFormed hwf x y _).2.2.2.2
        (by rw [setTerrain_isValidPosition]; exact hv)
    · rw [if_neg (fun h => hq h.1), setWindResistance_windAt_ne _ x y _ q hq,
        setTerrain_windAt]
  · rename_i _ hty
    rw [if_neg (fun h => hty h.2), setTerrain_windAt]

theorem ite_cons_aux {α : Type} (v e : α) (q c : Point) (cs : List Point) (A B : Prop)
    [Decidable A] [Decidable B] (hAB : q = c → (A ↔ B)) :
    (if q ∈ cs ∧ A then v else if q = c ∧ B then v else e) =
      if q ∈ c :: cs ∧ A then v else e := by
  by_cases hq : q ∈ cs
  · by_cases hA : A
    · simp [hq, hA]
    · by_cases hqc : q = c
      · have hB : ¬ B := fun hb => hA ((hAB hqc).2 hb)
        simp [hA, hB]
      · simp [hA, hqc]
  · by_cases hqc : q = c
    · by_cases hA : A
      · have hB : B := (hAB hqc).1 hA
        simp [hqc, hA, hB]
      · have hB : ¬ B := fun hb => hA ((hAB hqc).2 hb)
        simp [hA, hB]
    · simp [hq, hqc]

/-- The elevation and the wind resistance after loading a list of cells one after
the other. -/
theorem foldl_loadCell_values (lines : List (List Char)) :
    ∀ (cs : List Point) (t : Terrain K), t.WellFormed →
      (∀ c ∈ cs, t.isValidPosition c = true ∧
        c.x < ((lines.getD c.y.toNat []).length : Int)) →
      ∀ q, ((cs.foldl (fun t c => loadCell lines c.y t c.x) t).elevationAt q =
          if q ∈ cs ∧
            charToTerrainType ((lines.getD q.y.toNat []).getD q.x.toNat '.') = TerrainType.HILL
          then 3.0 else t.elevationAt q) ∧
        ((cs.foldl (fun t c => loadCell lines c.y t c.x) t).windAt q =
          if q ∈ cs ∧
            charToTerrainType ((lines.getD q.y.toNat []).getD q.x.toNat '.') =
              TerrainType.WIND_ZONE
          then 2.0 else t.windAt q) := by
  intro cs
  induction cs with
  | nil => intro t _ _ q; simp
  | cons c cs ih =>
    intro t hwf hcs q
    obtain ⟨hv, hx⟩ := hcs c (List.mem_cons_self _ _)
    obtain ⟨hw1, hh1⟩ := loadCell_dims lines t c.x c.y
    have hwf1 := loadCell_wellFormed lines hwf c.x c.y
    obtain ⟨h1, h2⟩ := ih (loadCell lines c.y t c.x) hwf1 (fun c' hc' => by
      obtain ⟨hv', hx'⟩ := hcs c' (List.mem_cons_of_mem _ hc')
      exact ⟨by rw [isValidPosition_congr hw1 hh1]; exact hv', hx'⟩) q
    rw [List.foldl_cons, h1, h2, loadCell_elevationAt lines hwf c.x c.y hv hx q,
      loadCell_windAt lines hwf c.x c.y hv hx q]
    cases c with
    | mk cx cy =>
    exact ⟨ite_cons_aux _ _ q ⟨cx, cy⟩ cs _ _ (fun h => by rw [h]),
      ite_cons_aux _ _ q ⟨cx, cy⟩ cs _ _ (fun h => by rw [h])⟩

/-- The grid loaded from a text whose lines are `rows`, all of length `w`. -/
theorem loadMapFromString_values (mapData : List Char) {rows : List (List Char)} {w : Nat}
    (hp : parseMapLines mapData = rows) (hne : rows ≠ []) (hlen : ∀ r ∈ rows, r.length = w) :
    ∃ t : Terrain K, loadMapFromString mapData = Except.ok t ∧ t.WellFormed ∧
      t.width = (w : Int) ∧ t.height = (rows.length : Int) ∧
      ∀ q : Point, 0 ≤ q.x → q.x < (w : Int) → 0 ≤ q.y → q.y < (rows.length : Int) →
        t.typeAt q = charToTerrainType ((rows.getD q.y.toNat []).getD q.x.toNat '.') ∧
        t.elevationAt q = (if charToTerrainType ((rows.getD q.y.toNat []).getD q.x.toNat '.') =
          TerrainType.HILL then 3.0 else 0) ∧
        t.windAt q = (if charToTerrainType ((rows.getD q.y.toNat []).getD q.x.toNat '.') =
          TerrainType.WIND_ZONE then 2.0 else 0) := by
  have hhead : (rows.headD []).length = w := by
    cases rows with
    | nil => exact absurd rfl hne
    | cons r rs => exact hlen r (List.mem_cons_self _ _)
  have hval : validateMapDimensions rows = true :=
    (validateMapDimensions_eq_true_iff rows).2 ⟨hne, fun l hl => (hlen l hl).trans hhead.symm⟩
  have hwf0 : (Terrain.new (Int.ofNat w) (Int.ofNat rows.length) : Terrain K).WellFormed :=
    new_wellFormed _ _ (Int.ofNat_nonneg _) (Int.ofNat_nonneg _)
  have hcells : ∀ c ∈ (List.range (Int.ofNat rows.length).toNat).flatMap (fun (y : Nat) =>
        (List.range (Int.ofNat w).toNat).map (fun (x : Nat) =>
          (⟨Int.ofNat x, Int.ofNat y⟩ : Point))),
      (Terrain.new (Int.ofNat w) (Int.ofNat rows.length) : Terrain K).isValidPosition c = true ∧
        c.x < (((rows.getD c.y.toNat []).length : Nat) : Int) := by
    intro c hc
    obtain ⟨h1, h2, h3, h4⟩ := (mem_cellList _ _).1 hc
    refine ⟨(isValidPosition_iff _ c).2 ⟨h1, h2, h3, h4⟩, ?_⟩
    have hy : c.y.toNat < rows.length := by
      simp only [Int.ofNat_eq_coe] at h4
      omega
    have hrow : (rows.getD c.y.toNat []).length = w := by
      rw [List.getD_eq_getElem _ _ hy]
      exact hlen _ (List.getElem_mem _)
    rw [hrow]
    exact h2
  obtain ⟨f1, f2, f3, f4⟩ := foldl_loadCell rows _ _ hwf0 hcells
  have f5 := foldl_loadCell_values rows _ _ hwf0 hcells
  refine ⟨loadCells rows (Int.ofNat w) (Int.ofNat rows.length)
    (Terrain.new (Int.ofNat w) (Int.ofNat rows.length)), ?_, ?_, ?_, ?_, ?_⟩
  · unfold loadMapFromString
    have he' : rows.isEmpty = false := by simpa using hne
    simp only [hp, he', hval, hhead, Bool.false_eq_true, if_false, Bool.not_true]
  · rw [loadCells_eq_foldl]; exact f1
  · rw [loadCells_eq_foldl]; exact f2
  · rw [loadCells_eq_foldl]; exact f3
  · intro q h1 h2 h3 h4
    have hm := (mem_cellList (Int.ofNat w) (Int.ofNat rows.length)).2 ⟨h1, h2, h3, h4⟩
    rw [loadCells_eq_foldl, f4 q, (f5 q).1, (f5 q).2, new_elevationAt, new_windAt]
    refine ⟨if_pos hm, ?_, ?_⟩
    · by_cases hty : charToTerrainType ((rows.getD q.y.toNat []).getD q.x.toNat '.') =
          TerrainType.HILL
      · rw [if_pos ⟨hm, hty⟩, if_pos hty]
      · rw [if_neg (fun h => hty h.2), if_neg hty]
    · by_cases hty : charToTerrainType ((rows.getD q.y.toNat []).getD q.x.toNat '.') =
          TerrainType.WIND_ZONE
      · rw [if_pos ⟨hm, hty⟩, if_pos hty]
      · rw [if_neg (fun h => hty h.2), if_neg hty]

/-- The text written by `terrainToString` is its rows, each followed by a newline. -/
theorem terrainToString_eq (t : Terrain K) (hh : 1 ≤ t.height) :
    terrainToString t = List.intercalate ['\n'] ((List.range t.height.toNat).map (fun (y : Nat) =>
      (List.range t.width.toNat).map (fun (x : Nat) =>
        terrainTypeToChar (t.getTerrain (Int.ofNat x) (Int.ofNat y))))) ++ ['\n'] := by
  rw [← flatMap_append_eol]
  · unfold terrainToString
    rw [List.flatMap_map]
  · intro h
    have := congrArg List.length h
    simp only [List.length_map, List.length_range, List.length_nil] at this
    omega

end RoundTrip


/-! ### Cells whose node has been popped -/

section LoopSteps

variable {K : Type} [LinearOrder K] [Zero K] [Add K] [Mul K] [OfScientific K] [IntCast K] [HasSqrt K] {Q : Type}

/-- The form of an iteration that does not leave the loop. -/
theorem loopStep_eq_some {pq : PriorityQueue K Q} {t : Terrain K} {hfun : Point → K}
    {scale : K → K → K} {goal : Point} {st st' : SearchState K Q}
    (h : loopStep pq t hfun scale goal st = some st') :
    ∃ u rest, pq.pop st.openSet = some (u, rest) ∧ u.position ≠ goal ∧
      st' = (t.getNeighbors u.position).foldl (relaxNeighbor pq t hfun scale u)
        { st with openSet := rest } := by
  unfold loopStep at h
  cases hpop : pq.pop st.openSet with
  | none => simp [hpop] at h
  | some v =>
    obtain ⟨u, rest⟩ := v
    simp only [hpop] at h
    by_cases hg : u.position = goal
    · simp [hg] at h
    · simp only [hg, if_false, Option.some.injEq] at h
      exact ⟨u, rest, rfl, hg, h.symm⟩

theorem loopStep_of_pop {pq : PriorityQueue K Q} {t : Terrain K} {hfun : Point → K}
    {scale : K → K → K} {goal : Point} {st : SearchState K Q} {u : PathNode K} {rest : Q}
    (hpop : pq.pop st.openSet = some (u, rest)) (hug : u.position ≠ goal) :
    loopStep pq t hfun scale goal st =
      some ((t.getNeighbors u.position).foldl (relaxNeighbor pq t hfun scale u)
        { st with openSet := rest }) := by
  unfold loopStep
  simp only [hpop, hug, if_false]

theorem foldl_score_le (pq : PriorityQueue K Q) (t : Terrain K) (hfun : Point → K)
    (scale : K → K → K) (u : PathNode K) :
    ∀ (rem : List Point) (st : SearchState K Q) (x : Point) (d : K),
      mapFind st.gScore x = some d →
      ∃ d', mapFind (rem.foldl (relaxNeighbor pq t hfun scale u) st).gScore x = some d' ∧
        d' ≤ d := by
  intro rem
  induction rem with
  | nil => intro st x d hd; exact ⟨d, hd, le_refl _⟩
  | cons w rem ih =>
    intro st x d hd
    obtain ⟨d₁, h1, hle1⟩ := relaxNeighbor_score_le pq t hfun scale u st w x d hd
    obtain ⟨d₂, h2, hle2⟩ := ih (relaxNeighbor pq t hfun scale u st w) x d₁ h1
    exact ⟨d₂, h2, le_trans hle2 hle1⟩

theorem loopStep_score_le {pq : PriorityQueue K Q} {t : Terrain K} {hfun : Point → K}
    {scale : K → K → K} {goal : Point} {st st' : SearchState K Q}
    (h : loopStep pq t hfun scale goal st = some st') (x : Point) (d : K)
    (hd : mapFind st.gScore x = some d) :
    ∃ d', mapFind st'.gScore x = some d' ∧ d' ≤ d := by
  obtain ⟨u, rest, _, _, rfl⟩ := loopStep_eq_some h
  exact foldl_score_le pq t hfun scale u _ { st with openSet := rest } x d hd

theorem stateAfter_score_le {pq : PriorityQueue K Q} {t : Terrain K} {hfun : Point → K}
    {scale : K → K → K} {goal : Point} :
    ∀ (n : Nat) (st st' : SearchState K Q), stateAfter pq t hfun scale goal n st = some st' →
      ∀ (x : Point) (d : K), mapFind st.gScore x = some d →
      ∃ d', mapFind st'.gScore x = some d' ∧ d' ≤ d := by
  intro n
  induction n with
  | zero =>
    intro st st' h x d hd
    simp only [stateAfter, Option.some.injEq] at h
    subst h
    exact ⟨d, hd, le_refl _⟩
  | succ n ih =>
    intro st st' h x d hd
    simp only [stateAfter] at h
    cases hstep : loopStep pq t hfun scale goal st with
    | none => simp [hstep] at h
    | some st₁ =>
      simp only [hstep] at h
      obtain ⟨d₁, h1, hle1⟩ := loopStep_score_le hstep x d hd
      obtain ⟨d₂, h2, hle2⟩ := ih st₁ st' h x d₁ h1
      exact ⟨d₂, h2, le_trans hle2 hle1⟩

/-- After the neighbours of `u` have been processed, each of them that can be
entered has a recorded cost of at most the cost of `u` plus the cost of the move. -/
theorem foldl_relax_target (pq : PriorityQueue K Q) (t : Terrain K) (hfun : Point → K)
    (scale : K → K → K) (u : PathNode K) :
    ∀ (rem : List Point) (st : SearchState K Q) (w : Point), w ∈ rem →
      t.getMovementCost w < 1000.0 →
      ∃ d', mapFind (rem.foldl (relaxNeighbor pq t hfun scale u) st).gScore w = some d' ∧
        d' ≤ u.gCost + scale (t.getMovementCost w) (calculateDistance u.position w) := by
  intro rem
  induction rem with
  | nil => intro st w hw; simp at hw
  | cons x rem ih =>
    intro st w hw hcost
    rw [List.foldl_cons]
    by_cases hwr : w ∈ rem
    · exact ih _ w hwr hcost
    · have hwx : w = x := by
        rcases List.mem_cons.1 hw with h | h
        · exact h
        · exact absurd h hwr
      subst hwx
      obtain ⟨d₁, h1, hle1⟩ := relaxNeighbor_target pq t hfun scale u st w hcost
      obtain ⟨d₂, h2, hle2⟩ := foldl_score_le pq t hfun scale u rem _ w d₁ h1
      exact ⟨d₂, h2, le_trans hle2 hle1⟩

end LoopSteps

section Expansion

variable {K : Type} [SqrtField K] {Q : Type}

/-- A consistent heuristic drops along a route by no more than the cost of the route. -/
theorem consistent_route {t : Terrain K} {scale : K → K → K} {hfun : Point → K}
    (hcons : Consistent t scale hfun) :
    ∀ (L : List Point) (a x : Point), IsRouteFromTo t a x L →
      hfun a ≤ travelCostWith t scale L + hfun x := by
  intro L
  induction L with
  | nil => intro a x hL; simp [IsRouteFromTo] at hL
  | cons p rest ih =>
    intro a x hL
    obtain ⟨hr, hh, hl⟩ := hL
    simp only [List.head?_cons, Option.some.injEq] at hh
    subst hh
    cases rest with
    | nil =>
      simp only [List.getLast?_singleton, Option.some.injEq] at hl
      subst hl
      simp [travelCostWith]
    | cons b rest' =>
      have hstep : CanEnter t p b := by
        unfold IsRoute at hr
        exact (List.chain'_cons.1 hr).1
      have hr' : IsRoute t (b :: rest') := by
        unfold IsRoute at hr ⊢
        exact (List.chain'_cons.1 hr).2
      have hl' : (b :: rest').getLast? = some x := by
        rw [List.getLast?_cons_cons] at hl; exact hl
      have h1 := ih b x ⟨hr', by simp, hl'⟩
      have h2 := hcons p b hstep
      simp only [travelCostWith]
      linarith

/-- Along a route from a cell with a recorded cost, either some node of the open
set lies on a route to the same end that is no more expensive, or the end of
the route has a recorded cost that is no more than the cost along the route. -/
theorem frontier_to {pq : PriorityQueue K Q} {t : Terrain K} {scale : K → K → K} {goal : Point}
    {st : SearchState K Q} (hs : Settled pq t scale goal st) :
    ∀ (L : List Point) (a x : Point) (d : K), IsRouteFromTo t a x L →
      mapFind st.gScore a = some d →
      (∃ m ∈ pq.contents st.openSet, ∃ L', IsRouteFromTo t m.position x L' ∧
        m.gCost + travelCostWith t scale L' ≤ d + travelCostWith t scale L) ∨
      ∃ d', mapFind st.gScore x = some d' ∧ d' ≤ d + travelCostWith t scale L := by
  intro L
  induction L with
  | nil => intro a x d hL _; simp [IsRouteFromTo] at hL
  | cons p rest ih =>
    intro a x d hL hd
    obtain ⟨hr, hh, hl⟩ := hL
    simp only [List.head?_cons, Option.some.injEq] at hh
    subst hh
    rcases hs p d hd with ⟨n, hn, hp, hg⟩ | ⟨_, hB⟩
    · exact Or.inl ⟨n, hn, p :: rest, by rw [hp]; exact ⟨hr, by simp, hl⟩, by rw [hg]⟩
    · cases rest with
      | nil =>
        simp only [List.getLast?_singleton, Option.some.injEq] at hl
        subst hl
        exact Or.inr ⟨d, hd, by simp [travelCostWith]⟩
      | cons b rest' =>
        have hstep : CanEnter t p b := by
          unfold IsRoute at hr
          exact (List.chain'_cons.1 hr).1
        have hr' : IsRoute t (b :: rest') := by
          unfold IsRoute at hr ⊢
          exact (List.chain'_cons.1 hr).2
        have hl' : (b :: rest').getLast? = some x := by
          rw [List.getLast?_cons_cons] at hl; exact hl
        obtain ⟨d', hd', hle⟩ := hB b hstep
        rcases ih b x d' ⟨hr', by simp, hl'⟩ hd' with ⟨m, hm, L', hL', hcost⟩ | ⟨e, he, hcost⟩
        · refine Or.inl ⟨m, hm, L', hL', ?_⟩
          simp only [travelCostWith]
          linarith
        · refine Or.inr ⟨e, he, ?_⟩
          simp only [travelCostWith]
          linarith

/-- When a node is popped, the cost recorded for its cell is at most the cost of
the node and at most the cost of every route from the start to the cell,
provided the heuristic is consistent. -/
theorem pop_optimal {pq : PriorityQueue K Q} (hpq : pq.Lawful) {t : Terrain K}
    {hfun : Point → K} {scale : K → K → K} {start goal : Point} {st : SearchState K Q}
    (hc : Core pq t hfun scale start st) (hs : Settled pq t scale goal st)
    (hcons : Consistent t scale hfun)
    {u : PathNode K} {rest : Q} (hpop : pq.pop st.openSet = some (u, rest)) :
    ∃ d, mapFind st.gScore u.position = some d ∧ d ≤ u.gCost ∧
      ∀ L, IsRouteFromTo t start u.position L → d ≤ travelCostWith t scale L := by
  obtain ⟨hcont, hmin⟩ := hpq.pop_some _ _ _ hpop
  have hu : u ∈ st.createdNodes :=
    hc.open_sub u (by rw [hcont]; exact Multiset.mem_cons_self _ _)
  obtain ⟨dv, hdv, hle⟩ := hc.score_le u hu
  refine ⟨dv, hdv, hle, fun L hL => ?_⟩
  obtain ⟨d0, hd0, hd0le⟩ := hc.start_le
  rcases frontier_to hs L start u.position d0 hL hd0 with ⟨m, hm, L', hL', hcost⟩ | ⟨e, he, hcost⟩
  · have hgu := hc.good u hu
    have hgm := hc.good m (hc.open_sub m hm)
    have hcmp := (comparator_eq_false_iff u m).1 (hmin m hm)
    have hfle : u.fCost ≤ m.fCost := by
      rcases hcmp with h | ⟨h, _⟩
      · exact le_of_lt h
      · exact le_of_eq h
    rw [hgu.fCost_eq, hgm.fCost_eq, hgu.hCost_eq, hgm.hCost_eq] at hfle
    have hdrop := consistent_route hcons L' m.position u.position hL'
    linarith
  · rw [hdv] at he
    simp only [Option.some.injEq] at he
    subst he
    linarith

/-- A recorded cost that no route undercuts is left as it is by the processing
of a neighbour, and no node is created for its cell. -/
theorem relaxNeighbor_final {pq : PriorityQueue K Q} {t : Terrain K}
    {hfun : Point → K} {scale : K → K → K} {start : Point} {st : SearchState K Q}
    (hc : Core pq t hfun scale start st) {u : PathNode K} (hu : u ∈ st.createdNodes)
    {w : Point} (hw : w ∈ t.getNeighbors u.position) {v : Point} {d : K}
    (hd : mapFind st.gScore v = some d)
    (hopt : ∀ L, IsRouteFromTo t start v L → d ≤ travelCostWith t scale L) :
    mapFind (relaxNeighbor pq t hfun scale u st w).gScore v = some d ∧
      (relaxNeighbor pq t hfun scale u st w).createdNodes.filter
          (fun m => decide (m.position = v)) =
        st.createdNodes.filter (fun m => decide (m.position = v)) := by
  rcases relaxNeighbor_spec pq t hfun scale u st w with ⟨_, h⟩ | ⟨_, _, h⟩ | ⟨hcost, hlt, h⟩
  · rw [h]; exact ⟨hd, rfl⟩
  · rw [h]; exact ⟨hd, rfl⟩
  · rw [h]
    have hwv : w ≠ v := by
      intro hwv
      subst hwv
      have hgood := GoodNode.child u w (hc.good u hu) ⟨hw, hcost⟩
      have h1 := hopt _ hgood.route
      rw [← hgood.gCost_eq, gCost_new] at h1
      have h2 := hlt d hd
      linarith
    refine ⟨?_, ?_⟩
    · simp only
      rw [mapFind_mapSet, if_neg hwv]
      exact hd
    · simp only
      rw [List.filter_append]
      simp [hwv]

theorem foldl_relax_final {pq : PriorityQueue K Q} (hpq : pq.Lawful) {t : Terrain K}
    {hfun : Point → K} {scale : K → K → K} {start : Point} {u : PathNode K} {v : Point} {d : K}
    (hopt : ∀ L, IsRouteFromTo t start v L → d ≤ travelCostWith t scale L) :
    ∀ (rem : List Point) (st : SearchState K Q), Core pq t hfun scale start st →
      u ∈ st.createdNodes → (∀ w ∈ rem, w ∈ t.getNeighbors u.position) →
      mapFind st.gScore v = some d →
      mapFind (rem.foldl (relaxNeighbor pq t hfun scale u) st).gScore v = some d ∧
        (rem.foldl (relaxNeighbor pq t hfun scale u) st).createdNodes.filter
            (fun m => decide (m.position = v)) =
          st.createdNodes.filter (fun m => decide (m.position = v)) := by
  intro rem
  induction rem with
  | nil => intro st _ _ _ hd; exact ⟨hd, rfl⟩
  | cons w rem ih =>
    intro st hc hu hrem hd
    have hw := hrem w (List.mem_cons_self _ _)
    obtain ⟨h1, h2⟩ := @relaxNeighbor_final K _ Q pq t hfun scale start st hc u hu w hw v d hd hopt
    obtain ⟨h3, h4⟩ := ih (relaxNeighbor pq t hfun scale u st w) (hc.relax_core hpq hu hw)
      (relaxNeighbor_created_sub pq t hfun scale u st w u hu)
      (fun x hx => hrem x (List.mem_cons_of_mem _ hx)) h1
    rw [List.foldl_cons]
    exact ⟨h3, h4.trans h2⟩

theorem loopStep_core_settled {pq : PriorityQueue K Q} (hpq : pq.Lawful) {t : Terrain K}
    {hfun : Point → K} {scale : K → K → K} {start goal : Point} {st st' : SearchState K Q}
    (hc : Core pq t hfun scale start st) (hs : Settled pq t scale goal st)
    (h : loopStep pq t hfun scale goal st = some st') :
    Core pq t hfun scale start st' ∧ Settled pq t scale goal st' := by
  obtain ⟨u, rest, hpop, hug, rfl⟩ := loopStep_eq_some h
  exact invariant_step hpq st u rest ⟨hc, hs⟩ hpop hug

theorem stateAfter_core_settled {pq : PriorityQueue K Q} (hpq : pq.Lawful) {t : Terrain K}
    {hfun : Point → K} {scale : K → K → K} {start goal : Point} :
    ∀ (n : Nat) (st st' : SearchState K Q), Core pq t hfun scale start st →
      Settled pq t scale goal st → stateAfter pq t hfun scale goal n st = some st' →
      Core pq t hfun scale start st' ∧ Settled pq t scale goal st' := by
  intro n
  induction n with
  | zero =>
    intro st st' hc hs h
    simp only [stateAfter, Option.some.injEq] at h
    subst h
    exact ⟨hc, hs⟩
  | succ n ih =>
    intro st st' hc hs h
    simp only [stateAfter] at h
    cases hstep : loopStep pq t hfun scale goal st with
    | none => simp [hstep] at h
    | some st₁ =>
      simp only [hstep] at h
      obtain ⟨hc₁, hs₁⟩ := loopStep_core_settled hpq hc hs hstep
      exact ih st₁ st' hc₁ hs₁ h

theorem loopStep_final {pq : PriorityQueue K Q} (hpq : pq.Lawful) {t : Terrain K}
    {hfun : Point → K} {scale : K → K → K} {start goal : Point} {st st' : SearchState K Q}
    (hc : Core pq t hfun scale start st)
    (h : loopStep pq t hfun scale goal st = some st') {v : Point} {d : K}
    (hd : mapFind st.gScore v = some d)
    (hopt : ∀ L, IsRouteFromTo t start v L → d ≤ travelCostWith t scale L) :
    mapFind st'.gScore v = some d ∧
      st'.createdNodes.filter (fun m => decide (m.position = v)) =
        st.createdNodes.filter (fun m => decide (m.position = v)) := by
  obtain ⟨u, rest, hpop, hug, rfl⟩ := loopStep_eq_some h
  obtain ⟨hc', hu⟩ := hc.pop_core hpq hpop
  exact foldl_relax_final hpq hopt _ _ hc' hu (fun _ hw => hw) hd

/-- A recorded cost that no route undercuts stays as it is for the rest of the
search, and no further node is created for its cell. -/
theorem stateAfter_final {pq : PriorityQueue K Q} (hpq : pq.Lawful) {t : Terrain K}
    {hfun : Point → K} {scale : K → K → K} {start goal : Point} {v : Point} {d : K}
    (hopt : ∀ L, IsRouteFromTo t start v L → d ≤ travelCostWith t scale L) :
    ∀ (n : Nat) (st st' : SearchState K Q), Core pq t hfun scale start st →
      Settled pq t scale goal st → stateAfter pq t hfun scale goal n st = some st' →
      mapFind st.gScore v = some d →
      mapFind st'.gScore v = some d ∧
        st'.createdNodes.filter (fun m => decide (m.position = v)) =
          st.createdNodes.filter (fun m => decide (m.position = v)) := by
  intro n
  induction n with
  | zero =>
    intro st st' _ _ h hd
    simp only [stateAfter, Option.some.injEq] at h
    subst h
    exact ⟨hd, rfl⟩
  | succ n ih =>
    intro st st' hc hs h hd
    simp only [stateAfter] at h
    cases hstep : loopStep pq t hfun scale goal st with
    | none => simp [hstep] at h
    | some st₁ =>
      simp only [hstep] at h
      obtain ⟨hc₁, hs₁⟩ := loopStep_core_settled hpq hc hs hstep
      obtain ⟨h1, h2⟩ := loopStep_final hpq hc hstep hd hopt
      obtain ⟨h3, h4⟩ := ih st₁ st' hc₁ hs₁ h h1
      exact ⟨h3, h4.trans h2⟩

/-- After the iteration that pops a node, every move from its cell has been
relaxed with the cost recorded for the cell. -/
theorem pop_relaxed {pq : PriorityQueue K Q} (hpq : pq.Lawful) {t : Terrain K}
    {hfun : Point → K} {scale : K → K → K} {start goal : Point} {st : SearchState K Q}
    (hc : Core pq t hfun scale start st) (hs : Settled pq t scale goal st)
    {u : PathNode K} {rest : Q} (hpop : pq.pop st.openSet = some (u, rest))
    {d : K} (hd : mapFind st.gScore u.position = some d) :
    ∀ w, CanEnter t u.position w →
      ∃ d', mapFind ((t.getNeighbors u.position).foldl (relaxNeighbor pq t hfun scale u)
          { st with openSet := rest }).gScore w = some d' ∧
        d' ≤ d + scale (t.getMovementCost w) (calculateDistance u.position w) := by
  intro w hw
  obtain ⟨hcont, hmin⟩ := hpq.pop_some _ _ _ hpop
  have hu : u ∈ st.createdNodes :=
    hc.open_sub u (by rw [hcont]; exact Multiset.mem_cons_self _ _)
  obtain ⟨dv, hdv, hle⟩ := hc.score_le u hu
  rw [hd] at hdv
  simp only [Option.some.injEq] at hdv
  subst hdv
  rcases hs u.position d hd with ⟨n, hn, hp, hg⟩ | ⟨_, hB⟩
  · have hgu := hc.good u hu
    have hgn := hc.good n (hc.open_sub n hn)
    have hcmp := (comparator_eq_false_iff u n).1 (hmin n hn)
    have hfle : u.fCost ≤ n.fCost := by
      rcases hcmp with h | ⟨h, _⟩
      · exact le_of_lt h
      · exact le_of_eq h
    rw [hgu.fCost_eq, hgn.fCost_eq, hgu.hCost_eq, hgn.hCost_eq, hp, hg] at hfle
    obtain ⟨d', h1, hle1⟩ := foldl_relax_target pq t hfun scale u (t.getNeighbors u.position)
      { st with openSet := rest } w hw.1 hw.2
    exact ⟨d', h1, by linarith⟩
  · obtain ⟨d₁, h1, hle1⟩ := hB w hw
    obtain ⟨d₂, h2, hle2⟩ := foldl_score_le pq t hfun scale u (t.getNeighbors u.position)
      { st with openSet := rest } w d₁ h1
    exact ⟨d₂, h2, le_trans hle2 hle1⟩

/-- Processing the neighbours of a node whose cell has all its moves relaxed
with a cost that is at most the cost of the node changes nothing. -/
theorem foldl_relax_stale (pq : PriorityQueue K Q) (t : Terrain K) (hfun : Point → K)
    (scale : K → K → K) (m : PathNode K) (st : SearchState K Q) (d : K) (hle : d ≤ m.gCost)
    (hrel : ∀ w, CanEnter t m.position w → ∃ d', mapFind st.gScore w = some d' ∧
      d' ≤ d + scale (t.getMovementCost w) (calculateDistance m.position w)) :
    ∀ rem : List Point, (∀ w ∈ rem, w ∈ t.getNeighbors m.position) →
      rem.foldl (relaxNeighbor pq t hfun scale m) st = st := by
  intro rem
  induction rem with
  | nil => intro _; rfl
  | cons w rem ih =>
    intro hrem
    have hw := hrem w (List.mem_cons_self _ _)
    have hstep : relaxNeighbor pq t hfun scale m st w = st := by
      rcases relaxNeighbor_spec pq t hfun scale m st w with ⟨_, h⟩ | ⟨_, _, h⟩ | ⟨hcost, hlt, _⟩
      · exact h
      · exact h
      · obtain ⟨d', hd', hle'⟩ := hrel w ⟨hw, hcost⟩
        have := hlt d' hd'
        linarith
    rw [List.foldl_cons, hstep]
    exact ih (fun x hx => hrem x (List.mem_cons_of_mem _ hx))

/-- Every cell is finalized when a node for it is popped, in a search with a
consistent heuristic. -/
theorem finalized_at_pop {pq : PriorityQueue K Q} (hpq : pq.Lawful) {t : Terrain K}
    {hfun : Point → K} {scale : K → K → K} {start goal : Point}
    (hcons : Consistent t scale hfun) (i : Nat) (st : SearchState K Q) (n : PathNode K)
    (rest : Q)
    (hst : stateAfter pq t hfun scale goal i (initialState pq hfun start) = some st)
    (hpop : pq.pop st.openSet = some (n, rest)) :
    ∃ d, mapFind st.gScore n.position = some d ∧ d ≤ n.gCost ∧
      (∀ L, IsRouteFromTo t start n.position L → d ≤ travelCostWith t scale L) ∧
      ∀ (k : Nat) (st' : SearchState K Q), stateAfter pq t hfun scale goal k st = some st' →
        mapFind st'.gScore n.position = some d ∧
        st'.createdNodes.filter (fun m => decide (m.position = n.position)) =
          st.createdNodes.filter (fun m => decide (m.position = n.position)) ∧
        (1 ≤ k → Finalized t scale start st' n.position d ∧
          ∀ (m : PathNode K) (rest' : Q), pq.pop st'.openSet = some (m, rest') →
            m.position = n.position →
            loopStep pq t hfun scale goal st' = some { st' with openSet := rest' }) := by
  obtain ⟨hc, hs⟩ := stateAfter_core_settled hpq i _ st (Core.init_core hpq t hfun scale start)
    (Settled.init_settled hpq t hfun scale start goal) hst
  obtain ⟨d, hd, hle, hopt⟩ := pop_optimal hpq hc hs hcons hpop
  refine ⟨d, hd, hle, hopt, fun k st' hk => ?_⟩
  obtain ⟨h1, h2⟩ := stateAfter_final hpq hopt k st st' hc hs hk hd
  refine ⟨h1, h2, fun hk1 => ?_⟩
  obtain ⟨k', rfl⟩ : ∃ k', k = k' + 1 := ⟨k - 1, by omega⟩
  simp only [stateAfter] at hk
  cases hstep : loopStep pq t hfun scale goal st with
  | none => simp [hstep] at hk
  | some st₁ =>
    simp only [hstep] at hk
    obtain ⟨u, rest₁, hpop₁, hug, hst₁⟩ := loopStep_eq_some hstep
    rw [hpop] at hpop₁
    simp only [Option.some.injEq, Prod.mk.injEq] at hpop₁
    obtain ⟨rfl, rfl⟩ := hpop₁
    have hrel₁ := pop_relaxed hpq hc hs hpop hd
    rw [← hst₁] at hrel₁
    have hrel : ∀ w, CanEnter t n.position w → ∃ d', mapFind st'.gScore w = some d' ∧
        d' ≤ d + scale (t.getMovementCost w) (calculateDistance n.position w) := by
      intro w hw
      obtain ⟨d₁, e1, hle1⟩ := hrel₁ w hw
      obtain ⟨d₂, e2, hle2⟩ := stateAfter_score_le k' st₁ st' hk w d₁ e1
      exact ⟨d₂, e2, le_trans hle2 hle1⟩
    refine ⟨⟨h1, hopt, hrel⟩, fun m rest' hpop' hm => ?_⟩
    obtain ⟨hc₁, hs₁⟩ := loopStep_core_settled hpq hc hs hstep
    obtain ⟨hc', _⟩ := stateAfter_core_settled hpq k' st₁ st' hc₁ hs₁ hk
    obtain ⟨hcont, _⟩ := hpq.pop_some _ _ _ hpop'
    have hmc : m ∈ st'.createdNodes :=
      hc'.open_sub m (by rw [hcont]; exact Multiset.mem_cons_self _ _)
    obtain ⟨dm, hdm, hlem⟩ := hc'.score_le m hmc
    rw [hm, h1] at hdm
    simp only [Option.some.injEq] at hdm
    subst hdm
    rw [loopStep_of_pop hpop' (by rw [hm]; exact hug)]
    congr 1
    exact foldl_relax_stale pq t hfun scale m { st' with openSet := rest' } d hlem
      (by rw [hm]; exact hrel) _ (fun _ hw => hw)

theorem consistent_heuristic {t : Terrain K} (hn : t.NonNeg) (goal : Point) :
    Consistent t (fun movementCost distance => movementCost * distance)
      (fun p => t.getHeuristicCost p goal) := by
  intro a b _
  have h1 := getHeuristicCost_triangle t a b goal
  have h2 := distance_le_stepCost hn a b
  simp only
  linarith

theorem consistent_zero {t : Terrain K} (hn : t.NonNeg) :
    Consistent t (fun movementCost distance => movementCost * distance) (fun _ => 0) := by
  intro a b hab
  have := nonnegSteps_of_nonNeg hn a b hab
  simp only at this ⊢
  linarith

end Expansion

/-! ## The claims -/

section Claims

variable {K : Type} [SqrtField K] {Q : Type}

/-- C4: a non-empty path returned by `findPathAStar`, `findPathDijkstra` or
`findEnergyOptimalPath` starts at start, ends at goal, every two consecutive
cells are distinct and differ by at most 1 in x and in y, and every cell after
the first is passable. -/
theorem search_path_is_connected (pq : PriorityQueue K Q) (hpq : pq.Lawful) (t : Terrain K)
    (start goal : Point) (energyWeight : K) (fuel : Nat) (path : List Point)
    (h : findPathAStar pq t fuel start goal = some path ∨
      findPathDijkstra pq t fuel start goal = some path ∨
      findEnergyOptimalPath pq t fuel start goal energyWeight = some path)
    (hne : path ≠ []) :
    path.head? = some start ∧ path.getLast? = some goal ∧
      List.Chain' (fun a b => a ≠ b ∧ |b.x - a.x| ≤ 1 ∧ |b.y - a.y| ≤ 1) path ∧
      ∀ p ∈ path.tail, t.isPassable p = true := by
  have hroute : IsRouteFromTo t start goal path := by
    rcases h with h | h | h
    · exact searchLoop_route hpq h hne
    · exact searchLoop_route hpq h hne
    · exact searchLoop_route hpq h hne
  obtain ⟨hr, hh, hl⟩ := hroute
  refine ⟨hh, hl, ?_, ?_⟩
  · unfold IsRoute at hr
    exact List.Chain'.imp (fun a b hab => (canEnter_iff.1 hab).1) hr
  · cases path with
    | nil => exact absurd rfl hne
    | cons a rest =>
      intro p hp
      simp only [List.tail_cons] at hp
      exact route_subset rest a hr p hp

/-- C5: on a grid with non-negative elevation and wind resistance both
`findPathAStar` and `findPathDijkstra` return, and the path either of them
returns is empty exactly when no sequence of 8-neighbour moves, each into a
passable cell of movement cost below 1000, leads from start to goal. -/
theorem empty_path_iff_unreachable (pq : PriorityQueue K Q) (hpq : pq.Lawful) (t : Terrain K)
    (hn : t.NonNeg) (start goal : Point) :
    (∃ pathA, Returns (fun fuel => findPathAStar pq t fuel start goal) pathA) ∧
    (∃ pathD, Returns (fun fuel => findPathDijkstra pq t fuel start goal) pathD) ∧
    ∀ path, (Returns (fun fuel => findPathAStar pq t fuel start goal) path ∨
        Returns (fun fuel => findPathDijkstra pq t fuel start goal) path) →
      (path = [] ↔ ¬ ∃ L, IsCellPath t start goal L) := by
  refine ⟨findPathAStar_terminates hpq hn start goal,
    findPathDijkstra_terminates hpq hn start goal, ?_⟩
  have hex : (∃ L, IsCellPath t start goal L) ↔ ∃ L, IsRouteFromTo t start goal L :=
    exists_congr (fun L => isCellPath_iff)
  rintro path (⟨fuel, h⟩ | ⟨fuel, h⟩)
  · rw [hex]; exact searchLoop_empty_iff hpq h
  · rw [hex]; exact searchLoop_empty_iff hpq h

/-- C6: called with start = goal = s, each of `findPathAStar`,
`findPathDijkstra`, `findPathGreedy` and `findEnergyOptimalPath` returns the
one-cell path `[s]` (as soon as the loop may run once), and the path cost of
`[s]` is the movement cost of `s`. -/
theorem start_eq_goal_single_cell (pq : PriorityQueue K Q) (hpq : pq.Lawful) (t : Terrain K)
    (s : Point) (fuel : Nat) (energyWeight : K) :
    findPathAStar pq t (fuel + 1) s s = some [s] ∧
    findPathDijkstra pq t (fuel + 1) s s = some [s] ∧
    findPathGreedy t (fuel + 1) s s = some [s] ∧
    findEnergyOptimalPath pq t (fuel + 1) s s energyWeight = some [s] ∧
    calculatePathCost t [s] = t.getMovementCost s := by
  refine ⟨searchLoop_start_eq_goal hpq _ _ _ _ _, searchLoop_start_eq_goal hpq _ _ _ _ _, ?_,
    searchLoop_start_eq_goal hpq _ _ _ _ _, ?_⟩
  · simp [findPathGreedy, greedyLoop]
  · simp [calculatePathCost]
    norm_num

/-- C7: for an in-bounds cell classified Normal, Hill, WindZone, Start or End,
`getMovementCost` is base + 0.5 x elevation + 0.3 x wind resistance with base
1.0 for Normal, Start and End, 3.0 for Hill and 2.0 for WindZone; a Hill cell
of elevation 2.0 and wind resistance 0 costs 4.0. -/
theorem movementCost_formula (t : Terrain K) (p : Point) (hv : t.isValidPosition p = true) :
    (t.typeAt p = TerrainType.NORMAL →
      t.getMovementCost p = 1.0 + 0.5 * t.elevationAt p + 0.3 * t.windAt p) ∧
    (t.typeAt p = TerrainType.HILL →
      t.getMovementCost p = 3.0 + 0.5 * t.elevationAt p + 0.3 * t.windAt p) ∧
    (t.typeAt p = TerrainType.WIND_ZONE →
      t.getMovementCost p = 2.0 + 0.5 * t.elevationAt p + 0.3 * t.windAt p) ∧
    (t.typeAt p = TerrainType.START →
      t.getMovementCost p = 1.0 + 0.5 * t.elevationAt p + 0.3 * t.windAt p) ∧
    (t.typeAt p = TerrainType.END →
      t.getMovementCost p = 1.0 + 0.5 * t.elevationAt p + 0.3 * t.windAt p) ∧
    (t.typeAt p = TerrainType.HILL → t.elevationAt p = 2.0 → t.windAt p = 0 →
      t.getMovementCost p = 4.0) := by
  refine ⟨?_, ?_, ?_, ?_, ?_, ?_⟩ <;> intro h
  all_goals simp only [Terrain.getMovementCost, hv, h, NORMAL_COST, HILL_COST, WIND_COST]
  · simp [mul_comm]
  · simp [mul_comm]
  · simp [mul_comm]
  · simp [mul_comm]
  · simp [mul_comm]
  · intro he hw
    rw [he, hw]; norm_num

/-- C8, as amended: for an in-bounds cell classified Obstacle, `getMovementCost`
returns exactly the obstacle penalty 1000.0, whatever the elevation and wind
resistance of the cell. -/
theorem obstacle_cost_is_penalty (t : Terrain K) (p : Point)
    (hv : t.isValidPosition p = true) (h : t.typeAt p = TerrainType.OBSTACLE) :
    t.getMovementCost p = 1000.0 := by
  simp [Terrain.getMovementCost, hv, h, OBSTACLE_COST]

/-- C9: for a coordinate outside the grid `getMovementCost` returns the obstacle
penalty 1000.0, and it does so without reading any table: the version with
checked table reads returns the same value and does not fail. -/
theorem movementCost_out_of_bounds (t : Terrain K) (x y : Int)
    (h : x < 0 ∨ x ≥ t.width ∨ y < 0 ∨ y ≥ t.height) :
    t.getMovementCost ⟨x, y⟩ = 1000.0 ∧ t.getMovementCostChecked ⟨x, y⟩ = some 1000.0 := by
  have hv : t.isValidPosition ⟨x, y⟩ = false := by
    rw [← Bool.not_eq_true, isValidPosition_iff]
    simp only
    omega
  simp [Terrain.getMovementCost, Terrain.getMovementCostChecked, hv, OBSTACLE_COST]

/-- C10: `isValidPosition (x, y)` is true if and only if `0 <= x < width` and
`0 <= y < height`. -/
theorem isValidPosition_iff_in_bounds (t : Terrain K) (x y : Int) :
    t.isValidPosition ⟨x, y⟩ = true ↔ (0 ≤ x ∧ x < t.width) ∧ (0 ≤ y ∧ y < t.height) := by
  simp [Terrain.isValidPosition, and_assoc]

end Claims

/-! ## Witnesses and counterexamples on concrete grids over the real numbers -/

section Witnesses

/-- Witness for C4: the path that A* returns on the tie grid. -/
theorem search_path_is_connected_witness :
    (listQueue : PriorityQueue ℝ (List (PathNode ℝ))).Lawful ∧
    findPathAStar listQueue (tieTerrain ℝ) 3 ⟨0, 0⟩ ⟨2, 0⟩
      = some [⟨0, 0⟩, ⟨1, 0⟩, ⟨2, 0⟩] ∧
    (([⟨0, 0⟩, ⟨1, 0⟩, ⟨2, 0⟩] : List Point).head? = some ⟨0, 0⟩ ∧
      ([⟨0, 0⟩, ⟨1, 0⟩, ⟨2, 0⟩] : List Point).getLast? = some ⟨2, 0⟩ ∧
      List.Chain' (fun a b => a ≠ b ∧ |b.x - a.x| ≤ 1 ∧ |b.y - a.y| ≤ 1)
        ([⟨0, 0⟩, ⟨1, 0⟩, ⟨2, 0⟩] : List Point) ∧
      ∀ p ∈ ([⟨0, 0⟩, ⟨1, 0⟩, ⟨2, 0⟩] : List Point).tail, (tieTerrain ℝ).isPassable p = true) :=
  ⟨listQueue_lawful, tie_astar listQueue_lawful,
    search_path_is_connected listQueue listQueue_lawful (tieTerrain ℝ) ⟨0, 0⟩ ⟨2, 0⟩ 1 3
      [⟨0, 0⟩, ⟨1, 0⟩, ⟨2, 0⟩] (Or.inl (tie_astar listQueue_lawful)) (by simp)⟩

/-- Witness for C5 on the tie grid. -/
theorem empty_path_iff_unreachable_witness :
    (listQueue : PriorityQueue ℝ (List (PathNode ℝ))).Lawful ∧ (tieTerrain ℝ).NonNeg ∧
    ((∃ pathA, Returns (fun fuel => findPathAStar listQueue (tieTerrain ℝ) fuel ⟨0, 0⟩ ⟨2, 0⟩)
        pathA) ∧
    (∃ pathD, Returns (fun fuel => findPathDijkstra listQueue (tieTerrain ℝ) fuel ⟨0, 0⟩ ⟨2, 0⟩)
        pathD) ∧
    ∀ path,
      (Returns (fun fuel => findPathAStar listQueue (tieTerrain ℝ) fuel ⟨0, 0⟩ ⟨2, 0⟩) path ∨
        Returns (fun fuel => findPathDijkstra listQueue (tieTerrain ℝ) fuel ⟨0, 0⟩ ⟨2, 0⟩)
          path) →
      (path = [] ↔ ¬ ∃ L, IsCellPath (tieTerrain ℝ) ⟨0, 0⟩ ⟨2, 0⟩ L)) :=
  ⟨listQueue_lawful, tie_nonNeg,
    empty_path_iff_unreachable listQueue listQueue_lawful (tieTerrain ℝ) tie_nonNeg
      ⟨0, 0⟩ ⟨2, 0⟩⟩

/-- Witness for C6: start = goal = `(1, 1)` on the tie grid with energy weight 2. -/
theorem start_eq_goal_single_cell_witness :
    (listQueue : PriorityQueue ℝ (List (PathNode ℝ))).Lawful ∧
    (findPathAStar listQueue (tieTerrain ℝ) (0 + 1) ⟨1, 1⟩ ⟨1, 1⟩ = some [⟨1, 1⟩] ∧
    findPathDijkstra listQueue (tieTerrain ℝ) (0 + 1) ⟨1, 1⟩ ⟨1, 1⟩ = some [⟨1, 1⟩] ∧
    findPathGreedy (tieTerrain ℝ) (0 + 1) ⟨1, 1⟩ ⟨1, 1⟩ = some [⟨1, 1⟩] ∧
    findEnergyOptimalPath listQueue (tieTerrain ℝ) (0 + 1) ⟨1, 1⟩ ⟨1, 1⟩ 2 = some [⟨1, 1⟩] ∧
    calculatePathCost (tieTerrain ℝ) [⟨1, 1⟩] = (tieTerrain ℝ).getMovementCost ⟨1, 1⟩) :=
  ⟨listQueue_lawful,
    start_eq_goal_single_cell listQueue listQueue_lawful (tieTerrain ℝ) ⟨1, 1⟩ 0 2⟩

/-- Witness for C7: the single hill cell of elevation 2.0 costs 4.0. -/
theorem movementCost_formula_witness :
    (hillTerrain ℝ).isValidPosition ⟨0, 0⟩ = true ∧
    (hillTerrain ℝ).typeAt ⟨0, 0⟩ = TerrainType.HILL ∧
    (hillTerrain ℝ).getMovementCost ⟨0, 0⟩ = 4.0 := by
  have hv : (hillTerrain ℝ).isValidPosition ⟨0, 0⟩ = true := rfl
  have ht : (hillTerrain ℝ).typeAt ⟨0, 0⟩ = TerrainType.HILL := rfl
  have he : (hillTerrain ℝ).elevationAt ⟨0, 0⟩ = 2.0 := by
    simp [hillTerrain, Terrain.new, Terrain.setTerrain, Terrain.setElevation,
      Terrain.isValidPosition, setCell, Terrain.elevationAt, cellAt]
  have hw : (hillTerrain ℝ).windAt ⟨0, 0⟩ = 0 := by
    simp [hillTerrain, Terrain.new, Terrain.setTerrain, Terrain.setElevation,
      Terrain.isValidPosition, setCell, Terrain.windAt, cellAt]
    norm_num
  exact ⟨hv, ht, (movementCost_formula (hillTerrain ℝ) ⟨0, 0⟩ hv).2.2.2.2.2 ht he hw⟩

/-- Counterexample to C8: a cell raised by `addHill` and then blocked by
`addObstacle` is in bounds and classified Obstacle, its elevation is 3.0, and
its movement cost is not 1000.0 + 0.5 x elevation + 0.3 x wind resistance. -/
theorem obstacle_cost_ignores_elevation :
    (hillThenObstacle ℝ).isValidPosition ⟨0, 0⟩ = true ∧
    (hillThenObstacle ℝ).typeAt ⟨0, 0⟩ = TerrainType.OBSTACLE ∧
    (hillThenObstacle ℝ).elevationAt ⟨0, 0⟩ = 3.0 ∧
    (hillThenObstacle ℝ).getMovementCost ⟨0, 0⟩ ≠
      1000.0 + 0.5 * (hillThenObstacle ℝ).elevationAt ⟨0, 0⟩
        + 0.3 * (hillThenObstacle ℝ).windAt ⟨0, 0⟩ := by
  have hv : (hillThenObstacle ℝ).isValidPosition ⟨0, 0⟩ = true := rfl
  have ht : (hillThenObstacle ℝ).typeAt ⟨0, 0⟩ = TerrainType.OBSTACLE := rfl
  have he : (hillThenObstacle ℝ).elevationAt ⟨0, 0⟩ = 3.0 := by
    simp [hillThenObstacle, Terrain.new, Terrain.addHill, Terrain.addObstacle,
      Terrain.setTerrain, Terrain.setElevation, Terrain.isValidPosition, setCell,
      Terrain.elevationAt, cellAt]
  have hw : (hillThenObstacle ℝ).windAt ⟨0, 0⟩ = 0 := by
    simp [hillThenObstacle, Terrain.new, Terrain.addHill, Terrain.addObstacle,
      Terrain.setTerrain, Terrain.setElevation, Terrain.isValidPosition, setCell,
      Terrain.windAt, cellAt]
    norm_num
  refine ⟨hv, ht, he, ?_⟩
  simp only [Terrain.getMovementCost, hv, ht, he, hw, OBSTACLE_COST]
  norm_num

/-- Witness for the amended C8 on the same cell. -/
theorem obstacle_cost_is_penalty_witness :
    (hillThenObstacle ℝ).isValidPosition ⟨0, 0⟩ = true ∧
    (hillThenObstacle ℝ).typeAt ⟨0, 0⟩ = TerrainType.OBSTACLE ∧
    (hillThenObstacle ℝ).getMovementCost ⟨0, 0⟩ = 1000.0 :=
  ⟨rfl, rfl, obstacle_cost_is_penalty (hillThenObstacle ℝ) ⟨0, 0⟩ rfl rfl⟩

/-- Witness for C9: the coordinate `(3, 0)` lies right of the tie grid. -/
theorem movementCost_out_of_bounds_witness :
    ((3 : Int) < 0 ∨ (3 : Int) ≥ (tieTerrain ℝ).width ∨ (0 : Int) < 0 ∨
      (0 : Int) ≥ (tieTerrain ℝ).height) ∧
    ((tieTerrain ℝ).getMovementCost ⟨3, 0⟩ = 1000.0 ∧
      (tieTerrain ℝ).getMovementCostChecked ⟨3, 0⟩ = some 1000.0) :=
  have h : (3 : Int) < 0 ∨ (3 : Int) ≥ (tieTerrain ℝ).width ∨ (0 : Int) < 0 ∨
      (0 : Int) ≥ (tieTerrain ℝ).height := Or.inr (Or.inl (le_refl (3 : Int)))
  ⟨h, movementCost_out_of_bounds (tieTerrain ℝ) 3 0 h⟩

end Witnesses


/-! ### Facts used by the claims about the greedy walk and the line-of-sight check -/

section GreedyPrefix

variable {K : Type} [LinearOrder K] [IntCast K] [Add K] [Mul K] [HasSqrt K]

/-- The greedy loop only appends to the path it has built. -/
theorem greedyLoop_prefix (t : Terrain K) (goal : Point) :
    ∀ (fuel : Nat) (current : Point) (path r : List Point),
      greedyLoop t goal fuel current path = some r → path <+: r := by
  intro f
  induction f with
  | zero => intro cur p q hq; simp [greedyLoop] at hq
  | succ f ih =>
    intro cur p q hq
    simp only [greedyLoop] at hq
    by_cases hg : cur = goal
    · simp only [hg, if_true, Option.some.injEq] at hq
      subst hq; exact List.prefix_refl _
    · simp only [hg, if_false] at hq
      cases hnb : t.getNeighbors cur with
      | nil =>
        rw [hnb] at hq
        simp only [Option.some.injEq] at hq
        subst hq; exact List.prefix_refl _
      | cons first others =>
        rw [hnb] at hq
        simp only at hq
        by_cases hbig : ((p ++ [bestNeighbor t goal first (first :: others)]).length : Int) >
            toSizeT (t.width * t.height)
        · simp only [hbig, if_true, Option.some.injEq] at hq
          subst hq; exact List.prefix_append _ _
        · simp only [hbig, if_false] at hq
          exact (List.prefix_append _ _).trans (ih _ _ _ hq)

/-- The cap of the greedy walk is `width * height` when that product is a
non-negative value of `int`. -/
theorem greedyCap_eq {w h : Int} (hw : 0 ≤ w) (hh : 0 ≤ h) (hb : w * h < 2 ^ 31) :
    toSizeT (intValue (w * h)) = w * h ∧ toSizeT (w * h) = w * h := by
  have h0 : 0 ≤ w * h := mul_nonneg hw hh
  rw [intValue_eq (by omega) hb]
  unfold toSizeT
  omega

end GreedyPrefix

/-- The products `dx * step` and `dy * step` of the line-of-sight check are
values of `int` when the number of steps is at most 46341. -/
theorem lineProduct_inRange {a c : Point} (h : lineSteps a c ≤ 46341) (step : Int)
    (h1 : 1 ≤ step) (h2 : step < lineSteps a c) :
    intValue ((c.x - a.x) * step) = (c.x - a.x) * step ∧
    intValue ((c.y - a.y) * step) = (c.y - a.y) * step := by
  have hx : |c.x - a.x| ≤ lineSteps a c := le_max_left _ _
  have hy : |c.y - a.y| ≤ lineSteps a c := le_max_right _ _
  have bound : ∀ d : Int, |d| ≤ lineSteps a c → intValue (d * step) = d * step := by
    intro d hd
    obtain ⟨d1, d2⟩ := abs_le.1 hd
    apply intValue_eq
    · nlinarith
    · nlinarith
  exact ⟨bound _ hx, bound _ hy⟩


/-! ### The lines of a simplified path -/

section ClearLines

variable {K : Type}

/-- The quotient `(d * step) / steps` of the interpolation lies between `0` and `d`. -/
theorem lineQuotient_between (d L step : Int) (hd : |d| ≤ L) (h0 : 0 ≤ step) (h1 : step ≤ L) :
    min 0 d ≤ (d * step).tdiv L ∧ (d * step).tdiv L ≤ max 0 d := by
  obtain ⟨d1, d2⟩ := abs_le.1 hd
  rcases eq_or_lt_of_le (le_trans h0 h1) with hL | hL
  · have hd0 : d = 0 := by omega
    subst hd0
    simp
  · rcases le_total 0 d with hpos | hneg
    · rw [Int.tdiv_eq_ediv (mul_nonneg hpos h0) (le_of_lt hL)]
      rw [min_eq_left hpos, max_eq_right hpos]
      refine ⟨Int.ediv_nonneg (mul_nonneg hpos h0) (le_of_lt hL), ?_⟩
      apply Int.ediv_le_of_le_mul hL
      exact mul_le_mul_of_nonneg_left h1 hpos
    · have e : d * step = -((-d) * step) := by ring
      have hpos : 0 ≤ -d := by omega
      rw [e, Int.neg_tdiv, Int.tdiv_eq_ediv (mul_nonneg hpos h0) (le_of_lt hL)]
      rw [min_eq_right hneg, max_eq_left hneg]
      have q1 : 0 ≤ (-d * step) / L := Int.ediv_nonneg (mul_nonneg hpos h0) (le_of_lt hL)
      have q2 : (-d * step) / L ≤ -d := by
        apply Int.ediv_le_of_le_mul hL
        exact mul_le_mul_of_nonneg_left h1 hpos
      constructor <;> omega

/-- Every cell of the interpolated line lies in the rectangle spanned by its ends. -/
theorem lineCell_in_box (a b : Point) (step : Int) (h0 : 0 ≤ step) (h1 : step ≤ lineSteps a b) :
    min a.x b.x ≤ (lineCell a b step).x ∧ (lineCell a b step).x ≤ max a.x b.x ∧
    min a.y b.y ≤ (lineCell a b step).y ∧ (lineCell a b step).y ≤ max a.y b.y := by
  obtain ⟨x1, x2⟩ := lineQuotient_between (b.x - a.x) (lineSteps a b) step (le_max_left _ _) h0 h1
  obtain ⟨y1, y2⟩ := lineQuotient_between (b.y - a.y) (lineSteps a b) step (le_max_right _ _) h0 h1
  unfold lineCell
  simp only
  generalize ((b.x - a.x) * step).tdiv (lineSteps a b) = qx at x1 x2
  generalize ((b.y - a.y) * step).tdiv (lineSteps a b) = qy at y1 y2
  refine ⟨?_, ?_, ?_, ?_⟩
  · rcases le_total a.x b.x with h | h
    · rw [min_eq_left h]; rw [min_eq_left (by omega)] at x1; omega
    · rw [min_eq_right h]; rw [min_eq_right (by omega)] at x1; omega
  · rcases le_total a.x b.x with h | h
    · rw [max_eq_right h]; rw [max_eq_right (by omega)] at x2; omega
    · rw [max_eq_left h]; rw [max_eq_left (by omega)] at x2; omega
  · rcases le_total a.y b.y with h | h
    · rw [min_eq_left h]; rw [min_eq_left (by omega)] at y1; omega
    · rw [min_eq_right h]; rw [min_eq_right (by omega)] at y1; omega
  · rcases le_total a.y b.y with h | h
    · rw [max_eq_right h]; rw [max_eq_right (by omega)] at y2; omega
    · rw [max_eq_left h]; rw [max_eq_left (by omega)] at y2; omega

/-- A line is clear when the rectangle spanned by its ends holds no obstacle. -/
theorem lineClear_of_box {t : Terrain K} {a b : Point} (h : ¬ ObstacleInBox t a b) :
    LineClear t a b := by
  intro step h0 h1
  obtain ⟨x1, x2, y1, y2⟩ := lineCell_in_box a b step h0 h1
  by_contra hob
  exact h ⟨lineCell a b step, x1, x2, y1, y2, by simpa using hob⟩

/-- The cells that the pass keeps after the cell `a`, when the waypoints `D` after
`a` have been dropped: each line between consecutive kept cells is clear, or two
or more waypoints were dropped between them. -/
theorem chain_clearOrRun (t : Terrain K) (path : List Point)
    (hadj : List.Chain' Adjacent8 path) (hob : ∀ c ∈ path, t.isObstacle c = false) :
    ∀ (L pre : List Point) (a : Point) (D : List Point) (pv c last : Point),
      path = pre ++ a :: D ++ c :: L →
      (a :: D).getLast? = some pv → (c :: L).getLast? = some last →
      (D = [] ∨ (∃ w, D = [w] ∧ canSkip t a c = true) ∨ 2 ≤ D.length) →
      List.Chain' (fun x y => LineClear t x y ∨ RunBetween path x y)
        (a :: keptWaypoints t (pv :: c :: L) ++ [last]) := by
  intro L
  induction L with
  | nil =>
    intro pre a D pv c last hpath _ hlast hD
    simp only [List.getLast?_singleton, Option.some.injEq] at hlast
    subst hlast
    simp only [keptWaypoints, List.nil_append, List.cons_append, List.chain'_cons,
      List.chain'_singleton, and_true]
    have ha : a ∈ path := by rw [hpath]; simp
    have hc : c ∈ path := by rw [hpath]; simp
    rcases hD with rfl | ⟨w, rfl, hs⟩ | hlen
    · left
      have hin : [a, c] <:+: path := ⟨pre, [], by rw [hpath]; simp⟩
      have hch := List.Chain'.infix hadj hin
      have h2 := (List.chain'_cons.1 hch).1
      exact lineClear_of_adjacent h2.2.1 h2.2.2 (hob a ha) (hob c hc)
    · exact Or.inl (lineClear_of_canSkip hs (hob a ha) (hob c hc))
    · exact Or.inr ⟨pre, D, [], hpath, hlen⟩
  | cons n L ih =>
    intro pre a D pv c last hpath hpv hlast hD
    have ha : a ∈ path := by rw [hpath]; simp
    have hc : c ∈ path := by rw [hpath]; simp
    have hgood : LineClear t a c ∨ RunBetween path a c := by
      rcases hD with rfl | ⟨w, rfl, hs⟩ | hlen
      · left
        have hin : [a, c] <:+: path := ⟨pre, n :: L, by rw [hpath]; simp⟩
        have hch := List.Chain'.infix hadj hin
        have h2 := (List.chain'_cons.1 hch).1
        exact lineClear_of_adjacent h2.2.1 h2.2.2 (hob a ha) (hob c hc)
      · exact Or.inl (lineClear_of_canSkip hs (hob a ha) (hob c hc))
      · exact Or.inr ⟨pre, D, n :: L, hpath, hlen⟩
    have hlast' : (n :: L).getLast? = some last := by
      rw [List.getLast?_cons_cons] at hlast; exact hlast
    rw [keptWaypoints_cons₃]
    by_cases hs : canSkip t pv n = true
    · rw [if_pos hs, List.nil_append]
      apply ih pre a (D ++ [c]) c n last
      · rw [hpath]; simp
      · show ((a :: D) ++ [c]).getLast? = some c
        exact List.getLast?_concat _
      · exact hlast'
      · rcases hD with rfl | ⟨w, rfl, _⟩ | hlen
        · right; left
          simp only [List.getLast?_singleton, Option.some.injEq] at hpv
          subst hpv
          exact ⟨c, rfl, hs⟩
        · right; right; simp
        · right; right; simp only [List.length_append, List.length_singleton]; omega
    · rw [if_neg hs]
      simp only [List.singleton_append, List.cons_append]
      refine List.Chain'.cons hgood ?_
      have := ih (pre ++ a :: D) c [] c n last (by rw [hpath]; simp) (by simp) hlast'
        (Or.inl rfl)
      simpa using this

/-- The lines of the simplified path: each is clear, unless two or more
consecutive waypoints were dropped between its ends and the rectangle spanned
by its ends holds an obstacle. -/
theorem optimizePath_clearOrRun (t : Terrain K) (path : List Point)
    (hpass : ∀ c ∈ path, t.isPassable c = true) (hadj : List.Chain' Adjacent8 path) :
    List.Chain' (fun a b => LineClear t a b ∨ (RunBetween path a b ∧ ObstacleInBox t a b))
      (optimizePath t path) := by
  have hob : ∀ c ∈ path, t.isObstacle c = false := by
    intro c hc
    have := hpass c hc
    rw [isPassable_eq_not_isObstacle] at this
    simpa using this
  have hweak : ∀ a b, (LineClear t a b ∨ RunBetween path a b) →
      (LineClear t a b ∨ (RunBetween path a b ∧ ObstacleInBox t a b)) := by
    intro a b h
    by_cases hbox : ObstacleInBox t a b
    · rcases h with h | h
      · exact Or.inl h
      · exact Or.inr ⟨h, hbox⟩
    · exact Or.inl (lineClear_of_box hbox)
  match path, hadj, hob with
  | [], _, _ => simp [optimizePath]
  | [a], _, _ => simp [optimizePath]
  | [a, b], hadj, hob =>
    have hab := (List.chain'_cons.1 hadj).1
    simpa [optimizePath] using
      (Or.inl (lineClear_of_adjacent hab.2.1 hab.2.2 (hob a (by simp)) (hob b (by simp))) :
        LineClear t a b ∨ (RunBetween [a, b] a b ∧ ObstacleInBox t a b))
  | a :: b :: c :: rest, hadj, hob =>
    rw [optimizePath_cons₃]
    have := chain_clearOrRun t (a :: b :: c :: rest) hadj hob (c :: rest) [] a [] a b
      ((b :: c :: rest).getLast (by simp)) (by simp) (by simp)
      (List.getLast?_eq_getLast _ _) (Or.inl rfl)
    exact List.Chain'.imp hweak this

end ClearLines


/-! ### Evaluations with the arithmetic of `double` -/

section DoubleFacts

theorem binary64_zero_le : (0 : Binary64) ≤ 0.0 :=
  le_of_eq (by decide!)

theorem binary64_new_nonNeg (w h : Int) : (Terrain.new w h : Terrain Binary64).NonNeg :=
  new_nonNeg_of binary64_zero_le w h

set_option maxRecDepth 100000

theorem wideStrip_neighbors :
    wideStrip.getNeighbors ⟨0, 0⟩ = [⟨0, 1⟩, ⟨1, 0⟩, ⟨1, 1⟩] := by
  unfold Terrain.getNeighbors wideStrip
  simp only [neighborOffsets, List.map_cons, List.map_nil, List.filter_cons, List.filter_nil,
    new_isPassable]
  decide!

theorem wideStrip_best :
    bestNeighbor wideStrip ⟨70000001, 1⟩ ⟨0, 1⟩ [⟨0, 1⟩, ⟨1, 0⟩, ⟨1, 1⟩] = ⟨1, 0⟩ := by
  decide!

/-- On the wide strip every path that the greedy walk from `(0, 0)` to
`(70000001, 1)` returns goes to `(1, 0)` first. -/
theorem wideStrip_second_cell (fuel : Nat) (r : List Point)
    (h : findPathGreedy wideStrip fuel ⟨0, 0⟩ ⟨70000001, 1⟩ = some r) :
    ∃ rest, r = ⟨0, 0⟩ :: ⟨1, 0⟩ :: rest := by
  unfold findPathGreedy at h
  cases fuel with
  | zero => simp [greedyLoop] at h
  | succ fuel =>
    rw [greedyLoop] at h
    have hne : ((⟨0, 0⟩ : Point) = ⟨70000001, 1⟩) = False := by simp
    simp only [hne, if_false, wideStrip_neighbors, wideStrip_best] at h
    have hcap : ¬ ((([⟨0, 0⟩] ++ [⟨1, 0⟩] : List Point).length : Int) >
        toSizeT (wideStrip.width * wideStrip.height)) := by decide
    rw [if_neg hcap] at h
    obtain ⟨rest, hr⟩ := greedyLoop_prefix wideStrip _ _ _ _ _ h
    exact ⟨rest, by rw [← hr]; rfl⟩

theorem wideStrip_returns :
    ∃ fuel r, findPathGreedy wideStrip fuel ⟨0, 0⟩ ⟨70000001, 1⟩ = some r := by
  have hT : toSizeT (wideStrip.width * wideStrip.height) = 140000004 := by decide
  obtain ⟨r, hr⟩ := greedyLoop_terminates wideStrip ⟨70000001, 1⟩ 140000005 ⟨0, 0⟩ [⟨0, 0⟩]
    (by rw [hT]; simp) (by rw [hT]; simp)
  exact ⟨140000005, r, hr⟩

theorem loaderMap_nonNeg : loaderMap.NonNeg := by
  intro p hp
  obtain ⟨h1, h2, h3, h4⟩ := (isValidPosition_iff _ p).1 hp
  obtain ⟨x, y⟩ := p
  have h2' : x < 4 := h2
  have h4' : y < 4 := h4
  simp only at h1 h3
  interval_cases x <;> interval_cases y <;> exact ⟨not_lt.1 (by decide!), not_lt.1 (by decide!)⟩

end DoubleFacts
/-! ## The claims about the grid, the greedy walk and path simplification -/

section Claims2

variable {K : Type} [SqrtField K] {Q : Type}

/-- C11: `isObstacle c` is true if and only if `c` is out of bounds, or in bounds
and classified Obstacle; in-bounds cells classified Hill, WindZone, Normal,
Start or End are not obstacles. -/
theorem isObstacle_iff (t : Terrain K) (c : Point) :
    (t.isObstacle c = true ↔
      t.isValidPosition c = false ∨
        (t.isValidPosition c = true ∧ t.typeAt c = TerrainType.OBSTACLE)) ∧
    (t.isValidPosition c = true →
      t.typeAt c ∈ [TerrainType.HILL, TerrainType.WIND_ZONE, TerrainType.NORMAL,
        TerrainType.START, TerrainType.END] →
      t.isObstacle c = false) := by
  unfold Terrain.isObstacle
  constructor
  · cases hv : t.isValidPosition c <;> simp
  · intro hv hty
    simp only [hv, Bool.not_true, Bool.false_eq_true, if_false, decide_eq_false_iff_not]
    intro h
    rw [h] at hty
    simp at hty

/-- C12: `isPassable c` is true if and only if `c` is a valid position and not an
obstacle; for every cell, in or out of bounds, `isPassable c` is the negation
of `isObstacle c`. -/
theorem isPassable_iff (t : Terrain K) (c : Point) :
    (t.isPassable c = true ↔ t.isValidPosition c = true ∧ t.isObstacle c = false) ∧
    t.isPassable c = !t.isObstacle c := by
  refine ⟨?_, isPassable_eq_not_isObstacle t c⟩
  unfold Terrain.isPassable
  simp

/-- C13: for two cells whose coordinate differences are values of `int`
(`|a.x - b.x| < 2^31` and `|a.y - b.y| < 2^31`, so that neither the subtractions
nor `std::abs` overflow), `getHeuristicCost a b` is the Euclidean distance
`sqrt ((a.x - b.x)^2 + (a.y - b.y)^2)`; it is symmetric, non-negative, and zero
exactly when `a = b`.  With the arithmetic of `double` it is symmetric,
non-negative and zero exactly when `a = b` as well, and it is the Euclidean
distance up to the rounding of the square root and of the sum of squares, a
relative error of at most `2 ^ -51`. -/
theorem heuristic_is_euclidean (t : Terrain K) (a b : Point)
    (hx : |a.x - b.x| < 2 ^ 31) (hy : |a.y - b.y| < 2 ^ 31) :
    (intValue (b.x - a.x) = b.x - a.x ∧ intValue |b.x - a.x| = |b.x - a.x| ∧
      intValue (b.y - a.y) = b.y - a.y ∧ intValue |b.y - a.y| = |b.y - a.y|) ∧
    t.getHeuristicCost a b =
      SqrtField.sqrt ((((a.x - b.x : Int) : K)) ^ 2 + (((a.y - b.y : Int) : K)) ^ 2) ∧
    t.getHeuristicCost a b = t.getHeuristicCost b a ∧
    0 ≤ t.getHeuristicCost a b ∧
    (t.getHeuristicCost a b = 0 ↔ a = b) ∧
    ∀ d : Terrain Binary64,
      d.getHeuristicCost a b = d.getHeuristicCost b a ∧
      0 ≤ d.getHeuristicCost a b ∧
      (d.getHeuristicCost a b = 0 ↔ a = b) ∧
      Real.sqrt ((((a.x - b.x) ^ 2 + (a.y - b.y) ^ 2 : Int)) : ℝ) * (1 - 1 / 2 ^ 51) ≤
        (((d.getHeuristicCost a b).val : ℚ) : ℝ) ∧
      (((d.getHeuristicCost a b).val : ℚ) : ℝ) ≤
        Real.sqrt ((((a.x - b.x) ^ 2 + (a.y - b.y) ^ 2 : Int)) : ℝ) * (1 + 1 / 2 ^ 51) := by
  have hdouble : ∀ d : Terrain Binary64,
      d.getHeuristicCost a b = d.getHeuristicCost b a ∧
      0 ≤ d.getHeuristicCost a b ∧
      (d.getHeuristicCost a b = 0 ↔ a = b) ∧
      Real.sqrt ((((a.x - b.x) ^ 2 + (a.y - b.y) ^ 2 : Int)) : ℝ) * (1 - 1 / 2 ^ 51) ≤
        (((d.getHeuristicCost a b).val : ℚ) : ℝ) ∧
      (((d.getHeuristicCost a b).val : ℚ) : ℝ) ≤
        Real.sqrt ((((a.x - b.x) ^ 2 + (a.y - b.y) ^ 2 : Int)) : ℝ) * (1 + 1 / 2 ^ 51) :=
    fun d => ⟨binary64_getHeuristicCost_symm d a b,
      (binary64_le_iff _ _).2 (binary64_getHeuristicCost_nonneg d a b),
      binary64_getHeuristicCost_eq_zero_iff d a b, binary64_getHeuristicCost_near d a b hx hy⟩
  have hint : intValue (b.x - a.x) = b.x - a.x ∧ intValue |b.x - a.x| = |b.x - a.x| ∧
      intValue (b.y - a.y) = b.y - a.y ∧ intValue |b.y - a.y| = |b.y - a.y| := by
    rw [abs_sub_comm] at hx hy
    have hx0 := abs_nonneg (b.x - a.x)
    have hy0 := abs_nonneg (b.y - a.y)
    obtain ⟨x1, x2⟩ := abs_lt.1 hx
    obtain ⟨y1, y2⟩ := abs_lt.1 hy
    exact ⟨intValue_eq (by omega) (by omega), intValue_eq (by omega) hx,
      intValue_eq (by omega) (by omega), intValue_eq (by omega) hy⟩
  have heq : t.getHeuristicCost a b =
      SqrtField.sqrt ((((a.x - b.x : Int) : K)) ^ 2 + (((a.y - b.y : Int) : K)) ^ 2) := by
    rw [getHeuristicCost_eq_distance]
    unfold calculateDistance
    simp only
    congr 1
    push_cast
    ring
  refine ⟨hint, heq, ?_, getHeuristicCost_nonneg t a b, ?_, hdouble⟩
  · rw [getHeuristicCost_eq_distance t a b, getHeuristicCost_eq_distance t b a]
    unfold calculateDistance
    simp only
    congr 1
    push_cast
    ring
  · rw [heq, sqrt_eq_zero_iff (add_nonneg (sq_nonneg _) (sq_nonneg _))]
    constructor
    · intro h
      have h1 : (((a.x - b.x : Int) : K)) ^ 2 = 0 := by
        nlinarith [sq_nonneg (((a.x - b.x : Int) : K)), sq_nonneg (((a.y - b.y : Int) : K))]
      have h2 : (((a.y - b.y : Int) : K)) ^ 2 = 0 := by
        nlinarith [sq_nonneg (((a.x - b.x : Int) : K)), sq_nonneg (((a.y - b.y : Int) : K))]
      have h1' : a.x - b.x = 0 := by exact_mod_cast pow_eq_zero_iff (two_ne_zero) |>.1 h1
      have h2' : a.y - b.y = 0 := by exact_mod_cast pow_eq_zero_iff (two_ne_zero) |>.1 h2
      cases a; cases b
      simp only [Point.mk.injEq] at h1' h2' ⊢
      constructor <;> omega
    · rintro rfl
      simp

/-- C15: for every cell `p`, in or out of bounds, `getNeighbors p` contains exactly
the passable cells at the offsets `(dx, dy)` in `{-1, 0, 1}^2` other than
`(0, 0)`; it has at most 8 entries, no entry twice, does not contain `p`, and
contains no out-of-bounds and no Obstacle cell. -/
theorem getNeighbors_spec (t : Terrain K) (p : Point) :
    (∀ q, q ∈ t.getNeighbors p ↔
      ((q.x - p.x ∈ [-1, 0, 1] ∧ q.y - p.y ∈ [-1, 0, 1] ∧ (q.x - p.x, q.y - p.y) ≠ (0, 0)) ∧
        t.isPassable q = true)) ∧
    (t.getNeighbors p).length ≤ 8 ∧ (t.getNeighbors p).Nodup ∧ p ∉ t.getNeighbors p ∧
    ∀ q ∈ t.getNeighbors p, t.isValidPosition q = true ∧ t.typeAt q ≠ TerrainType.OBSTACLE := by
  refine ⟨?_, getNeighbors_length_le t p, getNeighbors_nodup t p, ?_, ?_⟩
  · intro q
    rw [mem_getNeighbors]
    refine and_congr_left (fun _ => ?_)
    simp only [List.mem_cons, List.mem_singleton, List.not_mem_nil, or_false, ne_eq,
      Prod.mk.injEq]
    constructor
    · rintro ⟨d, hd, rfl⟩
      obtain ⟨h1, h2, h0⟩ := offsets_spec hd
      simp only [add_sub_cancel_left]
      refine ⟨by omega, by omega, ?_⟩
      rintro ⟨hx, hy⟩
      rcases h0 with h0 | h0
      · exact h0 hx
      · exact h0 hy
    · rintro ⟨hx, hy, h0⟩
      refine ⟨(q.x - p.x, q.y - p.y), ?_, ?_⟩
      · apply mem_neighborOffsets_of_bounds
        · simp only; omega
        · simp only; omega
        · simp only
          by_contra hcon
          push_neg at hcon
          exact h0 hcon
      · cases p; cases q
        simp only [Point.mk.injEq]
        constructor <;> omega
  · intro h
    exact ne_of_mem_getNeighbors h rfl
  · intro q hq
    have hp := isPassable_of_mem_getNeighbors hq
    refine ⟨isValidPosition_of_isPassable hp, ?_⟩
    intro hty
    unfold Terrain.isPassable Terrain.isObstacle at hp
    simp [hty] at hp

/-- C16: on a grid that satisfies the class invariant, for an in-bounds cell `p`
`addObstacle` makes `p` an Obstacle, `addHill` makes it a Hill of elevation 3.0
and `addWindZone` a WindZone of wind resistance 2.0; in each case the
classification, elevation and wind resistance of every other cell are
unchanged; for an out-of-bounds `p` the grid is unchanged. -/
theorem add_cell_effects (t : Terrain K) (hwf : t.WellFormed) (p : Point) :
    (t.isValidPosition p = true →
      (t.addObstacle p).typeAt p = TerrainType.OBSTACLE ∧
      ((t.addHill p).typeAt p = TerrainType.HILL ∧ (t.addHill p).elevationAt p = 3.0) ∧
      ((t.addWindZone p).typeAt p = TerrainType.WIND_ZONE ∧
        (t.addWindZone p).windAt p = 2.0)) ∧
    (∀ q, q ≠ p →
      ((t.addObstacle p).typeAt q = t.typeAt q ∧
        (t.addObstacle p).elevationAt q = t.elevationAt q ∧
        (t.addObstacle p).windAt q = t.windAt q) ∧
      ((t.addHill p).typeAt q = t.typeAt q ∧
        (t.addHill p).elevationAt q = t.elevationAt q ∧
        (t.addHill p).windAt q = t.windAt q) ∧
      ((t.addWindZone p).typeAt q = t.typeAt q ∧
        (t.addWindZone p).elevationAt q = t.elevationAt q ∧
        (t.addWindZone p).windAt q = t.windAt q)) ∧
    (t.isValidPosition p = false →
      t.addObstacle p = t ∧ t.addHill p = t ∧ t.addWindZone p = t) := by
  refine ⟨fun hv => ?_, fun q hq => ?_, fun hv => ?_⟩
  · have hv' : t.isValidPosition ⟨p.x, p.y⟩ = true := hv
    refine ⟨?_, ⟨?_, ?_⟩, ⟨?_, ?_⟩⟩
    · exact setTerrain_typeAt_eq t hwf p.x p.y _ hv'
    · unfold Terrain.addHill
      rw [setElevation_typeAt]
      exact setTerrain_typeAt_eq t hwf p.x p.y _ hv'
    · unfold Terrain.addHill
      obtain ⟨he, _, hw, hh⟩ := setTerrain_shapes t p.x p.y TerrainType.HILL
      apply setElevation_elevationAt_eq
      · rw [he, hw, hh]; exact hwf.2.2.2.1
      · rw [setTerrain_isValidPosition]; exact hv'
    · unfold Terrain.addWindZone
      rw [setWindResistance_typeAt]
      exact setTerrain_typeAt_eq t hwf p.x p.y _ hv'
    · unfold Terrain.addWindZone
      obtain ⟨_, hr, hw, hh⟩ := setTerrain_shapes t p.x p.y TerrainType.WIND_ZONE
      apply setWindResistance_windAt_eq
      · rw [hr, hw, hh]; exact hwf.2.2.2.2
      · rw [setTerrain_isValidPosition]; exact hv'
  · have hq' : q ≠ ⟨p.x, p.y⟩ := hq
    refine ⟨⟨?_, ?_, ?_⟩, ⟨?_, ?_, ?_⟩, ⟨?_, ?_, ?_⟩⟩
    · exact setTerrain_typeAt_ne t _ _ _ q hq'
    · exact setTerrain_elevationAt t _ _ _ q
    · exact setTerrain_windAt t _ _ _ q
    · unfold Terrain.addHill
      rw [setElevation_typeAt]; exact setTerrain_typeAt_ne t _ _ _ q hq'
    · unfold Terrain.addHill
      rw [setElevation_elevationAt_ne _ _ _ _ q hq']; exact setTerrain_elevationAt t _ _ _ q
    · unfold Terrain.addHill
      rw [setElevation_windAt]; exact setTerrain_windAt t _ _ _ q
    · unfold Terrain.addWindZone
      rw [setWindResistance_typeAt]; exact setTerrain_typeAt_ne t _ _ _ q hq'
    · unfold Terrain.addWindZone
      rw [setWindResistance_elevationAt]; exact setTerrain_elevationAt t _ _ _ q
    · unfold Terrain.addWindZone
      rw [setWindResistance_windAt_ne _ _ _ _ q hq']; exact setTerrain_windAt t _ _ _ q
  · have hv' : t.isValidPosition ⟨p.x, p.y⟩ = false := hv
    have h1 : t.setTerrain p.x p.y TerrainType.OBSTACLE = t := by
      unfold Terrain.setTerrain; simp [hv']
    have h2 : t.setTerrain p.x p.y TerrainType.HILL = t := by
      unfold Terrain.setTerrain; simp [hv']
    have h3 : t.setTerrain p.x p.y TerrainType.WIND_ZONE = t := by
      unfold Terrain.setTerrain; simp [hv']
    refine ⟨h1, ?_, ?_⟩
    · unfold Terrain.addHill
      rw [h2]
      unfold Terrain.setElevation; simp [hv']
    · unfold Terrain.addWindZone
      rw [h3]
      unfold Terrain.setWindResistance; simp [hv']

/-- C17: in a path returned by `findPathAStar`, `findPathDijkstra` or
`findEnergyOptimalPath` every cell after the first has a movement cost below
1000: a cell at or above the obstacle penalty is never entered. -/
theorem search_never_enters_costly_cell (pq : PriorityQueue K Q) (hpq : pq.Lawful)
    (t : Terrain K) (start goal : Point) (energyWeight : K) (fuel : Nat) (path : List Point)
    (h : findPathAStar pq t fuel start goal = some path ∨
      findPathDijkstra pq t fuel start goal = some path ∨
      findEnergyOptimalPath pq t fuel start goal energyWeight = some path) :
    ∀ p ∈ path.tail, t.getMovementCost p < 1000.0 := by
  cases path with
  | nil => intro p hp; simp at hp
  | cons a rest =>
    have hroute : IsRouteFromTo t start goal (a :: rest) := by
      rcases h with h | h | h
      · exact searchLoop_route hpq h (by simp)
      · exact searchLoop_route hpq h (by simp)
      · exact searchLoop_route hpq h (by simp)
    intro p hp
    simp only [List.tail_cons] at hp
    obtain ⟨q, hq⟩ := route_tail_canEnter rest a hroute.1 p hp
    exact hq.2

/-- C19: with energy weight 1.0 `findEnergyOptimalPath` behaves exactly as
`findPathAStar`: for every grid, start, goal and amount of fuel the two return
the same result. -/
theorem energy_weight_one_is_astar (pq : PriorityQueue K Q) (t : Terrain K) (fuel : Nat)
    (start goal : Point) :
    findEnergyOptimalPath pq t fuel start goal 1.0 = findPathAStar pq t fuel start goal := by
  unfold findEnergyOptimalPath findPathAStar
  have hscale : (fun (movementCost distance : K) => movementCost * 1.0 * distance) =
      (fun movementCost distance => movementCost * distance) := by
    funext c d
    norm_num
  rw [hscale]

/-- C20: `optimizePath` returns a path of at most 2 cells unchanged. -/
theorem optimizePath_short (t : Terrain K) (path : List Point) (h : path.length ≤ 2) :
    optimizePath t path = path := by
  unfold optimizePath
  simp [h]

end Claims2

section Claims2Greedy

variable {K : Type} [LinearOrder K] [IntCast K] [Add K] [Mul K] [HasSqrt K]

/-- C18: on a grid whose dimensions are not negative and whose number of cells
`width * height` is a value of `int` (below `2^31`, so that the product
computed for the cap does not overflow), `findPathGreedy` terminates (with
`width * height + 1` units of fuel), and the path it returns has at most
`width * height + 1` cells, whether or not it reaches the goal; this holds for
every number type, with or without rounding. -/
theorem greedy_terminates_within_bound (t : Terrain K) (hw : 0 ≤ t.width) (hh : 0 ≤ t.height)
    (hb : t.width * t.height < 2 ^ 31) (start goal : Point) :
    toSizeT (intValue (t.width * t.height)) = t.width * t.height ∧
    (∃ path, findPathGreedy t ((t.width * t.height).toNat + 1) start goal = some path) ∧
    ∀ fuel path, findPathGreedy t fuel start goal = some path →
      (path.length : Int) ≤ t.width * t.height + 1 := by
  have hprod : 0 ≤ t.width * t.height := mul_nonneg hw hh
  have hT0 := toSizeT_nonneg (t.width * t.height)
  have hTle := toSizeT_le hprod
  refine ⟨(greedyCap_eq hw hh hb).1, ?_, ?_⟩
  · unfold findPathGreedy
    apply greedyLoop_terminates
    · simp only [List.length_singleton, Nat.cast_add, Nat.cast_one]
      rw [Int.toNat_of_nonneg hprod]
      omega
    · simp only [List.length_singleton, Nat.cast_one]
      omega
  · intro fuel path h
    unfold findPathGreedy at h
    cases fuel with
    | zero => simp [greedyLoop] at h
    | succ fuel =>
      simp only [greedyLoop] at h
      by_cases hg : start = goal
      · simp only [hg, if_true, Option.some.injEq] at h
        subst h
        simp only [List.length_singleton, Nat.cast_one]
        omega
      · simp only [hg, if_false] at h
        cases hnb : t.getNeighbors start with
        | nil =>
          rw [hnb] at h
          simp only [Option.some.injEq] at h
          subst h
          simp only [List.length_singleton, Nat.cast_one]
          omega
        | cons first others =>
          rw [hnb] at h
          simp only at h
          have hfirst : first ∈ t.getNeighbors start := by rw [hnb]; exact List.mem_cons_self _ _
          have hv := isValidPosition_of_isPassable (isPassable_of_mem_getNeighbors hfirst)
          obtain ⟨h1, h2, h3, h4⟩ := (isValidPosition_iff t first).1 hv
          have hpos : 1 ≤ t.width * t.height := by nlinarith
          by_cases hbig : (([start] ++ [bestNeighbor t goal first (first :: others)]).length : Int)
              > toSizeT (t.width * t.height)
          · simp only [hbig, if_true, Option.some.injEq] at h
            subst h
            simp only [List.length_append, List.length_singleton, Nat.cast_add, Nat.cast_one]
            omega
          · simp only [hbig, if_false] at h
            have := greedyLoop_length_le t goal fuel _ _ path (not_lt.1 hbig) h
            omega

end Claims2Greedy


set_option maxRecDepth 100000 in
/-- Counterexample to C14: with the arithmetic of `double`, on the grid that the
constructor builds for width 5 and height 5 (zero elevation and wind
resistance), for the goal `(4, 4)`, the cell `(0, 0)` and its passable
neighbour `(1, 1)` of movement cost `1.0`, the heuristic cost of `(0, 0)` is
`6369051672525773 / 2^50` and exceeds
`getMovementCost((1, 1)) * distance((0, 0), (1, 1)) + getHeuristicCost((1, 1), (4, 4))`,
which is `6369051672525772 / 2^50`; and on the grid built for width 31 and
height 31 the heuristic cost from `(0, 0)` to `(30, 30)` exceeds the travel
cost of the diagonal route, whether the costs of the steps are added from the
first to the last, as the search accumulates them, or from the last to the
first. -/
theorem heuristic_exceeds_cost_in_double :
    (Terrain.new 5 5 : Terrain Binary64).NonNeg ∧
    CanEnter (Terrain.new 5 5 : Terrain Binary64) ⟨0, 0⟩ ⟨1, 1⟩ ∧
    (Terrain.new 5 5 : Terrain Binary64).isPassable ⟨1, 1⟩ = true ∧
    ((Terrain.new 5 5 : Terrain Binary64).getMovementCost ⟨1, 1⟩).val = 1 ∧
    ((Terrain.new 5 5 : Terrain Binary64).getHeuristicCost ⟨0, 0⟩ ⟨4, 4⟩).val =
      6369051672525773 / 2 ^ 50 ∧
    ((Terrain.new 5 5 : Terrain Binary64).getMovementCost ⟨1, 1⟩ *
        calculateDistance ⟨0, 0⟩ ⟨1, 1⟩ +
      (Terrain.new 5 5 : Terrain Binary64).getHeuristicCost ⟨1, 1⟩ ⟨4, 4⟩).val =
      6369051672525772 / 2 ^ 50 ∧
    (Terrain.new 5 5 : Terrain Binary64).getMovementCost ⟨1, 1⟩ *
        calculateDistance ⟨0, 0⟩ ⟨1, 1⟩ +
      (Terrain.new 5 5 : Terrain Binary64).getHeuristicCost ⟨1, 1⟩ ⟨4, 4⟩ <
      (Terrain.new 5 5 : Terrain Binary64).getHeuristicCost ⟨0, 0⟩ ⟨4, 4⟩ ∧
    (Terrain.new 31 31 : Terrain Binary64).NonNeg ∧
    IsRouteFromTo (Terrain.new 31 31 : Terrain Binary64) ⟨0, 0⟩ ⟨30, 30⟩ (diagonalCells 30) ∧
    costAlong (Terrain.new 31 31 : Terrain Binary64)
        (fun movementCost distance => movementCost * distance) (diagonalCells 30) <
      (Terrain.new 31 31 : Terrain Binary64).getHeuristicCost ⟨0, 0⟩ ⟨30, 30⟩ ∧
    travelCost (Terrain.new 31 31 : Terrain Binary64) (diagonalCells 30) <
      (Terrain.new 31 31 : Terrain Binary64).getHeuristicCost ⟨0, 0⟩ ⟨30, 30⟩ := by
  refine ⟨binary64_new_nonNeg 5 5, ?_, ?_, ?_, ?_, ?_, ?_, binary64_new_nonNeg 31 31, ?_, ?_, ?_⟩ <;>
    decide!

/-- C14, amended: with the arithmetic of `double`, on a grid with non-negative
elevation and wind resistance and for cells whose coordinates differ by less
than `2 ^ 31`, so that the differences are values of `int`, the heuristic is
consistent and admissible up to the rounding errors: `getHeuristicCost a goal`
is at most `(getMovementCost b * distance a b + getHeuristicCost b goal) *
(1 + 2 ^ -50)` for every cell `b`, in particular for every passable
8-neighbour `b` of `a` with movement cost below 1000, and for every sequence
`L` of `n` cells from `a` to `goal`, `getHeuristicCost a goal *
(1 - (n + 5) / 2 ^ 53)` is at most the travel cost of `L`, whether the costs of
the steps are added from the last to the first (`travelCost`) or from the first
to the last, as the search accumulates them (`costAlong`). -/
theorem heuristic_consistent_and_admissible_within (t : Terrain Binary64) (hn : t.NonNeg)
    (goal a b : Point) (L : List Point)
    (hag : |goal.x - a.x| < 2 ^ 31 ∧ |goal.y - a.y| < 2 ^ 31)
    (hab : |b.x - a.x| < 2 ^ 31 ∧ |b.y - a.y| < 2 ^ 31)
    (hbg : |goal.x - b.x| < 2 ^ 31 ∧ |goal.y - b.y| < 2 ^ 31)
    (hh : L.head? = some a) (hl : L.getLast? = some goal)
    (hL : ∀ p ∈ L, ∀ q ∈ L, |q.x - p.x| < 2 ^ 31 ∧ |q.y - p.y| < 2 ^ 31) :
    (t.getHeuristicCost a goal).val ≤
      (t.getMovementCost b * calculateDistance a b + t.getHeuristicCost b goal).val *
        (1 + 1 / 2 ^ 50) ∧
    (t.getHeuristicCost a goal).val * (1 - ((L.length : ℚ) + 5) / 2 ^ 53) ≤
      (travelCost t L).val ∧
    (t.getHeuristicCost a goal).val * (1 - ((L.length : ℚ) + 5) / 2 ^ 53) ≤
      (costAlong t (fun movementCost distance => movementCost * distance) L).val :=
  ⟨binary64_consistent_within hn goal a b hag hab hbg,
    binary64_admissible_within hn goal a L hh hl hL⟩

section Witnesses2

/-- Witness for C13: the cells `(0, 0)` and `(3, 4)`. -/
theorem heuristic_is_euclidean_witness :
    |(0 : Int) - 3| < 2 ^ 31 ∧ |(0 : Int) - 4| < 2 ^ 31 ∧
    (Terrain.new 5 5 : Terrain ℝ).getHeuristicCost ⟨0, 0⟩ ⟨3, 4⟩ =
      (Terrain.new 5 5 : Terrain ℝ).getHeuristicCost ⟨3, 4⟩ ⟨0, 0⟩ ∧
    ((Terrain.new 5 5 : Terrain ℝ).getHeuristicCost ⟨0, 0⟩ ⟨3, 4⟩ = 0 ↔
      (⟨0, 0⟩ : Point) = ⟨3, 4⟩) :=
  have hx : |(0 : Int) - 3| < 2 ^ 31 := by decide
  have hy : |(0 : Int) - 4| < 2 ^ 31 := by decide
  have h := heuristic_is_euclidean (Terrain.new 5 5 : Terrain ℝ) ⟨0, 0⟩ ⟨3, 4⟩ hx hy
  ⟨hx, hy, h.2.2.1, h.2.2.2.2.1⟩

set_option maxRecDepth 100000 in
/-- Witness for C14: the cells of the counterexample, `(0, 0)`, its neighbour
`(1, 1)` and the goal `(4, 4)` on the grid built for width 5 and height 5, with
the diagonal route between them. -/
theorem heuristic_consistent_and_admissible_within_witness :
    (Terrain.new 5 5 : Terrain Binary64).NonNeg ∧
    (diagonalCells 4).head? = some ⟨0, 0⟩ ∧ (diagonalCells 4).getLast? = some ⟨4, 4⟩ ∧
    ((Terrain.new 5 5 : Terrain Binary64).getHeuristicCost ⟨0, 0⟩ ⟨4, 4⟩).val ≤
      ((Terrain.new 5 5 : Terrain Binary64).getMovementCost ⟨1, 1⟩ *
          calculateDistance ⟨0, 0⟩ ⟨1, 1⟩ +
        (Terrain.new 5 5 : Terrain Binary64).getHeuristicCost ⟨1, 1⟩ ⟨4, 4⟩).val *
        (1 + 1 / 2 ^ 50) ∧
    ((Terrain.new 5 5 : Terrain Binary64).getHeuristicCost ⟨0, 0⟩ ⟨4, 4⟩).val *
        (1 - (((diagonalCells 4).length : ℚ) + 5) / 2 ^ 53) ≤
      (travelCost (Terrain.new 5 5 : Terrain Binary64) (diagonalCells 4)).val ∧
    ((Terrain.new 5 5 : Terrain Binary64).getHeuristicCost ⟨0, 0⟩ ⟨4, 4⟩).val *
        (1 - (((diagonalCells 4).length : ℚ) + 5) / 2 ^ 53) ≤
      (costAlong (Terrain.new 5 5 : Terrain Binary64)
        (fun movementCost distance => movementCost * distance) (diagonalCells 4)).val :=
  ⟨binary64_new_nonNeg 5 5, rfl, rfl,
    heuristic_consistent_and_admissible_within (Terrain.new 5 5) (binary64_new_nonNeg 5 5)
      ⟨4, 4⟩ ⟨0, 0⟩ ⟨1, 1⟩ (diagonalCells 4) (by decide) (by decide) (by decide) rfl rfl
      (by decide!)⟩

/-- Witness for C16: `addHill` at `(1, 0)` on the freshly constructed 2 x 2 grid. -/
theorem add_cell_effects_witness :
    (Terrain.new 2 2 : Terrain ℝ).WellFormed ∧
    (Terrain.new 2 2 : Terrain ℝ).isValidPosition ⟨1, 0⟩ = true ∧
    ((Terrain.new 2 2 : Terrain ℝ).addHill ⟨1, 0⟩).typeAt ⟨1, 0⟩ = TerrainType.HILL ∧
    ((Terrain.new 2 2 : Terrain ℝ).addHill ⟨1, 0⟩).elevationAt ⟨1, 0⟩ = 3.0 ∧
    ((Terrain.new 2 2 : Terrain ℝ).addHill ⟨1, 0⟩).typeAt ⟨0, 0⟩
      = (Terrain.new 2 2 : Terrain ℝ).typeAt ⟨0, 0⟩ :=
  have hwf : (Terrain.new 2 2 : Terrain ℝ).WellFormed :=
    new_wellFormed 2 2 (by norm_num) (by norm_num)
  have h := add_cell_effects (Terrain.new 2 2 : Terrain ℝ) hwf ⟨1, 0⟩
  ⟨hwf, rfl, (h.1 rfl).2.1.1, (h.1 rfl).2.1.2, ((h.2.1 ⟨0, 0⟩ (by decide)).2.1).1⟩

/-- Witness for C17: the path that A* returns on the tie grid avoids the two
cells of cost 1001. -/
theorem search_never_enters_costly_cell_witness :
    (listQueue : PriorityQueue ℝ (List (PathNode ℝ))).Lawful ∧
    findPathAStar listQueue (tieTerrain ℝ) 3 ⟨0, 0⟩ ⟨2, 0⟩
      = some [⟨0, 0⟩, ⟨1, 0⟩, ⟨2, 0⟩] ∧
    ∀ p ∈ ([⟨0, 0⟩, ⟨1, 0⟩, ⟨2, 0⟩] : List Point).tail,
      (tieTerrain ℝ).getMovementCost p < 1000.0 :=
  ⟨listQueue_lawful, tie_astar listQueue_lawful,
    search_never_enters_costly_cell listQueue listQueue_lawful (tieTerrain ℝ) ⟨0, 0⟩ ⟨2, 0⟩ 1 3
      [⟨0, 0⟩, ⟨1, 0⟩, ⟨2, 0⟩] (Or.inl (tie_astar listQueue_lawful))⟩

set_option maxRecDepth 100000 in
/-- Witness for C18: in the corridor whose last cell is an obstacle the greedy
walk, run with the arithmetic of `double`, oscillates and stops with
`width * height + 1 = 4` cells. -/
theorem greedy_terminates_within_bound_witness :
    (0 : Int) ≤ trapCorridor.width ∧ (0 : Int) ≤ trapCorridor.height ∧
    trapCorridor.width * trapCorridor.height < 2 ^ 31 ∧
    findPathGreedy trapCorridor 4 ⟨0, 0⟩ ⟨2, 0⟩ = some [⟨0, 0⟩, ⟨1, 0⟩, ⟨0, 0⟩, ⟨1, 0⟩] ∧
    (toSizeT (intValue (trapCorridor.width * trapCorridor.height)) =
        trapCorridor.width * trapCorridor.height ∧
    (∃ path, findPathGreedy trapCorridor
        ((trapCorridor.width * trapCorridor.height).toNat + 1) ⟨0, 0⟩ ⟨2, 0⟩ = some path) ∧
    ∀ fuel path, findPathGreedy trapCorridor fuel ⟨0, 0⟩ ⟨2, 0⟩ = some path →
      (path.length : Int) ≤ trapCorridor.width * trapCorridor.height + 1) :=
  have hw : (0 : Int) ≤ trapCorridor.width := by decide
  have hh : (0 : Int) ≤ trapCorridor.height := by decide
  have hb : trapCorridor.width * trapCorridor.height < 2 ^ 31 := by decide
  ⟨hw, hh, hb, by decide!, greedy_terminates_within_bound trapCorridor hw hh hb ⟨0, 0⟩ ⟨2, 0⟩⟩

/-- Witness for C20: a path of two cells on the tie grid. -/
theorem optimizePath_short_witness :
    ([⟨0, 0⟩, ⟨1, 1⟩] : List Point).length ≤ 2 ∧
    optimizePath (tieTerrain ℝ) [⟨0, 0⟩, ⟨1, 1⟩] = [⟨0, 0⟩, ⟨1, 1⟩] :=
  ⟨by decide, optimizePath_short (tieTerrain ℝ) [⟨0, 0⟩, ⟨1, 1⟩] (by decide)⟩

end Witnesses2


/-! ### Dijkstra's search with an arithmetic that is only monotone -/

section DijkstraOrder

variable {K : Type} [LinearOrder K] [Zero K] [Add K] [Mul K] [OfScientific K] [IntCast K]
  [HasSqrt K] {Q : Type}

theorem OpenKeys.init_keys (hadd : MonotoneAdd K) {pq : PriorityQueue K Q} (hpq : pq.Lawful)
    (start : Point) : OpenKeys pq (initialState pq (fun _ => 0) start) := by
  have hmem : ∀ m ∈ pq.contents (initialState pq (fun _ => (0 : K)) start).openSet,
      m = PathNode.new start 0 0 none := by
    intro m hm
    simp only [initialState, hpq.contents_push, hpq.contents_empty] at hm
    rw [Multiset.mem_cons] at hm
    rcases hm with rfl | hm
    · rfl
    · simp at hm
  refine ⟨fun m hm => ?_, fun m hm => ?_, fun m hm => ?_⟩
  · rw [hmem m hm]
    exact ⟨0, by simp [initialState, mapFind_mapSet], by simp⟩
  · rw [hmem m hm]
    simp only [fCost_new, gCost_new]
    exact hadd.zero_add_zero
  · rw [hmem m hm]
    simp only [gCost_new]
    exact hadd.zero_add_zero

theorem OpenKeys.pop_keys {pq : PriorityQueue K Q} (hpq : pq.Lawful) {st : SearchState K Q}
    (hk : OpenKeys pq st) {u : PathNode K} {rest : Q}
    (hpop : pq.pop st.openSet = some (u, rest)) :
    OpenKeys pq { st with openSet := rest } ∧ u ∈ pq.contents st.openSet := by
  obtain ⟨hcont, _⟩ := hpq.pop_some _ _ _ hpop
  have hsub : ∀ m ∈ pq.contents rest, m ∈ pq.contents st.openSet := by
    intro m hm
    rw [hcont]
    exact Multiset.mem_cons_of_mem hm
  refine ⟨⟨fun m hm => hk.score_le m (hsub m hm), fun m hm => hk.key_eq m (hsub m hm),
    fun m hm => hk.add_zero m (hsub m hm)⟩, ?_⟩
  rw [hcont]
  exact Multiset.mem_cons_self _ _

theorem OpenKeys.relax_keys (hadd : MonotoneAdd K) {pq : PriorityQueue K Q} (hpq : pq.Lawful)
    (t : Terrain K) (scale : K → K → K) {st : SearchState K Q} (hk : OpenKeys pq st)
    (u : PathNode K) (w : Point) :
    OpenKeys pq (relaxNeighbor pq t (fun _ => 0) scale u st w) := by
  rcases relaxNeighbor_spec pq t (fun _ => 0) scale u st w with
    ⟨_, he⟩ | ⟨_, _, he⟩ | ⟨_, hupd, he⟩
  · rw [he]; exact hk
  · rw [he]; exact hk
  · have hmem : ∀ m ∈ pq.contents (relaxNeighbor pq t (fun _ => 0) scale u st w).openSet,
        m = PathNode.new w
          (u.gCost + scale (t.getMovementCost w) (calculateDistance u.position w)) 0 (some u) ∨
        m ∈ pq.contents st.openSet := by
      intro m hm
      rw [he] at hm
      simp only [hpq.contents_push] at hm
      exact Multiset.mem_cons.1 hm
    refine ⟨fun m hm => ?_, fun m hm => ?_, fun m hm => ?_⟩
    · rcases hmem m hm with rfl | hold
      · rw [he]
        exact ⟨_, by simp [mapFind_mapSet], le_rfl⟩
      · obtain ⟨d, hd, hle⟩ := hk.score_le m hold
        obtain ⟨d', hd', hle'⟩ := relaxNeighbor_score_le pq t (fun _ => 0) scale u st w
          m.position d hd
        exact ⟨d', hd', le_trans hle' hle⟩
    · rcases hmem m hm with rfl | hold
      · simp only [fCost_new, gCost_new]
        exact hadd.add_zero_sum _ _
      · exact hk.key_eq m hold
    · rcases hmem m hm with rfl | hold
      · simp only [gCost_new]
        exact hadd.add_zero_sum _ _
      · exact hk.add_zero m hold

theorem OpenKeys.foldl_keys (hadd : MonotoneAdd K) {pq : PriorityQueue K Q} (hpq : pq.Lawful)
    (t : Terrain K) (scale : K → K → K) (u : PathNode K) :
    ∀ (rem : List Point) (st : SearchState K Q), OpenKeys pq st →
      OpenKeys pq (rem.foldl (relaxNeighbor pq t (fun _ => 0) scale u) st) := by
  intro rem
  induction rem with
  | nil => intro st hk; exact hk
  | cons w rem ih =>
    intro st hk
    rw [List.foldl_cons]
    exact ih _ (hk.relax_keys hadd hpq t scale u w)

theorem loopStep_keys_settled (hadd : MonotoneAdd K) {pq : PriorityQueue K Q} (hpq : pq.Lawful)
    {t : Terrain K} {scale : K → K → K} {goal : Point} {st st' : SearchState K Q}
    (hk : OpenKeys pq st) (hs : Settled pq t scale goal st)
    (h : loopStep pq t (fun _ => 0) scale goal st = some st') :
    OpenKeys pq st' ∧ Settled pq t scale goal st' := by
  obtain ⟨u, rest, hpop, hug, rfl⟩ := loopStep_eq_some h
  exact ⟨OpenKeys.foldl_keys hadd hpq t scale u _ _ (hk.pop_keys hpq hpop).1,
    SettledMid.foldl_settled hpq (fun _ => 0) _ _ (hs.pop_settled hpq hpop hug)⟩

theorem stateAfter_keys_settled (hadd : MonotoneAdd K) {pq : PriorityQueue K Q}
    (hpq : pq.Lawful) {t : Terrain K} {scale : K → K → K} {goal : Point} :
    ∀ (n : Nat) (st st' : SearchState K Q), OpenKeys pq st → Settled pq t scale goal st →
      stateAfter pq t (fun _ => 0) scale goal n st = some st' →
      OpenKeys pq st' ∧ Settled pq t scale goal st' := by
  intro n
  induction n with
  | zero =>
    intro st st' hk hs h
    simp only [stateAfter, Option.some.injEq] at h
    subst h
    exact ⟨hk, hs⟩
  | succ n ih =>
    intro st st' hk hs h
    simp only [stateAfter] at h
    cases hstep : loopStep pq t (fun _ => 0) scale goal st with
    | none => simp [hstep] at h
    | some st₁ =>
      simp only [hstep] at h
      obtain ⟨hk₁, hs₁⟩ := loopStep_keys_settled hadd hpq hk hs hstep
      exact ih st₁ st' hk₁ hs₁ h

/-- The processing of a neighbour of a node whose cost is at least `d` leaves a
cell that is closed with `d` closed with `d`, and creates no node for it. -/
theorem ClosedWith.relax_closed (hadd : MonotoneAdd K) {pq : PriorityQueue K Q}
    (hpq : pq.Lawful) {t : Terrain K} {scale : K → K → K} (hsteps : NonnegSteps t scale)
    {st : SearchState K Q} {v : Point} {d : K} (hc : ClosedWith pq st v d)
    {u : PathNode K} (hdu : d ≤ u.gCost) (hu0 : u.gCost + 0 = u.gCost)
    {w : Point} (hw : w ∈ t.getNeighbors u.position) :
    ClosedWith pq (relaxNeighbor pq t (fun _ => 0) scale u st w) v d ∧
      (relaxNeighbor pq t (fun _ => 0) scale u st w).createdNodes.filter
          (fun m => decide (m.position = v)) =
        st.createdNodes.filter (fun m => decide (m.position = v)) := by
  rcases relaxNeighbor_spec pq t (fun _ => 0) scale u st w with
    ⟨_, he⟩ | ⟨_, _, he⟩ | ⟨hcost, hlt, he⟩
  · rw [he]; exact ⟨hc, rfl⟩
  · rw [he]; exact ⟨hc, rfl⟩
  · have hge : d ≤ u.gCost + scale (t.getMovementCost w) (calculateDistance u.position w) := by
      have h1 := hadd.add_le_add_left u.gCost 0 _ (hsteps u.position w ⟨hw, hcost⟩)
      rw [hu0] at h1
      exact le_trans hdu h1
    have hwv : w ≠ v := by
      intro hwv
      subst hwv
      exact absurd (hlt d hc.1) (not_lt.2 hge)
    rw [he]
    refine ⟨⟨?_, fun m hm => ?_⟩, ?_⟩
    · simp only
      rw [mapFind_mapSet, if_neg hwv]
      exact hc.1
    · simp only [hpq.contents_push] at hm
      rcases Multiset.mem_cons.1 hm with rfl | hold
      · simp only [gCost_new]
        exact hge
      · exact hc.2 m hold
    · simp only
      rw [List.filter_append]
      simp [hwv]

theorem ClosedWith.foldl_closed (hadd : MonotoneAdd K) {pq : PriorityQueue K Q}
    (hpq : pq.Lawful) {t : Terrain K} {scale : K → K → K} (hsteps : NonnegSteps t scale)
    {v : Point} {d : K} {u : PathNode K} (hdu : d ≤ u.gCost) (hu0 : u.gCost + 0 = u.gCost) :
    ∀ (rem : List Point) (st : SearchState K Q), ClosedWith pq st v d →
      (∀ w ∈ rem, w ∈ t.getNeighbors u.position) →
      ClosedWith pq (rem.foldl (relaxNeighbor pq t (fun _ => 0) scale u) st) v d ∧
        (rem.foldl (relaxNeighbor pq t (fun _ => 0) scale u) st).createdNodes.filter
            (fun m => decide (m.position = v)) =
          st.createdNodes.filter (fun m => decide (m.position = v)) := by
  intro rem
  induction rem with
  | nil => intro st hc _; exact ⟨hc, rfl⟩
  | cons w rem ih =>
    intro st hc hrem
    obtain ⟨h1, h2⟩ := hc.relax_closed hadd hpq hsteps hdu hu0 (hrem w (List.mem_cons_self _ _))
    obtain ⟨h3, h4⟩ := ih _ h1 (fun x hx => hrem x (List.mem_cons_of_mem _ hx))
    rw [List.foldl_cons]
    exact ⟨h3, h4.trans h2⟩

theorem ClosedWith.loopStep_closed (hadd : MonotoneAdd K) {pq : PriorityQueue K Q}
    (hpq : pq.Lawful) {t : Terrain K} {scale : K → K → K} (hsteps : NonnegSteps t scale)
    {goal : Point} {st st' : SearchState K Q} (hk : OpenKeys pq st) {v : Point} {d : K}
    (hc : ClosedWith pq st v d)
    (h : loopStep pq t (fun _ => 0) scale goal st = some st') :
    ClosedWith pq st' v d ∧
      st'.createdNodes.filter (fun m => decide (m.position = v)) =
        st.createdNodes.filter (fun m => decide (m.position = v)) := by
  obtain ⟨u, rest, hpop, _, rfl⟩ := loopStep_eq_some h
  obtain ⟨hcont, _⟩ := hpq.pop_some _ _ _ hpop
  obtain ⟨_, hu⟩ := hk.pop_keys hpq hpop
  have hc' : ClosedWith pq { st with openSet := rest } v d :=
    ⟨hc.1, fun m hm => hc.2 m (by rw [hcont]; exact Multiset.mem_cons_of_mem hm)⟩
  exact ClosedWith.foldl_closed hadd hpq hsteps (hc.2 u hu) (hk.add_zero u hu) _ _ hc'
    (fun _ hw => hw)

/-- A cell that is closed with `d` stays closed with `d` for the rest of the
search, and no further node is created for it. -/
theorem ClosedWith.stateAfter_closed (hadd : MonotoneAdd K) {pq : PriorityQueue K Q}
    (hpq : pq.Lawful) {t : Terrain K} {scale : K → K → K} (hsteps : NonnegSteps t scale)
    {goal : Point} {v : Point} {d : K} :
    ∀ (n : Nat) (st st' : SearchState K Q), OpenKeys pq st → Settled pq t scale goal st →
      ClosedWith pq st v d → stateAfter pq t (fun _ => 0) scale goal n st = some st' →
      ClosedWith pq st' v d ∧
        st'.createdNodes.filter (fun m => decide (m.position = v)) =
          st.createdNodes.filter (fun m => decide (m.position = v)) := by
  intro n
  induction n with
  | zero =>
    intro st st' _ _ hc h
    simp only [stateAfter, Option.some.injEq] at h
    subst h
    exact ⟨hc, rfl⟩
  | succ n ih =>
    intro st st' hk hs hc h
    simp only [stateAfter] at h
    cases hstep : loopStep pq t (fun _ => 0) scale goal st with
    | none => simp [hstep] at h
    | some st₁ =>
      simp only [hstep] at h
      obtain ⟨hk₁, hs₁⟩ := loopStep_keys_settled hadd hpq hk hs hstep
      obtain ⟨h1, h2⟩ := hc.loopStep_closed hadd hpq hsteps hk hstep
      obtain ⟨h3, h4⟩ := ih st₁ st' hk₁ hs₁ h1 h
      exact ⟨h3, h4.trans h2⟩

/-- When a node is popped, its cell is closed with the cost recorded for it,
which is at most the cost of the node. -/
theorem pop_closed {pq : PriorityQueue K Q} (hpq : pq.Lawful) {st : SearchState K Q}
    (hk : OpenKeys pq st) {u : PathNode K} {rest : Q}
    (hpop : pq.pop st.openSet = some (u, rest)) :
    ∃ d, d ≤ u.gCost ∧ ClosedWith pq st u.position d := by
  obtain ⟨_, hmin⟩ := hpq.pop_some _ _ _ hpop
  obtain ⟨_, hu⟩ := hk.pop_keys hpq hpop
  obtain ⟨d, hd, hle⟩ := hk.score_le u hu
  refine ⟨d, hle, hd, fun m hm => ?_⟩
  have hcmp := (comparator_eq_false_iff u m).1 (hmin m hm)
  have hfle : u.fCost ≤ m.fCost := by
    rcases hcmp with h | ⟨h, _⟩
    · exact le_of_lt h
    · exact le_of_eq h
  rw [hk.key_eq u hu, hk.key_eq m hm] at hfle
  exact le_trans hle hfle

/-- After the iteration that pops a node, every move from its cell has been
relaxed with the cost recorded for the cell. -/
theorem pop_relaxed_keys {pq : PriorityQueue K Q} (hpq : pq.Lawful) {t : Terrain K}
    {scale : K → K → K} {goal : Point} {st : SearchState K Q}
    (hk : OpenKeys pq st) (hs : Settled pq t scale goal st)
    {u : PathNode K} {rest : Q} (hpop : pq.pop st.openSet = some (u, rest))
    {d : K} (hd : mapFind st.gScore u.position = some d) (hle : d ≤ u.gCost) :
    ∀ w, CanEnter t u.position w →
      ∃ d', mapFind ((t.getNeighbors u.position).foldl
          (relaxNeighbor pq t (fun _ => 0) scale u)
          { st with openSet := rest }).gScore w = some d' ∧
        d' ≤ d + scale (t.getMovementCost w) (calculateDistance u.position w) := by
  intro w hw
  obtain ⟨_, hmin⟩ := hpq.pop_some _ _ _ hpop
  obtain ⟨_, hu⟩ := hk.pop_keys hpq hpop
  rcases hs u.position d hd with ⟨n, hn, hp, hg⟩ | ⟨_, hB⟩
  · have hcmp := (comparator_eq_false_iff u n).1 (hmin n hn)
    have hfle : u.fCost ≤ n.fCost := by
      rcases hcmp with h | ⟨h, _⟩
      · exact le_of_lt h
      · exact le_of_eq h
    rw [hk.key_eq u hu, hk.key_eq n hn, hg] at hfle
    have hud : u.gCost = d := le_antisymm hfle hle
    obtain ⟨d', h1, hle1⟩ := foldl_relax_target pq t (fun _ => 0) scale u
      (t.getNeighbors u.position) { st with openSet := rest } w hw.1 hw.2
    rw [hud] at hle1
    exact ⟨d', h1, hle1⟩
  · obtain ⟨d₁, h1, hle1⟩ := hB w hw
    obtain ⟨d₂, h2, hle2⟩ := foldl_score_le pq t (fun _ => 0) scale u
      (t.getNeighbors u.position) { st with openSet := rest } w d₁ h1
    exact ⟨d₂, h2, le_trans hle2 hle1⟩

/-- Processing the neighbours of a node whose cell has all its moves relaxed
with a cost that is at most the cost of the node changes nothing. -/
theorem foldl_relax_stale_keys (hadd : MonotoneAdd K) (pq : PriorityQueue K Q) (t : Terrain K)
    (hfun : Point → K) (scale : K → K → K) (m : PathNode K) (st : SearchState K Q) (d : K)
    (hle : d ≤ m.gCost)
    (hrel : ∀ w, CanEnter t m.position w → ∃ d', mapFind st.gScore w = some d' ∧
      d' ≤ d + scale (t.getMovementCost w) (calculateDistance m.position w)) :
    ∀ rem : List Point, (∀ w ∈ rem, w ∈ t.getNeighbors m.position) →
      rem.foldl (relaxNeighbor pq t hfun scale m) st = st := by
  intro rem
  induction rem with
  | nil => intro _; rfl
  | cons w rem ih =>
    intro hrem
    have hw := hrem w (List.mem_cons_self _ _)
    have hstep : relaxNeighbor pq t hfun scale m st w = st := by
      rcases relaxNeighbor_spec pq t hfun scale m st w with ⟨_, h⟩ | ⟨_, _, h⟩ | ⟨hcost, hlt, _⟩
      · exact h
      · exact h
      · obtain ⟨d', hd', hle'⟩ := hrel w ⟨hw, hcost⟩
        have h1 := hlt d' hd'
        have h2 := hadd.add_le_add_right d m.gCost
          (scale (t.getMovementCost w) (calculateDistance m.position w)) hle
        exact absurd (lt_of_lt_of_le h1 (le_trans hle' h2)) (lt_irrefl _)
    rw [List.foldl_cons, hstep]
    exact ih (fun x hx => hrem x (List.mem_cons_of_mem _ hx))

/-- In Dijkstra's search every cell is finalized when a node for it is popped:
this needs of the arithmetic only that adding is monotone. -/
theorem closed_at_pop (hadd : MonotoneAdd K) {pq : PriorityQueue K Q} (hpq : pq.Lawful)
    {t : Terrain K} {scale : K → K → K} (hsteps : NonnegSteps t scale) {start goal : Point}
    (i : Nat) (st : SearchState K Q) (n : PathNode K) (rest : Q)
    (hst : stateAfter pq t (fun _ => 0) scale goal i (initialState pq (fun _ => 0) start)
      = some st)
    (hpop : pq.pop st.openSet = some (n, rest)) :
    ∃ d, mapFind st.gScore n.position = some d ∧ d ≤ n.gCost ∧
      ∀ (k : Nat) (st' : SearchState K Q),
        stateAfter pq t (fun _ => 0) scale goal k st = some st' →
        mapFind st'.gScore n.position = some d ∧
        (∀ m ∈ pq.contents st'.openSet, d ≤ m.gCost) ∧
        st'.createdNodes.filter (fun m => decide (m.position = n.position)) =
          st.createdNodes.filter (fun m => decide (m.position = n.position)) ∧
        (1 ≤ k →
          (∀ w, CanEnter t n.position w → ∃ d', mapFind st'.gScore w = some d' ∧
            d' ≤ d + scale (t.getMovementCost w) (calculateDistance n.position w)) ∧
          ∀ (m : PathNode K) (rest' : Q), pq.pop st'.openSet = some (m, rest') →
            m.position = n.position →
            loopStep pq t (fun _ => 0) scale goal st' = some { st' with openSet := rest' }) := by
  obtain ⟨hk, hs⟩ := stateAfter_keys_settled hadd hpq i _ st (OpenKeys.init_keys hadd hpq start)
    (Settled.init_settled hpq t (fun _ => 0) scale start goal) hst
  obtain ⟨d, hle, hc⟩ := pop_closed hpq hk hpop
  refine ⟨d, hc.1, hle, fun k st' hk' => ?_⟩
  obtain ⟨h1, h2⟩ := hc.stateAfter_closed hadd hpq hsteps k st st' hk hs hk'
  refine ⟨h1.1, h1.2, h2, fun hk1 => ?_⟩
  obtain ⟨k', rfl⟩ : ∃ k', k = k' + 1 := ⟨k - 1, by omega⟩
  simp only [stateAfter] at hk'
  cases hstep : loopStep pq t (fun _ => 0) scale goal st with
  | none => simp [hstep] at hk'
  | some st₁ =>
    simp only [hstep] at hk'
    obtain ⟨u, rest₁, hpop₁, hug, hst₁⟩ := loopStep_eq_some hstep
    rw [hpop] at hpop₁
    simp only [Option.some.injEq, Prod.mk.injEq] at hpop₁
    obtain ⟨rfl, rfl⟩ := hpop₁
    have hrel₁ := pop_relaxed_keys hpq hk hs hpop hc.1 hle
    rw [← hst₁] at hrel₁
    have hrel : ∀ w, CanEnter t n.position w → ∃ d', mapFind st'.gScore w = some d' ∧
        d' ≤ d + scale (t.getMovementCost w) (calculateDistance n.position w) := by
      intro w hw
      obtain ⟨d₁, e1, hle1⟩ := hrel₁ w hw
      obtain ⟨d₂, e2, hle2⟩ := stateAfter_score_le k' st₁ st' hk' w d₁ e1
      exact ⟨d₂, e2, le_trans hle2 hle1⟩
    refine ⟨hrel, fun m rest' hpop' hm => ?_⟩
    obtain ⟨hcont, _⟩ := hpq.pop_some _ _ _ hpop'
    have hmo : m ∈ pq.contents st'.openSet := by
      rw [hcont]; exact Multiset.mem_cons_self _ _
    rw [loopStep_of_pop hpop' (by rw [hm]; exact hug)]
    congr 1
    exact foldl_relax_stale_keys hadd pq t (fun _ => 0) scale m { st' with openSet := rest' } d
      (h1.2 m hmo) (by rw [hm]; exact hrel) _ (fun _ hw => hw)

end DijkstraOrder

/-! ### The arithmetic of `double` is monotone -/

section DoubleOrder

theorem binary64_monotoneAdd : MonotoneAdd Binary64 where
  add_le_add_right := fun a b c h =>
    round64_mono (add_le_add_right ((binary64_le_iff a b).1 h) c.val)
  add_le_add_left := fun a b c h =>
    round64_mono (add_le_add_left ((binary64_le_iff b c).1 h) a.val)
  add_zero_sum := fun a b => by
    apply binary64_ext
    rw [binary64_add_val, binary64_add_val, binary64_zero_val, add_zero, round64_idem]
  zero_add_zero := by
    apply binary64_ext
    rw [binary64_add_val, binary64_zero_val, add_zero, round64_zero]

theorem binary64_nonnegSteps {t : Terrain Binary64} (hn : t.NonNeg) :
    NonnegSteps t (fun movementCost distance => movementCost * distance) := by
  intro a b _
  rw [binary64_le_iff, binary64_zero_val, binary64_mul_val]
  have hc := binary64_one_le_getMovementCost hn b
  exact round64_nonneg (mul_nonneg (by linarith) (binary64_calculateDistance_nonneg a b))

end DoubleOrder

/-! ## The claims about the path post-processor, the map loader and termination -/

section Claims3

variable {K : Type} [SqrtField K] {Q : Type}

/-- Counterexample to C22: in the corridor whose middle cell has elevation
`-10.0` (movement cost `-4`) the pass drops the middle cell of the path
`(0, 0), (1, 0), (2, 0)`, which raises the path cost from `-2` to `2`. -/
theorem optimizePath_can_increase_cost :
    optimizePath (pitTerrain ℝ) [⟨0, 0⟩, ⟨1, 0⟩, ⟨2, 0⟩] = [⟨0, 0⟩, ⟨2, 0⟩] ∧
    calculatePathCost (pitTerrain ℝ) [⟨0, 0⟩, ⟨1, 0⟩, ⟨2, 0⟩] = -2 ∧
    calculatePathCost (pitTerrain ℝ)
      (optimizePath (pitTerrain ℝ) [⟨0, 0⟩, ⟨1, 0⟩, ⟨2, 0⟩]) = 2 ∧
    ¬ (calculatePathCost (pitTerrain ℝ)
        (optimizePath (pitTerrain ℝ) [⟨0, 0⟩, ⟨1, 0⟩, ⟨2, 0⟩])
      ≤ calculatePathCost (pitTerrain ℝ) [⟨0, 0⟩, ⟨1, 0⟩, ⟨2, 0⟩]) := by
  have h1 : calculatePathCost (pitTerrain ℝ) [⟨0, 0⟩, ⟨1, 0⟩, ⟨2, 0⟩] = -2 := by
    rw [calculatePathCost_eq_sum]
    simp only [List.map_cons, List.map_nil, List.sum_cons, List.sum_nil, pit_cost00, pit_cost10,
      pit_cost20]
    norm_num
  have h2 : calculatePathCost (pitTerrain ℝ) [⟨0, 0⟩, ⟨2, 0⟩] = 2 := by
    rw [calculatePathCost_eq_sum]
    simp only [List.map_cons, List.map_nil, List.sum_cons, List.sum_nil, pit_cost00, pit_cost20]
    norm_num
  refine ⟨pit_optimizePath, h1, ?_, ?_⟩
  · rw [pit_optimizePath, h2]
  · rw [pit_optimizePath, h1, h2]
    norm_num

/-- C22, amended: when every cell of the path has a non-negative movement cost,
as is the case on every grid with non-negative elevation and wind resistance,
`optimizePath` does not increase the path cost. -/
theorem optimizePath_cost_le (t : Terrain K) (path : List Point)
    (h : t.NonNeg ∨ ∀ c ∈ path, 0 ≤ t.getMovementCost c) :
    calculatePathCost t (optimizePath t path) ≤ calculatePathCost t path := by
  apply calculatePathCost_sublist t (optimizePath_sublist t path)
  rcases h with hn | hc
  · exact fun c _ => getMovementCost_nonneg hn c
  · exact hc

/-- Counterexample to C23: on the 4 x 2 grid whose only obstacle is `(2, 0)` the
cells of the path `(0, 0), (1, 1), (2, 1), (3, 0)` are passable and consecutive
cells are 8-adjacent; the pass drops both interior waypoints, and the line
between the two remaining cells `(0, 0)` and `(3, 0)` runs through the
obstacle `(2, 0)` at step 2 of 3. -/
theorem optimizePath_crosses_obstacle :
    (∀ c ∈ ([⟨0, 0⟩, ⟨1, 1⟩, ⟨2, 1⟩, ⟨3, 0⟩] : List Point),
      (detourTerrain ℝ).isPassable c = true) ∧
    List.Chain' Adjacent8 ([⟨0, 0⟩, ⟨1, 1⟩, ⟨2, 1⟩, ⟨3, 0⟩] : List Point) ∧
    optimizePath (detourTerrain ℝ) [⟨0, 0⟩, ⟨1, 1⟩, ⟨2, 1⟩, ⟨3, 0⟩] = [⟨0, 0⟩, ⟨3, 0⟩] ∧
    lineSteps ⟨0, 0⟩ ⟨3, 0⟩ = 3 ∧ lineCell ⟨0, 0⟩ ⟨3, 0⟩ 2 = ⟨2, 0⟩ ∧
    (detourTerrain ℝ).isObstacle ⟨2, 0⟩ = true ∧
    ObstacleBetween (detourTerrain ℝ) ⟨0, 0⟩ ⟨3, 0⟩ ∧
    ¬ List.Chain' (fun a b => ¬ ObstacleBetween (detourTerrain ℝ) a b)
      (optimizePath (detourTerrain ℝ) [⟨0, 0⟩, ⟨1, 1⟩, ⟨2, 1⟩, ⟨3, 0⟩]) := by
  have hob : ObstacleBetween (detourTerrain ℝ) ⟨0, 0⟩ ⟨3, 0⟩ :=
    ⟨2, by decide, by decide, detour_obstacle⟩
  refine ⟨detour_passable, detour_adjacent, detour_optimizePath, by decide, by decide, rfl,
    hob, ?_⟩
  rw [detour_optimizePath]
  intro hch
  exact (List.chain'_cons.1 hch).1 hob

/-- C26: `isPathValid path` is true if and only if every cell of the path is
passable, that is in bounds and not classified Obstacle; it is true for the
empty path, and it has the same value on two paths with the same cells, in
whatever order and with whatever repetitions. -/
theorem isPathValid_iff_all_passable (t : Terrain K) :
    (∀ path, isPathValid t path = true ↔ ∀ c ∈ path, t.isPassable c = true) ∧
    (∀ c, t.isPassable c = true ↔
      t.isValidPosition c = true ∧ t.typeAt c ≠ TerrainType.OBSTACLE) ∧
    isPathValid t [] = true ∧
    (∀ p q : List Point, (∀ c, c ∈ p ↔ c ∈ q) → isPathValid t p = isPathValid t q) := by
  refine ⟨isPathValid_eq_true_iff t, ?_, rfl, ?_⟩
  · intro c
    unfold Terrain.isPassable Terrain.isObstacle
    by_cases hv : t.isValidPosition c = true <;> simp [hv]
  · intro p q hpq
    rw [Bool.eq_iff_iff, isPathValid_eq_true_iff, isPathValid_eq_true_iff]
    exact ⟨fun h c hc => h c ((hpq c).2 hc), fun h c hc => h c ((hpq c).1 hc)⟩

/-- C27: for a map text made of one or more non-empty rows of equal length `w`
(rows contain no newline and do not end in a carriage return; they are joined
by newlines or by carriage return plus newline, and the last row may or may
not be terminated as well), `loadMapFromString` returns a grid whose height is
the number of rows, whose width is `w` and in which the cell `(x, y)` is
classified by `charToTerrainType` from the character at column `x` of row `y`,
where `charToTerrainType` maps `.` to Normal, `^` to Hill, `O`, `o` to
Obstacle, `W`, `w` to WindZone, `S`, `s` to Start and `D`, `d` to End. -/
theorem loadMapFromString_classifies (rows : List (List Char)) (w : Nat)
    (eol text : List Char) (hne : rows ≠ [])
    (hrows : ∀ r ∈ rows, r ≠ [] ∧ r.length = w ∧ '\n' ∉ r ∧ r.getLast? ≠ some '\r')
    (heol : eol = ['\n'] ∨ eol = ['\r', '\n'])
    (htext : text = List.intercalate eol rows ∨ text = List.intercalate eol rows ++ eol) :
    (∃ t : Terrain K, loadMapFromString text = Except.ok t ∧
      t.height = (rows.length : Int) ∧ t.width = (w : Int) ∧
      ∀ x y : Nat, x < w → y < rows.length →
        t.getTerrain (x : Int) (y : Int) = charToTerrainType ((rows.getD y []).getD x '.')) ∧
    charToTerrainType '.' = TerrainType.NORMAL ∧ charToTerrainType '^' = TerrainType.HILL ∧
    charToTerrainType 'O' = TerrainType.OBSTACLE ∧ charToTerrainType 'o' = TerrainType.OBSTACLE ∧
    charToTerrainType 'W' = TerrainType.WIND_ZONE ∧
    charToTerrainType 'w' = TerrainType.WIND_ZONE ∧
    charToTerrainType 'S' = TerrainType.START ∧ charToTerrainType 's' = TerrainType.START ∧
    charToTerrainType 'D' = TerrainType.END ∧ charToTerrainType 'd' = TerrainType.END := by
  refine ⟨?_, by decide, by decide, by decide, by decide, by decide, by decide, by decide,
    by decide, by decide, by decide⟩
  obtain ⟨hp1, hp2⟩ := parseMapLines_joined heol rows hne
    (fun r hr => ⟨(hrows r hr).1, (hrows r hr).2.2⟩)
  have hp : parseMapLines text = rows := by
    rcases htext with rfl | rfl
    · exact hp1
    · exact hp2
  obtain ⟨t, hok, _, hw, hh, hty⟩ := loadMapFromString_of_lines (K := K) text hp hne
    (fun r hr => (hrows r hr).2.1)
  refine ⟨t, hok, hh, hw, fun x y hx hy => ?_⟩
  have hv : t.isValidPosition ⟨(x : Int), (y : Int)⟩ = true :=
    (isValidPosition_iff t _).2 ⟨by simp, by rw [hw]; simpa using hx, by simp,
      by rw [hh]; simpa using hy⟩
  unfold Terrain.getTerrain
  rw [if_pos hv, hty ⟨x, y⟩ (by simp) (by simpa using hx) (by simp) (by simpa using hy)]
  simp

/-- Counterexample to C28: the text of the three newline-separated lines `.`,
the empty line and `.` has two lines of different lengths, and
`loadMapFromString` returns a grid of width 1 and height 2 for it. -/
theorem blank_line_map_loads :
    (∃ l₁ ∈ ([['.'], [], ['.']] : List (List Char)),
      ∃ l₂ ∈ ([['.'], [], ['.']] : List (List Char)), l₁.length ≠ l₂.length) ∧
    List.intercalate ['\n'] [['.'], [], ['.']] = ['.', '\n', '\n', '.'] ∧
    ∃ t : Terrain ℝ, loadMapFromString ['.', '\n', '\n', '.'] = Except.ok t ∧
      t.width = 1 ∧ t.height = 2 := by
  refine ⟨⟨['.'], by simp, [], by simp, by simp⟩, by simp [List.intercalate], ?_⟩
  have hp : parseMapLines ['.', '\n', '\n', '.'] = [['.'], ['.']] := by
    have := parseMapLines_intercalate [['.'], [], ['.']] (by simp)
    simpa [List.intercalate, stripCarriageReturn] using this
  obtain ⟨t, hok, _, hw, hh, _⟩ := loadMapFromString_of_lines (K := ℝ) (w := 1) _ hp (by simp)
    (by simp)
  exact ⟨t, hok, hw, hh⟩

/-- C28, amended: for a text with the newline-separated lines `lines`,
`loadMapFromString` fails with the dimension-mismatch error if and only if two
of the lines that are not empty once a carriage return at their end has been
removed differ in the length they then have. -/
theorem loadMapFromString_rejects_unequal_rows (lines : List (List Char))
    (hl : ∀ l ∈ lines, '\n' ∉ l) :
    (loadMapFromString (List.intercalate ['\n'] lines) : Except MapError (Terrain K)) =
        Except.error MapError.invalidMapDimensions ↔
      ∃ l₁ ∈ lines, ∃ l₂ ∈ lines, stripCarriageReturn l₁ ≠ [] ∧ stripCarriageReturn l₂ ≠ [] ∧
        (stripCarriageReturn l₁).length ≠ (stripCarriageReturn l₂).length := by
  rw [loadMapFromString_eq_invalid_iff, parseMapLines_intercalate lines hl]
  simp only [List.mem_filter, List.mem_map, Bool.not_eq_true', List.isEmpty_eq_false,
    ne_eq]
  constructor
  · rintro ⟨_, ⟨⟨l₁, h₁, rfl⟩, hn₁⟩, _, ⟨⟨l₂, h₂, rfl⟩, hn₂⟩, hlen⟩
    exact ⟨l₁, h₁, l₂, h₂, hn₁, hn₂, hlen⟩
  · rintro ⟨l₁, h₁, l₂, h₂, hn₁, hn₂, hlen⟩
    exact ⟨_, ⟨⟨l₁, h₁, rfl⟩, hn₁⟩, _, ⟨⟨l₂, h₂, rfl⟩, hn₂⟩, hlen⟩

/-- Counterexample to C29: the input of two carriage returns consists of
newlines and carriage returns only, and `loadMapFromString` returns a grid of
width 1 and height 1 for it. -/
theorem carriage_returns_map_loads :
    (∀ c ∈ (['\r', '\r'] : List Char), c = '\n' ∨ c = '\r') ∧
    ∃ t : Terrain ℝ, loadMapFromString ['\r', '\r'] = Except.ok t ∧
      t.width = 1 ∧ t.height = 1 := by
  refine ⟨by simp, ?_⟩
  have hp : parseMapLines ['\r', '\r'] = [['\r']] := by
    have := parseMapLines_intercalate [['\r', '\r']] (by simp)
    simpa [List.intercalate, stripCarriageReturn] using this
  obtain ⟨t, hok, _, hw, hh, _⟩ := loadMapFromString_of_lines (K := ℝ) (w := 1) _ hp (by simp)
    (by simp)
  exact ⟨t, hok, hw, hh⟩

/-- C29, amended: for a text with the newline-separated lines `lines`,
`loadMapFromString` fails with the empty-map error if and only if every line
is empty or a single carriage return; it does so for the empty string; and a
grid that it returns has height at least 1. -/
theorem loadMapFromString_empty_iff (lines : List (List Char))
    (hl : ∀ l ∈ lines, '\n' ∉ l) :
    ((loadMapFromString (List.intercalate ['\n'] lines) : Except MapError (Terrain K)) =
        Except.error MapError.emptyMapData ↔ ∀ l ∈ lines, l = [] ∨ l = ['\r']) ∧
    (loadMapFromString [] : Except MapError (Terrain K)) = Except.error MapError.emptyMapData ∧
    ∀ (mapData : List Char) (t : Terrain K), loadMapFromString mapData = Except.ok t →
      1 ≤ t.height := by
  refine ⟨?_, ?_, ?_⟩
  · rw [loadMapFromString_eq_emptyMapData_iff, parseMapLines_intercalate lines hl,
      List.filter_eq_nil_iff]
    simp only [List.mem_map, Bool.not_eq_true', List.isEmpty_eq_false, Decidable.not_not,
      forall_exists_index, and_imp, forall_apply_eq_imp_iff₂, Bool.not_eq_true,
      stripCarriageReturn_eq_nil_iff]
  · exact (loadMapFromString_eq_emptyMapData_iff []).2 parseMapLines_nil
  · intro mapData t h
    obtain ⟨hh, hne⟩ := loadMapFromString_height h
    have : 0 < (parseMapLines mapData).length := List.length_pos.2 hne
    omega

/-- C30: on a grid with non-negative elevation and wind resistance
`findPathAStar` and `findPathDijkstra` return once they are given
`chainBound + 1` units of fuel, for every lawful priority queue, and what they
return is the empty path (the open set ran empty) or a path that ends at the
goal; in every state that their loop reaches, at most `chainBound`
nodes have been created and pushed and at most that many iterations have been
made, where the loop run with `n + fuel` units of fuel continues from the state
after `n` iterations with `fuel` units. -/
theorem search_terminates (pq : PriorityQueue K Q) (hpq : pq.Lawful) (t : Terrain K)
    (hn : t.NonNeg) (start goal : Point) :
    (∃ path, findPathAStar pq t (chainBound t start + 1) start goal = some path ∧
      (path = [] ∨ path.getLast? = some goal)) ∧
    (∃ path, findPathDijkstra pq t (chainBound t start + 1) start goal = some path ∧
      (path = [] ∨ path.getLast? = some goal)) ∧
    (∀ n st, stateAfter pq t (fun p => t.getHeuristicCost p goal)
        (fun movementCost distance => movementCost * distance) goal n
        (initialState pq (fun p => t.getHeuristicCost p goal) start) = some st →
      st.createdNodes.length ≤ chainBound t start ∧ n ≤ chainBound t start ∧
      ∀ fuel, findPathAStar pq t (n + fuel) start goal =
        searchLoop pq t (fun p => t.getHeuristicCost p goal)
          (fun movementCost distance => movementCost * distance) goal fuel st) ∧
    (∀ n st, stateAfter pq t (fun _ => 0)
        (fun movementCost distance => movementCost * distance) goal n
        (initialState pq (fun _ => 0) start) = some st →
      st.createdNodes.length ≤ chainBound t start ∧ n ≤ chainBound t start ∧
      ∀ fuel, findPathDijkstra pq t (n + fuel) start goal =
        searchLoop pq t (fun _ => 0)
          (fun movementCost distance => movementCost * distance) goal fuel st) := by
  have hns := nonnegSteps_of_nonNeg hn
  have found : ∀ (hfun : Point → K),
      ∃ path, searchLoop pq t hfun (fun movementCost distance => movementCost * distance) goal
          (chainBound t start + 1) (initialState pq hfun start) = some path ∧
        (path = [] ∨ path.getLast? = some goal) := by
    intro hfun
    obtain ⟨path, h⟩ := searchLoop_terminates hpq t hfun start goal hns
    refine ⟨path, h, ?_⟩
    by_cases hne : path = []
    · exact Or.inl hne
    · exact Or.inr (searchLoop_route hpq h hne).2.2
  refine ⟨found _, found _, ?_, ?_⟩
  · intro n st h
    obtain ⟨h1, h2⟩ := stateAfter_bounded hpq t _ start goal hns n st h
    exact ⟨h1, le_trans h2 h1, fun fuel => searchLoop_of_stateAfter n _ st h fuel⟩
  · intro n st h
    obtain ⟨h1, h2⟩ := stateAfter_bounded hpq t _ start goal hns n st h
    exact ⟨h1, le_trans h2 h1, fun fuel => searchLoop_of_stateAfter n _ st h fuel⟩

end Claims3

section Claims3Lines

variable {K : Type}

/-- C21: for a path of more than 2 cells in which the two neighbours of every
interior waypoint are at most 46341 interpolation steps apart (so that the
products `dx * step` and `dy * step` are values of `int`), `optimizePath`
returns the first cell of the path, then, in their original order, exactly the
interior waypoints `path[i + 1]` (for `0 <= i < length - 2`) whose two
neighbours `path[i]` and `path[i + 2]` in the original path make `canSkip`
false, then the last cell of the path; for the two neighbours of a waypoint
`canSkip` is false exactly when some cell strictly between them on the
integer-interpolated line (`1 <= step < steps`) is an obstacle; the result is
a subsequence of the path with the same first and last cell. -/
theorem optimizePath_keeps_blocked_waypoints (t : Terrain K) (path : List Point)
    (h : 2 < path.length)
    (hint : ∀ pre a b c post, path = pre ++ a :: b :: c :: post → lineSteps a c ≤ 46341) :
    (∀ pre a b c post, path = pre ++ a :: b :: c :: post →
      (canSkip t a c = false ↔ ObstacleBetween t a c) ∧
      ∀ step : Int, 1 ≤ step → step < lineSteps a c →
        intValue ((c.x - a.x) * step) = (c.x - a.x) * step ∧
        intValue ((c.y - a.y) * step) = (c.y - a.y) * step) ∧
    optimizePath t path =
      path.take 1 ++
        ((List.range (path.length - 2)).filter (fun i =>
          !canSkip t (path.getD i ⟨0, 0⟩) (path.getD (i + 2) ⟨0, 0⟩))).map
            (fun i => path.getD (i + 1) ⟨0, 0⟩) ++
        path.drop (path.length - 1) ∧
    (optimizePath t path).Sublist path ∧
    (optimizePath t path).head? = path.head? ∧
    (optimizePath t path).getLast? = path.getLast? := by
  refine ⟨fun pre a b c post he => ⟨canSkip_eq_false_iff t a c, fun step h1 h2 =>
    lineProduct_inRange (hint pre a b c post he) step h1 h2⟩, ?_, optimizePath_sublist t path,
    ?_, ?_⟩
  · match path, h with
    | a :: b :: c :: rest, _ =>
      rw [optimizePath_cons₃, ← keptWaypoints_eq_filter]
      have hlast : (a :: b :: c :: rest).drop ((a :: b :: c :: rest).length - 1) =
          [(b :: c :: rest).getLast (by simp)] := by
        rw [drop_pred_length _ (by simp), List.getLast_cons (by simp)]
      rw [hlast]
      rfl
  · match path, h with
    | a :: b :: c :: rest, _ => rw [optimizePath_cons₃]; rfl
  · match path, h with
    | a :: b :: c :: rest, _ =>
      rw [optimizePath_cons₃, List.getLast?_append, List.getLast?_cons_cons,
        List.getLast?_eq_getLast (b :: c :: rest) (by simp)]
      rfl

/-- C23, amended: when every cell of the path is passable and consecutive cells
are 8-adjacent, then for every two consecutive cells `a`, `b` of
`optimizePath path` no cell of the interpolated line between them, the two ends
included, is an obstacle, unless two or more consecutive waypoints of the path
were dropped between `a` and `b` and the rectangle spanned by `a` and `b`
holds an obstacle. -/
theorem optimizePath_clear_unless_run_dropped (t : Terrain K) (path : List Point)
    (hpass : ∀ c ∈ path, t.isPassable c = true) (hadj : List.Chain' Adjacent8 path) :
    List.Chain' (fun a b => LineClear t a b ∨ (RunBetween path a b ∧ ObstacleInBox t a b))
      (optimizePath t path) ∧
    (∀ a b, LineClear t a b ↔
      ∀ step : Int, 0 ≤ step → step ≤ lineSteps a b → t.isObstacle (lineCell a b step) = false) ∧
    (∀ a b, RunBetween path a b ↔
      ∃ pre mid post, path = pre ++ a :: mid ++ b :: post ∧ 2 ≤ mid.length) ∧
    (∀ a b, ObstacleInBox t a b ↔
      ∃ c : Point, min a.x b.x ≤ c.x ∧ c.x ≤ max a.x b.x ∧ min a.y b.y ≤ c.y ∧
        c.y ≤ max a.y b.y ∧ t.isObstacle c = true) :=
  ⟨optimizePath_clearOrRun t path hpass hadj, fun _ _ => Iff.rfl, fun _ _ => Iff.rfl,
    fun _ _ => Iff.rfl⟩

/-- C24: when every interior waypoint of the path has an obstacle strictly
between its predecessor and its successor on the interpolated line, and these
two are at most 46341 interpolation steps apart (so that the products
`dx * step` and `dy * step` are values of `int`), the pass returns the path
unchanged, and so applying it twice gives the same as applying it once. -/
theorem optimizePath_fixed_without_elidable (t : Terrain K) (path : List Point)
    (h : ∀ pre a b c post, path = pre ++ a :: b :: c :: post → ObstacleBetween t a c)
    (hint : ∀ pre a b c post, path = pre ++ a :: b :: c :: post → lineSteps a c ≤ 46341) :
    (∀ pre a b c post, path = pre ++ a :: b :: c :: post →
      ∀ step : Int, 1 ≤ step → step < lineSteps a c →
        intValue ((c.x - a.x) * step) = (c.x - a.x) * step ∧
        intValue ((c.y - a.y) * step) = (c.y - a.y) * step) ∧
    optimizePath t path = path ∧
    optimizePath t (optimizePath t path) = optimizePath t path := by
  have h1 : optimizePath t path = path :=
    optimizePath_eq_self t path (fun pre x y z post he =>
      (canSkip_eq_false_iff t x z).2 (h pre x y z post he))
  exact ⟨fun pre a b c post he step s1 s2 =>
    lineProduct_inRange (hint pre a b c post he) step s1 s2, h1, by rw [h1, h1]⟩

end Claims3Lines

section Claims3Cost

variable {K : Type} [Zero K] [Add K] [Mul K] [OfScientific K]

/-- C25, amended: `calculatePathCost path` is the result of adding
`getMovementCost c` for the cells `c` of the path, one after the other from the
first to the last and each occurrence included, to `0.0`; it is `0.0` for the
empty path; appending a cell adds its movement cost, and the cost of a
concatenation `p ++ q` is the result of adding the movement costs of the cells
of `q`, one after the other, to the cost of `p`.  This holds for every number
type, with or without rounding. -/
theorem calculatePathCost_is_left_sum (t : Terrain K) :
    (∀ path, calculatePathCost t path =
      path.foldl (fun totalCost c => totalCost + t.getMovementCost c) 0.0) ∧
    calculatePathCost t [] = 0.0 ∧
    (∀ path c, calculatePathCost t (path ++ [c]) =
      calculatePathCost t path + t.getMovementCost c) ∧
    (∀ p q, calculatePathCost t (p ++ q) =
      q.foldl (fun totalCost c => totalCost + t.getMovementCost c) (calculatePathCost t p)) := by
  have hfold : ∀ path, calculatePathCost t path =
      path.foldl (fun totalCost c => totalCost + t.getMovementCost c) 0.0 := by
    intro path
    unfold calculatePathCost
    cases path with
    | nil => rfl
    | cons a rest => rfl
  refine ⟨hfold, hfold [], ?_, ?_⟩
  · intro path c
    rw [hfold, hfold, List.foldl_append]
    rfl
  · intro p q
    rw [hfold, hfold, List.foldl_append]

end Claims3Cost

set_option maxRecDepth 100000 in
/-- Counterexample to C25: on the grid of two cells whose first cell is a wind
zone (movement cost `2.0 + 2.0 * 0.3`, the second cell costs `1.0`), with the
arithmetic of `double`, the cost of the path `(1,0), (0,0), (1,0), (0,0)` is
not the sum of the costs of its two halves `(1,0), (0,0)`, and the cost of the
path that repeats the wind zone 6 times is not 6 times its movement cost. -/
theorem calculatePathCost_not_additive :
    windPair = (Terrain.new 2 1).addWindZone ⟨0, 0⟩ ∧
    (calculatePathCost windPair ([⟨1, 0⟩, ⟨0, 0⟩] ++ [⟨1, 0⟩, ⟨0, 0⟩])).val =
      2026619832316723 / 2 ^ 48 ∧
    (calculatePathCost windPair [⟨1, 0⟩, ⟨0, 0⟩] +
      calculatePathCost windPair [⟨1, 0⟩, ⟨0, 0⟩]).val = 2026619832316723 / 2 ^ 48 + 1 / 2 ^ 50 ∧
    calculatePathCost windPair ([⟨1, 0⟩, ⟨0, 0⟩] ++ [⟨1, 0⟩, ⟨0, 0⟩]) ≠
      calculatePathCost windPair [⟨1, 0⟩, ⟨0, 0⟩] + calculatePathCost windPair [⟨1, 0⟩, ⟨0, 0⟩] ∧
    calculatePathCost windPair (List.replicate 6 ⟨0, 0⟩) ≠
      6.0 * windPair.getMovementCost ⟨0, 0⟩ := by
  refine ⟨rfl, ?_, ?_, ?_, ?_⟩ <;> decide!


/-! ## Witnesses for the claims about the path post-processor, the map loader and termination -/

section Witnesses3

/-- The three cells before and after each interior waypoint of the path of four
cells below the obstacle of the detour grid are at most 2 steps apart. -/
theorem detour_path_steps : ∀ pre a b c post,
    ([⟨0, 0⟩, ⟨1, 1⟩, ⟨2, 1⟩, ⟨3, 0⟩] : List Point) = pre ++ a :: b :: c :: post →
    lineSteps a c ≤ 46341 := by
  intro pre a b c post h
  match pre, h with
  | [], h =>
    simp only [List.nil_append, List.cons.injEq] at h
    obtain ⟨rfl, _, rfl, _⟩ := h
    decide
  | [_], h =>
    simp only [List.cons_append, List.nil_append, List.cons.injEq] at h
    obtain ⟨_, rfl, _, rfl, _⟩ := h
    decide
  | _ :: _ :: pre, h =>
    have := congrArg List.length h
    simp at this
    omega

/-- Witness for C21: the path of four cells below the obstacle of the detour grid. -/
theorem optimizePath_keeps_blocked_waypoints_witness :
    2 < ([⟨0, 0⟩, ⟨1, 1⟩, ⟨2, 1⟩, ⟨3, 0⟩] : List Point).length ∧
    (∀ pre a b c post,
      ([⟨0, 0⟩, ⟨1, 1⟩, ⟨2, 1⟩, ⟨3, 0⟩] : List Point) = pre ++ a :: b :: c :: post →
      lineSteps a c ≤ 46341) ∧
    optimizePath (detourTerrain ℝ) [⟨0, 0⟩, ⟨1, 1⟩, ⟨2, 1⟩, ⟨3, 0⟩] = [⟨0, 0⟩, ⟨3, 0⟩] ∧
    (optimizePath (detourTerrain ℝ) [⟨0, 0⟩, ⟨1, 1⟩, ⟨2, 1⟩, ⟨3, 0⟩] =
      ([⟨0, 0⟩, ⟨1, 1⟩, ⟨2, 1⟩, ⟨3, 0⟩] : List Point).take 1 ++
        ((List.range (([⟨0, 0⟩, ⟨1, 1⟩, ⟨2, 1⟩, ⟨3, 0⟩] : List Point).length - 2)).filter
          (fun i => !canSkip (detourTerrain ℝ)
            (([⟨0, 0⟩, ⟨1, 1⟩, ⟨2, 1⟩, ⟨3, 0⟩] : List Point).getD i ⟨0, 0⟩)
            (([⟨0, 0⟩, ⟨1, 1⟩, ⟨2, 1⟩, ⟨3, 0⟩] : List Point).getD (i + 2) ⟨0, 0⟩))).map
            (fun i => ([⟨0, 0⟩, ⟨1, 1⟩, ⟨2, 1⟩, ⟨3, 0⟩] : List Point).getD (i + 1) ⟨0, 0⟩) ++
        ([⟨0, 0⟩, ⟨1, 1⟩, ⟨2, 1⟩, ⟨3, 0⟩] : List Point).drop
          (([⟨0, 0⟩, ⟨1, 1⟩, ⟨2, 1⟩, ⟨3, 0⟩] : List Point).length - 1) ∧
    (optimizePath (detourTerrain ℝ) [⟨0, 0⟩, ⟨1, 1⟩, ⟨2, 1⟩, ⟨3, 0⟩]).Sublist
      [⟨0, 0⟩, ⟨1, 1⟩, ⟨2, 1⟩, ⟨3, 0⟩] ∧
    (optimizePath (detourTerrain ℝ) [⟨0, 0⟩, ⟨1, 1⟩, ⟨2, 1⟩, ⟨3, 0⟩]).head? =
      ([⟨0, 0⟩, ⟨1, 1⟩, ⟨2, 1⟩, ⟨3, 0⟩] : List Point).head? ∧
    (optimizePath (detourTerrain ℝ) [⟨0, 0⟩, ⟨1, 1⟩, ⟨2, 1⟩, ⟨3, 0⟩]).getLast? =
      ([⟨0, 0⟩, ⟨1, 1⟩, ⟨2, 1⟩, ⟨3, 0⟩] : List Point).getLast?) :=
  ⟨by decide, detour_path_steps, detour_optimizePath,
    (optimizePath_keeps_blocked_waypoints (detourTerrain ℝ) [⟨0, 0⟩, ⟨1, 1⟩, ⟨2, 1⟩, ⟨3, 0⟩]
      (by decide) detour_path_steps).2⟩

/-- Witness for the amended C22: a path on the tie grid, whose elevation and
wind resistance are not negative. -/
theorem optimizePath_cost_le_witness :
    ((tieTerrain ℝ).NonNeg ∨
      ∀ c ∈ ([⟨0, 0⟩, ⟨1, 0⟩, ⟨2, 0⟩] : List Point), 0 ≤ (tieTerrain ℝ).getMovementCost c) ∧
    calculatePathCost (tieTerrain ℝ) (optimizePath (tieTerrain ℝ) [⟨0, 0⟩, ⟨1, 0⟩, ⟨2, 0⟩])
      ≤ calculatePathCost (tieTerrain ℝ) [⟨0, 0⟩, ⟨1, 0⟩, ⟨2, 0⟩] :=
  ⟨Or.inl tie_nonNeg,
    optimizePath_cost_le (tieTerrain ℝ) [⟨0, 0⟩, ⟨1, 0⟩, ⟨2, 0⟩] (Or.inl tie_nonNeg)⟩

/-- Witness for the amended C23: on the detour grid the pass drops both interior
waypoints of the path `(0, 0), (1, 1), (2, 1), (3, 0)`; two waypoints lie
between the two cells of the result, and the rectangle that these span holds
the obstacle `(2, 0)`. -/
theorem optimizePath_clear_unless_run_dropped_witness :
    (∀ c ∈ ([⟨0, 0⟩, ⟨1, 1⟩, ⟨2, 1⟩, ⟨3, 0⟩] : List Point),
      (detourTerrain ℝ).isPassable c = true) ∧
    List.Chain' Adjacent8 ([⟨0, 0⟩, ⟨1, 1⟩, ⟨2, 1⟩, ⟨3, 0⟩] : List Point) ∧
    optimizePath (detourTerrain ℝ) [⟨0, 0⟩, ⟨1, 1⟩, ⟨2, 1⟩, ⟨3, 0⟩] = [⟨0, 0⟩, ⟨3, 0⟩] ∧
    List.Chain' (fun a b => LineClear (detourTerrain ℝ) a b ∨
        (RunBetween [⟨0, 0⟩, ⟨1, 1⟩, ⟨2, 1⟩, ⟨3, 0⟩] a b ∧ ObstacleInBox (detourTerrain ℝ) a b))
      (optimizePath (detourTerrain ℝ) [⟨0, 0⟩, ⟨1, 1⟩, ⟨2, 1⟩, ⟨3, 0⟩]) :=
  ⟨detour_passable, detour_adjacent, detour_optimizePath,
    (optimizePath_clear_unless_run_dropped (detourTerrain ℝ) [⟨0, 0⟩, ⟨1, 1⟩, ⟨2, 1⟩, ⟨3, 0⟩]
      detour_passable detour_adjacent).1⟩

/-- Witness for C24: on the detour grid the waypoint `(2, 1)` of the path
`(1, 0), (2, 1), (3, 0)` has the obstacle `(2, 0)` between its neighbours. -/
theorem optimizePath_fixed_without_elidable_witness :
    (∀ pre a b c post, ([⟨1, 0⟩, ⟨2, 1⟩, ⟨3, 0⟩] : List Point) = pre ++ a :: b :: c :: post →
      ObstacleBetween (detourTerrain ℝ) a c) ∧
    (∀ pre a b c post, ([⟨1, 0⟩, ⟨2, 1⟩, ⟨3, 0⟩] : List Point) = pre ++ a :: b :: c :: post →
      lineSteps a c ≤ 46341) ∧
    (optimizePath (detourTerrain ℝ) [⟨1, 0⟩, ⟨2, 1⟩, ⟨3, 0⟩] = [⟨1, 0⟩, ⟨2, 1⟩, ⟨3, 0⟩] ∧
    optimizePath (detourTerrain ℝ) (optimizePath (detourTerrain ℝ) [⟨1, 0⟩, ⟨2, 1⟩, ⟨3, 0⟩]) =
      optimizePath (detourTerrain ℝ) [⟨1, 0⟩, ⟨2, 1⟩, ⟨3, 0⟩]) :=
  have h : ∀ pre a b c post, ([⟨1, 0⟩, ⟨2, 1⟩, ⟨3, 0⟩] : List Point) =
      pre ++ a :: b :: c :: post →
      ObstacleBetween (detourTerrain ℝ) a c ∧ lineSteps a c ≤ 46341 := by
    intro pre a b c post h
    cases pre with
    | nil =>
      simp only [List.nil_append, List.cons.injEq] at h
      obtain ⟨rfl, _, rfl, _⟩ := h
      exact ⟨⟨1, by decide, by decide, rfl⟩, by decide⟩
    | cons x pre =>
      have := congrArg List.length h
      simp at this
      omega
  ⟨fun pre a b c post he => (h pre a b c post he).1,
    fun pre a b c post he => (h pre a b c post he).2,
    (optimizePath_fixed_without_elidable (detourTerrain ℝ) [⟨1, 0⟩, ⟨2, 1⟩, ⟨3, 0⟩]
      (fun pre a b c post he => (h pre a b c post he).1)
      (fun pre a b c post he => (h pre a b c post he).2)).2⟩

/-- Witness for C27: the text of the two rows `.^` and `OW`, each terminated by a newline. -/
theorem loadMapFromString_classifies_witness :
    ([['.', '^'], ['O', 'W']] : List (List Char)) ≠ [] ∧
    (∀ r ∈ ([['.', '^'], ['O', 'W']] : List (List Char)),
      r ≠ [] ∧ r.length = 2 ∧ '\n' ∉ r ∧ r.getLast? ≠ some '\r') ∧
    List.intercalate ['\n'] [['.', '^'], ['O', 'W']] ++ ['\n'] =
      ['.', '^', '\n', 'O', 'W', '\n'] ∧
    ((∃ t : Terrain ℝ,
      loadMapFromString (List.intercalate ['\n'] [['.', '^'], ['O', 'W']] ++ ['\n'])
        = Except.ok t ∧
      t.height = ((([['.', '^'], ['O', 'W']] : List (List Char)).length : Nat) : Int) ∧
      t.width = ((2 : Nat) : Int) ∧
      ∀ x y : Nat, x < 2 → y < ([['.', '^'], ['O', 'W']] : List (List Char)).length →
        t.getTerrain (x : Int) (y : Int) =
          charToTerrainType ((([['.', '^'], ['O', 'W']] : List (List Char)).getD y []).getD x
            '.')) ∧
    charToTerrainType '.' = TerrainType.NORMAL ∧ charToTerrainType '^' = TerrainType.HILL ∧
    charToTerrainType 'O' = TerrainType.OBSTACLE ∧ charToTerrainType 'o' = TerrainType.OBSTACLE ∧
    charToTerrainType 'W' = TerrainType.WIND_ZONE ∧
    charToTerrainType 'w' = TerrainType.WIND_ZONE ∧
    charToTerrainType 'S' = TerrainType.START ∧ charToTerrainType 's' = TerrainType.START ∧
    charToTerrainType 'D' = TerrainType.END ∧ charToTerrainType 'd' = TerrainType.END) :=
  have hne : ([['.', '^'], ['O', 'W']] : List (List Char)) ≠ [] := by simp
  have hrows : ∀ r ∈ ([['.', '^'], ['O', 'W']] : List (List Char)),
      r ≠ [] ∧ r.length = 2 ∧ '\n' ∉ r ∧ r.getLast? ≠ some '\r' := by
    intro r hr
    simp only [List.mem_cons, List.mem_singleton, List.not_mem_nil, or_false] at hr
    rcases hr with rfl | rfl <;> simp
  ⟨hne, hrows, by simp [List.intercalate],
    loadMapFromString_classifies [['.', '^'], ['O', 'W']] 2 ['\n']
      (List.intercalate ['\n'] [['.', '^'], ['O', 'W']] ++ ['\n']) hne hrows (Or.inl rfl)
      (Or.inr rfl)⟩

/-- Witness for the amended C28: the text of the two lines `..` and `.` is rejected. -/
theorem loadMapFromString_rejects_unequal_rows_witness :
    (∀ l ∈ ([['.', '.'], ['.']] : List (List Char)), '\n' ∉ l) ∧
    List.intercalate ['\n'] [['.', '.'], ['.']] = ['.', '.', '\n', '.'] ∧
    (loadMapFromString (List.intercalate ['\n'] [['.', '.'], ['.']]) :
      Except MapError (Terrain ℝ)) = Except.error MapError.invalidMapDimensions :=
  have hl : ∀ l ∈ ([['.', '.'], ['.']] : List (List Char)), '\n' ∉ l := by
    intro l hl
    simp only [List.mem_cons, List.mem_singleton, List.not_mem_nil, or_false] at hl
    rcases hl with rfl | rfl <;> simp
  ⟨hl, by simp [List.intercalate],
    (loadMapFromString_rejects_unequal_rows [['.', '.'], ['.']] hl).2
      ⟨['.', '.'], by simp, ['.'], by simp, by simp [stripCarriageReturn],
        by simp [stripCarriageReturn], by simp [stripCarriageReturn]⟩⟩

/-- Witness for the amended C29: the text of an empty line, a line that is a
single carriage return and another empty line gives the empty-map error. -/
theorem loadMapFromString_empty_iff_witness :
    (∀ l ∈ ([[], ['\r'], []] : List (List Char)), '\n' ∉ l) ∧
    List.intercalate ['\n'] [[], ['\r'], []] = ['\n', '\r', '\n'] ∧
    (loadMapFromString (List.intercalate ['\n'] [[], ['\r'], []]) :
      Except MapError (Terrain ℝ)) = Except.error MapError.emptyMapData :=
  have hl : ∀ l ∈ ([[], ['\r'], []] : List (List Char)), '\n' ∉ l := by
    intro l hl
    simp only [List.mem_cons, List.mem_singleton, List.not_mem_nil, or_false] at hl
    rcases hl with rfl | rfl | rfl <;> simp
  ⟨hl, by simp [List.intercalate],
    (loadMapFromString_empty_iff [[], ['\r'], []] hl).1.2 (by
      intro l hl
      simp only [List.mem_cons, List.mem_singleton, List.not_mem_nil, or_false] at hl
      rcases hl with rfl | rfl | rfl <;> simp)⟩

/-- Witness for C30: the searches from `(0, 0)` to `(2, 0)` on the tie grid with the list queue. -/
theorem search_terminates_witness :
    (listQueue : PriorityQueue ℝ (List (PathNode ℝ))).Lawful ∧ (tieTerrain ℝ).NonNeg ∧
    findPathAStar listQueue (tieTerrain ℝ) 3 ⟨0, 0⟩ ⟨2, 0⟩ = some [⟨0, 0⟩, ⟨1, 0⟩, ⟨2, 0⟩] ∧
    ((∃ path, findPathAStar listQueue (tieTerrain ℝ) (chainBound (tieTerrain ℝ) ⟨0, 0⟩ + 1)
        ⟨0, 0⟩ ⟨2, 0⟩ = some path ∧ (path = [] ∨ path.getLast? = some ⟨2, 0⟩)) ∧
    (∃ path, findPathDijkstra listQueue (tieTerrain ℝ) (chainBound (tieTerrain ℝ) ⟨0, 0⟩ + 1)
        ⟨0, 0⟩ ⟨2, 0⟩ = some path ∧ (path = [] ∨ path.getLast? = some ⟨2, 0⟩)) ∧
    (∀ n st, stateAfter listQueue (tieTerrain ℝ)
        (fun p => (tieTerrain ℝ).getHeuristicCost p ⟨2, 0⟩)
        (fun movementCost distance => movementCost * distance) ⟨2, 0⟩ n
        (initialState listQueue (fun p => (tieTerrain ℝ).getHeuristicCost p ⟨2, 0⟩) ⟨0, 0⟩)
          = some st →
      st.createdNodes.length ≤ chainBound (tieTerrain ℝ) ⟨0, 0⟩ ∧
      n ≤ chainBound (tieTerrain ℝ) ⟨0, 0⟩ ∧
      ∀ fuel, findPathAStar listQueue (tieTerrain ℝ) (n + fuel) ⟨0, 0⟩ ⟨2, 0⟩ =
        searchLoop listQueue (tieTerrain ℝ) (fun p => (tieTerrain ℝ).getHeuristicCost p ⟨2, 0⟩)
          (fun movementCost distance => movementCost * distance) ⟨2, 0⟩ fuel st) ∧
    (∀ n st, stateAfter listQueue (tieTerrain ℝ) (fun _ => 0)
        (fun movementCost distance => movementCost * distance) ⟨2, 0⟩ n
        (initialState listQueue (fun _ => 0) ⟨0, 0⟩) = some st →
      st.createdNodes.length ≤ chainBound (tieTerrain ℝ) ⟨0, 0⟩ ∧
      n ≤ chainBound (tieTerrain ℝ) ⟨0, 0⟩ ∧
      ∀ fuel, findPathDijkstra listQueue (tieTerrain ℝ) (n + fuel) ⟨0, 0⟩ ⟨2, 0⟩ =
        searchLoop listQueue (tieTerrain ℝ) (fun _ => 0)
          (fun movementCost distance => movementCost * distance) ⟨2, 0⟩ fuel st)) :=
  ⟨listQueue_lawful, tie_nonNeg, tie_astar listQueue_lawful,
    search_terminates listQueue listQueue_lawful (tieTerrain ℝ) tie_nonNeg ⟨0, 0⟩ ⟨2, 0⟩⟩

end Witnesses3


/-! ## The claims about scenarios, invariants and the remaining behaviour -/

section Claims4

variable {K : Type} [SqrtField K] {Q : Type}

/-- C31: on the grid that the constructor builds for width 5 and height 5, whose
cells are all Normal with zero elevation and wind resistance,
`findPathAStar((0,0), (4,4))` returns, for every lawful priority queue, and
what it returns is the diagonal path `(0,0), (1,1), (2,2), (3,3), (4,4)` of 5
cells; the sum of the distances between consecutive cells of that path is
`4 * sqrt 2`, and its `calculatePathCost` is `5.0`. -/
theorem astar_empty_grid_diagonal (pq : PriorityQueue K Q) (hpq : pq.Lawful) :
    (∀ p, (Terrain.new 5 5 : Terrain K).typeAt p = TerrainType.NORMAL ∧
      (Terrain.new 5 5 : Terrain K).elevationAt p = 0 ∧
      (Terrain.new 5 5 : Terrain K).windAt p = 0) ∧
    (Terrain.new 5 5 : Terrain K).width = 5 ∧ (Terrain.new 5 5 : Terrain K).height = 5 ∧
    (∃ fuel, findPathAStar pq (Terrain.new 5 5 : Terrain K) fuel ⟨0, 0⟩ ⟨4, 4⟩ =
      some [⟨0, 0⟩, ⟨1, 1⟩, ⟨2, 2⟩, ⟨3, 3⟩, ⟨4, 4⟩]) ∧
    (∀ fuel path, findPathAStar pq (Terrain.new 5 5 : Terrain K) fuel ⟨0, 0⟩ ⟨4, 4⟩ = some path →
      path = [⟨0, 0⟩, ⟨1, 1⟩, ⟨2, 2⟩, ⟨3, 3⟩, ⟨4, 4⟩]) ∧
    ([⟨0, 0⟩, ⟨1, 1⟩, ⟨2, 2⟩, ⟨3, 3⟩, ⟨4, 4⟩] : List Point).length = 5 ∧
    (totalDistance [⟨0, 0⟩, ⟨1, 1⟩, ⟨2, 2⟩, ⟨3, 3⟩, ⟨4, 4⟩] : K) = 4 * SqrtField.sqrt 2 ∧
    calculatePathCost (Terrain.new 5 5 : Terrain K)
      [⟨0, 0⟩, ⟨1, 1⟩, ⟨2, 2⟩, ⟨3, 3⟩, ⟨4, 4⟩] = 5.0 := by
  have hn : (Terrain.new 5 5 : Terrain K).NonNeg := new_nonNeg 5 5
  have huniq : ∀ fuel path,
      findPathAStar pq (Terrain.new 5 5 : Terrain K) fuel ⟨0, 0⟩ ⟨4, 4⟩ = some path →
      path = [⟨0, 0⟩, ⟨1, 1⟩, ⟨2, 2⟩, ⟨3, 3⟩, ⟨4, 4⟩] := by
    intro fuel path h
    have hne : path ≠ [] := by
      intro hnil
      exact (searchLoop_empty_iff hpq h).1 hnil ⟨_, diagonal_route⟩
    have hroute : IsRouteFromTo (Terrain.new 5 5 : Terrain K) ⟨0, 0⟩ ⟨4, 4⟩ path :=
      searchLoop_route hpq h hne
    have hopt := findPathAStar_optimal hpq hn h hne _ diagonal_route
    rw [diagonal_travelCost] at hopt
    refine eq_diagonal hroute ((route_progress hn ⟨4, 4⟩ path ⟨0, 0⟩ hroute).2 ?_)
    refine le_trans hopt (le_of_eq ?_)
    push_cast
    ring
  refine ⟨fun p => ⟨new_typeAt 5 5 p, new_elevationAt 5 5 p, new_windAt 5 5 p⟩, rfl, rfl, ?_,
    huniq, rfl, ?_, ?_⟩
  · obtain ⟨path, fuel, h⟩ := findPathAStar_terminates hpq hn ⟨0, 0⟩ ⟨4, 4⟩
    exact ⟨fuel, by rw [← huniq fuel path h]; exact h⟩
  · simp only [totalDistance, List.tail_cons, List.zip_cons_cons, List.zip_nil_right,
      List.foldl_cons, List.foldl_nil]
    rw [distance_diagonal 0 0 1 1 (by decide) (by decide),
      distance_diagonal 1 1 2 2 (by decide) (by decide),
      distance_diagonal 2 2 3 3 (by decide) (by decide),
      distance_diagonal 3 3 4 4 (by decide) (by decide)]
    norm_num
    ring
  · rw [calculatePathCost_eq_sum]
    simp only [List.map_cons, List.map_nil, List.sum_cons, List.sum_nil]
    rw [new_getMovementCost 5 5 ⟨0, 0⟩ rfl, new_getMovementCost 5 5 ⟨1, 1⟩ rfl,
      new_getMovementCost 5 5 ⟨2, 2⟩ rfl, new_getMovementCost 5 5 ⟨3, 3⟩ rfl,
      new_getMovementCost 5 5 ⟨4, 4⟩ rfl]
    norm_num

/-- C34: `PathNodeComparator a b` holds if and only if `f(a) > f(b)`, or
`f(a) = f(b)` and `h(a) > h(b)`, where the constructor sets `f = g + h`; the
relation is irreflexive and transitive and its incomparability is transitive;
a node popped from a lawful priority queue has the lowest `f` of the queue and,
among the nodes of that `f`, the lowest `h`; and for nodes constructed with
`h = 0`, as in Dijkstra, the comparator compares `g` alone. -/
theorem comparator_is_strict_weak_order (pq : PriorityQueue K Q) (hpq : pq.Lawful) :
    (∀ a b : PathNode K, PathNodeComparator a b = true ↔
      a.fCost > b.fCost ∨ (a.fCost = b.fCost ∧ a.hCost > b.hCost)) ∧
    (∀ (pos : Point) (g h : K) (p : Option (PathNode K)),
      (PathNode.new pos g h p).fCost = g + h ∧ (PathNode.new pos g h p).hCost = h) ∧
    (∀ a : PathNode K, PathNodeComparator a a = false) ∧
    (∀ a b c : PathNode K, PathNodeComparator a b = true → PathNodeComparator b c = true →
      PathNodeComparator a c = true) ∧
    (∀ a b c : PathNode K,
      (PathNodeComparator a b = false ∧ PathNodeComparator b a = false) →
      (PathNodeComparator b c = false ∧ PathNodeComparator c b = false) →
      (PathNodeComparator a c = false ∧ PathNodeComparator c a = false)) ∧
    (∀ q n q', pq.pop q = some (n, q') → ∀ m ∈ pq.contents q,
      n.fCost ≤ m.fCost ∧ (n.fCost = m.fCost → n.hCost ≤ m.hCost)) ∧
    (∀ (pos pos' : Point) (g g' : K) (p p' : Option (PathNode K)),
      PathNodeComparator (PathNode.new pos g 0 p) (PathNode.new pos' g' 0 p') = true ↔
        g > g') := by
  refine ⟨fun a b => comparator_eq_true_iff a b, fun pos g h p => ⟨fCost_new _ _ _ _,
    hCost_new _ _ _ _⟩, comparator_false_self, comparator_true_trans, ?_, ?_, ?_⟩
  · intro a b c hab hbc
    rw [comparator_incomparable_iff] at hab hbc ⊢
    exact ⟨hab.1.trans hbc.1, hab.2.trans hbc.2⟩
  · intro q n q' hpop m hm
    have := (comparator_eq_false_iff n m).1 ((hpq.pop_some q n q' hpop).2 m hm)
    rcases this with h | ⟨h1, h2⟩
    · exact ⟨le_of_lt h, fun he => absurd he (ne_of_lt h)⟩
    · exact ⟨le_of_eq h1, fun _ => h2⟩
  · intro pos pos' g g' p p'
    rw [comparator_eq_true_iff]
    simp only [fCost_new, hCost_new, add_zero, lt_self_iff_false, and_false, or_false, gt_iff_lt]

/-- C38: on a grid with non-negative elevation and wind resistance a path
returned by `findPathAStar` or `findPathDijkstra` visits no cell twice, for
every lawful priority queue; the accumulated cost of every node that the
search constructs exceeds that of its predecessor, and the loop body creates a
node for a cell that already has a recorded cost only when the new cost is
strictly lower. -/
theorem search_path_is_simple (pq : PriorityQueue K Q) (hpq : pq.Lawful) (t : Terrain K)
    (hn : t.NonNeg) (start goal : Point) (fuel : Nat) (path : List Point)
    (h : findPathAStar pq t fuel start goal = some path ∨
      findPathDijkstra pq t fuel start goal = some path) :
    path.Nodup ∧
    (∀ (hfun : Point → K) (n p : PathNode K),
      GoodNode t hfun (fun movementCost distance => movementCost * distance) start n →
      n.parent = some p → p.gCost < n.gCost) ∧
    (∀ (hfun : Point → K) (u : PathNode K) (st : SearchState K Q) (w : Point) (known : K),
      mapFind st.gScore w = some known →
      relaxNeighbor pq t hfun (fun movementCost distance => movementCost * distance) u st w
        ≠ st →
      u.gCost + t.getMovementCost w * calculateDistance u.position w < known) := by
  refine ⟨?_, fun hfun n p hg hp => hg.parent_lt hn p hp, ?_⟩
  · rcases h with h | h
    · exact searchLoop_nodup hpq (nonnegSteps_of_nonNeg hn) h
    · exact searchLoop_nodup hpq (nonnegSteps_of_nonNeg hn) h
  · intro hfun u st w known hk hne
    rcases relaxNeighbor_spec pq t hfun (fun movementCost distance => movementCost * distance)
      u st w with ⟨_, he⟩ | ⟨_, _, he⟩ | ⟨_, hupd, _⟩
    · exact absurd he hne
    · exact absurd he hne
    · exact hupd known hk

/-- C32: on a grid whose three tables have `height` rows of `width` entries, as
the constructor builds them, each of `setTerrain`, `setElevation`,
`setWindResistance`, `addObstacle`, `addHill`, `addWindZone` and
`generateRandomTerrain`, for every argument (coordinates out of bounds
included, and whatever the random source returns), leaves `width` and `height`
as they are and leaves each table with `height` rows of `width` entries. -/
theorem dimensions_are_fixed (t : Terrain K) (hwf : t.WellFormed) :
    (∀ (x y : Int) (type : TerrainType),
      (t.setTerrain x y type).WellFormed ∧ (t.setTerrain x y type).width = t.width ∧
        (t.setTerrain x y type).height = t.height) ∧
    (∀ (x y : Int) (elevation : K),
      (t.setElevation x y elevation).WellFormed ∧
        (t.setElevation x y elevation).width = t.width ∧
        (t.setElevation x y elevation).height = t.height) ∧
    (∀ (x y : Int) (resistance : K),
      (t.setWindResistance x y resistance).WellFormed ∧
        (t.setWindResistance x y resistance).width = t.width ∧
        (t.setWindResistance x y resistance).height = t.height) ∧
    (∀ pos : Point, (t.addObstacle pos).WellFormed ∧ (t.addObstacle pos).width = t.width ∧
      (t.addObstacle pos).height = t.height) ∧
    (∀ pos : Point, (t.addHill pos).WellFormed ∧ (t.addHill pos).width = t.width ∧
      (t.addHill pos).height = t.height) ∧
    (∀ pos : Point, (t.addWindZone pos).WellFormed ∧ (t.addWindZone pos).width = t.width ∧
      (t.addWindZone pos).height = t.height) ∧
    (∀ (obstacleProb hillProb windProb : K) (draws : Nat → K),
      (t.generateRandomTerrain obstacleProb hillProb windProb draws).WellFormed ∧
        (t.generateRandomTerrain obstacleProb hillProb windProb draws).width = t.width ∧
        (t.generateRandomTerrain obstacleProb hillProb windProb draws).height = t.height) ∧
    (∀ t' : Terrain K, t'.WellFormed ↔
      0 ≤ t'.width ∧ 0 ≤ t'.height ∧ TableShape t'.grid t'.width t'.height ∧
        TableShape t'.elevationMap t'.width t'.height ∧
        TableShape t'.windResistance t'.width t'.height) ∧
    (∀ (α : Type) (tbl : List (List α)) (w h : Int), TableShape tbl w h ↔
      (tbl.length : Int) = h ∧ ∀ row ∈ tbl, (row.length : Int) = w) ∧
    (∀ w h : Int, 0 ≤ w → 0 ≤ h → (Terrain.new w h : Terrain K).WellFormed) :=
  ⟨fun x y ty => ⟨setTerrain_wellFormed hwf x y ty, (setTerrain_dims t x y ty).1,
      (setTerrain_dims t x y ty).2⟩,
    fun x y e => ⟨setElevation_wellFormed hwf x y e, (setElevation_dims t x y e).1,
      (setElevation_dims t x y e).2⟩,
    fun x y r => ⟨setWindResistance_wellFormed hwf x y r, (setWindResistance_dims t x y r).1,
      (setWindResistance_dims t x y r).2⟩,
    addObstacle_shape hwf, addHill_shape hwf, addWindZone_shape hwf,
    generateRandomTerrain_shape hwf, fun _ => Iff.rfl, fun _ _ _ _ => Iff.rfl,
    fun w h hw hh => new_wellFormed w h hw hh⟩

/-- C40: a grid obtained from the `Terrain` constructor or from a successful
`loadMapFromString` by any sequence of `addObstacle`, `addHill` and
`addWindZone` calls has elevation 0 or 3.0 and wind resistance 0 or 2.0 in
every cell (also as read by `getElevation` and `getWindResistance`); hence
both are non-negative and `getMovementCost(c) >= 1.0` for every cell `c`. -/
theorem edited_grid_values (t : Terrain K) (h : Edited t) :
    (∀ p, (t.elevationAt p = 0 ∨ t.elevationAt p = 3.0) ∧
      (t.windAt p = 0 ∨ t.windAt p = 2.0)) ∧
    (∀ x y, (t.getElevation x y = 0 ∨ t.getElevation x y = 3.0) ∧
      (t.getWindResistance x y = 0 ∨ t.getWindResistance x y = 2.0)) ∧
    (∀ p, 0 ≤ t.elevationAt p ∧ 0 ≤ t.windAt p) ∧ t.NonNeg ∧
    ∀ c, 1.0 ≤ t.getMovementCost c := by
  have h2 := twoValued_of_edited h
  have hn := nonNeg_of_twoValued h2
  refine ⟨h2, ?_, ?_, hn, ?_⟩
  · intro x y
    unfold Terrain.getElevation Terrain.getWindResistance
    by_cases hv : t.isValidPosition ⟨x, y⟩ = true
    · simp only [hv, if_true]
      exact h2 ⟨x, y⟩
    · simp only [hv, Bool.false_eq_true, if_false]
      exact ⟨Or.inl (by norm_num), Or.inl (by norm_num)⟩
  · intro p
    constructor
    · rcases (h2 p).1 with he | he <;> rw [he]
      norm_num
    · rcases (h2 p).2 with he | he <;> rw [he]
      norm_num
  · intro c
    have := one_le_getMovementCost hn c
    norm_num
    exact this

/-- C37: for every grid `t` with `width >= 1` and `height >= 1`,
`loadMapFromString(terrainToString(t))` succeeds, and the grid it returns has
the width, the height and, at every position, the classification (as read by
`getTerrain`) of `t`; its elevation and wind resistance are those the loader
sets: 3.0 on a Hill cell and 0 elsewhere, 2.0 on a Wind-zone cell and 0
elsewhere. -/
theorem map_text_round_trip (t : Terrain K) (hw : 1 ≤ t.width) (hh : 1 ≤ t.height) :
    ∃ t' : Terrain K, loadMapFromString (terrainToString t) = Except.ok t' ∧
      t'.width = t.width ∧ t'.height = t.height ∧
      (∀ x y, t'.getTerrain x y = t.getTerrain x y) ∧
      (∀ x y, t'.getElevation x y =
        if t.getTerrain x y = TerrainType.HILL then 3.0 else 0) ∧
      (∀ x y, t'.getWindResistance x y =
        if t.getTerrain x y = TerrainType.WIND_ZONE then 2.0 else 0) := by
  have hne : (List.range t.height.toNat).map (fun (y : Nat) =>
      (List.range t.width.toNat).map (fun (x : Nat) =>
        terrainTypeToChar (t.getTerrain (Int.ofNat x) (Int.ofNat y)))) ≠ [] := by
    intro h
    have := congrArg List.length h
    simp only [List.length_map, List.length_range, List.length_nil] at this
    omega
  have hclean : ∀ r ∈ (List.range t.height.toNat).map (fun (y : Nat) =>
      (List.range t.width.toNat).map (fun (x : Nat) =>
        terrainTypeToChar (t.getTerrain (Int.ofNat x) (Int.ofNat y)))),
      r ≠ [] ∧ '\n' ∉ r ∧ r.getLast? ≠ some '\r' := by
    intro r hr
    obtain ⟨y, _, rfl⟩ := List.mem_map.1 hr
    refine ⟨?_, ?_, ?_⟩
    · intro h
      have := congrArg List.length h
      simp only [List.length_map, List.length_range, List.length_nil] at this
      omega
    · intro h
      obtain ⟨x, _, hx⟩ := List.mem_map.1 h
      exact (terrainTypeToChar_ne_eol _).1 hx
    · intro h
      obtain ⟨x, _, hx⟩ := List.mem_map.1 (List.mem_of_getLast?_eq_some h)
      exact (terrainTypeToChar_ne_eol _).2 hx
  have hlen : ∀ r ∈ (List.range t.height.toNat).map (fun (y : Nat) =>
      (List.range t.width.toNat).map (fun (x : Nat) =>
        terrainTypeToChar (t.getTerrain (Int.ofNat x) (Int.ofNat y)))),
      r.length = t.width.toNat := by
    intro r hr
    obtain ⟨y, _, rfl⟩ := List.mem_map.1 hr
    simp
  have hp : parseMapLines (terrainToString t) = (List.range t.height.toNat).map (fun (y : Nat) =>
      (List.range t.width.toNat).map (fun (x : Nat) =>
        terrainTypeToChar (t.getTerrain (Int.ofNat x) (Int.ofNat y)))) := by
    rw [terrainToString_eq t hh]
    exact (parseMapLines_joined (Or.inl rfl) _ hne hclean).2
  obtain ⟨t', hok, _, hw', hh', hvals⟩ :=
    loadMapFromString_values (K := K) (terrainToString t) hp hne hlen
  rw [Int.toNat_of_nonneg (by omega)] at hw'
  rw [List.length_map, List.length_range, Int.toNat_of_nonneg (by omega)] at hh'
  have hchar : ∀ q : Point, t.isValidPosition q = true →
      charToTerrainType ((((List.range t.height.toNat).map (fun (y : Nat) =>
        (List.range t.width.toNat).map (fun (x : Nat) =>
          terrainTypeToChar (t.getTerrain (Int.ofNat x) (Int.ofNat y))))).getD q.y.toNat
            []).getD q.x.toNat '.') = t.getTerrain q.x q.y := by
    intro q hq
    obtain ⟨h1, h2, h3, h4⟩ := (isValidPosition_iff t q).1 hq
    have hy : q.y.toNat < ((List.range t.height.toNat).map (fun (y : Nat) =>
        (List.range t.width.toNat).map (fun (x : Nat) =>
          terrainTypeToChar (t.getTerrain (Int.ofNat x) (Int.ofNat y))))).length := by
      simp only [List.length_map, List.length_range]
      omega
    rw [List.getD_eq_getElem _ _ hy, List.getElem_map, List.getElem_range]
    have hx : q.x.toNat < ((List.range t.width.toNat).map (fun (x : Nat) =>
          terrainTypeToChar (t.getTerrain (Int.ofNat x) (Int.ofNat q.y.toNat)))).length := by
      simp only [List.length_map, List.length_range]
      omega
    rw [List.getD_eq_getElem _ _ hx, List.getElem_map, List.getElem_range,
      charToTerrainType_terrainTypeToChar]
    simp only [Int.ofNat_eq_coe, Int.toNat_of_nonneg h1, Int.toNat_of_nonneg h3]
  have hcell : ∀ q : Point, t.isValidPosition q = true →
      t'.typeAt q = t.getTerrain q.x q.y ∧
      t'.elevationAt q = (if t.getTerrain q.x q.y = TerrainType.HILL then 3.0 else 0) ∧
      t'.windAt q = (if t.getTerrain q.x q.y = TerrainType.WIND_ZONE then 2.0 else 0) := by
    intro q hq
    obtain ⟨h1, h2, h3, h4⟩ := (isValidPosition_iff t q).1 hq
    have hv := hvals q h1 (by rw [Int.toNat_of_nonneg (by omega)]; exact h2) h3
      (by rw [List.length_map, List.length_range, Int.toNat_of_nonneg (by omega)]; exact h4)
    rw [hchar q hq] at hv
    exact hv
  have hvalid : ∀ q, t'.isValidPosition q = t.isValidPosition q :=
    isValidPosition_congr hw' hh'
  refine ⟨t', hok, hw', hh', ?_, ?_, ?_⟩
  · intro x y
    by_cases hv : t.isValidPosition ⟨x, y⟩ = true
    · have h := (hcell ⟨x, y⟩ hv).1
      have e : t'.getTerrain x y = t'.typeAt ⟨x, y⟩ := by
        unfold Terrain.getTerrain
        rw [hvalid, if_pos hv]
      rw [e]
      exact h
    · unfold Terrain.getTerrain
      rw [hvalid, if_neg hv, if_neg hv]
  · intro x y
    by_cases hv : t.isValidPosition ⟨x, y⟩ = true
    · have h := (hcell ⟨x, y⟩ hv).2.1
      unfold Terrain.getElevation
      rw [hvalid, if_pos hv]
      exact h
    · unfold Terrain.getElevation Terrain.getTerrain
      rw [hvalid, if_neg hv, if_neg hv, if_neg (by decide)]
      norm_num
  · intro x y
    by_cases hv : t.isValidPosition ⟨x, y⟩ = true
    · have h := (hcell ⟨x, y⟩ hv).2.2
      unfold Terrain.getWindResistance
      rw [hvalid, if_pos hv]
      exact h
    · unfold Terrain.getWindResistance Terrain.getTerrain
      rw [hvalid, if_neg hv, if_neg hv, if_neg (by decide)]
      norm_num


end Claims4

section Claims4Greedy

variable {K : Type} [LinearOrder K] [IntCast K] [Add K] [Mul K] [HasSqrt K]

/-- C33, amended: on a grid whose number of cells `width * height` is a
non-negative value of `int`, a path returned by `findPathGreedy` starts at the
start cell; every cell after the first is a choice of the walk at the cell
before it: that cell is not the goal, and the next cell is one of its passable
8-neighbours, namely the first in the order of `getNeighbors` whose heuristic
cost to the goal as `getHeuristicCost` computes it (the Euclidean distance
rounded to `double`) is the least among the neighbours; at the last cell of
the path the walk has reached the goal, or the cell has no passable neighbour,
or the path is longer than the cap `width * height`; and the loop only appends
to the path it has built, so that no earlier choice is taken back.  This holds
for every number type, with or without rounding. -/
theorem greedy_appends_least_computed_cost (t : Terrain K) (hw : 0 ≤ t.width)
    (hh : 0 ≤ t.height) (hb : t.width * t.height < 2 ^ 31) (fuel : Nat) (start goal : Point)
    (r : List Point) (h : findPathGreedy t fuel start goal = some r) :
    r.head? = some start ∧
    List.Chain' (GreedyChoice t goal) r ∧
    (∀ c n, GreedyChoice t goal c n →
      n ∈ t.getNeighbors c ∧ t.isPassable n = true ∧ Adjacent8 c n ∧
      ∀ m ∈ t.getNeighbors c, t.getHeuristicCost n goal ≤ t.getHeuristicCost m goal) ∧
    toSizeT (intValue (t.width * t.height)) = t.width * t.height ∧
    (∃ c, r.getLast? = some c ∧ (c = goal ∨ t.getNeighbors c = [] ∨
      (r.length : Int) > t.width * t.height)) ∧
    (∀ fuel' current path r',
      greedyLoop t goal fuel' current path = some r' → path <+: r') := by
  have hmain := greedyLoop_spec t goal fuel start [start] r rfl (List.chain'_singleton _) h
  obtain ⟨hcap1, hcap2⟩ := greedyCap_eq hw hh hb
  refine ⟨?_, hmain.2.1, ?_, hcap1, ?_, greedyLoop_prefix t goal⟩
  · obtain ⟨tail, ht⟩ := hmain.1
    rw [← ht]
    rfl
  · rintro c n ⟨_, before, after, hl, h1, h2⟩
    have hmem : n ∈ t.getNeighbors c := by rw [hl]; simp
    refine ⟨hmem, isPassable_of_mem_getNeighbors hmem,
      ⟨(ne_of_mem_getNeighbors hmem).symm, adjacent_of_mem_getNeighbors hmem⟩, ?_⟩
    intro m hm
    rw [hl, List.mem_append, List.mem_cons] at hm
    rcases hm with hm | rfl | hm
    · exact le_of_lt (h1 m hm)
    · exact le_rfl
    · exact h2 m hm
  · obtain ⟨c, hc1, hc2⟩ := hmain.2.2
    rw [hcap2] at hc2
    exact ⟨c, hc1, hc2⟩

/-- C39, amended: on a grid without an Obstacle cell whose number of cells
`width * height` is a value of `int`, and on which the heuristic cost that
`getHeuristicCost` computes tells the cells apart as their exact distances to
the goal do (as it does without rounding, and with the arithmetic of `double`
on every grid of at most `2 ^ 24` columns and rows), `findPathGreedy` from an in-bounds
start to an in-bounds goal returns a path that starts at the start, ends at
the goal and has exactly `max(|goal.x - start.x|, |goal.y - start.y|) + 1`
cells, each cell after the first being the cell before it moved by the signs
of its remaining differences to the goal; every amount of fuel with which the
walk returns gives this path. -/
theorem greedy_reaches_goal_when_distances_separate (t : Terrain K)
    (hfree : ∀ p, t.isValidPosition p = true → t.typeAt p ≠ TerrainType.OBSTACLE)
    (hb : t.width * t.height < 2 ^ 31) (start goal : Point)
    (hs : t.isValidPosition start = true) (hg : t.isValidPosition goal = true)
    (hsep : t.SeparatesDistances goal) :
    toSizeT (intValue (t.width * t.height)) = t.width * t.height ∧
    ∃ r, findPathGreedy t
        ((max |goal.x - start.x| |goal.y - start.y|).toNat + 1) start goal = some r ∧
      (∀ fuel r', findPathGreedy t fuel start goal = some r' → r' = r) ∧
      r.head? = some start ∧ r.getLast? = some goal ∧
      (r.length : Int) = max |goal.x - start.x| |goal.y - start.y| + 1 ∧
      List.Chain' (fun a b => b = stepToward a goal) r ∧
      ∀ a, stepToward a goal =
        ⟨a.x + Int.sign (goal.x - a.x), a.y + Int.sign (goal.y - a.y)⟩ := by
  have hsteps : lineSteps start goal = max |goal.x - start.x| |goal.y - start.y| := rfl
  have hnn : 0 ≤ lineSteps start goal := lineSteps_nonneg start goal
  obtain ⟨s1, s2, s3, s4⟩ := (isValidPosition_iff t start).1 hs
  obtain ⟨g1, g2, g3, g4⟩ := (isValidPosition_iff t goal).1 hg
  have hle : lineSteps start goal ≤ t.width * t.height - 1 := by
    have hx : |goal.x - start.x| ≤ t.width - 1 := abs_le.2 ⟨by omega, by omega⟩
    have hy : |goal.y - start.y| ≤ t.height - 1 := abs_le.2 ⟨by omega, by omega⟩
    have h1 : t.width ≤ t.width * t.height := by nlinarith
    have h2 : t.height ≤ t.width * t.height := by nlinarith
    exact max_le (by omega) (by omega)
  obtain ⟨hcap1, hsize⟩ := greedyCap_eq (w := t.width) (h := t.height) (by omega) (by omega) hb
  obtain ⟨tail, h1, h2, h3, h4⟩ := greedyLoop_free hfree hsep hg (lineSteps start goal).toNat
    start [start] hs (Int.toNat_of_nonneg hnn).symm (by
      rw [hsize, Int.toNat_of_nonneg hnn]
      simp only [List.length_singleton, Nat.cast_one]
      omega)
  refine ⟨hcap1, start :: tail, ?_, ?_, rfl, h4, ?_, h3, fun _ => rfl⟩
  · rw [← hsteps]
    exact h1
  · intro fuel r' hr'
    have e1 := greedyLoop_mono t goal _ _ _ _ hr' ((lineSteps start goal).toNat + 1)
    have e2 := greedyLoop_mono t goal _ _ _ _ h1 fuel
    unfold findPathGreedy at hr'
    rw [Nat.add_comm] at e2
    rw [e1] at e2
    simpa using e2
  · rw [← hsteps]
    simp only [List.length_cons, h2, Nat.cast_add, Nat.cast_one]
    rw [Int.toNat_of_nonneg hnn]

end Claims4Greedy

/-- Counterexample to C33: on the grid of 2 rows of 70000002 cells without
obstacles, with the arithmetic of `double`, every path that the greedy walk
from `(0, 0)` to `(70000001, 1)` returns (and it returns one) goes to `(1, 0)`
first, although the passable neighbour `(1, 1)` of `(0, 0)` is nearer to the
goal: the squared distances are `70000000^2` and `70000000^2 + 1`, and the two
heuristic costs, rounded to `double`, are both `70000000`. -/
theorem greedy_choice_not_nearest :
    wideStrip = Terrain.new 70000002 2 ∧
    (⟨1, 1⟩ : Point) ∈ wideStrip.getNeighbors ⟨0, 0⟩ ∧ wideStrip.isPassable ⟨1, 1⟩ = true ∧
    squaredDistance ⟨1, 1⟩ ⟨70000001, 1⟩ < squaredDistance ⟨1, 0⟩ ⟨70000001, 1⟩ ∧
    (Terrain.new 70000002 2 : Terrain ℝ).getHeuristicCost ⟨1, 1⟩ ⟨70000001, 1⟩ <
      (Terrain.new 70000002 2 : Terrain ℝ).getHeuristicCost ⟨1, 0⟩ ⟨70000001, 1⟩ ∧
    (wideStrip.getHeuristicCost ⟨1, 1⟩ ⟨70000001, 1⟩).val = 70000000 ∧
    (wideStrip.getHeuristicCost ⟨1, 0⟩ ⟨70000001, 1⟩).val = 70000000 ∧
    (∃ fuel r, findPathGreedy wideStrip fuel ⟨0, 0⟩ ⟨70000001, 1⟩ = some r) ∧
    ∀ fuel r, findPathGreedy wideStrip fuel ⟨0, 0⟩ ⟨70000001, 1⟩ = some r →
      ∃ rest, r = ⟨0, 0⟩ :: ⟨1, 0⟩ :: rest := by
  refine ⟨rfl, by rw [wideStrip_neighbors]; decide, ?_, by decide, ?_, by decide!, by decide!,
    wideStrip_returns, wideStrip_second_cell⟩
  · unfold wideStrip
    rw [new_isPassable]
    decide
  · exact getHeuristicCost_lt_of_sq_lt _ _ _ _ (by decide)

/-- Counterexample to C39: on the grid of 2 rows of 70000002 cells without
obstacles, with the arithmetic of `double`, the step from `(0, 0)` by the signs
of the differences to the goal `(70000001, 1)` leads to `(1, 1)`, but every
path that the greedy walk returns (and it returns one) goes to `(1, 0)` first;
the number of cells of the grid is a value of `int`. -/
theorem greedy_first_step_not_by_signs :
    wideStrip = Terrain.new 70000002 2 ∧
    (∀ p, wideStrip.isValidPosition p = true → wideStrip.typeAt p ≠ TerrainType.OBSTACLE) ∧
    wideStrip.isValidPosition ⟨0, 0⟩ = true ∧ wideStrip.isValidPosition ⟨70000001, 1⟩ = true ∧
    wideStrip.width * wideStrip.height < 2 ^ 31 ∧
    stepToward ⟨0, 0⟩ ⟨70000001, 1⟩ = ⟨1, 1⟩ ∧
    (∃ fuel r, findPathGreedy wideStrip fuel ⟨0, 0⟩ ⟨70000001, 1⟩ = some r) ∧
    ∀ fuel r, findPathGreedy wideStrip fuel ⟨0, 0⟩ ⟨70000001, 1⟩ = some r →
      (∃ rest, r = ⟨0, 0⟩ :: ⟨1, 0⟩ :: rest) ∧
      ¬ List.Chain' (fun a b => b = stepToward a ⟨70000001, 1⟩) r := by
  refine ⟨rfl, fun p _ => ?_, by decide, by decide, by decide, by decide, wideStrip_returns,
    fun fuel r h => ?_⟩
  · unfold wideStrip
    rw [new_typeAt]
    decide
  · obtain ⟨rest, rfl⟩ := wideStrip_second_cell fuel r h
    refine ⟨⟨rest, rfl⟩, fun hch => ?_⟩
    have := (List.chain'_cons.1 hch).1
    revert this
    decide

set_option maxRecDepth 100000 in
/-- C36: in `findEnergyOptimalPath` the cost of a step is
`movementCost * energyWeight * distance` while the heuristic is the unscaled
`getHeuristicCost`, and with an energy weight above 1 the heuristic can exceed
the weighted travel cost of a route to the goal, hence the least such cost: on
the grid that the constructor builds for width 31 and height 31, with the
arithmetic of `double` and the energy weight `1.0000000000000002` (the
`double` after `1.0`), the weighted cost of the diagonal from `(0, 0)` to
`(30, 30)` is below `getHeuristicCost((0, 0), (30, 30))`, whether the costs of
the steps are added from the first to the last, as the search accumulates them
(`costAlong`), or from the last to the first (`travelCostWith`); so every
lower bound of the costs of the routes, and with it the least cost, is below
the heuristic. -/
theorem unscaled_heuristic_exceeds_weighted_cost :
    (∀ (pq : PriorityQueue Binary64 (List (PathNode Binary64))) (t : Terrain Binary64)
        (fuel : Nat) (start goal : Point) (energyWeight : Binary64),
      findEnergyOptimalPath pq t fuel start goal energyWeight =
        searchLoop pq t (fun p => t.getHeuristicCost p goal)
          (fun movementCost distance => movementCost * energyWeight * distance) goal fuel
          (initialState pq (fun p => t.getHeuristicCost p goal) start)) ∧
    (Terrain.new 31 31 : Terrain Binary64).NonNeg ∧
    (1.0 : Binary64) < 1.0000000000000002 ∧
    (1.0 : Binary64).val = 1 ∧ (1.0000000000000002 : Binary64).val = 1 + 1 / 2 ^ 52 ∧
    IsRouteFromTo (Terrain.new 31 31 : Terrain Binary64) ⟨0, 0⟩ ⟨30, 30⟩ (diagonalCells 30) ∧
    (costAlong (Terrain.new 31 31 : Terrain Binary64)
      (fun movementCost distance => movementCost * 1.0000000000000002 * distance)
      (diagonalCells 30)).val = 5970985942992911 / 2 ^ 47 ∧
    ((Terrain.new 31 31 : Terrain Binary64).getHeuristicCost ⟨0, 0⟩ ⟨30, 30⟩).val =
      5970985942992912 / 2 ^ 47 ∧
    costAlong (Terrain.new 31 31 : Terrain Binary64)
        (fun movementCost distance => movementCost * 1.0000000000000002 * distance)
        (diagonalCells 30) <
      (Terrain.new 31 31 : Terrain Binary64).getHeuristicCost ⟨0, 0⟩ ⟨30, 30⟩ ∧
    travelCostWith (Terrain.new 31 31 : Terrain Binary64)
        (fun movementCost distance => movementCost * 1.0000000000000002 * distance)
        (diagonalCells 30) <
      (Terrain.new 31 31 : Terrain Binary64).getHeuristicCost ⟨0, 0⟩ ⟨30, 30⟩ ∧
    ∀ least : Binary64,
      (∀ L, IsRouteFromTo (Terrain.new 31 31 : Terrain Binary64) ⟨0, 0⟩ ⟨30, 30⟩ L →
        least ≤ costAlong (Terrain.new 31 31 : Terrain Binary64)
          (fun movementCost distance => movementCost * 1.0000000000000002 * distance) L) →
      least < (Terrain.new 31 31 : Terrain Binary64).getHeuristicCost ⟨0, 0⟩ ⟨30, 30⟩ := by
  have hroute : IsRouteFromTo (Terrain.new 31 31 : Terrain Binary64) ⟨0, 0⟩ ⟨30, 30⟩
      (diagonalCells 30) := by decide!
  have hlt : costAlong (Terrain.new 31 31 : Terrain Binary64)
        (fun movementCost distance => movementCost * 1.0000000000000002 * distance)
        (diagonalCells 30) <
      (Terrain.new 31 31 : Terrain Binary64).getHeuristicCost ⟨0, 0⟩ ⟨30, 30⟩ := by decide!
  refine ⟨fun _ _ _ _ _ _ => rfl, binary64_new_nonNeg 31 31, ?_, ?_, ?_, hroute, ?_, ?_, hlt, ?_,
    fun least hl => lt_of_le_of_lt (hl _ hroute) hlt⟩ <;> decide!

set_option maxRecDepth 100000 in
/-- Counterexample to C35: on the 4 x 4 grid of the map `..O^`, `.^.W`, `.W..`,
`^..O`, whose elevation and wind resistance are not negative, `findPathAStar`
from `(0, 1)` to `(3, 1)` with the arithmetic of `double` and the list queue
pops a node for the cell `(2, 2)` in its seventh iteration, when the cost
recorded for the cell is `8620851486211021 / 2^51`; two iterations later the
cost recorded for the cell is `8620851486211020 / 2^51`. -/
theorem astar_lowers_cost_after_expansion :
    loaderMap.NonNeg ∧
    (listQueue : PriorityQueue Binary64 (List (PathNode Binary64))).Lawful ∧
    ∃ (st st' : SearchState Binary64 (List (PathNode Binary64))) (n : PathNode Binary64)
        (rest : List (PathNode Binary64)),
      stateAfter listQueue loaderMap (fun p => loaderMap.getHeuristicCost p ⟨3, 1⟩)
        (fun movementCost distance => movementCost * distance) ⟨3, 1⟩ 6
        (initialState listQueue (fun p => loaderMap.getHeuristicCost p ⟨3, 1⟩) ⟨0, 1⟩) =
          some st ∧
      listQueue.pop st.openSet = some (n, rest) ∧ n.position = ⟨2, 2⟩ ∧
      (mapFind st.gScore ⟨2, 2⟩).map Binary64.val = some (8620851486211021 / 2 ^ 51) ∧
      stateAfter listQueue loaderMap (fun p => loaderMap.getHeuristicCost p ⟨3, 1⟩)
        (fun movementCost distance => movementCost * distance) ⟨3, 1⟩ 2 st = some st' ∧
      (mapFind st'.gScore ⟨2, 2⟩).map Binary64.val = some (8620851486211020 / 2 ^ 51) := by
  refine ⟨loaderMap_nonNeg, listQueue_lawful, ?_⟩
  have hev : ((stateAfter listQueue loaderMap (fun p => loaderMap.getHeuristicCost p ⟨3, 1⟩)
        (fun movementCost distance => movementCost * distance) ⟨3, 1⟩ 6
        (initialState listQueue (fun p => loaderMap.getHeuristicCost p ⟨3, 1⟩) ⟨0, 1⟩)).bind
      fun st => (listQueue.pop st.openSet).bind fun u =>
        (stateAfter listQueue loaderMap (fun p => loaderMap.getHeuristicCost p ⟨3, 1⟩)
          (fun movementCost distance => movementCost * distance) ⟨3, 1⟩ 2 st).map fun st' =>
          (u.1.position, (mapFind st.gScore ⟨2, 2⟩).map Binary64.val,
            (mapFind st'.gScore ⟨2, 2⟩).map Binary64.val)) =
      some (⟨2, 2⟩, some (8620851486211021 / 2 ^ 51), some (8620851486211020 / 2 ^ 51)) := by
    decide!
  obtain ⟨st, h1, hev⟩ := Option.bind_eq_some.1 hev
  obtain ⟨u, h2, hev⟩ := Option.bind_eq_some.1 hev
  obtain ⟨st', h3, hev⟩ := Option.map_eq_some'.1 hev
  simp only [Prod.mk.injEq] at hev
  exact ⟨st, st', u.1, u.2, h1, h2, hev.1, hev.2.1, h3, hev.2.2⟩

section Claims4Dijkstra

variable {Q : Type}

/-- C35, amended: in `findPathDijkstra` with the arithmetic of `double`, on a
grid with non-negative elevation and wind resistance and for every lawful
priority queue: when a node `n` is popped in a state `st` that the loop
reaches, the cost `d` recorded for its cell is at most the cost of `n`, and in
every state `st'` that the loop reaches from `st` the cost recorded for the
cell is still `d`, every node of the open set has a cost of at least `d`, and
the nodes created for the cell (the last of which is the one `allNodes` points
to, with its parent) are those of `st`; after the iteration every move from the
cell has been relaxed with `d`, and the iteration that pops a later node for
the same cell leaves the state as it is apart from removing that node from the
open set. -/
theorem dijkstra_cell_finalized_at_expansion (pq : PriorityQueue Binary64 Q) (hpq : pq.Lawful)
    (t : Terrain Binary64) (hn : t.NonNeg) (start goal : Point)
    (i : Nat) (st : SearchState Binary64 Q) (n : PathNode Binary64) (rest : Q)
    (hst : stateAfter pq t (fun _ => 0) (fun movementCost distance => movementCost * distance)
      goal i (initialState pq (fun _ => 0) start) = some st)
    (hpop : pq.pop st.openSet = some (n, rest)) :
    (∀ fuel, findPathDijkstra pq t fuel start goal =
      searchLoop pq t (fun _ => 0)
        (fun movementCost distance => movementCost * distance) goal fuel
        (initialState pq (fun _ => 0) start)) ∧
    (∀ fuel, searchLoop pq t (fun _ => 0) (fun movementCost distance => movementCost * distance)
        goal (i + fuel) (initialState pq (fun _ => 0) start) =
      searchLoop pq t (fun _ => 0) (fun movementCost distance => movementCost * distance) goal
        fuel st) ∧
    ∃ d, mapFind st.gScore n.position = some d ∧ d ≤ n.gCost ∧
      ∀ (k : Nat) (st' : SearchState Binary64 Q),
        stateAfter pq t (fun _ => 0) (fun movementCost distance => movementCost * distance)
          goal k st = some st' →
        mapFind st'.gScore n.position = some d ∧
        (∀ m ∈ pq.contents st'.openSet, d ≤ m.gCost) ∧
        st'.createdNodes.filter (fun m => decide (m.position = n.position)) =
          st.createdNodes.filter (fun m => decide (m.position = n.position)) ∧
        (1 ≤ k →
          (∀ w, CanEnter t n.position w → ∃ d', mapFind st'.gScore w = some d' ∧
            d' ≤ d + t.getMovementCost w * calculateDistance n.position w) ∧
          ∀ (m : PathNode Binary64) (rest' : Q), pq.pop st'.openSet = some (m, rest') →
            m.position = n.position →
            loopStep pq t (fun _ => 0) (fun movementCost distance => movementCost * distance)
              goal st' = some { st' with openSet := rest' }) :=
  ⟨fun _ => rfl, fun fuel => searchLoop_of_stateAfter i _ st hst fuel,
    closed_at_pop binary64_monotoneAdd hpq (binary64_nonnegSteps hn) i st n rest hst hpop⟩

end Claims4Dijkstra

/-! ## The claims about scenarios and invariants at concrete inputs -/

section Witnesses4

/-- Witness for C31: A* with the list queue on the empty 5 x 5 grid. -/
theorem astar_empty_grid_diagonal_witness :
    (listQueue : PriorityQueue ℝ (List (PathNode ℝ))).Lawful ∧
    (∃ fuel, findPathAStar listQueue (Terrain.new 5 5 : Terrain ℝ) fuel ⟨0, 0⟩ ⟨4, 4⟩ =
      some [⟨0, 0⟩, ⟨1, 1⟩, ⟨2, 2⟩, ⟨3, 3⟩, ⟨4, 4⟩]) ∧
    calculatePathCost (Terrain.new 5 5 : Terrain ℝ)
      [⟨0, 0⟩, ⟨1, 1⟩, ⟨2, 2⟩, ⟨3, 3⟩, ⟨4, 4⟩] = 5.0 :=
  have h := astar_empty_grid_diagonal (listQueue : PriorityQueue ℝ (List (PathNode ℝ)))
    listQueue_lawful
  ⟨listQueue_lawful, h.2.2.2.1, h.2.2.2.2.2.2.2⟩

/-- Witness for C32: the operations on the freshly constructed 2 x 2 grid, at a
position outside of it. -/
theorem dimensions_are_fixed_witness :
    (Terrain.new 2 2 : Terrain ℝ).WellFormed ∧
    (((Terrain.new 2 2 : Terrain ℝ).addHill ⟨5, -1⟩).WellFormed ∧
      ((Terrain.new 2 2 : Terrain ℝ).addHill ⟨5, -1⟩).width = (Terrain.new 2 2 : Terrain ℝ).width ∧
      ((Terrain.new 2 2 : Terrain ℝ).addHill ⟨5, -1⟩).height =
        (Terrain.new 2 2 : Terrain ℝ).height) ∧
    (∀ draws : Nat → ℝ,
      ((Terrain.new 2 2 : Terrain ℝ).generateRandomTerrain 0.1 0.1 0.1 draws).WellFormed ∧
      ((Terrain.new 2 2 : Terrain ℝ).generateRandomTerrain 0.1 0.1 0.1 draws).width =
        (Terrain.new 2 2 : Terrain ℝ).width ∧
      ((Terrain.new 2 2 : Terrain ℝ).generateRandomTerrain 0.1 0.1 0.1 draws).height =
        (Terrain.new 2 2 : Terrain ℝ).height) :=
  have hwf : (Terrain.new 2 2 : Terrain ℝ).WellFormed :=
    new_wellFormed 2 2 (by norm_num) (by norm_num)
  have h := dimensions_are_fixed (Terrain.new 2 2 : Terrain ℝ) hwf
  ⟨hwf, h.2.2.2.2.1 ⟨5, -1⟩, fun draws => h.2.2.2.2.2.2.1 0.1 0.1 0.1 draws⟩

set_option maxRecDepth 100000 in
/-- Witness for the amended C33: the greedy walk in the corridor whose last cell
is an obstacle, with the arithmetic of `double`. -/
theorem greedy_appends_least_computed_cost_witness :
    (0 : Int) ≤ trapCorridor.width ∧ (0 : Int) ≤ trapCorridor.height ∧
    trapCorridor.width * trapCorridor.height < 2 ^ 31 ∧
    findPathGreedy trapCorridor 4 ⟨0, 0⟩ ⟨2, 0⟩ = some [⟨0, 0⟩, ⟨1, 0⟩, ⟨0, 0⟩, ⟨1, 0⟩] ∧
    List.Chain' (GreedyChoice trapCorridor ⟨2, 0⟩) [⟨0, 0⟩, ⟨1, 0⟩, ⟨0, 0⟩, ⟨1, 0⟩] :=
  have hw : (0 : Int) ≤ trapCorridor.width := by decide
  have hh : (0 : Int) ≤ trapCorridor.height := by decide
  have hb : trapCorridor.width * trapCorridor.height < 2 ^ 31 := by decide
  have hr : findPathGreedy trapCorridor 4 ⟨0, 0⟩ ⟨2, 0⟩ =
      some [⟨0, 0⟩, ⟨1, 0⟩, ⟨0, 0⟩, ⟨1, 0⟩] := by decide!
  ⟨hw, hh, hb, hr, (greedy_appends_least_computed_cost trapCorridor hw hh hb 4 ⟨0, 0⟩ ⟨2, 0⟩
    [⟨0, 0⟩, ⟨1, 0⟩, ⟨0, 0⟩, ⟨1, 0⟩] hr).2.1⟩

/-- Witness for C34: the node popped from the list queue. -/
theorem comparator_is_strict_weak_order_witness :
    (listQueue : PriorityQueue ℝ (List (PathNode ℝ))).Lawful ∧
    ∀ (q : List (PathNode ℝ)) (n : PathNode ℝ) (q' : List (PathNode ℝ)),
      (listQueue : PriorityQueue ℝ (List (PathNode ℝ))).pop q = some (n, q') →
      ∀ m ∈ (listQueue : PriorityQueue ℝ (List (PathNode ℝ))).contents q,
        n.fCost ≤ m.fCost ∧ (n.fCost = m.fCost → n.hCost ≤ m.hCost) :=
  ⟨listQueue_lawful, (comparator_is_strict_weak_order
    (listQueue : PriorityQueue ℝ (List (PathNode ℝ))) listQueue_lawful).2.2.2.2.2.1⟩

set_option maxRecDepth 100000 in
/-- Witness for the amended C35: Dijkstra's search from `(0, 1)` to `(3, 1)` on
the grid of the map `..O^`, `.^.W`, `.W..`, `^..O` with the list queue and the
arithmetic of `double`.  Its eighth iteration pops a node for the cell
`(1, 2)`; the ninth iteration pops a second node for that cell, of a higher
cost, and changes nothing but the open set. -/
theorem dijkstra_cell_finalized_at_expansion_witness :
    (listQueue : PriorityQueue Binary64 (List (PathNode Binary64))).Lawful ∧ loaderMap.NonNeg ∧
    ∃ (st : SearchState Binary64 (List (PathNode Binary64))) (n : PathNode Binary64)
        (rest : List (PathNode Binary64)),
      stateAfter listQueue loaderMap (fun _ => 0)
        (fun movementCost distance => movementCost * distance) ⟨3, 1⟩ 7
        (initialState listQueue (fun _ => 0) ⟨0, 1⟩) = some st ∧
      listQueue.pop st.openSet = some (n, rest) ∧ n.position = ⟨1, 2⟩ ∧
      (∃ d, mapFind st.gScore n.position = some d ∧ d ≤ n.gCost ∧
        ∀ (k : Nat) (st' : SearchState Binary64 (List (PathNode Binary64))),
          stateAfter listQueue loaderMap (fun _ => 0)
            (fun movementCost distance => movementCost * distance) ⟨3, 1⟩ k st = some st' →
          mapFind st'.gScore n.position = some d) ∧
      ∃ (st' : SearchState Binary64 (List (PathNode Binary64))) (m : PathNode Binary64)
          (rest' : List (PathNode Binary64)),
        stateAfter listQueue loaderMap (fun _ => 0)
          (fun movementCost distance => movementCost * distance) ⟨3, 1⟩ 1 st = some st' ∧
        listQueue.pop st'.openSet = some (m, rest') ∧ m.position = ⟨1, 2⟩ ∧
        n.gCost < m.gCost ∧
        loopStep listQueue loaderMap (fun _ => 0)
          (fun movementCost distance => movementCost * distance) ⟨3, 1⟩ st' =
          some { st' with openSet := rest' } := by
  refine ⟨listQueue_lawful, loaderMap_nonNeg, ?_⟩
  have hev : ((stateAfter listQueue loaderMap (fun _ => (0 : Binary64))
        (fun movementCost distance => movementCost * distance) ⟨3, 1⟩ 7
        (initialState listQueue (fun _ => (0 : Binary64)) ⟨0, 1⟩)).bind
      fun st => (listQueue.pop st.openSet).bind fun u =>
        (stateAfter listQueue loaderMap (fun _ => (0 : Binary64))
          (fun movementCost distance => movementCost * distance) ⟨3, 1⟩ 1 st).bind fun st' =>
          (listQueue.pop st'.openSet).map fun m =>
            (u.1.position, m.1.position, decide (u.1.gCost < m.1.gCost))) =
      some (⟨1, 2⟩, ⟨1, 2⟩, true) := by
    decide!
  obtain ⟨st, h1, hev⟩ := Option.bind_eq_some.1 hev
  obtain ⟨u, h2, hev⟩ := Option.bind_eq_some.1 hev
  obtain ⟨st', h3, hev⟩ := Option.bind_eq_some.1 hev
  obtain ⟨m, h4, hev⟩ := Option.map_eq_some'.1 hev
  simp only [Prod.mk.injEq, decide_eq_true_eq] at hev
  obtain ⟨d, e1, e2, e3⟩ := (dijkstra_cell_finalized_at_expansion listQueue listQueue_lawful
    loaderMap loaderMap_nonNeg ⟨0, 1⟩ ⟨3, 1⟩ 7 st u.1 u.2 h1 h2).2.2
  exact ⟨st, u.1, u.2, h1, h2, hev.1, ⟨d, e1, e2, fun k st'' hk => (e3 k st'' hk).1⟩,
    st', m.1, m.2, h3, h4, hev.2.1, hev.2.2,
    ((e3 1 st' h3).2.2.2 le_rfl).2 m.1 m.2 h4 (hev.2.1.trans hev.1.symm)⟩

/-- Witness for C37: the 4 x 2 grid with one obstacle, written and loaded. -/
theorem map_text_round_trip_witness :
    (1 : Int) ≤ (detourTerrain ℝ).width ∧ (1 : Int) ≤ (detourTerrain ℝ).height ∧
    ∃ t' : Terrain ℝ, loadMapFromString (terrainToString (detourTerrain ℝ)) = Except.ok t' ∧
      t'.width = (detourTerrain ℝ).width ∧ t'.height = (detourTerrain ℝ).height ∧
      (∀ x y, t'.getTerrain x y = (detourTerrain ℝ).getTerrain x y) ∧
      (∀ x y, t'.getElevation x y =
        if (detourTerrain ℝ).getTerrain x y = TerrainType.HILL then 3.0 else 0) ∧
      (∀ x y, t'.getWindResistance x y =
        if (detourTerrain ℝ).getTerrain x y = TerrainType.WIND_ZONE then 2.0 else 0) :=
  have hw : (1 : Int) ≤ (detourTerrain ℝ).width := by decide
  have hh : (1 : Int) ≤ (detourTerrain ℝ).height := by decide
  ⟨hw, hh, map_text_round_trip (detourTerrain ℝ) hw hh⟩

/-- Witness for C38: the path that A* returns on the tie grid with the list queue. -/
theorem search_path_is_simple_witness :
    (listQueue : PriorityQueue ℝ (List (PathNode ℝ))).Lawful ∧ (tieTerrain ℝ).NonNeg ∧
    findPathAStar listQueue (tieTerrain ℝ) 3 ⟨0, 0⟩ ⟨2, 0⟩ = some [⟨0, 0⟩, ⟨1, 0⟩, ⟨2, 0⟩] ∧
    ([⟨0, 0⟩, ⟨1, 0⟩, ⟨2, 0⟩] : List Point).Nodup :=
  ⟨listQueue_lawful, tie_nonNeg, tie_astar listQueue_lawful,
    (search_path_is_simple listQueue listQueue_lawful (tieTerrain ℝ) tie_nonNeg ⟨0, 0⟩ ⟨2, 0⟩ 3
      [⟨0, 0⟩, ⟨1, 0⟩, ⟨2, 0⟩] (Or.inl (tie_astar listQueue_lawful))).1⟩

/-- Witness for the amended C39: the greedy walk from `(0, 0)` to `(999, 400)` on
the grid of 1000 rows of 1000 cells without obstacles, with the arithmetic of
`double`, for which the heuristic tells the cells apart because no side of the
grid exceeds `2 ^ 24` cells. -/
theorem greedy_reaches_goal_when_distances_separate_witness :
    (∀ p, openField.isValidPosition p = true → openField.typeAt p ≠ TerrainType.OBSTACLE) ∧
    openField.width * openField.height < 2 ^ 31 ∧
    openField.isValidPosition ⟨0, 0⟩ = true ∧ openField.isValidPosition ⟨999, 400⟩ = true ∧
    openField.SeparatesDistances ⟨999, 400⟩ ∧
    ∃ r, findPathGreedy openField 1000 ⟨0, 0⟩ ⟨999, 400⟩ = some r ∧
      r.head? = some ⟨0, 0⟩ ∧ r.getLast? = some ⟨999, 400⟩ ∧ (r.length : Int) = 1000 ∧
      List.Chain' (fun a b => b = stepToward a ⟨999, 400⟩) r :=
  have hfree : ∀ p, openField.isValidPosition p = true →
      openField.typeAt p ≠ TerrainType.OBSTACLE :=
    fun p _ => by unfold openField; rw [new_typeAt]; decide
  have hb : openField.width * openField.height < 2 ^ 31 := by decide
  have hsep : openField.SeparatesDistances ⟨999, 400⟩ :=
    binary64_separatesDistances openField ⟨999, 400⟩ (by decide) (by decide) rfl
  (greedy_reaches_goal_when_distances_separate openField hfree hb ⟨0, 0⟩ ⟨999, 400⟩ rfl rfl
    hsep).2.elim fun r hr =>
    ⟨hfree, hb, rfl, rfl, hsep, r, hr.1, hr.2.2.1, hr.2.2.2.1, hr.2.2.2.2.1, hr.2.2.2.2.2.1⟩

/-- Witness for C40: the 2 x 2 grid after `addHill` at `(0, 0)` and `addWindZone` at `(1, 1)`. -/
theorem edited_grid_values_witness :
    Edited (((Terrain.new 2 2 : Terrain ℝ).addHill ⟨0, 0⟩).addWindZone ⟨1, 1⟩) ∧
    (((Terrain.new 2 2 : Terrain ℝ).addHill ⟨0, 0⟩).addWindZone ⟨1, 1⟩).NonNeg ∧
    ∀ c, (1.0 : ℝ) ≤
      (((Terrain.new 2 2 : Terrain ℝ).addHill ⟨0, 0⟩).addWindZone ⟨1, 1⟩).getMovementCost c :=
  have he : Edited (((Terrain.new 2 2 : Terrain ℝ).addHill ⟨0, 0⟩).addWindZone ⟨1, 1⟩) :=
    Edited.addWindZone _ _ (Edited.addHill _ _ (Edited.constructed 2 2))
  have h := edited_grid_values _ he
  ⟨he, h.2.2.2.1, h.2.2.2.2⟩

end Witnesses4
end UAV
